import Mathlib

/-!
# mlpack convolution kernel, convolution layer and max-pooling layer

A shallow embedding of `methods/ann/convolution_rules/naive_convolution.hpp`,
`methods/ann/layer/convolution_impl.hpp` and `methods/ann/layer/max_pooling_impl.hpp`.

* Matrices and cubes are Armadillo objects: their dimensions plus one flat,
  column-major buffer (`mem`).  Element `(r, c)` of a matrix lives at
  `mem[c * n_rows + r]`, slice `s` of a cube at offset `s * n_rows * n_cols`.
* `size_t` expressions are evaluated modulo `2 ^ 64` (`szAdd`, `szSub`, `szMul`),
  division by zero is an error (`szDiv`).
* Reading through a raw pointer outside the buffer it points into is undefined
  behaviour; it is modelled by `none`, as are Armadillo's run-time errors.
* The element type `eT` is an arbitrary type with `0`, `+` and `*`.  Sizes,
  control flow and failures do not depend on its arithmetic.  In every element
  type an output cell holds the products of its window, added one after the
  other in the order of the loops (`windowAcc`); the theorems that equate it
  with a sum take the element type to be a commutative ring (exact arithmetic).
  The layers run the kernel on `double`: `Binary64` is that element type, with
  every sum and product rounded, and the claims on values that need exact
  arithmetic are refuted on it.
* The `double` computations of the pooling layer's output size are carried out
  on fractions of integers, each operation rounded to the nearest number with
  a 53-bit significand, ties to even (`Frac.roundDouble`).
* The methods of the pooling layer end in a value or in a `Fault`: a failed
  run-time check of the linear-algebra library, or undefined behaviour.
-/

namespace Mlpack

/-! ## size_t arithmetic -/

/-- Number of values of a 64-bit `size_t`. -/
def SIZE_MOD : Nat := 18446744073709551616

/-- Addition of two `size_t` values. -/
def szAdd (a b : Nat) : Nat := (a + b) % SIZE_MOD

/-- Subtraction of two `size_t` values (wraps around below zero). -/
def szSub (a b : Nat) : Nat := (a % SIZE_MOD + (SIZE_MOD - b % SIZE_MOD)) % SIZE_MOD

/-- Multiplication of two `size_t` values. -/
def szMul (a b : Nat) : Nat := (a * b) % SIZE_MOD

/-- Division of two `size_t` values; dividing by zero is an error. -/
def szDiv (a b : Nat) : Option Nat := if b = 0 then none else some (a / b)

/-! ## Loops -/

/-- The loop `for (k = 0; k < n; ++k) s = body(k, s)`; an iteration that fails
makes the loop fail. -/
def forLoop {σ : Type} (n : Nat) (body : Nat → σ → Option σ) (s : σ) : Option σ :=
  match n with
  | 0 => some s
  | m + 1 => (forLoop m body s).bind (body m)

/-! ## Matrices -/

/-- An `arma::Mat<eT>`: dimensions and the column-major buffer. -/
structure Mat (α : Type) where
  n_rows : Nat
  n_cols : Nat
  mem : List α
deriving DecidableEq

/-- The buffer of a matrix holds exactly `n_rows * n_cols` elements, and the
sizes are `size_t` values. -/
def Mat.WF {α : Type} (m : Mat α) : Prop :=
  m.mem.length = m.n_rows * m.n_cols ∧ m.n_rows * m.n_cols < SIZE_MOD ∧
    m.n_rows < SIZE_MOD ∧ m.n_cols < SIZE_MOD

instance {α : Type} (m : Mat α) : Decidable m.WF := by
  unfold Mat.WF; infer_instance

/-- Element `(r, c)` of a matrix, `m(r, c)`. -/
def Mat.elem {α : Type} [Zero α] (m : Mat α) (r c : Nat) : α :=
  m.mem.getD (c * m.n_rows + r) 0

/-- The matrix `arma::zeros<arma::Mat<eT>>(r, c)`. -/
def Mat.zeros {α : Type} [Zero α] (r c : Nat) : Mat α :=
  ⟨r, c, List.replicate (r * c) 0⟩

namespace NaiveConvolution

/-- Extent of the valid-mode output on one axis,
`(in - (f - 1) * dilation - 1) / stride + 1` in `size_t` arithmetic
(naive_convolution.hpp, lines 62-63). -/
def validOutSize (inExt fExt stride dilation : Nat) : Option Nat :=
  (szDiv (szSub (szSub inExt (szMul (szSub fExt 1) dilation)) 1) stride).map
    fun q => szAdd q 1

/-- Offset, from `input.memptr()`, of the element read in iteration
`(j, i, kj, ki)`: `input.colptr(kj*dilationW + j*dW) + i*dH`, advanced `ki`
times by `dilationH` (lines 77-79).  The column index and `i*dH` are `size_t`
expressions, `colptr(c)` is `&mem[c * n_rows]`. -/
def inputOffset (n_rows dW dH dilationW dilationH j i kj ki : Nat) : Nat :=
  szMul (szAdd (szMul kj dilationW) (szMul j dW)) n_rows + szMul i dH + ki * dilationH

/-- One execution of the innermost statement (line 80),
`outputPtr[j*o_rows + i] += *kernelPtr * (*inputPtr)`; `kernelPtr` has been
advanced `kj * f_rows + ki` times from `filter.memptr()`. -/
def convStep {α : Type} [Add α] [Mul α] (input filter : Mat α)
    (dW dH dilationW dilationH o_rows j i kj ki : Nat) (out : List α) : Option (List α) := do
  let k ← filter.mem[kj * filter.n_rows + ki]?
  let x ← input.mem[inputOffset input.n_rows dW dH dilationW dilationH j i kj ki]?
  let o ← out[j * o_rows + i]?
  some (out.set (j * o_rows + i) (o + k * x))

/-- The four nested loops of the valid-mode convolution (lines 70-83) over the
output buffer. -/
def convLoops {α : Type} [Add α] [Mul α] (input filter : Mat α)
    (dW dH dilationW dilationH o_rows o_cols : Nat) (out : List α) : Option (List α) :=
  forLoop o_cols (fun j out =>
    forLoop o_rows (fun i out =>
      forLoop filter.n_cols (fun kj out =>
        forLoop filter.n_rows (fun ki out =>
          convStep input filter dW dH dilationW dilationH o_rows j i kj ki out) out) out) out) out

/-- The function `NaiveConvolution<ValidConvolution>::Convolution(input, filter, output, dW,
dH, dilationW, dilationH, appending)` on matrices (lines 49-84).  The argument
`output` is the caller's matrix on entry, the result is that matrix on exit. -/
def ConvolutionValid {α : Type} [Zero α] [Add α] [Mul α] (input filter output : Mat α)
    (dW dH dilationW dilationH : Nat) (appending : Bool) : Option (Mat α) := do
  let output ←
    if appending then some output
    else do
      let r ← validOutSize input.n_rows filter.n_rows dW dilationW
      let c ← validOutSize input.n_cols filter.n_cols dH dilationH
      some (Mat.zeros r c)
  let mem ← convLoops input filter dW dH dilationW dilationH output.n_rows output.n_cols
    output.mem
  some { output with mem := mem }

/-- Output cell `(i, j)` as the specification describes it: the dot product of
the filter with the window of the input that starts at `(i * sRow, j * sCol)`
and whose taps are `dRow` rows and `dCol` columns apart. -/
def specWindow {α : Type} [CommRing α] (input filter : Mat α)
    (sRow sCol dRow dCol i j : Nat) : α :=
  ∑ ki ∈ Finset.range filter.n_rows, ∑ kj ∈ Finset.range filter.n_cols,
    filter.elem ki kj * input.elem (i * sRow + ki * dRow) (j * sCol + kj * dCol)

/-- Relation between the buffer of a run that started from zeros and the buffer
of a run that started from `O`: the latter is `O` plus the former. -/
def AddsTo {α : Type} [Add α] (O a b : List α) : Prop :=
  a.length = O.length ∧ b = List.zipWith (fun x y => x + y) O a

/-- Window sum of output cell `(i, j)`, over the values `rd j i kj ki` read from
the input. -/
def windowSum {α : Type} [CommRing α] (filter : Mat α) (rd : Nat → Nat → Nat → Nat → α)
    (j i : Nat) : α :=
  ∑ kj ∈ Finset.range filter.n_cols, ∑ ki ∈ Finset.range filter.n_rows,
    filter.elem ki kj * rd j i kj ki

/-- State of the output buffer after the first `n` cells (in memory order) have
been processed. -/
def CellsDone {α : Type} [CommRing α] (filter : Mat α) (rd : Nat → Nat → Nat → Nat → α)
    (o_rows : Nat) (out : List α) (n : Nat) (t : List α) : Prop :=
  t.length = out.length ∧
    ∀ idx, t[idx]? = if idx < n then
      (out[idx]?).map (fun o => o + windowSum filter rd (idx / o_rows) (idx % o_rows))
      else out[idx]?

/-- Value of an output cell after its two inner loops: the products of the
filter entries with the values `rd kj ki` read from the input are added to `v`
one after the other, in the order of the loops (`kj` outer, `ki` inner), each
sum and product taken in the element type. -/
def windowAcc {α : Type} [Zero α] [Add α] [Mul α] (filter : Mat α) (rd : Nat → Nat → α)
    (v : α) : α :=
  (List.range filter.n_cols).foldl (fun acc kj =>
    (List.range filter.n_rows).foldl (fun acc ki => acc + filter.elem ki kj * rd kj ki) acc) v

/-- State of the output buffer after the first `n` cells (in memory order) have
been processed, in any element type. -/
def CellsAcc {α : Type} [Zero α] [Add α] [Mul α] (filter : Mat α)
    (rd : Nat → Nat → Nat → Nat → α) (o_rows : Nat) (out : List α) (n : Nat) (t : List α) :
    Prop :=
  t.length = out.length ∧
    ∀ idx, t[idx]? = if idx < n then
      (out[idx]?).map (windowAcc filter (rd (idx / o_rows) (idx % o_rows)))
      else out[idx]?

end NaiveConvolution

/-! ## Submatrix views -/

/-- The assignment `m.submat(r1, c1, r2, c2) = x`.  Armadillo rejects indices
that are out of bounds or out of order, and a right-hand side of another size. -/
def Mat.submatAssign {α : Type} [Zero α] (m : Mat α) (r1 c1 r2 c2 : Nat) (x : Mat α) :
    Option (Mat α) :=
  if r1 > r2 ∨ c1 > c2 ∨ r2 ≥ m.n_rows ∨ c2 ≥ m.n_cols then none
  else if r2 - r1 + 1 ≠ x.n_rows ∨ c2 - c1 + 1 ≠ x.n_cols then none
  else some { m with
    mem := (List.range m.mem.length).map fun idx =>
      if r1 ≤ idx % m.n_rows ∧ idx % m.n_rows ≤ r2 ∧ c1 ≤ idx / m.n_rows ∧ idx / m.n_rows ≤ c2
      then x.elem (idx % m.n_rows - r1) (idx / m.n_rows - c1)
      else m.mem.getD idx 0 }

/-- The copy `m.submat(r1, c1, r2, c2)`, with the same index check. -/
def Mat.submat {α : Type} [Zero α] (m : Mat α) (r1 c1 r2 c2 : Nat) : Option (Mat α) :=
  if r1 > r2 ∨ c1 > c2 ∨ r2 ≥ m.n_rows ∨ c2 ≥ m.n_cols then none
  else some ⟨r2 - r1 + 1, c2 - c1 + 1,
    (List.range ((r2 - r1 + 1) * (c2 - c1 + 1))).map fun idx =>
      m.elem (r1 + idx % (r2 - r1 + 1)) (c1 + idx / (r2 - r1 + 1))⟩

/-- The input surrounded by zeros: `top` rows above, `bottom` rows below, `left`
columns before and `right` columns after it (the specification's zero-padded
input). -/
def Mat.zeroPadded {α : Type} [Zero α] (m : Mat α) (top bottom left right : Nat) : Mat α :=
  ⟨top + m.n_rows + bottom, left + m.n_cols + right,
    (List.range ((top + m.n_rows + bottom) * (left + m.n_cols + right))).map fun idx =>
      if top ≤ idx % (top + m.n_rows + bottom) ∧ idx % (top + m.n_rows + bottom) < top + m.n_rows
        ∧ left ≤ idx / (top + m.n_rows + bottom)
        ∧ idx / (top + m.n_rows + bottom) < left + m.n_cols
      then m.elem (idx % (top + m.n_rows + bottom) - top) (idx / (top + m.n_rows + bottom) - left)
      else 0⟩

namespace NaiveConvolution

/-- The search `for (i = 0; i < stride; ++i) if (cond(i)) { ext += i; break; }`
of the full-mode convolution (lines 113-128), started at `i` with `fuel`
iterations left. -/
def adjustSearch (cond : Nat → Bool) (ext i : Nat) (fuel : Nat) : Nat :=
  match fuel with
  | 0 => ext
  | fuel + 1 => if cond i then szAdd ext i else adjustSearch cond ext (i + 1) fuel

/-- Condition of the search, for candidate `i` (lines 115-116):
`((((i + ext - 2 * (f - 1) * dilation - 1) % stride) + stride) % stride) == i`. -/
def adjustCond (ext fExt stride dilation i : Nat) : Bool :=
  szAdd (szSub (szSub (szAdd i ext) (szMul (szMul 2 (szSub fExt 1)) dilation)) 1 % stride)
    stride % stride == i

/-- Extent of the padded working buffer on one axis (lines 108-128):
`(in - 1) * stride + 2 * (f - 1) * dilation + 1`, then the correction search. -/
def fullPaddedSize (inExt fExt stride dilation : Nat) : Nat :=
  let ext := szAdd (szAdd (szMul (szSub inExt 1) stride)
    (szMul (szMul 2 (szSub fExt 1)) dilation)) 1
  adjustSearch (adjustCond ext fExt stride dilation) ext 0 stride

/-- The padded input of the full-mode convolution (lines 131-135). -/
def fullPadded {α : Type} [Zero α] (input filter : Mat α) (dW dH dilationW dilationH : Nat) :
    Option (Mat α) :=
  (Mat.zeros (fullPaddedSize input.n_rows filter.n_rows dW dilationW)
      (fullPaddedSize input.n_cols filter.n_cols dH dilationH)).submatAssign
    (szMul (szSub filter.n_rows 1) dilationW)
    (szMul (szSub filter.n_cols 1) dilationH)
    (szSub (szAdd (szMul (szSub filter.n_rows 1) dilationW) input.n_rows) 1)
    (szSub (szAdd (szMul (szSub filter.n_cols 1) dilationH) input.n_cols) 1)
    input

/-- The function `NaiveConvolution<FullConvolution>::Convolution(input, filter, output, dW,
dH, dilationW, dilationH, appending)` on matrices (lines 97-139). -/
def ConvolutionFull {α : Type} [Zero α] [Add α] [Mul α] (input filter output : Mat α)
    (dW dH dilationW dilationH : Nat) (appending : Bool) : Option (Mat α) := do
  let inputPadded ← fullPadded input filter dW dH dilationW dilationH
  ConvolutionValid inputPadded filter output 1 1 dilationW dilationH appending

end NaiveConvolution

/-! ## Cubes -/

/-- An `arma::Cube<eT>`: dimensions and the buffer, slice after slice, each
slice column-major. -/
structure Cube (α : Type) where
  n_rows : Nat
  n_cols : Nat
  n_slices : Nat
  mem : List α
deriving DecidableEq

/-- The buffer of a cube holds exactly `n_rows * n_cols * n_slices` elements. -/
def Cube.WF {α : Type} (c : Cube α) : Prop :=
  c.mem.length = c.n_rows * c.n_cols * c.n_slices

instance {α : Type} (c : Cube α) : Decidable c.WF := by
  unfold Cube.WF; infer_instance

/-- The part of the buffer that holds slice `i`. -/
def Cube.sliceMat {α : Type} (c : Cube α) (i : Nat) : Mat α :=
  ⟨c.n_rows, c.n_cols, (c.mem.drop (i * (c.n_rows * c.n_cols))).take (c.n_rows * c.n_cols)⟩

/-- The view `c.slice(i)`; Armadillo rejects an index out of bounds. -/
def Cube.slice {α : Type} (c : Cube α) (i : Nat) : Option (Mat α) :=
  if i < c.n_slices then some (c.sliceMat i) else none

/-- Writing a matrix through the view `c.slice(i)`.  The view has a fixed
size: Armadillo rejects a matrix of another size. -/
def Cube.setSlice {α : Type} (c : Cube α) (i : Nat) (m : Mat α) : Option (Cube α) :=
  if i < c.n_slices ∧ m.n_rows = c.n_rows ∧ m.n_cols = c.n_cols
      ∧ m.mem.length = c.n_rows * c.n_cols then
    some { c with
      mem := c.mem.take (i * (c.n_rows * c.n_cols)) ++ m.mem
        ++ c.mem.drop (i * (c.n_rows * c.n_cols) + c.n_rows * c.n_cols) }
  else none

/-- The cube `arma::zeros<arma::Cube<eT>>(r, c, s)`. -/
def Cube.zeros {α : Type} [Zero α] (r c s : Nat) : Cube α :=
  ⟨r, c, s, List.replicate (r * c * s) 0⟩

/-- The border mode, the template parameter of `NaiveConvolution`. -/
inductive BorderMode where
  | FullConvolution
  | ValidConvolution
deriving DecidableEq

namespace NaiveConvolution

/-- The function `NaiveConvolution<BorderMode>::Convolution` on matrices: the overload
selected by the border mode. -/
def Convolution {α : Type} [Zero α] [Add α] [Mul α] (mode : BorderMode)
    (input filter output : Mat α) (dW dH dilationW dilationH : Nat) (appending : Bool) :
    Option (Mat α) :=
  match mode with
  | BorderMode.ValidConvolution =>
    ConvolutionValid input filter output dW dH dilationW dilationH appending
  | BorderMode.FullConvolution =>
    ConvolutionFull input filter output dW dH dilationW dilationH appending

/-- The overload `Convolution(const Cube& input, const Cube& filter, Cube& output, ...)`
(lines 152-174).  The cube constructed at line 165 is not initialised by
Armadillo; every slice of it is written before the function returns, it is
zero here. -/
def ConvolutionCubeCube {α : Type} [Zero α] [Add α] [Mul α] (mode : BorderMode)
    (input filter : Cube α) (dW dH dilationW dilationH : Nat) : Option (Cube α) := do
  let in0 ← input.slice 0
  let f0 ← filter.slice 0
  let convOutput ← Convolution mode in0 f0 (Mat.zeros 0 0) dW dH dilationW dilationH false
  let output : Cube α := Cube.zeros convOutput.n_rows convOutput.n_cols input.n_slices
  let output ← output.setSlice 0 convOutput
  forLoop (input.n_slices - 1) (fun k output => do
    let i := k + 1
    let inI ← input.slice i
    let fI ← filter.slice i
    let outI ← output.slice i
    let r ← Convolution mode inI fI outI dW dH dilationW dilationH false
    output.setSlice i r) output

/-- The overload `Convolution(const Mat& input, const Cube& filter, Cube& output, ...)`
(lines 188-210). -/
def ConvolutionMatCube {α : Type} [Zero α] [Add α] [Mul α] (mode : BorderMode)
    (input : Mat α) (filter : Cube α) (dW dH dilationW dilationH : Nat) :
    Option (Cube α) := do
  let f0 ← filter.slice 0
  let convOutput ← Convolution mode input f0 (Mat.zeros 0 0) dW dH dilationW dilationH false
  let output : Cube α := Cube.zeros convOutput.n_rows convOutput.n_cols filter.n_slices
  let output ← output.setSlice 0 convOutput
  forLoop (filter.n_slices - 1) (fun k output => do
    let i := k + 1
    let fI ← filter.slice i
    let outI ← output.slice i
    let r ← Convolution mode input fI outI dW dH dilationW dilationH false
    output.setSlice i r) output

/-- The overload `Convolution(const Cube& input, const Mat& filter, Cube& output, ...)`
(lines 224-246). -/
def ConvolutionCubeMat {α : Type} [Zero α] [Add α] [Mul α] (mode : BorderMode)
    (input : Cube α) (filter : Mat α) (dW dH dilationW dilationH : Nat) :
    Option (Cube α) := do
  let in0 ← input.slice 0
  let convOutput ← Convolution mode in0 filter (Mat.zeros 0 0) dW dH dilationW dilationH false
  let output : Cube α := Cube.zeros convOutput.n_rows convOutput.n_cols input.n_slices
  let output ← output.setSlice 0 convOutput
  forLoop (input.n_slices - 1) (fun k output => do
    let i := k + 1
    let inI ← input.slice i
    let outI ← output.slice i
    let r ← Convolution mode inI filter outI dW dH dilationW dilationH false
    output.setSlice i r) output

end NaiveConvolution

/-! ## Element-wise operations of the linear-algebra library -/

/-- The operation `m += b` for a scalar `b`. -/
def Mat.addScalar {α : Type} [Add α] (m : Mat α) (b : α) : Mat α :=
  { m with mem := m.mem.map fun x => x + b }

/-- The operation `a += b` for matrices; Armadillo rejects operands of different
sizes. -/
def Mat.addAssign {α : Type} [Add α] (a b : Mat α) : Option (Mat α) :=
  if a.n_rows = b.n_rows ∧ a.n_cols = b.n_cols then
    some { a with mem := List.zipWith (fun x y => x + y) a.mem b.mem }
  else none

/-- The operation `m.submat(r1, c1, r2, c2) += x`, with the index and size checks
of `submatAssign`. -/
def Mat.submatAddAssign {α : Type} [Zero α] [Add α] (m : Mat α) (r1 c1 r2 c2 : Nat)
    (x : Mat α) : Option (Mat α) :=
  if r1 > r2 ∨ c1 > c2 ∨ r2 ≥ m.n_rows ∨ c2 ≥ m.n_cols then none
  else if r2 - r1 + 1 ≠ x.n_rows ∨ c2 - c1 + 1 ≠ x.n_cols then none
  else some { m with
    mem := (List.range m.mem.length).map fun idx =>
      if r1 ≤ idx % m.n_rows ∧ idx % m.n_rows ≤ r2 ∧ c1 ≤ idx / m.n_rows ∧ idx / m.n_rows ≤ c2
      then m.mem.getD idx 0 + x.elem (idx % m.n_rows - r1) (idx / m.n_rows - c1)
      else m.mem.getD idx 0 }

/-- The sum of all elements, `arma::accu(m)`. -/
def Mat.accu {α : Type} [Zero α] [Add α] (m : Mat α) : α :=
  m.mem.foldl (fun s x => s + x) 0

/-! ## The convolution layer -/

/-- Modelled from the spec: `ConvOutSize`, declared in `convolution.hpp`, is not
among the sources.  The convolution-output-size formula
`floor((size + pSideOne + pSideTwo - k) / s) + 1`, on `size_t` operands. -/
def ConvOutSize (size k s pSideOne pSideTwo : Nat) : Option Nat :=
  (szDiv (szSub (szAdd (szAdd size pSideOne) pSideTwo) k) s).map fun q => szAdd q 1

/-- Modelled from the spec: `Rotate180`, declared in `convolution.hpp`, is not
among the sources.  The slice flipped along both axes: cell `(i, j)` of the
result is cell `(n_rows - 1 - i, n_cols - 1 - j)` of the input. -/
def Rotate180 {α : Type} [Zero α] (m : Mat α) : Mat α :=
  ⟨m.n_rows, m.n_cols, (List.range (m.n_rows * m.n_cols)).map fun idx =>
    m.elem (m.n_rows - 1 - idx % m.n_rows) (m.n_cols - 1 - idx / m.n_rows)⟩

/-- Modelled from the spec: `ann::Padding::Forward` (padding.hpp) is not among
the sources.  The zero-padded copy of a slice: `padWLeft` rows of zeros before
it, `padWRight` after it, `padHTop` columns of zeros before it, `padHBottom`
after it (rows are the width axis). -/
def PaddingForward {α : Type} [Zero α] (padWLeft padWRight padHTop padHBottom : Nat)
    (input : Mat α) : Mat α :=
  input.zeroPadded padWLeft padWRight padHTop padHBottom

/-- The members of the `Convolution` layer that `Forward`, `Backward` and
`Gradient` read or write.  The convolution rules are the default template
arguments: valid mode for `Forward` and `Gradient`, full mode for `Backward`. -/
structure Convolution (α : Type) where
  inSize : Nat
  outSize : Nat
  batchSize : Nat
  kernelWidth : Nat
  kernelHeight : Nat
  strideWidth : Nat
  strideHeight : Nat
  padWLeft : Nat
  padWRight : Nat
  padHBottom : Nat
  padHTop : Nat
  inputWidth : Nat
  inputHeight : Nat
  outputWidth : Nat
  outputHeight : Nat
  weights : List α
  inputPaddedTemp : Cube α
deriving DecidableEq

namespace Convolution

/-- The test `padWLeft != 0 || padWRight != 0 || padHTop != 0 || padHBottom != 0`. -/
def hasPadding {α : Type} (l : Convolution α) : Bool :=
  l.padWLeft != 0 || l.padWRight != 0 || l.padHTop != 0 || l.padHBottom != 0

/-- The view `weight` set up by `Reset()`: a `kernelWidth x kernelHeight x
(outSize * inSize)` cube over the start of `weights`. -/
def weight {α : Type} (l : Convolution α) : Cube α :=
  ⟨l.kernelWidth, l.kernelHeight, szMul l.outSize l.inSize, l.weights⟩

/-- Number of elements of the view `weight`, `weight.n_elem`. -/
def weightElem {α : Type} (l : Convolution α) : Nat :=
  l.kernelWidth * l.kernelHeight * szMul l.outSize l.inSize

/-- Element `bias(i)` of the view `bias` set up by `Reset()`: an `outSize x 1`
matrix over `weights`, right after `weight`. -/
def bias {α : Type} (l : Convolution α) (i : Nat) : Option α :=
  if i < l.outSize then l.weights[l.weightElem + i]? else none

/-- One iteration of the padding loop of `Forward` (lines 188-191):
`padding.Forward(inputTemp.slice(i), inputPaddedTemp.slice(i))`. -/
def padSlice {α : Type} [Zero α] (l : Convolution α) (inputTemp : Cube α) (i : Nat)
    (inputPaddedTemp : Cube α) : Option (Cube α) := do
  let s ← inputTemp.slice i
  inputPaddedTemp.setSlice i (PaddingForward l.padWLeft l.padWRight l.padHTop l.padHBottom s)

/-- The padding step of `Forward` (lines 182-193): with padding, the member
`inputPaddedTemp` is resized and every slice of it is set to the padded input
slice; without, it is left as it is. -/
def padInput {α : Type} [Zero α] (l : Convolution α) (inputTemp : Cube α) :
    Option (Cube α) :=
  if l.hasPadding then
    forLoop inputTemp.n_slices (l.padSlice inputTemp)
      (Cube.zeros (szAdd (szAdd inputTemp.n_rows l.padWLeft) l.padWRight)
        (szAdd (szAdd inputTemp.n_cols l.padHTop) l.padHBottom) inputTemp.n_slices)
  else some l.inputPaddedTemp

/-- One iteration of the inner loop of `Forward` (lines 214-221): the
accumulating valid-mode convolution of one input channel into `curSlice`; the
filter index `outMapIdx` has been incremented `inMap` times. -/
def forwardChannel {α : Type} [Zero α] [Add α] [Mul α] (l : Convolution α)
    (inputTemp : Cube α) (outMapIdx batchCount inMap : Nat) (curSlice : Mat α) :
    Option (Mat α) := do
  let inSlice ← inputTemp.slice (szAdd inMap (szMul batchCount l.inSize))
  let w ← l.weight.slice (szAdd outMapIdx inMap)
  NaiveConvolution.ConvolutionValid inSlice w curSlice l.strideWidth l.strideHeight 1 1 true

/-- One iteration of the outer loop of `Forward` (lines 208-223), for the
combined index `outMap` of output channel and batch item. -/
def forwardOutMap {α : Type} [Zero α] [Add α] [Mul α] (l : Convolution α)
    (inputTemp : Cube α) (outMap : Nat) (outputTemp : Cube α) : Option (Cube α) := do
  let outMapIdx := szMul (outMap % l.outSize) l.inSize
  let batchCount := outMap / l.outSize
  let curSlice ← outputTemp.slice outMap
  let curSlice ← forLoop l.inSize (l.forwardChannel inputTemp outMapIdx batchCount) curSlice
  let b ← l.bias (outMap % l.outSize)
  outputTemp.setSlice outMap (curSlice.addScalar b)

/-- The method `Convolution::Forward(input, output)` (convolution_impl.hpp, lines 175-227):
the layer after the call and `output`. -/
def Forward {α : Type} [Zero α] [Add α] [Mul α] (l : Convolution α) (input : Mat α) :
    Option (Convolution α × Mat α) := do
  let batchSize := input.n_cols
  let inputTemp0 : Cube α :=
    ⟨l.inputWidth, l.inputHeight, szMul l.inSize batchSize, input.mem⟩
  let inputPaddedTemp ← l.padInput inputTemp0
  let inputTemp := if l.hasPadding then inputPaddedTemp else inputTemp0
  let wConv ← ConvOutSize l.inputWidth l.kernelWidth l.strideWidth l.padWLeft l.padWRight
  let hConv ← ConvOutSize l.inputHeight l.kernelHeight l.strideHeight l.padHTop l.padHBottom
  let _ ← forLoop l.outSize (fun outMapIdx u => (l.weight.slice outMapIdx).map fun _ => u) ()
  let outputTemp ← forLoop (szMul l.outSize batchSize) (l.forwardOutMap inputTemp)
    (Cube.zeros wConv hConv (szMul l.outSize batchSize))
  some ({ l with
      batchSize := batchSize
      inputPaddedTemp := inputPaddedTemp
      outputWidth := outputTemp.n_rows
      outputHeight := outputTemp.n_cols },
    ⟨szMul (szMul wConv hConv) l.outSize, batchSize, outputTemp.mem⟩)

/-- One iteration of the batch loop of `Backward` (lines 262-284), for output
channel `outMapIdx`, input channel `inMap` and batch item `batchCount`. -/
def backwardBatch {α : Type} [Zero α] [Add α] [Mul α] (l : Convolution α)
    (mappedError : Cube α) (rotatedFilter : Mat α) (outMapIdx inMap batchCount : Nat)
    (gTemp : Cube α) : Option (Cube α) := do
  let errSlice ← mappedError.slice (szAdd outMapIdx (szMul batchCount l.outSize))
  let gSlice ← gTemp.slice (szAdd inMap (szMul batchCount l.inSize))
  if l.hasPadding then do
    let output ← NaiveConvolution.ConvolutionFull errSlice rotatedFilter (Mat.zeros 0 0)
      l.strideWidth l.strideHeight 1 1 false
    let sm ← output.submat l.padWLeft l.padHTop
      (szSub (szAdd l.padWLeft gTemp.n_rows) 1) (szSub (szAdd l.padHTop gTemp.n_cols) 1)
    let gSlice ← gSlice.addAssign sm
    gTemp.setSlice (szAdd inMap (szMul batchCount l.inSize)) gSlice
  else do
    let gSlice ← NaiveConvolution.ConvolutionFull errSlice rotatedFilter gSlice
      l.strideWidth l.strideHeight 1 1 true
    gTemp.setSlice (szAdd inMap (szMul batchCount l.inSize)) gSlice

/-- One iteration of the input-channel loop of `Backward` (lines 257-285): the
filter slice is rotated, then the batch loop runs. -/
def backwardChannel {α : Type} [Zero α] [Add α] [Mul α] (l : Convolution α)
    (mappedError : Cube α) (outMapIdx inMap : Nat) (gTemp : Cube α) : Option (Cube α) := do
  let w ← l.weight.slice (szAdd outMapIdx inMap)
  let rotatedFilter := Rotate180 w
  forLoop l.batchSize (l.backwardBatch mappedError rotatedFilter outMapIdx inMap) gTemp

/-- The method `Convolution::Backward(input, gy, g)` (lines 243-287): the matrix `g`. -/
def Backward {α : Type} [Zero α] [Add α] [Mul α] (l : Convolution α) (_input gy : Mat α) :
    Option (Mat α) := do
  let mappedError : Cube α :=
    ⟨l.outputWidth, l.outputHeight, szMul l.outSize l.batchSize, gy.mem⟩
  let gTemp ← forLoop l.outSize (fun outMapIdx gTemp =>
      forLoop l.inSize (l.backwardChannel mappedError outMapIdx) gTemp)
    (Cube.zeros l.inputWidth l.inputHeight (szMul l.inSize l.batchSize))
  some ⟨szMul (szMul l.inputWidth l.inputHeight) l.inSize, l.batchSize, gTemp.mem⟩

/-- The three-way addition of a correlation result into a filter-gradient slice
(lines 335-349). -/
def addOverlap {α : Type} [Zero α] [Add α] (n_rows n_cols : Nat) (curGradTemp output : Mat α) :
    Option (Mat α) :=
  if n_rows < output.n_rows ∨ n_cols < output.n_cols then do
    let sm ← output.submat 0 0 (szSub n_rows 1) (szSub n_cols 1)
    curGradTemp.addAssign sm
  else if n_rows > output.n_rows ∨ n_cols > output.n_cols then
    curGradTemp.submatAddAssign 0 0 (szSub output.n_rows 1) (szSub output.n_cols 1) output
  else curGradTemp.addAssign output

/-- One iteration of the batch loop of `Gradient` (lines 328-355), for output
channel `outMapIdx`, input channel `inMap` and batch item `batchCount`. -/
def gradientBatch {α : Type} [Zero α] [Add α] [Mul α] (l : Convolution α)
    (inputTemp mappedError : Cube α) (outMapIdx inMap batchCount : Nat)
    (gradientTemp : Cube α) : Option (Cube α) := do
  let curGradTemp ← gradientTemp.slice (szAdd outMapIdx inMap)
  let outMap := szAdd outMapIdx (szMul batchCount l.outSize)
  let inputSlice ← inputTemp.slice (szAdd inMap (szMul batchCount l.inSize))
  let deltaSlice ← mappedError.slice outMap
  let output ← NaiveConvolution.ConvolutionValid inputSlice deltaSlice (Mat.zeros 0 0)
    l.strideWidth l.strideHeight 1 1 false
  let curGradTemp ← addOverlap gradientTemp.n_rows gradientTemp.n_cols curGradTemp output
  let gradientTemp ← gradientTemp.setSlice (szAdd outMapIdx inMap) curGradTemp
  if inMap = szSub l.inSize 1 then do
    let pos := szAdd l.weightElem (outMap % l.outSize)
    if pos < gradientTemp.mem.length then
      some { gradientTemp with mem := gradientTemp.mem.set pos deltaSlice.accu }
    else none
  else some gradientTemp

/-- The method `Convolution::Gradient(input, error, gradient)` (lines 303-358): the matrix
`gradient`.  `set_size` keeps the caller's buffer when it already has
`weights.n_elem` elements; a newly allocated buffer is not initialised by
Armadillo, it is zero here.  The view `gradientTemp` covers the filter part of
the buffer, which `zeros()` clears. -/
def Gradient {α : Type} [Zero α] [Add α] [Mul α] (l : Convolution α)
    (input error gradient : Mat α) : Option (Mat α) := do
  let mappedError : Cube α :=
    ⟨l.outputWidth, l.outputHeight, szMul l.outSize l.batchSize, error.mem⟩
  let inputTemp : Cube α :=
    if l.hasPadding then l.inputPaddedTemp
    else ⟨l.inputWidth, l.inputHeight, szMul l.inSize l.batchSize, input.mem⟩
  let buf : List α :=
    if gradient.mem.length = l.weights.length then gradient.mem
    else List.replicate l.weights.length 0
  let gradientTemp : Cube α :=
    ⟨l.kernelWidth, l.kernelHeight, szMul l.outSize l.inSize,
      List.replicate l.weightElem 0 ++ buf.drop l.weightElem⟩
  let gradientTemp ← forLoop l.outSize (fun outMapIdx gradientTemp =>
      forLoop l.inSize (fun inMap gradientTemp =>
        forLoop l.batchSize (l.gradientBatch inputTemp mappedError outMapIdx inMap)
          gradientTemp) gradientTemp) gradientTemp
  some ⟨l.weights.length, 1, gradientTemp.mem⟩

end Convolution

/-! ## Sample data -/

/-- A 3 x 5 matrix holding 0 .. 14 in memory order. -/
def ex3x5 : Mat Int := ⟨3, 5, [0, 1, 2, 3, 4, 5, 6, 7, 8, 9, 10, 11, 12, 13, 14]⟩

/-- A 5 x 3 matrix holding 0 .. 14 in memory order. -/
def ex5x3 : Mat Int := ⟨5, 3, [0, 1, 2, 3, 4, 5, 6, 7, 8, 9, 10, 11, 12, 13, 14]⟩

/-- The 1 x 1 filter holding 1. -/
def one1x1 : Mat Int := ⟨1, 1, [1]⟩

/-- A 2 x 2 matrix holding 1 .. 4 in memory order. -/
def ex2x2 : Mat Int := ⟨2, 2, [1, 2, 3, 4]⟩

/-- The 2 x 2 all-ones filter. -/
def ones2x2 : Mat Int := ⟨2, 2, [1, 1, 1, 1]⟩

/-- A 2 x 2 x 2 cube holding 1 .. 8 in memory order. -/
def ex2x2x2 : Cube Int := ⟨2, 2, 2, [1, 2, 3, 4, 5, 6, 7, 8]⟩

/-- A 1 x 1 x 2 filter cube holding 2 and 3. -/
def flt1x1x2 : Cube Int := ⟨1, 1, 2, [2, 3]⟩

/-- A 1 x 1 matrix holding 5. -/
def ex1x1 : Mat Int := ⟨1, 1, [5]⟩

/-- The 2 x 1 all-ones filter. -/
def ones2x1 : Mat Int := ⟨2, 1, [1, 1]⟩

/-- A layer with two input and two output channels, a 1 x 1 kernel, stride 1,
no padding, on 1 x 1 inputs.  The filter from input channel `c` to output
channel `o` is slice `o * 2 + c`: 1, 10, 100, 1000; the biases are 0. -/
def exLayer : Convolution Int :=
  { inSize := 2, outSize := 2, batchSize := 0, kernelWidth := 1, kernelHeight := 1,
    strideWidth := 1, strideHeight := 1, padWLeft := 0, padWRight := 0, padHBottom := 0,
    padHTop := 0, inputWidth := 1, inputHeight := 1, outputWidth := 0, outputHeight := 0,
    weights := [1, 10, 100, 1000, 0, 0], inputPaddedTemp := ⟨0, 0, 0, []⟩ }

/-- The layer `exLayer` after `Forward` on one batch item. -/
def exLayerFwd : Convolution Int :=
  { exLayer with batchSize := 1, outputWidth := 1, outputHeight := 1 }

namespace Convolution

/-- The sizes of the layer, for a batch of `batchSize` items, are `size_t`
values and the parameter buffer holds the filters followed by the biases. -/
def SizesOk {α : Type} (l : Convolution α) (batchSize : Nat) : Prop :=
  l.inSize * batchSize < SIZE_MOD ∧ l.outSize * batchSize < SIZE_MOD ∧
    l.outSize * l.inSize < SIZE_MOD ∧
    l.inputWidth + l.padWLeft + l.padWRight < SIZE_MOD ∧
    l.inputHeight + l.padHTop + l.padHBottom < SIZE_MOD ∧
    l.weights.length = l.kernelWidth * l.kernelHeight * (l.outSize * l.inSize) + l.outSize

instance {α : Type} (l : Convolution α) (batchSize : Nat) : Decidable (l.SizesOk batchSize) := by
  unfold SizesOk; infer_instance

/-- Slice `k` of the flat `input`, seen as an `inputWidth x inputHeight` cube
(the view `inputTemp`). -/
def inputSlice {α : Type} (l : Convolution α) (input : Mat α) (k : Nat) : Mat α :=
  (⟨l.inputWidth, l.inputHeight, l.inSize * input.n_cols, input.mem⟩ : Cube α).sliceMat k

/-- Slice `k` of the input as `Forward` convolves it: padded when the layer has
padding. -/
def paddedSlice {α : Type} [Zero α] (l : Convolution α) (input : Mat α) (k : Nat) : Mat α :=
  if l.hasPadding then
    PaddingForward l.padWLeft l.padWRight l.padHTop l.padHBottom (l.inputSlice input k)
  else l.inputSlice input k

/-- Slice `k` of a flat output-shaped matrix (`output`, `gy`, `error`), seen as
an `outputWidth x outputHeight` cube (the views `outputTemp`, `mappedError`). -/
def outputSlice {α : Type} (l : Convolution α) (m : Mat α) (k : Nat) : Mat α :=
  (⟨l.outputWidth, l.outputHeight, l.outSize * l.batchSize, m.mem⟩ : Cube α).sliceMat k

/-- Slice `k` of a flat input-shaped matrix (`g`), seen as an `inputWidth x
inputHeight` cube (the view `gTemp`). -/
def gradSlice {α : Type} (l : Convolution α) (g : Mat α) (k : Nat) : Mat α :=
  (⟨l.inputWidth, l.inputHeight, l.inSize * l.batchSize, g.mem⟩ : Cube α).sliceMat k

/-- The input-gradient slice of input channel `c` and batch item `b` as the
specification describes it: the sum, over the output channels `o`, of the
full-mode convolution of output-gradient slice `o + b * outSize` with the
rotated filter slice `o * inSize + c`. -/
def specInputGradient {α : Type} [Zero α] [Add α] [Mul α] (l : Convolution α) (gy : Mat α)
    (c b : Nat) : Option (Mat α) :=
  forLoop l.outSize (fun o acc => do
    let r ← NaiveConvolution.ConvolutionFull (l.outputSlice gy (o + b * l.outSize))
      (Rotate180 (l.weight.sliceMat (o * l.inSize + c))) (Mat.zeros 0 0)
      l.strideWidth l.strideHeight 1 1 false
    acc.addAssign r) (Mat.zeros l.inputWidth l.inputHeight)

/-- The filter-gradient slice of output channel `o` and input channel `c` as the
specification describes it: the sum, over the batch items `b`, of the
valid-mode cross-correlation of input slice `c + b * inSize` with
output-gradient slice `o + b * outSize`. -/
def specFilterGradient {α : Type} [Zero α] [Add α] [Mul α] (l : Convolution α)
    (input error : Mat α) (o c : Nat) : Option (Mat α) :=
  forLoop l.batchSize (fun b acc => do
    let r ← NaiveConvolution.ConvolutionValid (l.inputSlice input (c + b * l.inSize))
      (l.outputSlice error (o + b * l.outSize)) (Mat.zeros 0 0)
      l.strideWidth l.strideHeight 1 1 false
    acc.addAssign r) (Mat.zeros l.kernelWidth l.kernelHeight)

/-- Slice `k` of the filter part of a parameter gradient (the view
`gradientTemp`). -/
def filterGradSlice {α : Type} (l : Convolution α) (gradient : Mat α) (k : Nat) : Mat α :=
  (⟨l.kernelWidth, l.kernelHeight, l.outSize * l.inSize, gradient.mem⟩ : Cube α).sliceMat k

end Convolution

/-- The `r x c` matrix obtained by adding the buffers of `Rc 0`, ...,
`Rc (n - 1)`, in this order, to zeros. -/
def sumSlices {α : Type} [Zero α] [Add α] (r c n : Nat) (Rc : Nat → Mat α) : Mat α :=
  ⟨r, c, (List.range n).foldl (fun acc ci => List.zipWith (fun x y => x + y) acc (Rc ci).mem)
    (List.replicate (r * c) 0)⟩

/-! ## Construction of the convolution layer -/

namespace Convolution

/-- The local variables `totalVerticalPadding` / `totalHorizontalPadding` of
`InitializeSamePadding` (lines 413-416):
`(stride - 1) * inputExtent + kernelExtent - stride` on `size_t` operands. -/
def totalPadding (stride inputExtent kernelExtent : Nat) : Nat :=
  szSub (szAdd (szMul (szSub stride 1) inputExtent) kernelExtent) stride

/-- The member function `InitializeSamePadding()` (lines 407-427). -/
def InitializeSamePadding {α : Type} (l : Convolution α) : Convolution α :=
  let totalVerticalPadding := totalPadding l.strideWidth l.inputWidth l.kernelWidth
  let totalHorizontalPadding := totalPadding l.strideHeight l.inputHeight l.kernelHeight
  { l with
    padWLeft := totalVerticalPadding / 2
    padWRight := szSub totalVerticalPadding (totalVerticalPadding / 2)
    padHTop := totalHorizontalPadding / 2
    padHBottom := szSub totalHorizontalPadding (totalHorizontalPadding / 2) }

/-- The constructor `Convolution(inSize, outSize, kernelWidth, kernelHeight,
strideWidth, strideHeight, padW, padH, inputWidth, inputHeight, paddingType)`
with pairs `padW = (left, right)` and `padH = (top, bottom)` (lines 93-138).
`util::ToLower` is not among the sources and is a parameter.  The constructor
leaves `batchSize` and the contents of `weights` (after `set_size`)
uninitialised; their values are the parameters `batchSize0` and `weights0`.
The member `padding` is built from the four final pad values, which is how
`padInput` reads them. -/
def construct {α : Type} (ToLower : String → String) (batchSize0 : Nat) (weights0 : List α)
    (inSize outSize kernelWidth kernelHeight strideWidth strideHeight : Nat)
    (padW padH : Nat × Nat) (inputWidth inputHeight : Nat) (paddingType : String) :
    Convolution α :=
  let l : Convolution α :=
    { inSize := inSize, outSize := outSize, batchSize := batchSize0,
      kernelWidth := kernelWidth, kernelHeight := kernelHeight,
      strideWidth := strideWidth, strideHeight := strideHeight,
      padWLeft := padW.1, padWRight := padW.2, padHBottom := padH.2, padHTop := padH.1,
      inputWidth := inputWidth, inputHeight := inputHeight,
      outputWidth := 0, outputHeight := 0,
      weights := weights0, inputPaddedTemp := ⟨0, 0, 0, []⟩ }
  let paddingTypeLow := ToLower paddingType
  if paddingTypeLow = "valid" then
    { l with padWLeft := 0, padWRight := 0, padHTop := 0, padHBottom := 0 }
  else if paddingTypeLow = "same" then
    l.InitializeSamePadding
  else l

/-- The delegating constructor with one pad value per axis (lines 52-78). -/
def constructSymmetric {α : Type} (ToLower : String → String) (batchSize0 : Nat)
    (weights0 : List α)
    (inSize outSize kernelWidth kernelHeight strideWidth strideHeight padW padH
      inputWidth inputHeight : Nat) (paddingType : String) : Convolution α :=
  construct ToLower batchSize0 weights0 inSize outSize kernelWidth kernelHeight strideWidth
    strideHeight (padW, padW) (padH, padH) inputWidth inputHeight paddingType

end Convolution

/-- A layer constructed with policy "same": 3 x 2 kernel, stride 1, 4 x 5 input. -/
def exSameLayer : Convolution Int :=
  Convolution.construct (fun s => s) 0 [] 1 1 3 2 1 1 (0, 0) (0, 0) 4 5 "same"

/-- A layer constructed with policy "same": 4 x 3 kernel, strides 2 and 3,
6 x 5 input. -/
def exSameStrided : Convolution Int :=
  Convolution.construct (fun s => s) 0 [] 1 1 4 3 2 3 (0, 0) (0, 0) 6 5 "same"

/-- A layer constructed with policy "same" for an input of width 0: 1 x 1
kernel, stride 2 on the width axis. -/
def exSameNegative : Convolution Int :=
  Convolution.construct (fun s => s) 0 [] 1 1 1 1 2 1 (0, 0) (0, 0) 0 1 "same"

/-- A layer with one input and one output channel, a 1 x 1 kernel holding 3,
bias 0, stride 1, no padding, on 1 x 1 inputs. -/
def exBatchLayer : Convolution Int :=
  { inSize := 1, outSize := 1, batchSize := 0, kernelWidth := 1, kernelHeight := 1,
    strideWidth := 1, strideHeight := 1, padWLeft := 0, padWRight := 0, padHBottom := 0,
    padHTop := 0, inputWidth := 1, inputHeight := 1, outputWidth := 0, outputHeight := 0,
    weights := [3, 0], inputPaddedTemp := ⟨0, 0, 0, []⟩ }

/-- The layer `exBatchLayer` after `Forward` on a batch of two items. -/
def exBatchLayerFwd : Convolution Int :=
  { exBatchLayer with batchSize := 2, outputWidth := 1, outputHeight := 1 }

/-- The bias entry of output channel `o` of the parameter gradient as the
specification describes it: the sum, over the batch items `b` and all spatial
positions, of output-gradient slice `o + b * outSize`. -/
def Convolution.specBiasGradient {α : Type} [Zero α] [Add α] (l : Convolution α)
    (error : Mat α) (o : Nat) : α :=
  (List.range l.batchSize).foldl
    (fun s b => s + (l.outputSlice error (o + b * l.outSize)).accu) 0

/-! ## Double-precision arithmetic -/

/-- The number of binary digits of `n`, found with at most `fuel` halvings. -/
def bitLength : Nat → Nat → Nat
  | 0, _ => 0
  | fuel + 1, n => if n = 0 then 0 else bitLength fuel (n / 2) + 1

/-- The rational `num / den` as a fraction that need not be reduced: a finite
`double`, or the exact result of an operation on doubles before it is rounded. -/
structure Frac where
  num : Int
  den : Nat
deriving DecidableEq

namespace Frac

/-- The rational number a fraction stands for. -/
def toRat (x : Frac) : ℚ := (x.num : ℚ) / (x.den : ℚ)

/-- The binary exponent of `p / q` for positive `p` and `q`: the `e` with
`2^e <= p / q < 2^(e+1)`. -/
def binaryExponent (p q : Nat) : Int :=
  let lp := bitLength p p
  let lq := bitLength q q
  if q * 2 ^ (lp - lq) ≤ p * 2 ^ (lq - lp) then (lp : Int) - (lq : Int)
  else (lp : Int) - (lq : Int) - 1

/-- The integer nearest to `P / Q`, a tie going to the even one. -/
def roundNearestEven (P Q : Nat) : Nat :=
  if 2 * (P % Q) < Q then P / Q
  else if Q < 2 * (P % Q) then P / Q + 1
  else if (P / Q) % 2 = 0 then P / Q
  else P / Q + 1

/-- Rounding of an exact result to `double` (IEEE 754 binary64, round to nearest,
ties to even): the nearest number `M * 2^(e-52)` with `M < 2^53`.  The
exponent range of the format is not modelled; the magnitudes that arise from
`size_t` operands below lie between `2^-64` and `2^65`. -/
def roundDouble (x : Frac) : Frac :=
  if x.num = 0 then ⟨0, 1⟩
  else
    let e := binaryExponent x.num.natAbs x.den
    let M := roundNearestEven (x.num.natAbs * 2 ^ (52 - e).toNat) (x.den * 2 ^ (e - 52).toNat)
    ⟨Int.sign x.num * ((M * 2 ^ (e - 52).toNat : Nat) : Int), 2 ^ (52 - e).toNat⟩

end Frac

namespace Double

/-- The conversion `(double) n` of a `size_t` value. -/
def ofSize (n : Nat) : Frac := Frac.roundDouble ⟨n, 1⟩

/-- The conversion of an `int` literal to `double`; exact for the literal `1`
used below. -/
def ofInt (n : Int) : Frac := Frac.roundDouble ⟨n, 1⟩

/-- The difference `a - b` of two doubles. -/
def sub (a b : Frac) : Frac :=
  Frac.roundDouble ⟨a.num * b.den - b.num * a.den, a.den * b.den⟩

/-- The sum `a + b` of two doubles. -/
def add (a b : Frac) : Frac :=
  Frac.roundDouble ⟨a.num * b.den + b.num * a.den, a.den * b.den⟩

/-- The quotient `a / b` of two doubles.  With a zero divisor the result is an
infinity or a NaN, which `none` stands for. -/
def div (a b : Frac) : Option Frac :=
  if b.num = 0 then none
  else some (Frac.roundDouble ⟨a.num * b.den * Int.sign b.num, a.den * b.num.natAbs⟩)

/-- The function `std::floor` on a finite double (the result is exact). -/
def floor (a : Frac) : Frac := ⟨a.num / (a.den : Int), 1⟩

/-- The function `std::ceil` on a finite double (the result is exact). -/
def ceil (a : Frac) : Frac := ⟨-((-a.num) / (a.den : Int)), 1⟩

/-- The conversion of a finite double to `size_t`: the value truncated toward
zero; the behaviour is undefined when that is not a `size_t` value. -/
def toSize (a : Frac) : Option Nat :=
  if 0 ≤ Int.tdiv a.num a.den ∧ Int.tdiv a.num a.den < SIZE_MOD then
    some (Int.tdiv a.num a.den).toNat
  else none

end Double

/-! ## The max-pooling layer -/

/-- The ways a call can end without returning. -/
inductive Fault where
  /-- A run-time check of the linear-algebra library fails. -/
  | libraryError
  /-- The behaviour is undefined: `back()` or `pop_back()` on an empty vector,
  an integer division by zero, a conversion of a double that is out of range. -/
  | undefinedBehaviour
deriving DecidableEq

deriving instance DecidableEq for Except

/-- A failed library operation, as a fault. -/
def liftLibrary {β : Type} : Option β → Except Fault β
  | some b => Except.ok b
  | none => Except.error Fault.libraryError

/-- An operation without defined result, as a fault. -/
def liftUndefined {β : Type} : Option β → Except Fault β
  | some b => Except.ok b
  | none => Except.error Fault.undefinedBehaviour

/-- The members of the `MaxPooling` layer.  The vector `poolingIndices` is a
list, `back()` is its last element. -/
structure MaxPooling (α : Type) where
  kernelWidth : Nat
  kernelHeight : Nat
  strideWidth : Nat
  strideHeight : Nat
  floor : Bool
  inSize : Nat
  outSize : Nat
  reset : Bool
  inputWidth : Nat
  inputHeight : Nat
  outputWidth : Nat
  outputHeight : Nat
  deterministic : Bool
  offset : Nat
  batchSize : Nat
  inputTemp : Cube α
  outputTemp : Cube α
  gTemp : Cube α
  poolingIndices : List (Cube α)
  indices : Mat Nat
deriving DecidableEq

namespace MaxPooling

/-- The constructor `MaxPooling(kernelWidth, kernelHeight, strideWidth,
strideHeight, floor)` (lines 28-52); the matrices, cubes and the vector are
default-constructed, hence empty. -/
def construct {α : Type} (kernelWidth kernelHeight strideWidth strideHeight : Nat)
    (floor : Bool) : MaxPooling α :=
  { kernelWidth := kernelWidth, kernelHeight := kernelHeight,
    strideWidth := strideWidth, strideHeight := strideHeight, floor := floor,
    inSize := 0, outSize := 0, reset := false, inputWidth := 0, inputHeight := 0,
    outputWidth := 0, outputHeight := 0, deterministic := false, offset := 0, batchSize := 0,
    inputTemp := ⟨0, 0, 0, []⟩, outputTemp := ⟨0, 0, 0, []⟩, gTemp := ⟨0, 0, 0, []⟩,
    poolingIndices := [], indices := ⟨0, 0, []⟩ }

/-- The right-hand sides of lines 66-69 and 74-77 converted to `size_t`:
`std::floor((inputExtent - (double) kernelExtent) / (double) stride + 1)`, or
`std::ceil` of the same expression.  The `size_t` operand `inputExtent` is
converted to `double` for the subtraction and the literal `1` for the
addition. -/
def outputExtent (floor : Bool) (inputExtent kernelExtent stride : Nat) : Option Nat := do
  let q ← Double.div (Double.sub (Double.ofSize inputExtent) (Double.ofSize kernelExtent))
    (Double.ofSize stride)
  let v := Double.add q (Double.ofInt 1)
  Double.toSize (if floor then Double.floor v else Double.ceil v)

/-- One iteration of the loop of `Forward` (lines 100-112).  The member
functions `PoolingOperation` and `Unpooling` are declared in max_pooling.hpp,
which is not among the sources; they are parameters here.  `PoolingOperation`
is given the layer (the members it can read) and its three arguments, and
returns what it leaves in its second and third argument, which are
references.  In deterministic mode the third argument is the input slice
itself. -/
def poolSlice {α : Type}
    (PoolingOperation : MaxPooling α → Mat α → Mat α → Mat α → Option (Mat α × Mat α))
    (s : Nat) (l : MaxPooling α) : Option (MaxPooling α) := do
  let inputSlice ← l.inputTemp.slice s
  let outputSlice ← l.outputTemp.slice s
  if l.deterministic then do
    let r ← PoolingOperation l inputSlice outputSlice inputSlice
    let outputTemp ← l.outputTemp.setSlice s r.1
    let inputTemp ← l.inputTemp.setSlice s r.2
    some { l with outputTemp := outputTemp, inputTemp := inputTemp }
  else do
    let back ← l.poolingIndices.getLast?
    let indexSlice ← back.slice s
    let r ← PoolingOperation l inputSlice outputSlice indexSlice
    let outputTemp ← l.outputTemp.setSlice s r.1
    let back ← back.setSlice s r.2
    some { l with outputTemp := outputTemp, poolingIndices := l.poolingIndices.dropLast ++ [back] }

/-- The method `MaxPooling::Forward(input, output)` (lines 54-120): the layer
after the call and `output`. -/
def Forward {α : Type} [Zero α]
    (PoolingOperation : MaxPooling α → Mat α → Mat α → Mat α → Option (Mat α × Mat α))
    (l : MaxPooling α) (input : Mat α) : Except Fault (MaxPooling α × Mat α) := do
  let batchSize := input.n_cols
  let inSize ← liftUndefined
    (szDiv (input.n_rows * input.n_cols) (szMul (szMul l.inputWidth l.inputHeight) batchSize))
  let inputTemp : Cube α := ⟨l.inputWidth, l.inputHeight, szMul batchSize inSize, input.mem⟩
  let outputWidth ← liftUndefined (outputExtent l.floor l.inputWidth l.kernelWidth l.strideWidth)
  let outputHeight ← liftUndefined
    (outputExtent l.floor l.inputHeight l.kernelHeight l.strideHeight)
  let outputTemp : Cube α := Cube.zeros outputWidth outputHeight (szMul batchSize inSize)
  let l1 : MaxPooling α :=
    { l with
      batchSize := batchSize
      inSize := inSize
      inputTemp := inputTemp
      outputWidth := outputWidth
      outputHeight := outputHeight
      offset := if l.floor then 0 else 1
      outputTemp := outputTemp
      poolingIndices := if l.deterministic then l.poolingIndices
        else l.poolingIndices ++ [outputTemp]
      indices := if l.reset then l.indices
        else ⟨l.inputWidth, l.inputHeight, List.range (szMul l.inputWidth l.inputHeight)⟩
      reset := true }
  let l2 ← liftLibrary (forLoop inputTemp.n_slices (poolSlice PoolingOperation) l1)
  let rows ← liftUndefined
    (szDiv (l2.outputTemp.n_rows * l2.outputTemp.n_cols * l2.outputTemp.n_slices) batchSize)
  Except.ok ({ l2 with
      outputWidth := l2.outputTemp.n_rows
      outputHeight := l2.outputTemp.n_cols
      outSize := szMul batchSize inSize },
    ⟨rows, batchSize, l2.outputTemp.mem⟩)

/-- One iteration of the loop of `Backward` (lines 133-137); `back` is
`poolingIndices.back()`.  `Unpooling` is given the layer and its three
arguments and returns what it leaves in its second argument. -/
def unpoolSlice {α : Type}
    (Unpooling : MaxPooling α → Mat α → Mat α → Mat α → Option (Mat α))
    (l : MaxPooling α) (mappedError back : Cube α) (s : Nat) (gTemp : Cube α) :
    Option (Cube α) := do
  let errorSlice ← mappedError.slice s
  let gSlice ← gTemp.slice s
  let indexSlice ← back.slice s
  let r ← Unpooling l errorSlice gSlice indexSlice
  gTemp.setSlice s r

/-- The method `MaxPooling::Backward(input, gy, g)` (lines 122-142): the layer
after the call and `g`.  Nothing checks that `poolingIndices` is not empty:
with an empty vector the call evaluates `poolingIndices.back()` (line 136; the
arguments of a call are evaluated in no fixed order) or, when the loop has no
iteration, goes straight to `poolingIndices.pop_back()` (line 139), and either
is undefined. -/
def Backward {α : Type} [Zero α]
    (Unpooling : MaxPooling α → Mat α → Mat α → Mat α → Option (Mat α))
    (l : MaxPooling α) (_input gy : Mat α) : Except Fault (MaxPooling α × Mat α) :=
  match l.poolingIndices.getLast? with
  | none => Except.error Fault.undefinedBehaviour
  | some back => do
    let mappedError : Cube α := ⟨l.outputWidth, l.outputHeight, l.outSize, gy.mem⟩
    let gTemp : Cube α :=
      Cube.zeros l.inputTemp.n_rows l.inputTemp.n_cols l.inputTemp.n_slices
    let gTemp ← liftLibrary
      (forLoop mappedError.n_slices (unpoolSlice Unpooling l mappedError back) gTemp)
    let rows ← liftUndefined
      (szDiv (gTemp.n_rows * gTemp.n_cols * gTemp.n_slices) l.batchSize)
    Except.ok ({ l with gTemp := gTemp, poolingIndices := l.poolingIndices.dropLast },
      ⟨rows, l.batchSize, gTemp.mem⟩)

/-- A call of the layer: `Forward(input, output)` or `Backward(input, gy, g)`. -/
inductive Call (α : Type) where
  | forward (input : Mat α)
  | backward (input gy : Mat α)

/-- The layer after one call. -/
def step {α : Type} [Zero α]
    (PoolingOperation : MaxPooling α → Mat α → Mat α → Mat α → Option (Mat α × Mat α))
    (Unpooling : MaxPooling α → Mat α → Mat α → Mat α → Option (Mat α))
    (l : MaxPooling α) : Call α → Except Fault (MaxPooling α)
  | Call.forward input => (Forward PoolingOperation l input).map Prod.fst
  | Call.backward input gy => (Backward Unpooling l input gy).map Prod.fst

/-- The layer after a sequence of calls, first call first. -/
def run {α : Type} [Zero α]
    (PoolingOperation : MaxPooling α → Mat α → Mat α → Mat α → Option (Mat α × Mat α))
    (Unpooling : MaxPooling α → Mat α → Mat α → Mat α → Option (Mat α))
    (l : MaxPooling α) : List (Call α) → Except Fault (MaxPooling α)
  | [] => Except.ok l
  | c :: cs => (step PoolingOperation Unpooling l c).bind
      fun l1 => run PoolingOperation Unpooling l1 cs

/-- The number of `Forward` calls in a sequence. -/
def countForward {α : Type} : List (Call α) → Nat
  | [] => 0
  | Call.forward _ :: cs => countForward cs + 1
  | Call.backward _ _ :: cs => countForward cs

/-- The number of `Backward` calls in a sequence. -/
def countBackward {α : Type} : List (Call α) → Nat
  | [] => 0
  | Call.forward _ :: cs => countBackward cs
  | Call.backward _ _ :: cs => countBackward cs + 1

/-- Every prefix of the sequence holds at least as many `Forward` as `Backward`
calls. -/
def Balanced {α : Type} (cs : List (Call α)) : Prop :=
  ∀ n, countBackward (cs.take n) ≤ countForward (cs.take n)

end MaxPooling

/-- A stand-in for `PoolingOperation` that writes the maximum of each slice
nowhere: it leaves both arguments as they are. -/
def idlePooling {α : Type} (_l : MaxPooling α) (_input output poolingIndices : Mat α) :
    Option (Mat α × Mat α) :=
  some (output, poolingIndices)

/-- A stand-in for `Unpooling` that leaves its output argument as it is. -/
def idleUnpooling {α : Type} (_l : MaxPooling α) (_error output _poolingIndices : Mat α) :
    Option (Mat α) :=
  some output

/-- A newly constructed 2 x 2 max-pooling layer with stride 2 (floor mode),
told that its inputs are 4 x 4. -/
def exPool : MaxPooling Int :=
  { (MaxPooling.construct 2 2 2 2 true : MaxPooling Int) with inputWidth := 4, inputHeight := 4 }

/-- A batch of one 4 x 4 single-channel input. -/
def exPoolInput : Mat Int := ⟨16, 1, [1, 2, 3, 4, 5, 6, 7, 8, 9, 10, 11, 12, 13, 14, 15, 16]⟩

/-- An output gradient for `exPool`: one 2 x 2 slice. -/
def exPoolError : Mat Int := ⟨4, 1, [1, 1, 1, 1]⟩

/-- The layer `exPool` after one training-mode `Forward` on `exPoolInput`, with
`idlePooling` in the place of `PoolingOperation`. -/
def exPoolFwd : MaxPooling Int :=
  { exPool with
    batchSize := 1, inSize := 1, outSize := 1, reset := true,
    outputWidth := 2, outputHeight := 2,
    inputTemp := ⟨4, 4, 1, [1, 2, 3, 4, 5, 6, 7, 8, 9, 10, 11, 12, 13, 14, 15, 16]⟩,
    outputTemp := ⟨2, 2, 1, [0, 0, 0, 0]⟩,
    poolingIndices := [⟨2, 2, 1, [0, 0, 0, 0]⟩],
    indices := ⟨4, 4, [0, 1, 2, 3, 4, 5, 6, 7, 8, 9, 10, 11, 12, 13, 14, 15]⟩ }

/-- The layer `exPoolFwd` after `Backward` on `exPoolError`, with
`idleUnpooling` in the place of `Unpooling`. -/
def exPoolFwdBwd : MaxPooling Int :=
  { exPoolFwd with
    gTemp := ⟨4, 4, 1, [0, 0, 0, 0, 0, 0, 0, 0, 0, 0, 0, 0, 0, 0, 0, 0]⟩,
    poolingIndices := [] }

/-- The layer `exPool` after two `Forward` calls and one `Backward` call. -/
def exPoolFwdFwdBwd : MaxPooling Int :=
  { exPoolFwd with
    gTemp := ⟨4, 4, 1, [0, 0, 0, 0, 0, 0, 0, 0, 0, 0, 0, 0, 0, 0, 0, 0]⟩ }

/-- The layer `exPoolFwd` switched to deterministic mode. -/
def exPoolDeterministic : MaxPooling Int :=
  { exPoolFwd with deterministic := true }

/-- A second batch of one 4 x 4 single-channel input. -/
def exPoolInput2 : Mat Int := ⟨16, 1, [16, 15, 14, 13, 12, 11, 10, 9, 8, 7, 6, 5, 4, 3, 2, 1]⟩

/-- The layer `exPoolDeterministic` after `Forward` on `exPoolInput2`. -/
def exPoolDeterministicFwd : MaxPooling Int :=
  { exPoolDeterministic with
    inputTemp := ⟨4, 4, 1, [16, 15, 14, 13, 12, 11, 10, 9, 8, 7, 6, 5, 4, 3, 2, 1]⟩ }

/-- A 1 x 1 max-pooling layer in ceil mode with stride `2^54` on the width axis,
told that its inputs are 2 x 1. -/
def exCeilPool : MaxPooling Int :=
  { (MaxPooling.construct 1 1 18014398509481984 1 false : MaxPooling Int) with
    inputWidth := 2, inputHeight := 1 }

/-- A batch of one 2 x 1 single-channel input. -/
def exCeilInput : Mat Int := ⟨2, 1, [3, 4]⟩

/-- The inner product of two tensors of matching shape, taken over their
buffers: the sum of the products of corresponding elements. -/
def innerProduct {α : Type} [Zero α] [Add α] [Mul α] (a b : List α) : α :=
  (List.zipWith (fun x y => x * y) a b).sum

/-- The layer `exBatchLayer` after `Forward` on one batch item. -/
def exSingleLayerFwd : Convolution Int :=
  { exBatchLayer with batchSize := 1, outputWidth := 1, outputHeight := 1 }

/-- A layer with one input and one output channel, the 2 x 2 kernel 1, 2, 3, 4
(memory order), bias 5, stride 1, no padding, on 3 x 3 inputs. -/
def exKernelLayer : Convolution Int :=
  { inSize := 1, outSize := 1, batchSize := 0, kernelWidth := 2, kernelHeight := 2,
    strideWidth := 1, strideHeight := 1, padWLeft := 0, padWRight := 0, padHBottom := 0,
    padHTop := 0, inputWidth := 3, inputHeight := 3, outputWidth := 0, outputHeight := 0,
    weights := [1, 2, 3, 4, 5], inputPaddedTemp := ⟨0, 0, 0, []⟩ }

/-- A batch of one 3 x 3 single-channel input. -/
def exKernelInput : Mat Int := ⟨9, 1, [1, 2, 3, 4, 5, 6, 7, 8, 9]⟩

/-- An output gradient for `exKernelLayer`: one 2 x 2 slice. -/
def exKernelError : Mat Int := ⟨4, 1, [1, 0, 2, 1]⟩

/-- The overlap policy as the specification describes it: the correlation
result `output` is added to the filter-gradient slice `curGradTemp` on the
top-left region of `min(r, kW) x min(c, kH)` cells, and every other cell of the
slice is left unchanged. -/
def Convolution.specAddOverlap {α : Type} [Zero α] [Add α] (curGradTemp output : Mat α) :
    Mat α :=
  { curGradTemp with
    mem := (List.range curGradTemp.mem.length).map fun idx =>
      if idx % curGradTemp.n_rows < min output.n_rows curGradTemp.n_rows ∧
          idx / curGradTemp.n_rows < min output.n_cols curGradTemp.n_cols then
        curGradTemp.mem.getD idx 0
          + output.elem (idx % curGradTemp.n_rows) (idx / curGradTemp.n_rows)
      else curGradTemp.mem.getD idx 0 }

/-- A layer with one input and one output channel, the 1 x 2 kernel 1, 1,
bias 0, stride 2 on both axes, no padding, on 4 x 2 inputs. -/
def exMixedLayer : Convolution Int :=
  { inSize := 1, outSize := 1, batchSize := 0, kernelWidth := 1, kernelHeight := 2,
    strideWidth := 2, strideHeight := 2, padWLeft := 0, padWRight := 0, padHBottom := 0,
    padHTop := 0, inputWidth := 4, inputHeight := 2, outputWidth := 0, outputHeight := 0,
    weights := [1, 1, 0], inputPaddedTemp := ⟨0, 0, 0, []⟩ }

/-- The layer `exMixedLayer` after `Forward` on one batch item. -/
def exMixedLayerFwd : Convolution Int :=
  { exMixedLayer with batchSize := 1, outputWidth := 2, outputHeight := 1 }

/-- A batch of one 4 x 2 single-channel input. -/
def exMixedInput : Mat Int := ⟨8, 1, [1, 2, 3, 4, 5, 6, 7, 8]⟩

/-- An output gradient for `exMixedLayer`: one 2 x 1 slice. -/
def exMixedError : Mat Int := ⟨2, 1, [1, 1]⟩

/-- A layer with one input and one output channel, the 1 x 1 kernel 1, bias 0,
stride 2 on both axes, no padding, on 4 x 1 inputs. -/
def exStrideLayer : Convolution Int :=
  { inSize := 1, outSize := 1, batchSize := 0, kernelWidth := 1, kernelHeight := 1,
    strideWidth := 2, strideHeight := 2, padWLeft := 0, padWRight := 0, padHBottom := 0,
    padHTop := 0, inputWidth := 4, inputHeight := 1, outputWidth := 0, outputHeight := 0,
    weights := [1, 0], inputPaddedTemp := ⟨0, 0, 0, []⟩ }

/-- The layer `exStrideLayer` after `Forward` on one batch item. -/
def exStrideLayerFwd : Convolution Int :=
  { exStrideLayer with batchSize := 1, outputWidth := 2, outputHeight := 1 }

/-- A batch of one 4 x 1 single-channel input. -/
def exStrideInput : Mat Int := ⟨4, 1, [1, 2, 3, 4]⟩

/-- An output gradient for `exStrideLayer`: one 2 x 1 slice. -/
def exStrideError : Mat Int := ⟨2, 1, [1, 1]⟩

/-- The shape of the gradient cube of `Backward` during the loops. -/
def Convolution.GradShape {α : Type} (W H n : Nat) (g : Cube α) : Prop :=
  g.n_rows = W ∧ g.n_cols = H ∧ g.n_slices = n ∧ g.mem.length = W * H * n

/-- A layer with two input channels and one output channel, the 2 x 2 kernels
1, 2, 3, 4 and 0, 1, -1, 2 (memory order), bias 0, stride 1, no padding, on
3 x 2 inputs. -/
def exAdjointLayer : Convolution Int :=
  { inSize := 2, outSize := 1, batchSize := 0, kernelWidth := 2, kernelHeight := 2,
    strideWidth := 1, strideHeight := 1, padWLeft := 0, padWRight := 0, padHBottom := 0,
    padHTop := 0, inputWidth := 3, inputHeight := 2, outputWidth := 0, outputHeight := 0,
    weights := [1, 2, 3, 4, 0, 1, -1, 2, 0], inputPaddedTemp := ⟨0, 0, 0, []⟩ }

/-- A batch of two inputs for `exAdjointLayer`, each with two 3 x 2 channels. -/
def exAdjointInput : Mat Int :=
  ⟨12, 2, [1, 2, 3, 4, 5, 6, 0, 1, 0, 2, 0, 3, 2, 0, 1, 0, 1, 1, 3, 1, 4, 1, 5, 9]⟩

/-- An output gradient for `exAdjointLayer`: two batch items, each one 2 x 1
slice. -/
def exAdjointError : Mat Int := ⟨2, 2, [1, 2, 3, -1]⟩

/-- The layer `exAdjointLayer` after `Forward` on a batch of two items. -/
def exAdjointLayerFwd : Convolution Int :=
  { exAdjointLayer with batchSize := 2, outputWidth := 2, outputHeight := 1 }

/-! ## The element type `double` -/

/-- A value of the element type `double` (IEEE 754 binary64): a finite number,
an infinity or a NaN.  A finite value is kept as the fraction `Frac.roundDouble`
returns for it; the sign of a zero is not modelled (`+0` and `-0` compare equal
and no operation of the kernel tells them apart).  Every sum and every product
is rounded on its own; in the examples on doubles below every product is exact,
so that a fused multiply-add returns the same values. -/
inductive Binary64 where
  | finite (v : Frac)
  | infinity (negative : Bool)
  | nan
deriving DecidableEq

namespace Binary64

/-- Rounding of an exact result to binary64, round to nearest, ties to even:
below `2^-1022` the representable numbers are the multiples of `2^-1074`, a
rounded magnitude of `2^1024` or more is an infinity. -/
def round (x : Frac) : Binary64 :=
  if x.num = 0 then finite ⟨0, 1⟩
  else if Frac.binaryExponent x.num.natAbs x.den < -1022 then
    finite (Frac.roundDouble
      ⟨Int.sign x.num * (Frac.roundNearestEven (x.num.natAbs * (1 <<< 1074)) x.den : Nat),
        (1 <<< 1074)⟩)
  else if (1 <<< 1024) * (Frac.roundDouble x).den ≤ (Frac.roundDouble x).num.natAbs then
    infinity (decide (x.num < 0))
  else finite (Frac.roundDouble x)

/-- The conversion of an integer to `double`. -/
def ofInt (n : Int) : Binary64 := round ⟨n, 1⟩

/-- The sum `a + b` of two doubles. -/
def add : Binary64 → Binary64 → Binary64
  | finite a, finite b => round ⟨a.num * b.den + b.num * a.den, a.den * b.den⟩
  | finite _, infinity s => infinity s
  | infinity s, finite _ => infinity s
  | infinity s, infinity t => if s = t then infinity s else nan
  | nan, _ => nan
  | _, nan => nan

/-- The product `a * b` of two doubles; `0 * inf` is a NaN. -/
def mul : Binary64 → Binary64 → Binary64
  | finite a, finite b => round ⟨a.num * b.num, a.den * b.den⟩
  | finite a, infinity s => if a.num = 0 then nan else infinity (xor (decide (a.num < 0)) s)
  | infinity s, finite a => if a.num = 0 then nan else infinity (xor s (decide (a.num < 0)))
  | infinity s, infinity t => infinity (xor s t)
  | nan, _ => nan
  | _, nan => nan

instance : Zero Binary64 := ⟨finite ⟨0, 1⟩⟩

instance : Add Binary64 := ⟨add⟩

instance : Mul Binary64 := ⟨mul⟩

end Binary64

/-- The matrix of doubles converted from a matrix of integers. -/
def Mat.toDouble (m : Mat Int) : Mat Binary64 :=
  ⟨m.n_rows, m.n_cols, m.mem.map Binary64.ofInt⟩

/-- A 2 x 2 filter of doubles holding `2^53`, 1, 1 and 1. -/
def exDoubleFilter : Mat Binary64 :=
  ⟨2, 2, [Binary64.ofInt (2 ^ 53), Binary64.ofInt 1, Binary64.ofInt 1, Binary64.ofInt 1]⟩

/-- A 3 x 2 matrix holding 1 .. 6 in memory order. -/
def ex3x2 : Mat Int := ⟨3, 2, [1, 2, 3, 4, 5, 6]⟩

/-- The shape of the parameter-gradient cube of `Gradient` during the loops:
`n` filter slices of `kW x kH` elements over a buffer that holds `m` more
elements, the bias entries. -/
def Convolution.ParamShape {α : Type} (kW kH n m : Nat) (g : Cube α) : Prop :=
  g.n_rows = kW ∧ g.n_cols = kH ∧ g.n_slices = n ∧ g.mem.length = kW * kH * n + m

/-- A layer with two input channels and one output channel, the 2 x 2 kernels
1, 2, 3, 4 and 0, 1, -1, 2 (memory order), bias 0, stride 1, one row of padding
before and one column of padding after the 2 x 2 inputs. -/
def exPaddedLayer : Convolution Int :=
  { inSize := 2, outSize := 1, batchSize := 0, kernelWidth := 2, kernelHeight := 2,
    strideWidth := 1, strideHeight := 1, padWLeft := 1, padWRight := 0, padHBottom := 1,
    padHTop := 0, inputWidth := 2, inputHeight := 2, outputWidth := 0, outputHeight := 0,
    weights := [1, 2, 3, 4, 0, 1, -1, 2, 0], inputPaddedTemp := ⟨0, 0, 0, []⟩ }

/-- A batch of two inputs for `exPaddedLayer`, each with two 2 x 2 channels. -/
def exPaddedInput : Mat Int := ⟨8, 2, [1, 2, 3, 4, 0, 1, 2, 0, 2, 0, 1, 1, 3, 1, 4, 1]⟩

/-- An output gradient for `exPaddedLayer`: two batch items, each one 2 x 2
slice. -/
def exPaddedError : Mat Int := ⟨4, 2, [1, 2, 0, -1, 3, -1, 1, 2]⟩

/-- The layer `exBatchLayer` with bias 1 instead of 0. -/
def exBiasLayer : Convolution Int := { exBatchLayer with weights := [3, 1] }

/-- A layer with one input and one output channel, the 1 x 1 kernel 1, bias 0,
stride 2 on both axes, no padding, on 3 x 1 inputs. -/
def exStrideTwoLayer : Convolution Int :=
  { inSize := 1, outSize := 1, batchSize := 0, kernelWidth := 1, kernelHeight := 1,
    strideWidth := 2, strideHeight := 2, padWLeft := 0, padWRight := 0, padHBottom := 0,
    padHTop := 0, inputWidth := 3, inputHeight := 1, outputWidth := 0, outputHeight := 0,
    weights := [1, 0], inputPaddedTemp := ⟨0, 0, 0, []⟩ }

/-- The layer `exBiasLayer` after `Forward` on a batch of two items. -/
def exBiasLayerFwd : Convolution Int :=
  { exBiasLayer with batchSize := 2, outputWidth := 1, outputHeight := 1 }

/-- The layer `exStrideTwoLayer` after `Forward` on one batch item. -/
def exStrideTwoLayerFwd : Convolution Int :=
  { exStrideTwoLayer with batchSize := 1, outputWidth := 2, outputHeight := 1 }

/-! # Theorems -/

/-! ## size_t arithmetic without wrap-around -/

theorem szAdd_eq {a b : Nat} (h : a + b < SIZE_MOD) : szAdd a b = a + b :=
  Nat.mod_eq_of_lt h

theorem szMul_eq {a b : Nat} (h : a * b < SIZE_MOD) : szMul a b = a * b :=
  Nat.mod_eq_of_lt h

theorem szSub_eq {a b : Nat} (hb : b ≤ a) (ha : a < SIZE_MOD) : szSub a b = a - b := by
  unfold szSub SIZE_MOD at *
  omega

/-! ## Loops -/

theorem forLoop_succ {σ : Type} (n : Nat) (body : Nat → σ → Option σ) (s : σ) :
    forLoop (n + 1) body s = (forLoop n body s).bind (body n) := rfl

/-- Invariant rule for `forLoop`: an invariant that every iteration establishes
again, and under which every iteration succeeds, holds at the end. -/
theorem forLoop_inv {σ : Type} (P : Nat → σ → Prop) (n : Nat) (body : Nat → σ → Option σ)
    (s : σ) (h0 : P 0 s)
    (hstep : ∀ k, k < n → ∀ t, P k t → ∃ t', body k t = some t' ∧ P (k + 1) t') :
    ∃ t, forLoop n body s = some t ∧ P n t := by
  induction n with
  | zero => exact ⟨s, rfl, h0⟩
  | succ m ih =>
    obtain ⟨t, ht, hP⟩ := ih (fun k hk => hstep k (Nat.lt_succ_of_lt hk))
    obtain ⟨t', ht', hP'⟩ := hstep m (Nat.lt_succ_self m) t hP
    exact ⟨t', by rw [forLoop_succ, ht]; exact ht', hP'⟩

/-- Simulation rule for `forLoop`: if the bodies of two loops preserve a relation
between their states, a successful run of the first is matched by the second. -/
theorem forLoop_sim {σ τ : Type} (R : σ → τ → Prop) (n : Nat)
    (body : Nat → σ → Option σ) (body2 : Nat → τ → Option τ)
    (hstep : ∀ k, k < n → ∀ s t s', R s t → body k s = some s' →
      ∃ t', body2 k t = some t' ∧ R s' t')
    (s : σ) (t : τ) (s' : σ) (hR : R s t) (hs : forLoop n body s = some s') :
    ∃ t', forLoop n body2 t = some t' ∧ R s' t' := by
  induction n generalizing s' with
  | zero =>
    simp only [forLoop, Option.some.injEq] at hs
    subst hs
    exact ⟨t, rfl, hR⟩
  | succ m ih =>
    rw [forLoop_succ] at hs
    cases hm : forLoop m body s with
    | none => rw [hm] at hs; simp at hs
    | some s1 =>
      rw [hm] at hs
      obtain ⟨t1, ht1, hR1⟩ := ih (fun k hk => hstep k (Nat.lt_succ_of_lt hk)) s1 hm
      obtain ⟨t2, ht2, hR2⟩ := hstep m (Nat.lt_succ_self m) s1 t1 s' hR1 hs
      exact ⟨t2, by rw [forLoop_succ, ht1]; exact ht2, hR2⟩

/-- A loop whose body never fails and is congruent on the indices it runs. -/
theorem forLoop_congr {σ : Type} (n : Nat) (body body2 : Nat → σ → Option σ)
    (h : ∀ k, k < n → ∀ s, body k s = body2 k s) (s : σ) :
    forLoop n body s = forLoop n body2 s := by
  induction n with
  | zero => rfl
  | succ m ih =>
    rw [forLoop_succ, forLoop_succ, ih (fun k hk => h k (Nat.lt_succ_of_lt hk))]
    cases forLoop m body2 s with
    | none => rfl
    | some t => exact h m (Nat.lt_succ_self m) t

/-! ## Flat indices -/

theorem flat_lt {r c i j : Nat} (hi : i < r) (hj : j < c) : j * r + i < r * c := by
  have h1 : j * r + i < (j + 1) * r := by rw [Nat.succ_mul]; omega
  have h2 : (j + 1) * r ≤ c * r := Nat.mul_le_mul_right r hj
  rw [Nat.mul_comm r c]
  omega

theorem flat_div {r i j : Nat} (hi : i < r) : (j * r + i) / r = j := by
  rw [Nat.mul_comm, Nat.mul_add_div (by omega), Nat.div_eq_of_lt hi, Nat.add_zero]

theorem flat_mod {r i j : Nat} (hi : i < r) : (j * r + i) % r = i := by
  rw [Nat.mul_comm, Nat.mul_add_mod, Nat.mod_eq_of_lt hi]

theorem list_set_same {α : Type} (l : List α) (p : Nat) (v : α) (h : l[p]? = some v) :
    l.set p v = l := by
  apply List.ext_getElem?
  intro n
  by_cases hn : p = n
  · subst hn
    rw [List.getElem?_set_self (by
      rcases List.getElem?_eq_some.mp h with ⟨hp, _⟩
      exact hp), h]
  · rw [List.getElem?_set_ne hn]

/-! ## The valid-mode loops -/

namespace NaiveConvolution

theorem getElem?_of_lt_getD {α : Type} [Zero α] (l : List α) (n : Nat) (h : n < l.length) :
    l[n]? = some (l.getD n 0) := by
  simp [List.getD_eq_getElem?_getD, List.getElem?_eq_getElem h]

/-- The innermost loop (over `ki`) adds the products of one filter column to
the output cell. -/
theorem ki_loop {α : Type} [CommRing α] (input filter : Mat α)
    (dW dH dilW dilH o_rows j i kj : Nat) (rd : Nat → α)
    (hF : filter.mem.length = filter.n_rows * filter.n_cols) (hkj : kj < filter.n_cols)
    (hrd : ∀ ki, ki < filter.n_rows →
      input.mem[inputOffset input.n_rows dW dH dilW dilH j i kj ki]? = some (rd ki))
    (out : List α) (hp : j * o_rows + i < out.length) (a : α) :
    forLoop filter.n_rows (fun ki out =>
        convStep input filter dW dH dilW dilH o_rows j i kj ki out) (out.set (j * o_rows + i) a)
      = some (out.set (j * o_rows + i)
          (a + ∑ ki ∈ Finset.range filter.n_rows, filter.elem ki kj * rd ki)) := by
  obtain ⟨t, ht, hP⟩ := forLoop_inv
    (fun n t => t = out.set (j * o_rows + i)
      (a + ∑ ki ∈ Finset.range n, filter.elem ki kj * rd ki))
    filter.n_rows
    (fun ki out => convStep input filter dW dH dilW dilH o_rows j i kj ki out)
    (out.set (j * o_rows + i) a) (by simp)
    (by
      intro ki hki t ht
      subst ht
      refine ⟨_, ?_, rfl⟩
      have hk : filter.mem[kj * filter.n_rows + ki]? = some (filter.elem ki kj) :=
        getElem?_of_lt_getD _ _ (by rw [hF]; exact flat_lt hki hkj)
      simp only [convStep, hk, hrd ki hki, List.getElem?_set_self hp, Option.bind_eq_bind,
        Option.some_bind, List.set_set, Finset.sum_range_succ, add_assoc])
  rw [ht, hP]

/-- The two inner loops (over `kj` and `ki`) add the whole window sum to the
output cell. -/
theorem cell_loops {α : Type} [CommRing α] (input filter : Mat α)
    (dW dH dilW dilH o_rows j i : Nat) (rd : Nat → Nat → α)
    (hF : filter.mem.length = filter.n_rows * filter.n_cols)
    (hrd : ∀ kj, kj < filter.n_cols → ∀ ki, ki < filter.n_rows →
      input.mem[inputOffset input.n_rows dW dH dilW dilH j i kj ki]? = some (rd kj ki))
    (out : List α) (v : α) (hv : out[j * o_rows + i]? = some v) :
    forLoop filter.n_cols (fun kj out =>
        forLoop filter.n_rows (fun ki out =>
          convStep input filter dW dH dilW dilH o_rows j i kj ki out) out) out
      = some (out.set (j * o_rows + i)
          (v + ∑ kj ∈ Finset.range filter.n_cols, ∑ ki ∈ Finset.range filter.n_rows,
            filter.elem ki kj * rd kj ki)) := by
  have hp : j * o_rows + i < out.length := (List.getElem?_eq_some.mp hv).1
  obtain ⟨t, ht, hP⟩ := forLoop_inv
    (fun n t => t = out.set (j * o_rows + i)
      (v + ∑ kj ∈ Finset.range n, ∑ ki ∈ Finset.range filter.n_rows,
        filter.elem ki kj * rd kj ki))
    filter.n_cols
    (fun kj out => forLoop filter.n_rows (fun ki out =>
      convStep input filter dW dH dilW dilH o_rows j i kj ki out) out)
    out (by simp [list_set_same out _ v hv])
    (by
      intro kj hkj t ht
      subst ht
      refine ⟨_, ki_loop input filter dW dH dilW dilH o_rows j i kj (rd kj) hF hkj
        (hrd kj hkj) out hp _, ?_⟩
      simp only [Finset.sum_range_succ, add_assoc])
  rw [ht, hP]

/-- The four loops succeed when every read is inside the input, and add the
window sum to every output cell. -/
theorem convLoops_spec {α : Type} [CommRing α] (input filter : Mat α)
    (dW dH dilW dilH o_rows o_cols : Nat) (rd : Nat → Nat → Nat → Nat → α)
    (hF : filter.mem.length = filter.n_rows * filter.n_cols)
    (hrd : ∀ j, j < o_cols → ∀ i, i < o_rows → ∀ kj, kj < filter.n_cols →
      ∀ ki, ki < filter.n_rows →
      input.mem[inputOffset input.n_rows dW dH dilW dilH j i kj ki]? = some (rd j i kj ki))
    (out : List α) (hlen : out.length = o_rows * o_cols) :
    ∃ t, convLoops input filter dW dH dilW dilH o_rows o_cols out = some t ∧
      CellsDone filter rd o_rows out (o_cols * o_rows) t := by
  unfold convLoops
  apply forLoop_inv (fun j t => CellsDone filter rd o_rows out (j * o_rows) t)
  · refine ⟨rfl, fun idx => ?_⟩
    simp
  · intro j hj t ht
    have h := forLoop_inv (fun i t => CellsDone filter rd o_rows out (j * o_rows + i) t)
      o_rows
      (fun i out => forLoop filter.n_cols (fun kj out =>
        forLoop filter.n_rows (fun ki out =>
          convStep input filter dW dH dilW dilH o_rows j i kj ki out) out) out)
      t ht
      (by
        intro i hi u hu
        have hp : j * o_rows + i < out.length := by rw [hlen]; exact flat_lt hi hj
        have hv : u[j * o_rows + i]? = some out[j * o_rows + i] := by
          rw [hu.2, if_neg (Nat.lt_irrefl _), List.getElem?_eq_getElem hp]
        refine ⟨_, cell_loops input filter dW dH dilW dilH o_rows j i (rd j i) hF
          (hrd j hj i hi) u _ hv, ?_⟩
        refine ⟨by rw [List.length_set]; exact hu.1, fun idx => ?_⟩
        by_cases hidx : j * o_rows + i = idx
        · subst hidx
          rw [List.getElem?_set_self (by rw [hu.1]; exact hp),
            if_pos (by omega), List.getElem?_eq_getElem hp, flat_div hi, flat_mod hi]
          rfl
        · rw [List.getElem?_set_ne hidx, hu.2]
          by_cases h1 : idx < j * o_rows + i
          · rw [if_pos h1, if_pos (by omega)]
          · rw [if_neg h1, if_neg (by omega)])
    obtain ⟨u, hu, hQ⟩ := h
    refine ⟨u, hu, ?_⟩
    rw [Nat.succ_mul]
    exact hQ

/-- Without wrap-around the valid-mode output extent is
`(n - (f - 1) * d - 1) / s + 1`. -/
theorem validOutSize_eq {n f s d : Nat} (hf : 1 ≤ f) (hfit : (f - 1) * d + 1 ≤ n)
    (hf2 : f < SIZE_MOD) (hn : n < SIZE_MOD) (hs : 1 ≤ s) :
    validOutSize n f s d = some ((n - (f - 1) * d - 1) / s + 1) := by
  have h1 : szSub f 1 = f - 1 := szSub_eq hf hf2
  have h2 : szMul (f - 1) d = (f - 1) * d := szMul_eq (by omega)
  have h3 : szSub n ((f - 1) * d) = n - (f - 1) * d := szSub_eq (by omega) hn
  have h4 : szSub (n - (f - 1) * d) 1 = n - (f - 1) * d - 1 := szSub_eq (by omega) (by omega)
  have h5 : (n - (f - 1) * d - 1) / s ≤ n - (f - 1) * d - 1 := Nat.div_le_self _ _
  have h6 : szAdd ((n - (f - 1) * d - 1) / s) 1 = (n - (f - 1) * d - 1) / s + 1 :=
    szAdd_eq (by omega)
  unfold validOutSize szDiv
  rw [h1, h2, h3, h4, if_neg (by omega)]
  simp [h6]

/-- A read at column `col < n_cols`, row `row < n_rows` is inside the input and
returns element `(row, col)`. -/
theorem input_read {α : Type} [Zero α] (input : Mat α) (hI : input.WF)
    (dW dH dilW dilH j i kj ki : Nat)
    (hcol : kj * dilW + j * dW < input.n_cols) (hrow : i * dH + ki * dilH < input.n_rows) :
    input.mem[inputOffset input.n_rows dW dH dilW dilH j i kj ki]?
      = some (input.elem (i * dH + ki * dilH) (kj * dilW + j * dW)) := by
  obtain ⟨hlen, hsz, hr, hc⟩ := hI
  have hflat := flat_lt hrow hcol
  have e1 : szMul kj dilW = kj * dilW := szMul_eq (by omega)
  have e2 : szMul j dW = j * dW := szMul_eq (by omega)
  have e3 : szAdd (kj * dilW) (j * dW) = kj * dilW + j * dW := szAdd_eq (by omega)
  have e4 : szMul (kj * dilW + j * dW) input.n_rows = (kj * dilW + j * dW) * input.n_rows :=
    szMul_eq (by omega)
  have e5 : szMul i dH = i * dH := szMul_eq (by omega)
  unfold inputOffset
  rw [e1, e2, e3, e4, e5]
  have : (kj * dilW + j * dW) * input.n_rows + i * dH + ki * dilH
      = (kj * dilW + j * dW) * input.n_rows + (i * dH + ki * dilH) := by omega
  rw [this]
  exact getElem?_of_lt_getD _ _ (by rw [hlen]; exact hflat)

/-- Non-accumulating valid-mode convolution whose reads all stay inside the
input: it returns, and every output cell is the window sum the loops compute. -/
theorem valid_spec {α : Type} [CommRing α] (input filter out0 : Mat α)
    (dW dH dilW dilH o_rows o_cols : Nat) (hI : input.WF)
    (hF : filter.mem.length = filter.n_rows * filter.n_cols)
    (hr : validOutSize input.n_rows filter.n_rows dW dilW = some o_rows)
    (hc : validOutSize input.n_cols filter.n_cols dH dilH = some o_cols)
    (hin : ∀ j, j < o_cols → ∀ i, i < o_rows → ∀ kj, kj < filter.n_cols →
      ∀ ki, ki < filter.n_rows →
      kj * dilW + j * dW < input.n_cols ∧ i * dH + ki * dilH < input.n_rows) :
    ∃ out, ConvolutionValid input filter out0 dW dH dilW dilH false = some out ∧
      out.n_rows = o_rows ∧ out.n_cols = o_cols ∧ out.mem.length = o_rows * o_cols ∧
      ∀ i, i < o_rows → ∀ j, j < o_cols →
        out.elem i j = ∑ kj ∈ Finset.range filter.n_cols, ∑ ki ∈ Finset.range filter.n_rows,
          filter.elem ki kj * input.elem (i * dH + ki * dilH) (kj * dilW + j * dW) := by
  obtain ⟨t, ht, hlen, hcells⟩ := convLoops_spec input filter dW dH dilW dilH o_rows o_cols
    (fun j i kj ki => input.elem (i * dH + ki * dilH) (kj * dilW + j * dW)) hF
    (fun j hj i hi kj hkj ki hki =>
      input_read input hI dW dH dilW dilH j i kj ki (hin j hj i hi kj hkj ki hki).1
        (hin j hj i hi kj hkj ki hki).2)
    (List.replicate (o_rows * o_cols) 0) (by simp)
  refine ⟨⟨o_rows, o_cols, t⟩, ?_, rfl, rfl, by simpa using hlen, ?_⟩
  · simp [ConvolutionValid, hr, hc, Mat.zeros, ht]
  · intro i hi j hj
    have hp := flat_lt hi hj
    have h := hcells (j * o_rows + i)
    rw [if_pos (by rw [Nat.mul_comm o_cols]; exact hp),
      List.getElem?_replicate_of_lt hp, flat_div hi, flat_mod hi] at h
    simp only [Mat.elem, List.getD_eq_getElem?_getD, h, Option.map_some', Option.getD_some,
      zero_add, windowSum]

/-- Every tap of every window stays below the input extent when the dilated
filter fits. -/
theorem fits_bound {n f s d j k : Nat} (hfit : (f - 1) * d + 1 ≤ n)
    (hj : j < (n - (f - 1) * d - 1) / s + 1) (hk : k < f) : k * d + j * s < n := by
  have h1 : j * s ≤ (n - (f - 1) * d - 1) / s * s := Nat.mul_le_mul_right s (by omega)
  have h2 : (n - (f - 1) * d - 1) / s * s ≤ n - (f - 1) * d - 1 := Nat.div_mul_le_self _ _
  have h3 : k * d ≤ (f - 1) * d := Nat.mul_le_mul_right d (by omega)
  omega

/-- The valid-mode convolution with the same stride `s` and the same dilation
`d` on both axes returns the strided, dilated window sums. -/
theorem valid_same_stride {α : Type} [CommRing α] (input filter out0 : Mat α) (s d : Nat)
    (hI : input.WF) (hF : filter.WF) (hs : 1 ≤ s)
    (hfr : 1 ≤ filter.n_rows) (hfc : 1 ≤ filter.n_cols)
    (hr : (filter.n_rows - 1) * d + 1 ≤ input.n_rows)
    (hc : (filter.n_cols - 1) * d + 1 ≤ input.n_cols) :
    ∃ out, ConvolutionValid input filter out0 s s d d false = some out ∧
      out.n_rows = (input.n_rows - (filter.n_rows - 1) * d - 1) / s + 1 ∧
      out.n_cols = (input.n_cols - (filter.n_cols - 1) * d - 1) / s + 1 ∧
      out.mem.length = out.n_rows * out.n_cols ∧
      ∀ i, i < out.n_rows → ∀ j, j < out.n_cols →
        out.elem i j = specWindow input filter s s d d i j := by
  obtain ⟨out, h1, h2, h3, h4, h5⟩ := valid_spec input filter out0 s s d d _ _ hI hF.1
    (validOutSize_eq hfr hr hF.2.2.1 hI.2.2.1 hs)
    (validOutSize_eq hfc hc hF.2.2.2 hI.2.2.2 hs)
    (fun j hj i hi kj hkj ki hki =>
      ⟨fits_bound hc hj hkj, by
        have := fits_bound hr hi hki
        omega⟩)
  refine ⟨out, h1, h2, h3, by rw [h4, h2, h3], ?_⟩
  intro i hi j hj
  rw [h5 i (h2 ▸ hi) j (h3 ▸ hj), specWindow, Finset.sum_comm]
  refine Finset.sum_congr rfl (fun ki _ => Finset.sum_congr rfl (fun kj _ => ?_))
  rw [Nat.add_comm (kj * d)]

end NaiveConvolution

/-! ## Accumulating calls -/

namespace NaiveConvolution

theorem zipWith_add_set {α : Type} [Add α] (O a : List α) (p : Nat) (o v : α)
    (hO : O[p]? = some o) :
    List.zipWith (fun x y => x + y) O (a.set p v)
      = (List.zipWith (fun x y => x + y) O a).set p (o + v) := by
  apply List.ext_getElem?
  intro n
  by_cases hn : p = n
  · subst hn
    by_cases hp : p < a.length
    · rw [List.getElem?_set_self (by
        simp only [List.length_zipWith]
        have := (List.getElem?_eq_some.mp hO).1
        omega)]
      simp [List.getElem?_zipWith, hO, List.getElem?_set_self hp]
    · rw [List.set_eq_of_length_le (by omega),
        List.set_eq_of_length_le (by simp only [List.length_zipWith]; omega)]
  · rw [List.getElem?_set_ne hn]
    simp [List.getElem?_zipWith, List.getElem?_set_ne hn]

theorem zipWith_add_zeros {α : Type} [AddMonoid α] (O : List α) :
    List.zipWith (fun x y => x + y) O (List.replicate O.length 0) = O := by
  apply List.ext_getElem?
  intro n
  by_cases hn : n < O.length
  · simp [List.getElem?_zipWith, List.getElem?_eq_getElem hn,
      List.getElem?_replicate_of_lt hn]
  · simp [List.getElem?_zipWith, List.getElem?_eq_none (Nat.le_of_not_lt hn)]

/-- One step on the buffer that started from `O` mirrors the step on the buffer
that started from zeros. -/
theorem convStep_sim {α : Type} [CommRing α] (input filter : Mat α)
    (dW dH dilW dilH o_rows j i kj ki : Nat) (O a b a' : List α) (hR : AddsTo O a b)
    (ha : convStep input filter dW dH dilW dilH o_rows j i kj ki a = some a') :
    ∃ b', convStep input filter dW dH dilW dilH o_rows j i kj ki b = some b' ∧
      AddsTo O a' b' := by
  obtain ⟨hlen, hb⟩ := hR
  simp only [convStep, Option.bind_eq_bind, Option.bind_eq_some] at ha
  obtain ⟨k, hk, x, hx, o, ho, ha'⟩ := ha
  simp only [Option.some.injEq] at ha'
  subst ha'
  have hp : j * o_rows + i < O.length := by
    have := (List.getElem?_eq_some.mp ho).1
    omega
  have hO : O[j * o_rows + i]? = some O[j * o_rows + i] := List.getElem?_eq_getElem hp
  have hbp : b[j * o_rows + i]? = some (O[j * o_rows + i] + o) := by
    rw [hb]
    simp [List.getElem?_zipWith, hO, ho]
  refine ⟨b.set (j * o_rows + i) (O[j * o_rows + i] + o + k * x), ?_, ?_, ?_⟩
  · simp [convStep, hk, hx, hbp]
  · rw [List.length_set]; exact hlen
  · rw [zipWith_add_set O a _ _ _ hO, hb, add_assoc]

/-- The four loops on the buffer that started from `O` mirror the loops on the
buffer that started from zeros. -/
theorem convLoops_sim {α : Type} [CommRing α] (input filter : Mat α)
    (dW dH dilW dilH o_rows o_cols : Nat) (O a b a' : List α) (hR : AddsTo O a b)
    (ha : convLoops input filter dW dH dilW dilH o_rows o_cols a = some a') :
    ∃ b', convLoops input filter dW dH dilW dilH o_rows o_cols b = some b' ∧
      AddsTo O a' b' := by
  unfold convLoops at *
  refine forLoop_sim (AddsTo O) o_cols _ _ ?_ a b a' hR ha
  intro j _ s t s' hst hs
  refine forLoop_sim (AddsTo O) o_rows _ _ ?_ s t s' hst hs
  intro i _ s t s' hst hs
  refine forLoop_sim (AddsTo O) filter.n_cols _ _ ?_ s t s' hst hs
  intro kj _ s t s' hst hs
  refine forLoop_sim (AddsTo O) filter.n_rows _ _ ?_ s t s' hst hs
  intro ki _ s t s' hst hs
  exact convStep_sim input filter dW dH dilW dilH o_rows j i kj ki O s t s' hst hs

/-- What a successful non-accumulating call returns: the loops, run over a
zero matrix of the result's size. -/
theorem valid_false_inv {α : Type} [Zero α] [Add α] [Mul α] (input filter out0 R : Mat α)
    (dW dH dilW dilH : Nat)
    (hR : ConvolutionValid input filter out0 dW dH dilW dilH false = some R) :
    validOutSize input.n_rows filter.n_rows dW dilW = some R.n_rows ∧
    validOutSize input.n_cols filter.n_cols dH dilH = some R.n_cols ∧
    convLoops input filter dW dH dilW dilH R.n_rows R.n_cols
      (List.replicate (R.n_rows * R.n_cols) 0) = some R.mem := by
  simp only [ConvolutionValid, Bool.false_eq_true, if_false, Option.bind_eq_bind,
    Option.bind_eq_some, Option.some.injEq, Mat.zeros] at hR
  obtain ⟨r, hr, c, hc, z, hz, mem, hmem, hout⟩ := hR
  subst hz hout
  exact ⟨hr, hc, hmem⟩

/-- An accumulating call into a matrix `O` of the size of the non-accumulating
result `R` returns `O + R`. -/
theorem valid_appending {α : Type} [CommRing α] (input filter out0 O R : Mat α)
    (dW dH dilW dilH : Nat)
    (hR : ConvolutionValid input filter out0 dW dH dilW dilH false = some R)
    (hrows : O.n_rows = R.n_rows) (hcols : O.n_cols = R.n_cols)
    (hlen : O.mem.length = O.n_rows * O.n_cols) :
    ConvolutionValid input filter O dW dH dilW dilH true
      = some ⟨O.n_rows, O.n_cols, List.zipWith (fun x y => x + y) O.mem R.mem⟩ ∧
    R.mem.length = O.mem.length := by
  obtain ⟨-, -, hloops⟩ := valid_false_inv input filter out0 R dW dH dilW dilH hR
  have hlen2 : R.n_rows * R.n_cols = O.mem.length := by rw [hlen, hrows, hcols]
  rw [hlen2] at hloops
  obtain ⟨b, hb, hb1, hb2⟩ := convLoops_sim input filter dW dH dilW dilH R.n_rows R.n_cols
    O.mem _ O.mem R.mem ⟨by simp, (zipWith_add_zeros O.mem).symm⟩ hloops
  refine ⟨?_, hb1⟩
  simp only [ConvolutionValid, if_true, Option.bind_eq_bind, Option.some_bind, hrows, hcols,
    hb, hb2]

/-- Cells of a cell-by-cell sum of two buffers. -/
theorem getD_zipWith_add {α : Type} [AddMonoid α] (O R : List α) (n : Nat)
    (hlen : R.length = O.length) :
    (List.zipWith (fun x y => x + y) O R).getD n 0 = O.getD n 0 + R.getD n 0 := by
  by_cases hn : n < O.length
  · simp [List.getD_eq_getElem?_getD, List.getElem?_zipWith, List.getElem?_eq_getElem hn,
      List.getElem?_eq_getElem (hlen ▸ hn)]
  · simp [List.getD_eq_getElem?_getD, List.getElem?_zipWith,
      List.getElem?_eq_none (Nat.le_of_not_lt hn),
      List.getElem?_eq_none (hlen ▸ Nat.le_of_not_lt hn)]

end NaiveConvolution

/-! ## The full-mode convolution -/

namespace NaiveConvolution

/-- Without wrap-around the correction search stops at its first candidate: the
padded extent is `(n - 1) * s + 2 * (f - 1) * d + 1`. -/
theorem fullPaddedSize_eq {n f s d : Nat} (hn : 1 ≤ n) (hf : 1 ≤ f) (hs : 1 ≤ s)
    (hd : 1 ≤ d) (hs2 : s < SIZE_MOD) (hov : (n - 1) * s + 2 * (f - 1) * d + 1 < SIZE_MOD) :
    fullPaddedSize n f s d = (n - 1) * s + 2 * (f - 1) * d + 1 := by
  have hn1 : n - 1 ≤ (n - 1) * s := Nat.le_mul_of_pos_right _ hs
  have hf1 : 2 * (f - 1) ≤ 2 * (f - 1) * d := Nat.le_mul_of_pos_right _ hd
  have e1 : szSub n 1 = n - 1 := szSub_eq hn (by omega)
  have e2 : szSub f 1 = f - 1 := szSub_eq hf (by omega)
  have e3 : szMul (n - 1) s = (n - 1) * s := szMul_eq (by omega)
  have e4 : szMul 2 (f - 1) = 2 * (f - 1) := szMul_eq (by omega)
  have e5 : szMul (2 * (f - 1)) d = 2 * (f - 1) * d := szMul_eq (by omega)
  have e6 : szAdd ((n - 1) * s) (2 * (f - 1) * d) = (n - 1) * s + 2 * (f - 1) * d :=
    szAdd_eq (by omega)
  have e7 : szAdd ((n - 1) * s + 2 * (f - 1) * d) 1 = (n - 1) * s + 2 * (f - 1) * d + 1 :=
    szAdd_eq hov
  have e8 : szAdd 0 ((n - 1) * s + 2 * (f - 1) * d + 1) = (n - 1) * s + 2 * (f - 1) * d + 1 :=
    by rw [szAdd_eq (by omega)]; omega
  have e9 : szSub ((n - 1) * s + 2 * (f - 1) * d + 1) (2 * (f - 1) * d) = (n - 1) * s + 1 := by
    rw [szSub_eq (by omega) hov]; omega
  have e10 : szSub ((n - 1) * s + 1) 1 = (n - 1) * s := by
    rw [szSub_eq (by omega) (by omega)]; omega
  have e11 : szAdd 0 s = s := by rw [szAdd_eq (by omega)]; omega
  have e12 : szAdd ((n - 1) * s + 2 * (f - 1) * d + 1) 0
      = (n - 1) * s + 2 * (f - 1) * d + 1 := szAdd_eq (by omega)
  obtain ⟨s', rfl⟩ : ∃ s', s = s' + 1 := ⟨s - 1, by omega⟩
  simp only [fullPaddedSize, e1, e2, e3, e4, e5, e6, e7, adjustSearch, adjustCond, e8, e9, e10,
    Nat.mul_mod_left, e11, Nat.mod_self, beq_self_eq_true, if_true, e12]

theorem pad_extent {n s : Nat} (hn : 1 ≤ n) (hs : 1 ≤ s) (p : Nat) :
    (n - 1) * s + 2 * p + 1 = p + n + (p + (n - 1) * (s - 1)) := by
  obtain ⟨s', rfl⟩ : ∃ s', s = s' + 1 := ⟨s - 1, by omega⟩
  rw [Nat.mul_succ, Nat.add_sub_cancel]
  omega

/-- The padded buffer built by the code is the input surrounded by zeros:
`(f - 1) * d` cells before it and `(f - 1) * d + (n - 1) * (s - 1)` cells after
it on each axis. -/
theorem fullPadded_eq {α : Type} [Zero α] (input filter : Mat α) (dW dH dilW dilH : Nat)
    (hnr : 1 ≤ input.n_rows) (hnc : 1 ≤ input.n_cols)
    (hfr : 1 ≤ filter.n_rows) (hfc : 1 ≤ filter.n_cols)
    (hsW : 1 ≤ dW) (hsH : 1 ≤ dH) (hdW : 1 ≤ dilW) (hdH : 1 ≤ dilH)
    (hsW2 : dW < SIZE_MOD) (hsH2 : dH < SIZE_MOD)
    (hovr : (input.n_rows - 1) * dW + 2 * (filter.n_rows - 1) * dilW + 1 < SIZE_MOD)
    (hovc : (input.n_cols - 1) * dH + 2 * (filter.n_cols - 1) * dilH + 1 < SIZE_MOD) :
    fullPadded input filter dW dH dilW dilH
      = some (input.zeroPadded ((filter.n_rows - 1) * dilW)
          ((filter.n_rows - 1) * dilW + (input.n_rows - 1) * (dW - 1))
          ((filter.n_cols - 1) * dilH)
          ((filter.n_cols - 1) * dilH + (input.n_cols - 1) * (dH - 1))) := by
  have hR := fullPaddedSize_eq hnr hfr hsW hdW hsW2 hovr
  have hC := fullPaddedSize_eq hnc hfc hsH hdH hsH2 hovc
  have hf1 : filter.n_rows - 1 ≤ (filter.n_rows - 1) * dilW := Nat.le_mul_of_pos_right _ hdW
  have hf2 : filter.n_cols - 1 ≤ (filter.n_cols - 1) * dilH := Nat.le_mul_of_pos_right _ hdH
  have hn1 : input.n_rows - 1 ≤ (input.n_rows - 1) * dW := Nat.le_mul_of_pos_right _ hsW
  have hn2 : input.n_cols - 1 ≤ (input.n_cols - 1) * dH := Nat.le_mul_of_pos_right _ hsH
  rw [Nat.mul_assoc 2] at hR hC hovr hovc
  have e1 : szSub filter.n_rows 1 = filter.n_rows - 1 := szSub_eq hfr (by omega)
  have e2 : szSub filter.n_cols 1 = filter.n_cols - 1 := szSub_eq hfc (by omega)
  have e3 : szMul (filter.n_rows - 1) dilW = (filter.n_rows - 1) * dilW := szMul_eq (by omega)
  have e4 : szMul (filter.n_cols - 1) dilH = (filter.n_cols - 1) * dilH := szMul_eq (by omega)
  have e5 : szAdd ((filter.n_rows - 1) * dilW) input.n_rows
      = (filter.n_rows - 1) * dilW + input.n_rows := szAdd_eq (by omega)
  have e6 : szAdd ((filter.n_cols - 1) * dilH) input.n_cols
      = (filter.n_cols - 1) * dilH + input.n_cols := szAdd_eq (by omega)
  have e7 : szSub ((filter.n_rows - 1) * dilW + input.n_rows) 1
      = (filter.n_rows - 1) * dilW + input.n_rows - 1 := szSub_eq (by omega) (by omega)
  have e8 : szSub ((filter.n_cols - 1) * dilH + input.n_cols) 1
      = (filter.n_cols - 1) * dilH + input.n_cols - 1 := szSub_eq (by omega) (by omega)
  rw [pad_extent hnr hsW] at hR
  rw [pad_extent hnc hsH] at hC
  unfold fullPadded
  rw [hR, hC, e1, e2, e3, e4, e5, e6, e7, e8]
  generalize (filter.n_rows - 1) * dilW = top
  generalize (filter.n_cols - 1) * dilH = left
  generalize (input.n_rows - 1) * (dW - 1) = xr
  generalize (input.n_cols - 1) * (dH - 1) = xc
  unfold Mat.submatAssign Mat.zeroPadded Mat.zeros
  dsimp only
  rw [if_neg (by omega), if_neg (by omega)]
  simp only [List.length_replicate, Option.some.injEq, Mat.mk.injEq, true_and]
  apply List.map_congr_left
  intro idx _
  have hz : (List.replicate ((top + input.n_rows + (top + xr)) *
      (left + input.n_cols + (left + xc))) (0 : α)).getD idx 0 = 0 := by
    simp only [List.getD_eq_getElem?_getD, List.getElem?_replicate]
    split <;> rfl
  rw [hz]
  have hiff : (top ≤ idx % (top + input.n_rows + (top + xr)) ∧
      idx % (top + input.n_rows + (top + xr)) ≤ top + input.n_rows - 1 ∧
      left ≤ idx / (top + input.n_rows + (top + xr)) ∧
      idx / (top + input.n_rows + (top + xr)) ≤ left + input.n_cols - 1) ↔
      (top ≤ idx % (top + input.n_rows + (top + xr)) ∧
      idx % (top + input.n_rows + (top + xr)) < top + input.n_rows ∧
      left ≤ idx / (top + input.n_rows + (top + xr)) ∧
      idx / (top + input.n_rows + (top + xr)) < left + input.n_cols) := by
    generalize idx % (top + input.n_rows + (top + xr)) = a
    generalize idx / (top + input.n_rows + (top + xr)) = b
    omega
  simp only [hiff]

end NaiveConvolution

/-! ## Loops that preserve a property -/

/-- A property that every successful iteration preserves holds after the loop. -/
theorem forLoop_pres {σ : Type} (P : σ → Prop) (n : Nat) (body : Nat → σ → Option σ)
    (hstep : ∀ k, k < n → ∀ s s', P s → body k s = some s' → P s')
    (s s' : σ) (hP : P s) (hs : forLoop n body s = some s') : P s' := by
  obtain ⟨_, _, h⟩ := forLoop_sim (fun s (_ : Unit) => P s) n body (fun _ u => some u)
    (fun k hk s _ s' hPs hb => ⟨(), rfl, hstep k hk s s' hPs hb⟩) s () s' hP hs
  exact h

/-! ## Slices of a cube -/

theorem getElem?_splice {α : Type} (l x : List α) (a n : Nat) (h : a + x.length ≤ l.length) :
    (l.take a ++ x ++ l.drop (a + x.length))[n]?
      = if n < a then l[n]? else if n < a + x.length then x[n - a]? else l[n]? := by
  have hta : (l.take a).length = a := by rw [List.length_take]; omega
  by_cases h1 : n < a
  · rw [if_pos h1, List.append_assoc, List.getElem?_append_left (by omega),
      List.getElem?_take_of_lt h1]
  · rw [if_neg h1, List.append_assoc, List.getElem?_append_right (by omega), hta]
    by_cases h2 : n < a + x.length
    · rw [if_pos h2, List.getElem?_append_left (by omega)]
    · rw [if_neg h2, List.getElem?_append_right (by omega), List.getElem?_drop]
      congr 1
      omega

theorem getElem?_window {α : Type} (l : List α) (a b k : Nat) :
    ((l.drop a).take b)[k]? = if k < b then l[a + k]? else none := by
  rw [List.getElem?_take, List.getElem?_drop]

theorem Cube.setSlice_inv {α : Type} (c c' : Cube α) (i : Nat) (m : Mat α)
    (h : c.setSlice i m = some c') :
    i < c.n_slices ∧ m.n_rows = c.n_rows ∧ m.n_cols = c.n_cols ∧
      m.mem.length = c.n_rows * c.n_cols ∧ c'.n_rows = c.n_rows ∧ c'.n_cols = c.n_cols ∧
      c'.n_slices = c.n_slices ∧
      c'.mem = c.mem.take (i * (c.n_rows * c.n_cols)) ++ m.mem
        ++ c.mem.drop (i * (c.n_rows * c.n_cols) + c.n_rows * c.n_cols) := by
  unfold Cube.setSlice at h
  split at h
  · rename_i hc
    simp only [Option.some.injEq] at h
    subst h
    exact ⟨hc.1, hc.2.1, hc.2.2.1, hc.2.2.2, rfl, rfl, rfl, rfl⟩
  · simp at h

theorem Cube.setSlice_some {α : Type} (c : Cube α) (i : Nat) (m : Mat α)
    (hi : i < c.n_slices) (hr : m.n_rows = c.n_rows) (hc : m.n_cols = c.n_cols)
    (hl : m.mem.length = c.n_rows * c.n_cols) :
    ∃ c', c.setSlice i m = some c' := by
  unfold Cube.setSlice
  rw [if_pos ⟨hi, hr, hc, hl⟩]
  exact ⟨_, rfl⟩

theorem slice_bound {es i n len : Nat} (hi : i < n) (hlen : es * n ≤ len) :
    i * es + es ≤ len := by
  have : (i + 1) * es ≤ n * es := Nat.mul_le_mul_right es hi
  rw [Nat.succ_mul] at this
  rw [Nat.mul_comm es n] at hlen
  omega

/-- Writing slice `i` keeps the length of the buffer. -/
theorem Cube.setSlice_length {α : Type} (c c' : Cube α) (i : Nat) (m : Mat α)
    (hlen : c.n_rows * c.n_cols * c.n_slices ≤ c.mem.length)
    (h : c.setSlice i m = some c') : c'.mem.length = c.mem.length := by
  obtain ⟨hi, -, -, hl, -, -, -, hmem⟩ := Cube.setSlice_inv c c' i m h
  have := slice_bound hi hlen
  rw [hmem]
  simp only [List.length_append, List.length_take, List.length_drop, hl]
  omega

/-- Reading back the slice that was written. -/
theorem Cube.sliceMat_setSlice_self {α : Type} (c c' : Cube α) (i : Nat) (m : Mat α)
    (hlen : c.n_rows * c.n_cols * c.n_slices ≤ c.mem.length)
    (h : c.setSlice i m = some c') : c'.sliceMat i = m := by
  obtain ⟨hi, hr, hc, hl, hr', hc', -, hmem⟩ := Cube.setSlice_inv c c' i m h
  have hb := slice_bound hi hlen
  unfold Cube.sliceMat
  rw [hr', hc']
  cases m with
  | mk mr mc mm =>
    simp only at hr hc hl hmem
    subst hr hc
    simp only [Mat.mk.injEq, true_and]
    apply List.ext_getElem?
    intro k
    rw [← hl] at hb hmem
    rw [getElem?_window, hmem, ← hl, getElem?_splice _ _ _ _ (by omega)]
    by_cases hk : k < mm.length
    · rw [if_pos hk, if_neg (by omega), if_pos (by omega)]
      congr 1
      omega
    · rw [if_neg hk, List.getElem?_eq_none (by omega)]

/-- Writing slice `i` leaves every other slice as it was. -/
theorem Cube.sliceMat_setSlice_ne {α : Type} (c c' : Cube α) (i j : Nat) (m : Mat α)
    (hlen : c.n_rows * c.n_cols * c.n_slices ≤ c.mem.length)
    (h : c.setSlice i m = some c') (hij : j ≠ i) : c'.sliceMat j = c.sliceMat j := by
  obtain ⟨hi, hr, hc, hl, hr', hc', -, hmem⟩ := Cube.setSlice_inv c c' i m h
  have hb := slice_bound hi hlen
  unfold Cube.sliceMat
  rw [hr', hc']
  simp only [Mat.mk.injEq, true_and]
  apply List.ext_getElem?
  intro k
  rw [← hl] at hb hmem
  rw [getElem?_window, getElem?_window, hmem, ← hl, getElem?_splice _ _ _ _ (by omega)]
  by_cases hk : k < m.mem.length
  · rw [if_pos hk, if_pos hk]
    rcases Nat.lt_or_gt_of_ne hij with hlt | hgt
    · have : (j + 1) * m.mem.length ≤ i * m.mem.length := Nat.mul_le_mul_right _ hlt
      rw [Nat.succ_mul] at this
      rw [if_pos (by omega)]
    · have : (i + 1) * m.mem.length ≤ j * m.mem.length := Nat.mul_le_mul_right _ hgt
      rw [Nat.succ_mul] at this
      rw [if_neg (by omega), if_neg (by omega)]
  · rw [if_neg hk, if_neg hk]

theorem Cube.slice_eq {α : Type} (c : Cube α) (i : Nat) (hi : i < c.n_slices) :
    c.slice i = some (c.sliceMat i) := by
  unfold Cube.slice
  rw [if_pos hi]

/-! ## Shape of the result of a non-accumulating call -/

namespace NaiveConvolution

theorem convStep_length {α : Type} [Add α] [Mul α] (input filter : Mat α)
    (dW dH dilW dilH o_rows j i kj ki : Nat) (s s' : List α)
    (h : convStep input filter dW dH dilW dilH o_rows j i kj ki s = some s') :
    s'.length = s.length := by
  simp only [convStep, Option.bind_eq_bind, Option.bind_eq_some] at h
  obtain ⟨k, -, x, -, o, -, h⟩ := h
  simp only [Option.some.injEq] at h
  subst h
  exact List.length_set _ _ _

/-- The loops keep the length of the output buffer. -/
theorem convLoops_length {α : Type} [Add α] [Mul α] (input filter : Mat α)
    (dW dH dilW dilH o_rows o_cols : Nat) (s s' : List α)
    (h : convLoops input filter dW dH dilW dilH o_rows o_cols s = some s') :
    s'.length = s.length := by
  unfold convLoops at h
  refine forLoop_pres (fun t => t.length = s.length) o_cols _ ?_ s s' rfl h
  intro j _ t t' ht h
  refine forLoop_pres (fun t => t.length = s.length) o_rows _ ?_ t t' ht h
  intro i _ t t' ht h
  refine forLoop_pres (fun t => t.length = s.length) filter.n_cols _ ?_ t t' ht h
  intro kj _ t t' ht h
  refine forLoop_pres (fun t => t.length = s.length) filter.n_rows _ ?_ t t' ht h
  intro ki _ t t' ht h
  rw [convStep_length input filter dW dH dilW dilH o_rows j i kj ki t t' h, ht]

/-- A non-accumulating call does not depend on the matrix passed as output. -/
theorem valid_false_indep {α : Type} [Zero α] [Add α] [Mul α] (input filter o1 o2 : Mat α)
    (dW dH dilW dilH : Nat) :
    ConvolutionValid input filter o1 dW dH dilW dilH false
      = ConvolutionValid input filter o2 dW dH dilW dilH false := by
  unfold ConvolutionValid
  rfl

theorem Convolution_false_indep {α : Type} [Zero α] [Add α] [Mul α] (mode : BorderMode)
    (input filter o1 o2 : Mat α) (dW dH dilW dilH : Nat) :
    Convolution mode input filter o1 dW dH dilW dilH false
      = Convolution mode input filter o2 dW dH dilW dilH false := by
  cases mode with
  | ValidConvolution => exact valid_false_indep input filter o1 o2 dW dH dilW dilH
  | FullConvolution =>
    unfold Convolution ConvolutionFull
    cases fullPadded input filter dW dH dilW dilH with
    | none => rfl
    | some P =>
      rw [Option.bind_eq_bind, Option.some_bind, Option.some_bind]
      exact valid_false_indep P filter o1 o2 1 1 dilW dilH

theorem fullPadded_dims {α : Type} [Zero α] (input filter P : Mat α) (dW dH dilW dilH : Nat)
    (h : fullPadded input filter dW dH dilW dilH = some P) :
    P.n_rows = fullPaddedSize input.n_rows filter.n_rows dW dilW ∧
      P.n_cols = fullPaddedSize input.n_cols filter.n_cols dH dilH := by
  unfold fullPadded Mat.submatAssign at h
  split at h
  · simp at h
  · split at h
    · simp at h
    · simp only [Option.some.injEq] at h
      subst h
      exact ⟨rfl, rfl⟩

theorem full_inv {α : Type} [Zero α] [Add α] [Mul α] (input filter out0 R : Mat α)
    (dW dH dilW dilH : Nat) (b : Bool)
    (h : ConvolutionFull input filter out0 dW dH dilW dilH b = some R) :
    ∃ P, fullPadded input filter dW dH dilW dilH = some P ∧
      ConvolutionValid P filter out0 1 1 dilW dilH b = some R := by
  unfold ConvolutionFull at h
  cases hP : fullPadded input filter dW dH dilW dilH with
  | none => rw [hP] at h; simp at h
  | some P =>
    rw [hP, Option.bind_eq_bind, Option.some_bind] at h
    exact ⟨P, rfl, h⟩

/-- The buffer of the result of a non-accumulating call has the size of the
result. -/
theorem Convolution_length {α : Type} [Zero α] [Add α] [Mul α] (mode : BorderMode)
    (input filter out0 R : Mat α) (dW dH dilW dilH : Nat)
    (h : Convolution mode input filter out0 dW dH dilW dilH false = some R) :
    R.mem.length = R.n_rows * R.n_cols := by
  have key : ∀ (a : Mat α) (s1 s2 : Nat),
      ConvolutionValid a filter out0 s1 s2 dilW dilH false = some R →
      R.mem.length = R.n_rows * R.n_cols := by
    intro a s1 s2 ha
    obtain ⟨-, -, hl⟩ := valid_false_inv a filter out0 R s1 s2 dilW dilH ha
    rw [convLoops_length _ _ _ _ _ _ _ _ _ _ hl, List.length_replicate]
  cases mode with
  | ValidConvolution => exact key input dW dH h
  | FullConvolution =>
    obtain ⟨P, -, hP⟩ := full_inv input filter out0 R dW dH dilW dilH false h
    exact key P 1 1 hP

/-- The size of the result of a non-accumulating call depends on the sizes of
the operands only. -/
theorem Convolution_dims {α : Type} [Zero α] [Add α] [Mul α] (mode : BorderMode)
    (a f o R a' f' o' R' : Mat α) (dW dH dilW dilH : Nat)
    (har : a'.n_rows = a.n_rows) (hac : a'.n_cols = a.n_cols)
    (hfr : f'.n_rows = f.n_rows) (hfc : f'.n_cols = f.n_cols)
    (h : Convolution mode a f o dW dH dilW dilH false = some R)
    (h' : Convolution mode a' f' o' dW dH dilW dilH false = some R') :
    R'.n_rows = R.n_rows ∧ R'.n_cols = R.n_cols := by
  have key : ∀ (a a' : Mat α) (s1 s2 : Nat), a'.n_rows = a.n_rows → a'.n_cols = a.n_cols →
      ConvolutionValid a f o s1 s2 dilW dilH false = some R →
      ConvolutionValid a' f' o' s1 s2 dilW dilH false = some R' →
      R'.n_rows = R.n_rows ∧ R'.n_cols = R.n_cols := by
    intro a a' s1 s2 har hac h h'
    obtain ⟨h1, h2, -⟩ := valid_false_inv a f o R s1 s2 dilW dilH h
    obtain ⟨h1', h2', -⟩ := valid_false_inv a' f' o' R' s1 s2 dilW dilH h'
    rw [har, hfr, h1] at h1'
    rw [hac, hfc, h2] at h2'
    exact ⟨(Option.some.inj h1').symm, (Option.some.inj h2').symm⟩
  cases mode with
  | ValidConvolution => exact key a a' dW dH har hac h h'
  | FullConvolution =>
    obtain ⟨P, hP, hv⟩ := full_inv a f o R dW dH dilW dilH false h
    obtain ⟨P', hP', hv'⟩ := full_inv a' f' o' R' dW dH dilW dilH false h'
    obtain ⟨p1, p2⟩ := fullPadded_dims a f P dW dH dilW dilH hP
    obtain ⟨p1', p2'⟩ := fullPadded_dims a' f' P' dW dH dilW dilH hP'
    exact key P P' 1 1 (by rw [p1, p1', har, hfr]) (by rw [p2, p2', hac, hfc]) hv hv'

end NaiveConvolution

/-! ## Filling a cube slice by slice -/

namespace NaiveConvolution

/-- The loop shared by the three cube overloads, after slice 0 has been
written: slices `1 .. n - 1` are computed and written one by one. -/
theorem fill_slices {α : Type} [Zero α] (n r c : Nat) (conv : Nat → Mat α → Option (Mat α))
    (R : Nat → Mat α) (hn : 1 ≤ n)
    (hconv : ∀ i, i < n → ∀ o, conv i o = some (R i))
    (hR : ∀ i, i < n → (R i).n_rows = r ∧ (R i).n_cols = c ∧ (R i).mem.length = r * c) :
    ∃ out0 out, (Cube.zeros r c n).setSlice 0 (R 0) = some out0 ∧
      forLoop (n - 1) (fun k output =>
        (output.slice (k + 1)).bind fun outI =>
          (conv (k + 1) outI).bind fun res => output.setSlice (k + 1) res) out0 = some out ∧
      out.n_rows = r ∧ out.n_cols = c ∧ out.n_slices = n ∧
      ∀ i, i < n → out.slice i = some (R i) := by
  have hz : (Cube.zeros r c n : Cube α).n_rows * (Cube.zeros r c n : Cube α).n_cols *
      (Cube.zeros r c n : Cube α).n_slices ≤ (Cube.zeros r c n : Cube α).mem.length := by
    simp [Cube.zeros]
  obtain ⟨out0, h0⟩ := Cube.setSlice_some (Cube.zeros r c n) 0 (R 0) hn (hR 0 hn).1
    (hR 0 hn).2.1 (hR 0 hn).2.2
  obtain ⟨-, -, -, -, d1, d2, d3, -⟩ := Cube.setSlice_inv _ _ _ _ h0
  have hl0 := Cube.setSlice_length _ _ _ _ hz h0
  have hs0 := Cube.sliceMat_setSlice_self _ _ _ _ hz h0
  obtain ⟨out, hout, e1, e2, e3, -, e5⟩ := forLoop_inv
    (fun k (out : Cube α) => out.n_rows = r ∧ out.n_cols = c ∧ out.n_slices = n ∧
      out.mem.length = r * c * n ∧ ∀ i, i ≤ k → i < n → out.sliceMat i = R i)
    (n - 1) (fun k output =>
        (output.slice (k + 1)).bind fun outI =>
          (conv (k + 1) outI).bind fun res => output.setSlice (k + 1) res) out0
    ⟨d1, d2, d3, by rw [hl0]; simp [Cube.zeros], fun i hi _ => by
      have : i = 0 := by omega
      subst this
      exact hs0⟩
    (by
      intro k hk t ⟨t1, t2, t3, t4, t5⟩
      have hk1 : k + 1 < n := by omega
      have hlen : t.n_rows * t.n_cols * t.n_slices ≤ t.mem.length := by
        rw [t1, t2, t3, t4]
      obtain ⟨t', ht'⟩ := Cube.setSlice_some t (k + 1) (R (k + 1)) (by omega)
        (by rw [t1]; exact (hR _ hk1).1) (by rw [t2]; exact (hR _ hk1).2.1)
        (by rw [t1, t2]; exact (hR _ hk1).2.2)
      obtain ⟨-, -, -, -, u1, u2, u3, -⟩ := Cube.setSlice_inv _ _ _ _ ht'
      refine ⟨t', ?_, by rw [u1, t1], by rw [u2, t2], by rw [u3, t3],
        by rw [Cube.setSlice_length _ _ _ _ hlen ht', t4], ?_⟩
      · show (t.slice (k + 1)).bind (fun outI =>
            (conv (k + 1) outI).bind fun res => t.setSlice (k + 1) res) = some t'
        rw [Cube.slice_eq t (k + 1) (by omega), Option.some_bind, hconv _ hk1,
          Option.some_bind, ht']
      · intro i hi hin
        by_cases hik : i = k + 1
        · subst hik
          exact Cube.sliceMat_setSlice_self _ _ _ _ hlen ht'
        · rw [Cube.sliceMat_setSlice_ne _ _ _ _ _ hlen ht' hik]
          exact t5 i (by omega) hin)
  refine ⟨out0, out, h0, hout, e1, e2, e3, fun i hi => ?_⟩
  rw [Cube.slice_eq out i (by omega), e5 i (by omega) hi]

/-- The cube-cube overload: slice `i` of the result is the convolution of slice
`i` of the input with slice `i` of the filter. -/
theorem cube_cube_spec {α : Type} [Zero α] [Add α] [Mul α] (mode : BorderMode)
    (input filter : Cube α) (dW dH dilW dilH : Nat) (R : Nat → Mat α)
    (hn : 1 ≤ input.n_slices) (hf : input.n_slices ≤ filter.n_slices)
    (hR : ∀ i, i < input.n_slices →
      Convolution mode (input.sliceMat i) (filter.sliceMat i) (Mat.zeros 0 0)
        dW dH dilW dilH false = some (R i)) :
    ∃ out, ConvolutionCubeCube mode input filter dW dH dilW dilH = some out ∧
      out.n_slices = input.n_slices ∧ ∀ i, i < input.n_slices → out.slice i = some (R i) := by
  obtain ⟨out0, out, h0, hloop, -, -, e3, e4⟩ := fill_slices input.n_slices
    (R 0).n_rows (R 0).n_cols
    (fun i o => Convolution mode (input.sliceMat i) (filter.sliceMat i) o dW dH dilW dilH false)
    R hn
    (fun i hi o => by
      show Convolution mode (input.sliceMat i) (filter.sliceMat i) o dW dH dilW dilH false = _
      rw [Convolution_false_indep mode _ _ o (Mat.zeros 0 0)]
      exact hR i hi)
    (fun i hi => by
      obtain ⟨h1, h2⟩ := Convolution_dims mode (input.sliceMat 0) (filter.sliceMat 0)
        (Mat.zeros 0 0) (R 0) (input.sliceMat i) (filter.sliceMat i) (Mat.zeros 0 0) (R i)
        dW dH dilW dilH rfl rfl rfl rfl (hR 0 hn) (hR i hi)
      have h3 := Convolution_length mode _ _ _ (R i) dW dH dilW dilH (hR i hi)
      exact ⟨h1, h2, by rw [h3, h1, h2]⟩)
  refine ⟨out, ?_, e3, e4⟩
  unfold ConvolutionCubeCube
  simp only [Option.bind_eq_bind]
  rw [Cube.slice_eq input 0 hn, Cube.slice_eq filter 0 (by omega),
    Option.some_bind, Option.some_bind, hR 0 hn, Option.some_bind]
  rw [h0, Option.some_bind, ← hloop]
  apply forLoop_congr
  intro k hk s
  dsimp only
  rw [Cube.slice_eq input (k + 1) (by omega), Cube.slice_eq filter (k + 1) (by omega),
    Option.some_bind, Option.some_bind]

/-- The matrix-cube overload: slice `i` of the result is the convolution of the
input with slice `i` of the filter. -/
theorem mat_cube_spec {α : Type} [Zero α] [Add α] [Mul α] (mode : BorderMode)
    (input : Mat α) (filter : Cube α) (dW dH dilW dilH : Nat) (R : Nat → Mat α)
    (hn : 1 ≤ filter.n_slices)
    (hR : ∀ i, i < filter.n_slices →
      Convolution mode input (filter.sliceMat i) (Mat.zeros 0 0)
        dW dH dilW dilH false = some (R i)) :
    ∃ out, ConvolutionMatCube mode input filter dW dH dilW dilH = some out ∧
      out.n_slices = filter.n_slices ∧ ∀ i, i < filter.n_slices → out.slice i = some (R i) := by
  obtain ⟨out0, out, h0, hloop, -, -, e3, e4⟩ := fill_slices filter.n_slices
    (R 0).n_rows (R 0).n_cols
    (fun i o => Convolution mode input (filter.sliceMat i) o dW dH dilW dilH false)
    R hn
    (fun i hi o => by
      show Convolution mode input (filter.sliceMat i) o dW dH dilW dilH false = _
      rw [Convolution_false_indep mode _ _ o (Mat.zeros 0 0)]
      exact hR i hi)
    (fun i hi => by
      obtain ⟨h1, h2⟩ := Convolution_dims mode input (filter.sliceMat 0)
        (Mat.zeros 0 0) (R 0) input (filter.sliceMat i) (Mat.zeros 0 0) (R i)
        dW dH dilW dilH rfl rfl rfl rfl (hR 0 hn) (hR i hi)
      have h3 := Convolution_length mode _ _ _ (R i) dW dH dilW dilH (hR i hi)
      exact ⟨h1, h2, by rw [h3, h1, h2]⟩)
  refine ⟨out, ?_, e3, e4⟩
  unfold ConvolutionMatCube
  simp only [Option.bind_eq_bind]
  rw [Cube.slice_eq filter 0 hn, Option.some_bind, hR 0 hn, Option.some_bind]
  rw [h0, Option.some_bind, ← hloop]
  apply forLoop_congr
  intro k hk s
  dsimp only
  rw [Cube.slice_eq filter (k + 1) (by omega), Option.some_bind]

/-- The cube-matrix overload: slice `i` of the result is the convolution of
slice `i` of the input with the filter. -/
theorem cube_mat_spec {α : Type} [Zero α] [Add α] [Mul α] (mode : BorderMode)
    (input : Cube α) (filter : Mat α) (dW dH dilW dilH : Nat) (R : Nat → Mat α)
    (hn : 1 ≤ input.n_slices)
    (hR : ∀ i, i < input.n_slices →
      Convolution mode (input.sliceMat i) filter (Mat.zeros 0 0)
        dW dH dilW dilH false = some (R i)) :
    ∃ out, ConvolutionCubeMat mode input filter dW dH dilW dilH = some out ∧
      out.n_slices = input.n_slices ∧ ∀ i, i < input.n_slices → out.slice i = some (R i) := by
  obtain ⟨out0, out, h0, hloop, -, -, e3, e4⟩ := fill_slices input.n_slices
    (R 0).n_rows (R 0).n_cols
    (fun i o => Convolution mode (input.sliceMat i) filter o dW dH dilW dilH false)
    R hn
    (fun i hi o => by
      show Convolution mode (input.sliceMat i) filter o dW dH dilW dilH false = _
      rw [Convolution_false_indep mode _ _ o (Mat.zeros 0 0)]
      exact hR i hi)
    (fun i hi => by
      obtain ⟨h1, h2⟩ := Convolution_dims mode (input.sliceMat 0) filter
        (Mat.zeros 0 0) (R 0) (input.sliceMat i) filter (Mat.zeros 0 0) (R i)
        dW dH dilW dilH rfl rfl rfl rfl (hR 0 hn) (hR i hi)
      have h3 := Convolution_length mode _ _ _ (R i) dW dH dilW dilH (hR i hi)
      exact ⟨h1, h2, by rw [h3, h1, h2]⟩)
  refine ⟨out, ?_, e3, e4⟩
  unfold ConvolutionCubeMat
  simp only [Option.bind_eq_bind]
  rw [Cube.slice_eq input 0 hn, Option.some_bind, hR 0 hn, Option.some_bind]
  rw [h0, Option.some_bind, ← hloop]
  apply forLoop_congr
  intro k hk s
  dsimp only
  rw [Cube.slice_eq input (k + 1) (by omega), Option.some_bind]

end NaiveConvolution

/-! ## Loops over the slices of a cube -/

theorem Cube.zeros_sliceMat {α : Type} [Zero α] (r c n k : Nat) (hk : k < n) :
    (Cube.zeros r c n : Cube α).sliceMat k = ⟨r, c, List.replicate (r * c) 0⟩ := by
  unfold Cube.sliceMat Cube.zeros
  simp only [Mat.mk.injEq, true_and]
  apply List.ext_getElem?
  intro idx
  rw [getElem?_window, List.getElem?_replicate, List.getElem?_replicate]
  have := slice_bound hk (Nat.le_refl (r * c * n))
  by_cases h : idx < r * c
  · rw [if_pos h, if_pos h, if_pos (by omega)]
  · rw [if_neg h, if_neg h]

/-- A loop whose iteration `k` writes slice `k` of a zero cube, computing it
from a state in which slice `k` is still zero. -/
theorem slices_loop {α : Type} [Zero α] (n r c : Nat) (body : Nat → Cube α → Option (Cube α))
    (T : Nat → Mat α)
    (hT : ∀ k, k < n → (T k).n_rows = r ∧ (T k).n_cols = c ∧ (T k).mem.length = r * c)
    (hbody : ∀ k, k < n → ∀ out : Cube α, out.n_rows = r → out.n_cols = c →
      out.n_slices = n → out.sliceMat k = ⟨r, c, List.replicate (r * c) 0⟩ →
      body k out = out.setSlice k (T k)) :
    ∃ out, forLoop n body (Cube.zeros r c n) = some out ∧ out.n_rows = r ∧ out.n_cols = c ∧
      out.n_slices = n ∧ out.mem.length = r * c * n ∧ ∀ k, k < n → out.sliceMat k = T k := by
  obtain ⟨out, h, e1, e2, e3, e4, e5, -⟩ := forLoop_inv
    (fun m (out : Cube α) => out.n_rows = r ∧ out.n_cols = c ∧ out.n_slices = n ∧
      out.mem.length = r * c * n ∧ (∀ k, k < m → k < n → out.sliceMat k = T k) ∧
      ∀ k, m ≤ k → k < n → out.sliceMat k = ⟨r, c, List.replicate (r * c) 0⟩)
    n body (Cube.zeros r c n)
    ⟨rfl, rfl, rfl, by simp [Cube.zeros], fun k hk _ => absurd hk (Nat.not_lt_zero k),
      fun k _ hk => Cube.zeros_sliceMat r c n k hk⟩
    (by
      intro m hm t ⟨t1, t2, t3, t4, t5, t6⟩
      have hlen : t.n_rows * t.n_cols * t.n_slices ≤ t.mem.length := by
        rw [t1, t2, t3, t4]
      obtain ⟨t', ht'⟩ := Cube.setSlice_some t m (T m) (by omega)
        (by rw [t1]; exact (hT _ hm).1) (by rw [t2]; exact (hT _ hm).2.1)
        (by rw [t1, t2]; exact (hT _ hm).2.2)
      obtain ⟨-, -, -, -, u1, u2, u3, -⟩ := Cube.setSlice_inv _ _ _ _ ht'
      refine ⟨t', ?_, by rw [u1, t1], by rw [u2, t2], by rw [u3, t3],
        by rw [Cube.setSlice_length _ _ _ _ hlen ht', t4], ?_, ?_⟩
      · rw [hbody m hm t t1 t2 t3 (t6 m (Nat.le_refl m) hm), ht']
      · intro k hk hkn
        by_cases hkm : k = m
        · subst hkm
          exact Cube.sliceMat_setSlice_self _ _ _ _ hlen ht'
        · rw [Cube.sliceMat_setSlice_ne _ _ _ _ _ hlen ht' hkm]
          exact t5 k (by omega) hkn
      · intro k hk hkn
        rw [Cube.sliceMat_setSlice_ne _ _ _ _ _ hlen ht' (by omega)]
        exact t6 k (by omega) hkn)
  exact ⟨out, h, e1, e2, e3, e4, fun k hk => e5 k hk hk⟩

/-- The buffer after adding the buffers `Rc 0`, ..., `Rc (n - 1)` to zeros. -/
theorem getD_foldl_zipWith {α : Type} [CommRing α] (n len : Nat) (Rc : Nat → List α)
    (hR : ∀ ci, ci < n → (Rc ci).length = len) (idx : Nat) :
    ((List.range n).foldl (fun acc ci => List.zipWith (fun x y => x + y) acc (Rc ci))
        (List.replicate len 0)).length = len ∧
    ((List.range n).foldl (fun acc ci => List.zipWith (fun x y => x + y) acc (Rc ci))
        (List.replicate len 0)).getD idx 0 = ∑ ci ∈ Finset.range n, (Rc ci).getD idx 0 := by
  induction n with
  | zero =>
    refine ⟨by simp, ?_⟩
    simp only [List.range_zero, List.foldl_nil, Finset.range_zero, Finset.sum_empty,
      List.getD_eq_getElem?_getD, List.getElem?_replicate]
    split <;> rfl
  | succ m ih =>
    obtain ⟨h1, h2⟩ := ih (fun ci hci => hR ci (Nat.lt_succ_of_lt hci))
    rw [List.range_succ, List.foldl_append]
    simp only [List.foldl_cons, List.foldl_nil]
    refine ⟨by rw [List.length_zipWith, h1, hR m (Nat.lt_succ_self m), Nat.min_self], ?_⟩
    rw [NaiveConvolution.getD_zipWith_add _ _ _ (by rw [h1, hR m (Nat.lt_succ_self m)]), h2,
      Finset.sum_range_succ]

theorem getD_map_add {α : Type} [Zero α] [Add α] (xs : List α) (bv : α) (idx : Nat)
    (h : idx < xs.length) :
    (xs.map fun x => x + bv).getD idx 0 = xs.getD idx 0 + bv := by
  simp only [List.getD_eq_getElem?_getD, List.getElem?_map, List.getElem?_eq_getElem h,
    Option.map_some', Option.getD_some]

/-- A loop that accumulates `Rc 0`, ..., `Rc (n - 1)` into a zero matrix. -/
theorem accumulate_loop {α : Type} [CommRing α] (n r c : Nat)
    (step : Nat → Mat α → Option (Mat α)) (Rc : Nat → Mat α)
    (hlen : ∀ ci, ci < n → (Rc ci).mem.length = r * c)
    (hstep : ∀ ci, ci < n → ∀ cur : Mat α, cur.n_rows = r → cur.n_cols = c →
      cur.mem.length = r * c →
      step ci cur = some ⟨r, c, List.zipWith (fun x y => x + y) cur.mem (Rc ci).mem⟩) :
    forLoop n step ⟨r, c, List.replicate (r * c) 0⟩
      = some ⟨r, c, (List.range n).foldl
          (fun acc ci => List.zipWith (fun x y => x + y) acc (Rc ci).mem)
          (List.replicate (r * c) 0)⟩ := by
  induction n with
  | zero => rfl
  | succ m ih =>
    rw [forLoop_succ, ih (fun ci hci => hlen ci (Nat.lt_succ_of_lt hci))
        (fun ci hci => hstep ci (Nat.lt_succ_of_lt hci)), Option.some_bind,
      hstep m (Nat.lt_succ_self m) _ rfl rfl
        (getD_foldl_zipWith m (r * c) (fun ci => (Rc ci).mem)
          (fun ci hci => hlen ci (Nat.lt_succ_of_lt hci)) 0).1,
      List.range_succ, List.foldl_append]
    rfl

/-! ## The layer's Forward pass -/

namespace Convolution

/-- With dilation 1 the valid-mode output extent of the padded input is the
layer's `ConvOutSize`. -/
theorem validOutSize_eq_ConvOutSize (W k s pl pr n : Nat) (hn : n = W + pl + pr) :
    NaiveConvolution.validOutSize n k s 1 = ConvOutSize W k s pl pr := by
  have h : szSub (szSub n (szMul (szSub k 1) 1)) 1 = szSub (szAdd (szAdd W pl) pr) k := by
    unfold szSub szMul szAdd SIZE_MOD at *
    omega
  unfold NaiveConvolution.validOutSize ConvOutSize
  rw [h]

theorem hasPadding_false {α : Type} (l : Convolution α) (h : l.hasPadding = false) :
    l.padWLeft = 0 ∧ l.padWRight = 0 ∧ l.padHTop = 0 ∧ l.padHBottom = 0 := by
  simpa [hasPadding, and_assoc] using h

theorem paddedSlice_dims {α : Type} [Zero α] (l : Convolution α) (input : Mat α) (k : Nat) :
    (l.paddedSlice input k).n_rows = l.inputWidth + l.padWLeft + l.padWRight ∧
    (l.paddedSlice input k).n_cols = l.inputHeight + l.padHTop + l.padHBottom := by
  cases hp : l.hasPadding with
  | true =>
    simp only [paddedSlice, hp, if_true, PaddingForward, Mat.zeroPadded, inputSlice,
      Cube.sliceMat]
    omega
  | false =>
    obtain ⟨h1, h2, h3, h4⟩ := hasPadding_false l hp
    simp only [paddedSlice, hp, Bool.false_eq_true, if_false, inputSlice, Cube.sliceMat, h1, h2,
      h3, h4, Nat.add_zero, and_self]

/-- The input cube that `Forward` convolves: slice `k` is the padded slice `k`
of the input. -/
theorem Forward_input {α : Type} [Zero α] (l : Convolution α) (input : Mat α)
    (hOK : l.SizesOk input.n_cols) :
    ∃ ipt : Cube α,
      l.padInput ⟨l.inputWidth, l.inputHeight, szMul l.inSize input.n_cols, input.mem⟩
        = some ipt ∧
      ∀ k, k < l.inSize * input.n_cols →
        (if l.hasPadding then ipt
          else (⟨l.inputWidth, l.inputHeight, szMul l.inSize input.n_cols, input.mem⟩ :
            Cube α)).slice k = some (l.paddedSlice input k) := by
  obtain ⟨h1, h2, h3, h4, h5, h6⟩ := hOK
  have eI : szMul l.inSize input.n_cols = l.inSize * input.n_cols := szMul_eq h1
  have eW : szAdd (szAdd l.inputWidth l.padWLeft) l.padWRight
      = l.inputWidth + l.padWLeft + l.padWRight := by
    rw [szAdd_eq (a := l.inputWidth) (by omega), szAdd_eq h4]
  have eH : szAdd (szAdd l.inputHeight l.padHTop) l.padHBottom
      = l.inputHeight + l.padHTop + l.padHBottom := by
    rw [szAdd_eq (a := l.inputHeight) (by omega), szAdd_eq h5]
  unfold padInput
  dsimp only
  rw [eI, eW, eH]
  cases hp : l.hasPadding with
  | false =>
    refine ⟨l.inputPaddedTemp, rfl, fun k hk => ?_⟩
    rw [if_neg (by simp), Cube.slice_eq _ _ hk]
    simp only [paddedSlice, hp, Bool.false_eq_true, if_false]
    rfl
  | true =>
    obtain ⟨out, ho, -, -, e3, -, e5⟩ := slices_loop (l.inSize * input.n_cols)
      (l.inputWidth + l.padWLeft + l.padWRight) (l.inputHeight + l.padHTop + l.padHBottom)
      (l.padSlice ⟨l.inputWidth, l.inputHeight, l.inSize * input.n_cols, input.mem⟩)
      (fun k => l.paddedSlice input k)
      (fun k _ => by
        refine ⟨(paddedSlice_dims l input k).1, (paddedSlice_dims l input k).2, ?_⟩
        simp only [paddedSlice, hp, if_true, PaddingForward, Mat.zeroPadded, List.length_map,
          List.length_range, inputSlice, Cube.sliceMat]
        have e1 : l.padWLeft + l.inputWidth + l.padWRight
            = l.inputWidth + l.padWLeft + l.padWRight := by omega
        have e2 : l.padHTop + l.inputHeight + l.padHBottom
            = l.inputHeight + l.padHTop + l.padHBottom := by omega
        rw [e1, e2])
      (fun k hk out _ _ _ _ => by
        unfold padSlice
        rw [Cube.slice_eq _ _ hk, Option.bind_eq_bind, Option.some_bind]
        simp only [paddedSlice, hp, if_true]
        rfl)
    refine ⟨out, by rw [if_pos rfl]; exact ho, fun k hk => ?_⟩
    rw [if_pos rfl, Cube.slice_eq _ _ (by rw [e3]; exact hk), e5 k hk]

/-- The loop that touches the first `outSize` filter slices succeeds. -/
theorem Forward_cache {α : Type} (l : Convolution α) (hin : 1 ≤ l.inSize)
    (hOI : l.outSize * l.inSize < SIZE_MOD) :
    forLoop l.outSize (fun outMapIdx u => (l.weight.slice outMapIdx).map fun _ => u) ()
      = some () := by
  obtain ⟨t, ht, -⟩ := forLoop_inv (fun _ (_ : Unit) => True) l.outSize
    (fun outMapIdx u => (l.weight.slice outMapIdx).map fun _ => u) () trivial
    (fun k hk t _ => by
      refine ⟨(), ?_, trivial⟩
      have : k < l.weight.n_slices := by
        show k < szMul l.outSize l.inSize
        rw [szMul_eq hOI]
        exact Nat.lt_of_lt_of_le hk (Nat.le_mul_of_pos_right _ hin)
      show (l.weight.slice k).map (fun _ => t) = some ()
      rw [Cube.slice_eq _ _ this]
      rfl)
  exact ht

/-- The value `bias(o)`. -/
theorem bias_eq {α : Type} [Zero α] (l : Convolution α) (o : Nat) (ho : o < l.outSize)
    (hOI : l.outSize * l.inSize < SIZE_MOD)
    (hw : l.weights.length = l.kernelWidth * l.kernelHeight * (l.outSize * l.inSize)
      + l.outSize) :
    l.bias o = some (l.weights.getD (l.kernelWidth * l.kernelHeight * (l.outSize * l.inSize) + o)
      0) := by
  unfold bias weightElem
  rw [if_pos ho, szMul_eq hOI]
  exact NaiveConvolution.getElem?_of_lt_getD _ _ (by omega)

end Convolution

/-- The buffer of the result of a non-accumulating valid-mode call has the size
of the result. -/
theorem NaiveConvolution.valid_length {α : Type} [Zero α] [Add α] [Mul α]
    (input filter out0 R : Mat α) (dW dH dilW dilH : Nat)
    (h : NaiveConvolution.ConvolutionValid input filter out0 dW dH dilW dilH false = some R) :
    R.mem.length = R.n_rows * R.n_cols := by
  obtain ⟨-, -, hl⟩ := NaiveConvolution.valid_false_inv input filter out0 R dW dH dilW dilH h
  rw [NaiveConvolution.convLoops_length _ _ _ _ _ _ _ _ _ _ hl, List.length_replicate]

namespace Convolution

/-- One iteration of the outer loop of `Forward`, on a cube whose slice `k` is
still zero: slice `k` becomes the sum of the per-channel convolutions plus the
bias of the output channel `k % outSize`. -/
theorem forwardOutMap_eq {α : Type} [CommRing α] (l : Convolution α) (input : Mat α)
    (inputTemp : Cube α) (R : Nat → Nat → Nat → Mat α) (r cc : Nat)
    (hOK : l.SizesOk input.n_cols)
    (hslices : ∀ k, k < l.inSize * input.n_cols →
      inputTemp.slice k = some (l.paddedSlice input k))
    (hR : ∀ o, o < l.outSize → ∀ b, b < input.n_cols → ∀ c, c < l.inSize →
      NaiveConvolution.ConvolutionValid (l.paddedSlice input (c + b * l.inSize))
        (l.weight.sliceMat (o * l.inSize + c)) (Mat.zeros 0 0)
        l.strideWidth l.strideHeight 1 1 false = some (R o b c))
    (hdims : ∀ o, o < l.outSize → ∀ b, b < input.n_cols → ∀ c, c < l.inSize →
      (R o b c).n_rows = r ∧ (R o b c).n_cols = cc)
    (k : Nat) (hk : k < l.outSize * input.n_cols) (out : Cube α)
    (hn : out.n_slices = l.outSize * input.n_cols)
    (hz : out.sliceMat k = ⟨r, cc, List.replicate (r * cc) 0⟩) :
    l.forwardOutMap inputTemp k out
      = out.setSlice k ((sumSlices r cc l.inSize (R (k % l.outSize) (k / l.outSize))).addScalar
          (l.weights.getD (l.kernelWidth * l.kernelHeight * (l.outSize * l.inSize)
            + k % l.outSize) 0)) := by
  obtain ⟨h1, h2, h3, h4, h5, h6⟩ := hOK
  have hout : 0 < l.outSize := by
    rcases Nat.eq_zero_or_pos l.outSize with h | h
    · rw [h, Nat.zero_mul] at hk; exact absurd hk (Nat.not_lt_zero k)
    · exact h
  have ho : k % l.outSize < l.outSize := Nat.mod_lt _ hout
  have hb : k / l.outSize < input.n_cols := by
    rw [Nat.div_lt_iff_lt_mul hout, Nat.mul_comm]; exact hk
  have hlen : ∀ ci, ci < l.inSize →
      (R (k % l.outSize) (k / l.outSize) ci).mem.length = r * cc := by
    intro ci hci
    have := NaiveConvolution.valid_length _ _ _ _ _ _ _ _ (hR _ ho _ hb ci hci)
    rw [this, (hdims _ ho _ hb ci hci).1, (hdims _ ho _ hb ci hci).2]
  have hstep : ∀ ci, ci < l.inSize → ∀ cur : Mat α, cur.n_rows = r → cur.n_cols = cc →
      cur.mem.length = r * cc →
      l.forwardChannel inputTemp (szMul (k % l.outSize) l.inSize) (k / l.outSize) ci cur
        = some ⟨r, cc, List.zipWith (fun x y => x + y) cur.mem
            (R (k % l.outSize) (k / l.outSize) ci).mem⟩ := by
    intro ci hci cur c1 c2 c3
    have b1 : k / l.outSize * l.inSize + ci < l.inSize * input.n_cols := flat_lt hci hb
    have b2 : k % l.outSize * l.inSize + ci < l.inSize * l.outSize := flat_lt hci ho
    have e1 : szMul (k / l.outSize) l.inSize = k / l.outSize * l.inSize := szMul_eq (by omega)
    have e2 : szAdd ci (k / l.outSize * l.inSize) = ci + k / l.outSize * l.inSize :=
      szAdd_eq (by omega)
    have e3 : szMul (k % l.outSize) l.inSize = k % l.outSize * l.inSize :=
      szMul_eq (by rw [Nat.mul_comm l.inSize] at b2; omega)
    have e4 : szAdd (k % l.outSize * l.inSize) ci = k % l.outSize * l.inSize + ci :=
      szAdd_eq (by rw [Nat.mul_comm l.inSize] at b2; omega)
    have hw : k % l.outSize * l.inSize + ci < l.weight.n_slices := by
      show _ < szMul l.outSize l.inSize
      rw [szMul_eq h3, Nat.mul_comm l.outSize]
      exact b2
    have happ := (NaiveConvolution.valid_appending _ _ _ cur _ _ _ _ _
      (hR _ ho _ hb ci hci) (by rw [c1, (hdims _ ho _ hb ci hci).1])
      (by rw [c2, (hdims _ ho _ hb ci hci).2]) (by rw [c3, c1, c2])).1
    unfold forwardChannel
    simp only [Option.bind_eq_bind]
    rw [e1, e2, e3, e4, hslices _ (by omega), Option.some_bind,
      Cube.slice_eq _ _ hw, Option.some_bind, happ, c1, c2]
  unfold forwardOutMap
  simp only [Option.bind_eq_bind]
  rw [Cube.slice_eq out k (by rw [hn]; exact hk), Option.some_bind, hz,
    accumulate_loop l.inSize r cc _ (R (k % l.outSize) (k / l.outSize)) hlen hstep,
    Option.some_bind, bias_eq l _ ho h3 h6, Option.some_bind]
  rfl

/-- The size of a per-channel convolution of `Forward` is the layer's
`ConvOutSize` on each axis. -/
theorem forward_conv_dims {α : Type} [Zero α] [Add α] [Mul α] (l : Convolution α)
    (input M : Mat α) (k idx : Nat)
    (h : NaiveConvolution.ConvolutionValid (l.paddedSlice input k) (l.weight.sliceMat idx)
      (Mat.zeros 0 0) l.strideWidth l.strideHeight 1 1 false = some M) :
    ConvOutSize l.inputWidth l.kernelWidth l.strideWidth l.padWLeft l.padWRight
      = some M.n_rows ∧
    ConvOutSize l.inputHeight l.kernelHeight l.strideHeight l.padHTop l.padHBottom
      = some M.n_cols := by
  obtain ⟨w1, w2, -⟩ := NaiveConvolution.valid_false_inv _ _ _ _ _ _ _ _ h
  rw [validOutSize_eq_ConvOutSize l.inputWidth _ _ l.padWLeft l.padWRight _
    (paddedSlice_dims l input k).1] at w1
  rw [validOutSize_eq_ConvOutSize l.inputHeight _ _ l.padHTop l.padHBottom _
    (paddedSlice_dims l input k).2] at w2
  exact ⟨w1, w2⟩

end Convolution

/-! ## Claims on the convolution kernel -/

/-- When the dilated filter fits inside the input on both axes and strides
and dilations are at least 1, the matrix allocated by the non-accumulating
valid-mode convolution, and so every output it returns, has extent
`(inputExtent - (filterExtent - 1) * dilation - 1) / stride + 1` on each axis,
with that axis' own stride and dilation (`dW`, `dilationW` for the rows, `dH`,
`dilationH` for the columns); the call does return whenever the two axes share
their stride and their dilation. -/
theorem valid_output_size_per_axis {α : Type} [CommRing α] (input filter out0 : Mat α)
    (dW dH dilW dilH : Nat) (hI : input.WF) (hF : filter.WF)
    (hdW : 1 ≤ dW) (hdH : 1 ≤ dH) (_hdilW : 1 ≤ dilW) (_hdilH : 1 ≤ dilH)
    (hfr : 1 ≤ filter.n_rows) (hfc : 1 ≤ filter.n_cols)
    (hr : (filter.n_rows - 1) * dilW + 1 ≤ input.n_rows)
    (hc : (filter.n_cols - 1) * dilH + 1 ≤ input.n_cols) :
    NaiveConvolution.validOutSize input.n_rows filter.n_rows dW dilW
      = some ((input.n_rows - (filter.n_rows - 1) * dilW - 1) / dW + 1) ∧
    NaiveConvolution.validOutSize input.n_cols filter.n_cols dH dilH
      = some ((input.n_cols - (filter.n_cols - 1) * dilH - 1) / dH + 1) ∧
    (∀ out, NaiveConvolution.ConvolutionValid input filter out0 dW dH dilW dilH false
        = some out →
      out.n_rows = (input.n_rows - (filter.n_rows - 1) * dilW - 1) / dW + 1 ∧
      out.n_cols = (input.n_cols - (filter.n_cols - 1) * dilH - 1) / dH + 1) ∧
    (dW = dH → dilW = dilH →
      ∃ out, NaiveConvolution.ConvolutionValid input filter out0 dW dH dilW dilH false
        = some out) := by
  have e1 := NaiveConvolution.validOutSize_eq hfr hr hF.2.2.1 hI.2.2.1 hdW
  have e2 := NaiveConvolution.validOutSize_eq hfc hc hF.2.2.2 hI.2.2.2 hdH
  refine ⟨e1, e2, ?_, ?_⟩
  · intro out hout
    simp only [NaiveConvolution.ConvolutionValid, e1, e2, Bool.false_eq_true, if_false,
      Option.bind_eq_bind, Option.some_bind, Mat.zeros] at hout
    cases hl : NaiveConvolution.convLoops input filter dW dH dilW dilH
        ((input.n_rows - (filter.n_rows - 1) * dilW - 1) / dW + 1)
        ((input.n_cols - (filter.n_cols - 1) * dilH - 1) / dH + 1)
        (List.replicate (((input.n_rows - (filter.n_rows - 1) * dilW - 1) / dW + 1) *
          ((input.n_cols - (filter.n_cols - 1) * dilH - 1) / dH + 1)) 0) with
    | none => rw [hl] at hout; simp at hout
    | some mem =>
      rw [hl] at hout
      simp only [Option.some_bind, Option.some.injEq] at hout
      subst hout
      exact ⟨rfl, rfl⟩
  · intro hs hd
    subst hs hd
    obtain ⟨out, h, -⟩ := NaiveConvolution.valid_same_stride input filter out0 dW dilW
      hI hF hdW hfr hfc hr hc
    exact ⟨out, h⟩

/-- C3 (fails on the code): with different strides on the two axes the loops
step the columns by `dW`, the stride that sized the rows, and the rows by `dH`.
On the 3 x 5 input `ex3x5` with the 1 x 1 filter, row stride 1 and column
stride 2, the 3 x 3 output holds `input(2 * i, j)` where the claim has
`input(i, 2 * j)`: cell `(1, 0)` is 2, the claim says 1.  On the 5 x 3 input
with row stride 2 and column stride 1 a read falls outside the input. -/
theorem C3_strides_applied_to_swapped_axes :
    NaiveConvolution.ConvolutionValid ex3x5 one1x1 (Mat.zeros 0 0) 1 2 1 1 false
      = some ⟨3, 3, [0, 2, 4, 3, 5, 7, 6, 8, 10]⟩ ∧
    (⟨3, 3, [0, 2, 4, 3, 5, 7, 6, 8, 10]⟩ : Mat Int).elem 1 0 = 2 ∧
    NaiveConvolution.specWindow ex3x5 one1x1 1 2 1 1 1 0 = 1 ∧
    NaiveConvolution.validOutSize ex5x3.n_rows one1x1.n_rows 2 1 = some 3 ∧
    NaiveConvolution.validOutSize ex5x3.n_cols one1x1.n_cols 1 1 = some 3 ∧
    ex5x3.mem.length ≤ NaiveConvolution.inputOffset ex5x3.n_rows 2 1 1 1 2 0 0 0 ∧
    NaiveConvolution.ConvolutionValid ex5x3 one1x1 (Mat.zeros 0 0) 2 1 1 1 false = none := by
  refine ⟨by decide, by decide, ?_, by decide, by decide, by decide, by decide⟩
  simp [NaiveConvolution.specWindow, Finset.sum_range_succ, Mat.elem, ex3x5, one1x1]

/-- C5: for a non-empty input and a non-empty filter, the full-mode convolution
with stride 1, dilation 1 and `appending = false` returns an output of extent
`n + m - 1` on each axis (`n` the input's, `m` the filter's extent on that
axis), the padded working buffer being addressable. -/
theorem C5_full_output_extent {α : Type} [CommRing α] (input filter out0 : Mat α)
    (hF : filter.WF)
    (hnr : 1 ≤ input.n_rows) (hnc : 1 ≤ input.n_cols)
    (hfr : 1 ≤ filter.n_rows) (hfc : 1 ≤ filter.n_cols)
    (hov : (input.n_rows + 2 * (filter.n_rows - 1)) * (input.n_cols + 2 * (filter.n_cols - 1))
      < SIZE_MOD) :
    ∃ out, NaiveConvolution.ConvolutionFull input filter out0 1 1 1 1 false = some out ∧
      out.n_rows = input.n_rows + filter.n_rows - 1 ∧
      out.n_cols = input.n_cols + filter.n_cols - 1 := by
  have h1 : input.n_rows + 2 * (filter.n_rows - 1) < SIZE_MOD :=
    Nat.lt_of_le_of_lt (Nat.le_mul_of_pos_right _ (by omega)) hov
  have h2 : input.n_cols + 2 * (filter.n_cols - 1) < SIZE_MOD :=
    Nat.lt_of_le_of_lt (Nat.le_mul_of_pos_left _ (by omega)) hov
  have hP := NaiveConvolution.fullPadded_eq input filter 1 1 1 1 hnr hnc hfr hfc
    (Nat.le_refl 1) (Nat.le_refl 1) (Nat.le_refl 1) (Nat.le_refl 1)
    (by decide) (by decide) (by omega) (by omega)
  simp only [Nat.mul_one, Nat.sub_self, Nat.mul_zero, Nat.add_zero] at hP
  have hW : (input.zeroPadded (filter.n_rows - 1) (filter.n_rows - 1) (filter.n_cols - 1)
      (filter.n_cols - 1)).WF := by
    refine ⟨by simp [Mat.zeroPadded], ?_, ?_, ?_⟩
    · have e1 : filter.n_rows - 1 + input.n_rows + (filter.n_rows - 1)
          = input.n_rows + 2 * (filter.n_rows - 1) := by omega
      have e2 : filter.n_cols - 1 + input.n_cols + (filter.n_cols - 1)
          = input.n_cols + 2 * (filter.n_cols - 1) := by omega
      simp only [Mat.zeroPadded, e1, e2]
      exact hov
    · simp only [Mat.zeroPadded]; omega
    · simp only [Mat.zeroPadded]; omega
  obtain ⟨out, ho, hr, hc, -⟩ := NaiveConvolution.valid_same_stride _ filter out0 1 1 hW hF
    (Nat.le_refl 1) hfr hfc (by simp only [Mat.zeroPadded]; omega)
    (by simp only [Mat.zeroPadded]; omega)
  refine ⟨out, ?_, ?_, ?_⟩
  · unfold NaiveConvolution.ConvolutionFull
    rw [hP, Option.bind_eq_bind, Option.some_bind]
    exact ho
  · rw [hr]; simp only [Mat.zeroPadded, Nat.mul_one, Nat.div_one]; omega
  · rw [hc]; simp only [Mat.zeroPadded, Nat.mul_one, Nat.div_one]; omega

/-- C5 on the 2 x 2 input and the 2 x 2 all-ones filter: a 3 x 3 result. -/
theorem C5_full_output_extent_witness :
    ex2x2.WF ∧ ones2x2.WF ∧
    NaiveConvolution.ConvolutionFull ex2x2 ones2x2 (Mat.zeros 0 0) 1 1 1 1 false
      = some ⟨3, 3, [1, 3, 2, 4, 10, 6, 3, 7, 4]⟩ ∧
    ∃ out, NaiveConvolution.ConvolutionFull ex2x2 ones2x2 (Mat.zeros 0 0) 1 1 1 1 false
        = some out ∧
      out.n_rows = ex2x2.n_rows + ones2x2.n_rows - 1 ∧
      out.n_cols = ex2x2.n_cols + ones2x2.n_cols - 1 :=
  ⟨by decide, by decide, by decide,
    C5_full_output_extent ex2x2 ones2x2 (Mat.zeros 0 0) (by decide) (by decide)
      (by decide) (by decide) (by decide) (by decide)⟩

/-- C6 as stated fails: on the 2 x 2 input with the 2 x 2 all-ones filter,
stride 2 and dilation 1, the full-mode result is 4 x 4, while the valid-mode
convolution with stride 2 over the input padded by `(2 - 1) * 1` zeros on each
side is 2 x 2. -/
theorem C6_full_differs_from_strided_valid :
    NaiveConvolution.ConvolutionFull ex2x2 ones2x2 (Mat.zeros 0 0) 2 2 1 1 false
      = some ⟨4, 4, [1, 3, 2, 0, 4, 10, 6, 0, 3, 7, 4, 0, 0, 0, 0, 0]⟩ ∧
    NaiveConvolution.ConvolutionValid
        (ex2x2.zeroPadded ((ones2x2.n_rows - 1) * 1) ((ones2x2.n_rows - 1) * 1)
          ((ones2x2.n_cols - 1) * 1) ((ones2x2.n_cols - 1) * 1))
        ones2x2 (Mat.zeros 0 0) 2 2 1 1 false
      = some ⟨2, 2, [1, 2, 3, 4]⟩ ∧
    NaiveConvolution.ConvolutionFull ex2x2 ones2x2 (Mat.zeros 0 0) 2 2 1 1 false
      ≠ NaiveConvolution.ConvolutionValid
        (ex2x2.zeroPadded ((ones2x2.n_rows - 1) * 1) ((ones2x2.n_rows - 1) * 1)
          ((ones2x2.n_cols - 1) * 1) ((ones2x2.n_cols - 1) * 1))
        ones2x2 (Mat.zeros 0 0) 2 2 1 1 false := by
  refine ⟨by decide, by decide, by decide⟩

/-- C6, amended: for a non-empty input and filter, strides and dilations at
least 1 and no `size_t` wrap-around, the full-mode convolution equals the
valid-mode convolution taken with stride 1 and the same dilations over the
input zero-padded, on each axis, by `(filterExtent - 1) * dilation` cells
before it and `(filterExtent - 1) * dilation + (inputExtent - 1) * (stride - 1)`
cells after it; with stride 1 that is `(filterExtent - 1) * dilation` cells on
each side. -/
theorem C6_full_is_unit_stride_valid_over_padded {α : Type} [CommRing α]
    (input filter out0 : Mat α) (dW dH dilW dilH : Nat) (appending : Bool)
    (hnr : 1 ≤ input.n_rows) (hnc : 1 ≤ input.n_cols)
    (hfr : 1 ≤ filter.n_rows) (hfc : 1 ≤ filter.n_cols)
    (hsW : 1 ≤ dW) (hsH : 1 ≤ dH) (hdW : 1 ≤ dilW) (hdH : 1 ≤ dilH)
    (hsW2 : dW < SIZE_MOD) (hsH2 : dH < SIZE_MOD)
    (hovr : (input.n_rows - 1) * dW + 2 * (filter.n_rows - 1) * dilW + 1 < SIZE_MOD)
    (hovc : (input.n_cols - 1) * dH + 2 * (filter.n_cols - 1) * dilH + 1 < SIZE_MOD) :
    NaiveConvolution.ConvolutionFull input filter out0 dW dH dilW dilH appending
      = NaiveConvolution.ConvolutionValid
        (input.zeroPadded ((filter.n_rows - 1) * dilW)
          ((filter.n_rows - 1) * dilW + (input.n_rows - 1) * (dW - 1))
          ((filter.n_cols - 1) * dilH)
          ((filter.n_cols - 1) * dilH + (input.n_cols - 1) * (dH - 1)))
        filter out0 1 1 dilW dilH appending := by
  unfold NaiveConvolution.ConvolutionFull
  rw [NaiveConvolution.fullPadded_eq input filter dW dH dilW dilH hnr hnc hfr hfc hsW hsH hdW hdH
      hsW2 hsH2 hovr hovc, Option.bind_eq_bind, Option.some_bind]

/-- C6, amended, on the 2 x 2 input, the all-ones 2 x 2 filter, stride 2 and
dilation 1. -/
theorem C6_full_is_unit_stride_valid_over_padded_witness :
    NaiveConvolution.ConvolutionFull ex2x2 ones2x2 (Mat.zeros 0 0) 2 2 1 1 false
      = NaiveConvolution.ConvolutionValid
        (ex2x2.zeroPadded ((ones2x2.n_rows - 1) * 1)
          ((ones2x2.n_rows - 1) * 1 + (ex2x2.n_rows - 1) * (2 - 1))
          ((ones2x2.n_cols - 1) * 1)
          ((ones2x2.n_cols - 1) * 1 + (ex2x2.n_cols - 1) * (2 - 1)))
        ones2x2 (Mat.zeros 0 0) 1 1 1 1 false :=
  C6_full_is_unit_stride_valid_over_padded ex2x2 ones2x2 (Mat.zeros 0 0) 2 2 1 1 false
    (by decide) (by decide) (by decide) (by decide) (by decide) (by decide) (by decide)
    (by decide) (by decide) (by decide) (by decide) (by decide)

/-- C7: the three multi-slice overloads, for operands with `n ≥ 1` slices and
either border mode.  Whenever the 2D convolutions of the slices return (`Rcc i`,
`Rmc i`, `Rcm i` for slice `i`): the cube-cube overload returns a cube of `n`
slices whose slice `i` is the convolution of input slice `i` with filter slice
`i`; the matrix-cube overload a cube with the filter's number of slices, slice
`i` being the convolution of the matrix with filter slice `i`; the cube-matrix
overload a cube with the input's number of slices, slice `i` being the
convolution of input slice `i` with the matrix. -/
theorem C7_cube_overloads_slice_for_slice {α : Type} [Zero α] [Add α] [Mul α]
    (mode : BorderMode) (input filter : Cube α) (inputM filterM : Mat α)
    (dW dH dilW dilH : Nat) (Rcc Rmc Rcm : Nat → Mat α)
    (hn : 1 ≤ input.n_slices) (hf : filter.n_slices = input.n_slices)
    (hcc : ∀ i, i < input.n_slices →
      NaiveConvolution.Convolution mode (input.sliceMat i) (filter.sliceMat i) (Mat.zeros 0 0)
        dW dH dilW dilH false = some (Rcc i))
    (hmc : ∀ i, i < filter.n_slices →
      NaiveConvolution.Convolution mode inputM (filter.sliceMat i) (Mat.zeros 0 0)
        dW dH dilW dilH false = some (Rmc i))
    (hcm : ∀ i, i < input.n_slices →
      NaiveConvolution.Convolution mode (input.sliceMat i) filterM (Mat.zeros 0 0)
        dW dH dilW dilH false = some (Rcm i)) :
    (∃ out, NaiveConvolution.ConvolutionCubeCube mode input filter dW dH dilW dilH = some out ∧
      out.n_slices = input.n_slices ∧
      ∀ i, i < input.n_slices → out.slice i = some (Rcc i)) ∧
    (∃ out, NaiveConvolution.ConvolutionMatCube mode inputM filter dW dH dilW dilH = some out ∧
      out.n_slices = filter.n_slices ∧
      ∀ i, i < filter.n_slices → out.slice i = some (Rmc i)) ∧
    (∃ out, NaiveConvolution.ConvolutionCubeMat mode input filterM dW dH dilW dilH = some out ∧
      out.n_slices = input.n_slices ∧
      ∀ i, i < input.n_slices → out.slice i = some (Rcm i)) :=
  ⟨NaiveConvolution.cube_cube_spec mode input filter dW dH dilW dilH Rcc hn (by omega) hcc,
    NaiveConvolution.mat_cube_spec mode inputM filter dW dH dilW dilH Rmc (by omega) hmc,
    NaiveConvolution.cube_mat_spec mode input filterM dW dH dilW dilH Rcm hn hcm⟩

/-- C7 on a 2 x 2 x 2 input cube and a 1 x 1 x 2 filter cube, valid mode. -/
theorem C7_cube_overloads_slice_for_slice_witness :
    NaiveConvolution.ConvolutionCubeCube BorderMode.ValidConvolution ex2x2x2 flt1x1x2 1 1 1 1
      = some ⟨2, 2, 2, [2, 4, 6, 8, 15, 18, 21, 24]⟩ ∧
    ((∃ out, NaiveConvolution.ConvolutionCubeCube BorderMode.ValidConvolution ex2x2x2 flt1x1x2
        1 1 1 1 = some out ∧ out.n_slices = ex2x2x2.n_slices ∧
      ∀ i, i < ex2x2x2.n_slices → out.slice i
        = some (if i = 0 then ⟨2, 2, [2, 4, 6, 8]⟩ else ⟨2, 2, [15, 18, 21, 24]⟩)) ∧
    (∃ out, NaiveConvolution.ConvolutionMatCube BorderMode.ValidConvolution ex2x2 flt1x1x2
        1 1 1 1 = some out ∧ out.n_slices = flt1x1x2.n_slices ∧
      ∀ i, i < flt1x1x2.n_slices → out.slice i
        = some (if i = 0 then ⟨2, 2, [2, 4, 6, 8]⟩ else ⟨2, 2, [3, 6, 9, 12]⟩)) ∧
    (∃ out, NaiveConvolution.ConvolutionCubeMat BorderMode.ValidConvolution ex2x2x2 one1x1
        1 1 1 1 = some out ∧ out.n_slices = ex2x2x2.n_slices ∧
      ∀ i, i < ex2x2x2.n_slices → out.slice i
        = some (if i = 0 then ⟨2, 2, [1, 2, 3, 4]⟩ else ⟨2, 2, [5, 6, 7, 8]⟩))) :=
  ⟨by decide,
    C7_cube_overloads_slice_for_slice BorderMode.ValidConvolution ex2x2x2 flt1x1x2 ex2x2 one1x1
      1 1 1 1
      (fun i => if i = 0 then ⟨2, 2, [2, 4, 6, 8]⟩ else ⟨2, 2, [15, 18, 21, 24]⟩)
      (fun i => if i = 0 then ⟨2, 2, [2, 4, 6, 8]⟩ else ⟨2, 2, [3, 6, 9, 12]⟩)
      (fun i => if i = 0 then ⟨2, 2, [1, 2, 3, 4]⟩ else ⟨2, 2, [5, 6, 7, 8]⟩)
      (by decide) (by decide) (by decide) (by decide) (by decide)⟩

/-! ## Claims on the convolution layer -/

/-- C9 (fails on the code): `Backward` rotates filter slice `outMapIdx + inMap`
where `Forward` uses slice `outMapIdx * inSize + inMap`.  On `exLayer` (two
input and two output channels, 1 x 1 filters 1, 10, 100, 1000), after `Forward`
on one batch item, the output gradient (5, 7) yields the input gradient
(75, 750) = (5 * 1 + 7 * 10, 5 * 10 + 7 * 100); the sum over the output channels
of the full-mode convolutions with the rotated filters `o * inSize + c` is
(705, 7050). -/
theorem C9_backward_uses_wrong_filter_slice :
    exLayer.Forward ⟨2, 1, [2, 3]⟩ = some (exLayerFwd, ⟨2, 1, [32, 3200]⟩) ∧
    exLayerFwd.Backward ⟨2, 1, [2, 3]⟩ ⟨2, 1, [5, 7]⟩ = some ⟨2, 1, [75, 750]⟩ ∧
    exLayerFwd.gradSlice ⟨2, 1, [75, 750]⟩ (0 + 0 * 2) = ⟨1, 1, [75]⟩ ∧
    exLayerFwd.specInputGradient ⟨2, 1, [5, 7]⟩ 0 0 = some ⟨1, 1, [705]⟩ ∧
    exLayerFwd.gradSlice ⟨2, 1, [75, 750]⟩ (1 + 0 * 2) = ⟨1, 1, [750]⟩ ∧
    exLayerFwd.specInputGradient ⟨2, 1, [5, 7]⟩ 1 0 = some ⟨1, 1, [7050]⟩ := by
  refine ⟨by decide, by decide, by decide, by decide, by decide, by decide⟩

/-- C10 (fails on the code): `Gradient` accumulates into filter-gradient slice
`outMapIdx + inMap` instead of `outMapIdx * inSize + inMap`.  On `exLayer`
after `Forward`, with input (2, 3) and output gradient (5, 7), the filter part
of the parameter gradient is (10, 29, 21, 0): slice 1 receives the
contributions of the channel pairs (0, 1) and (1, 0), slice 3 none.  The
cross-correlations the claim describes are (10, 15, 14, 21). -/
theorem C10_gradient_uses_wrong_filter_slice :
    exLayerFwd.Gradient ⟨2, 1, [2, 3]⟩ ⟨2, 1, [5, 7]⟩ (Mat.zeros 0 0)
      = some ⟨6, 1, [10, 29, 21, 0, 5, 7]⟩ ∧
    exLayerFwd.filterGradSlice ⟨6, 1, [10, 29, 21, 0, 5, 7]⟩ (0 * 2 + 1) = ⟨1, 1, [29]⟩ ∧
    exLayerFwd.specFilterGradient ⟨2, 1, [2, 3]⟩ ⟨2, 1, [5, 7]⟩ 0 1 = some ⟨1, 1, [15]⟩ ∧
    exLayerFwd.filterGradSlice ⟨6, 1, [10, 29, 21, 0, 5, 7]⟩ (1 * 2 + 0) = ⟨1, 1, [21]⟩ ∧
    exLayerFwd.specFilterGradient ⟨2, 1, [2, 3]⟩ ⟨2, 1, [5, 7]⟩ 1 0 = some ⟨1, 1, [14]⟩ ∧
    exLayerFwd.filterGradSlice ⟨6, 1, [10, 29, 21, 0, 5, 7]⟩ (1 * 2 + 1) = ⟨1, 1, [0]⟩ ∧
    exLayerFwd.specFilterGradient ⟨2, 1, [2, 3]⟩ ⟨2, 1, [5, 7]⟩ 1 1 = some ⟨1, 1, [21]⟩ := by
  refine ⟨by decide, by decide, by decide, by decide, by decide, by decide, by decide⟩

/-! ## Claims on the error behaviour of the convolution kernel -/

namespace NaiveConvolution

theorem forLoop_zero_inner {σ : Type} (n : Nat) (body : Nat → Nat → σ → Option σ) (s : σ) :
    forLoop n (fun j t => forLoop 0 (body j) t) s = some s := by
  induction n with
  | zero => rfl
  | succ m ih => rw [forLoop_succ, ih]; rfl

theorem validOutSize_wrap {n f s d : Nat} (hf : 1 ≤ f) (hf2 : f < SIZE_MOD)
    (hn : n < SIZE_MOD) (hs : 1 ≤ s) (hd : (f - 1) * d + 1 ≤ SIZE_MOD)
    (hover : n < (f - 1) * d + 1) :
    validOutSize n f s d
      = some (((SIZE_MOD + n - (f - 1) * d - 1) / s + 1) % SIZE_MOD) := by
  have h1 : szSub f 1 = f - 1 := szSub_eq hf hf2
  have h2 : szMul (f - 1) d = (f - 1) * d := szMul_eq (by omega)
  have h3 : szSub (szSub n ((f - 1) * d)) 1 = SIZE_MOD + n - (f - 1) * d - 1 := by
    generalize (f - 1) * d = p at *
    unfold szSub SIZE_MOD at *
    omega
  unfold validOutSize szDiv
  rw [h1, h2, h3, if_neg (by omega)]
  rfl

end NaiveConvolution

/-- Claim C20, refuted as stated: the valid-mode call on a 1 x 1 input with a
2 x 1 filter (dilated filter extent 2 > input extent 1 on the row axis) is not
rejected; the row extent it allocates is the wrap-around value
`(2^64 - 1) / 1 + 1 = 0 (mod 2^64)` and it returns the empty 0 x 1 matrix. -/
theorem C20_oversized_filter_is_not_rejected :
    ex1x1.n_rows < (ones2x1.n_rows - 1) * 1 + 1 ∧
    NaiveConvolution.validOutSize ex1x1.n_rows ones2x1.n_rows 1 1 = some 0 ∧
    NaiveConvolution.ConvolutionValid ex1x1 ones2x1 (Mat.zeros 0 0) 1 1 1 1 false
      = some ⟨0, 1, []⟩ := by
  decide

/-- Claim C20, amended: when the dilated filter extent exceeds the input extent
on an axis, the valid-mode call does not reject; the extent it allocates on
that axis is the wrap-around value
`((2^64 + inputExtent - (filterExtent-1)*dilation - 1) / stride + 1) mod 2^64`,
every output it returns has that extent, and when that extent is 0 on the row
axis the call returns the empty matrix. -/
theorem C20_valid_size_wraps_around {α : Type} [CommRing α] (input filter out0 : Mat α)
    (dW dH dilW dilH : Nat)
    (hfr : 1 ≤ filter.n_rows) (hfc : 1 ≤ filter.n_cols)
    (hfr2 : filter.n_rows < SIZE_MOD) (hfc2 : filter.n_cols < SIZE_MOD)
    (hir : input.n_rows < SIZE_MOD) (hic : input.n_cols < SIZE_MOD)
    (hdW : 1 ≤ dW) (hdH : 1 ≤ dH)
    (hpr : (filter.n_rows - 1) * dilW + 1 ≤ SIZE_MOD)
    (hpc : (filter.n_cols - 1) * dilH + 1 ≤ SIZE_MOD) :
    (input.n_rows < (filter.n_rows - 1) * dilW + 1 →
      NaiveConvolution.validOutSize input.n_rows filter.n_rows dW dilW
        = some (((SIZE_MOD + input.n_rows - (filter.n_rows - 1) * dilW - 1) / dW + 1)
            % SIZE_MOD) ∧
      (∀ out, NaiveConvolution.ConvolutionValid input filter out0 dW dH dilW dilH false
          = some out →
        out.n_rows = ((SIZE_MOD + input.n_rows - (filter.n_rows - 1) * dilW - 1) / dW + 1)
            % SIZE_MOD) ∧
      (((SIZE_MOD + input.n_rows - (filter.n_rows - 1) * dilW - 1) / dW + 1) % SIZE_MOD = 0 →
        ∀ c, NaiveConvolution.validOutSize input.n_cols filter.n_cols dH dilH = some c →
          NaiveConvolution.ConvolutionValid input filter out0 dW dH dilW dilH false
            = some ⟨0, c, []⟩)) ∧
    (input.n_cols < (filter.n_cols - 1) * dilH + 1 →
      NaiveConvolution.validOutSize input.n_cols filter.n_cols dH dilH
        = some (((SIZE_MOD + input.n_cols - (filter.n_cols - 1) * dilH - 1) / dH + 1)
            % SIZE_MOD) ∧
      (∀ out, NaiveConvolution.ConvolutionValid input filter out0 dW dH dilW dilH false
          = some out →
        out.n_cols = ((SIZE_MOD + input.n_cols - (filter.n_cols - 1) * dilH - 1) / dH + 1)
            % SIZE_MOD)) := by
  refine ⟨fun hover => ?_, fun hover => ?_⟩
  · have hr := NaiveConvolution.validOutSize_wrap hfr hfr2 hir hdW hpr hover
    refine ⟨hr, fun out ho => ?_, fun h0 c hc => ?_⟩
    · unfold NaiveConvolution.ConvolutionValid at ho
      simp only [Bool.false_eq_true, if_false, Option.bind_eq_bind, Option.bind_eq_some,
        Option.some.injEq] at ho
      obtain ⟨r, hr2, c, _, z, hz, mem, _, hout⟩ := ho
      rw [hr, Option.some.injEq] at hr2
      rw [← hout, ← hz, ← hr2]
      rfl
    · rw [h0] at hr
      unfold NaiveConvolution.ConvolutionValid NaiveConvolution.convLoops
      simp only [Bool.false_eq_true, if_false, Option.bind_eq_bind]
      rw [hr, hc]
      simp only [Option.some_bind, Mat.zeros, Nat.zero_mul, List.replicate_zero]
      rw [NaiveConvolution.forLoop_zero_inner]
      rfl
  · have hcz := NaiveConvolution.validOutSize_wrap hfc hfc2 hic hdH hpc hover
    refine ⟨hcz, fun out ho => ?_⟩
    unfold NaiveConvolution.ConvolutionValid at ho
    simp only [Bool.false_eq_true, if_false, Option.bind_eq_bind, Option.bind_eq_some,
      Option.some.injEq] at ho
    obtain ⟨r, _, c, hc2, z, hz, mem, _, hout⟩ := ho
    rw [hcz, Option.some.injEq] at hc2
    rw [← hout, ← hz, ← hc2]
    rfl

theorem C20_valid_size_wraps_around_witness :
    (ex1x1.n_rows < (ones2x1.n_rows - 1) * 1 + 1 →
      NaiveConvolution.validOutSize ex1x1.n_rows ones2x1.n_rows 1 1
        = some (((SIZE_MOD + ex1x1.n_rows - (ones2x1.n_rows - 1) * 1 - 1) / 1 + 1)
            % SIZE_MOD) ∧
      (∀ out, NaiveConvolution.ConvolutionValid ex1x1 ones2x1 (Mat.zeros 0 0) 1 1 1 1 false
          = some out →
        out.n_rows = ((SIZE_MOD + ex1x1.n_rows - (ones2x1.n_rows - 1) * 1 - 1) / 1 + 1)
            % SIZE_MOD) ∧
      (((SIZE_MOD + ex1x1.n_rows - (ones2x1.n_rows - 1) * 1 - 1) / 1 + 1) % SIZE_MOD = 0 →
        ∀ c, NaiveConvolution.validOutSize ex1x1.n_cols ones2x1.n_cols 1 1 = some c →
          NaiveConvolution.ConvolutionValid ex1x1 ones2x1 (Mat.zeros 0 0) 1 1 1 1 false
            = some ⟨0, c, []⟩)) ∧
    (ex1x1.n_cols < (ones2x1.n_cols - 1) * 1 + 1 →
      NaiveConvolution.validOutSize ex1x1.n_cols ones2x1.n_cols 1 1
        = some (((SIZE_MOD + ex1x1.n_cols - (ones2x1.n_cols - 1) * 1 - 1) / 1 + 1)
            % SIZE_MOD) ∧
      (∀ out, NaiveConvolution.ConvolutionValid ex1x1 ones2x1 (Mat.zeros 0 0) 1 1 1 1 false
          = some out →
        out.n_cols = ((SIZE_MOD + ex1x1.n_cols - (ones2x1.n_cols - 1) * 1 - 1) / 1 + 1)
            % SIZE_MOD)) :=
  C20_valid_size_wraps_around ex1x1 ones2x1 (Mat.zeros 0 0) 1 1 1 1
    (by decide) (by decide) (by decide) (by decide) (by decide) (by decide)
    (by decide) (by decide) (by decide) (by decide)

/-! ## Claims on the construction of the convolution layer -/

namespace Convolution

theorem construct_same {α : Type} (ToLower : String → String) (batchSize0 : Nat)
    (weights0 : List α) (inSize outSize kW kH sW sH : Nat) (padW padH : Nat × Nat)
    (W H : Nat) (paddingType : String) (hsame : ToLower paddingType = "same") :
    (construct ToLower batchSize0 weights0 inSize outSize kW kH sW sH padW padH W H
        paddingType).padWLeft = totalPadding sW W kW / 2 ∧
    (construct ToLower batchSize0 weights0 inSize outSize kW kH sW sH padW padH W H
        paddingType).padWRight = szSub (totalPadding sW W kW) (totalPadding sW W kW / 2) ∧
    (construct ToLower batchSize0 weights0 inSize outSize kW kH sW sH padW padH W H
        paddingType).padHTop = totalPadding sH H kH / 2 ∧
    (construct ToLower batchSize0 weights0 inSize outSize kW kH sW sH padW padH W H
        paddingType).padHBottom = szSub (totalPadding sH H kH) (totalPadding sH H kH / 2) := by
  have hv : ¬ (ToLower paddingType = "valid") := by rw [hsame]; decide
  unfold construct
  dsimp only
  rw [if_neg hv, if_pos hsame]
  exact ⟨rfl, rfl, rfl, rfl⟩

theorem totalPadding_lt (s W k : Nat) : totalPadding s W k < SIZE_MOD := by
  unfold totalPadding szSub
  exact Nat.mod_lt _ (by decide)

theorem szSub_half {t : Nat} (ht : t < SIZE_MOD) : szSub t (t / 2) = t - t / 2 := by
  unfold szSub SIZE_MOD at *
  omega

theorem totalPadding_stride_one {W k : Nat} (hk : 1 ≤ k) (hk2 : k < SIZE_MOD) :
    totalPadding 1 W k = k - 1 := by
  have h1 : szSub 1 1 = 0 := by decide
  have h2 : szMul 0 W = 0 := by unfold szMul; rw [Nat.zero_mul]; rfl
  unfold totalPadding
  rw [h1, h2]
  unfold szSub szAdd SIZE_MOD at *
  omega

theorem ConvOutSize_same {W k pl pr : Nat} (hW : 1 ≤ W) (hW2 : W < SIZE_MOD) (hk : 1 ≤ k)
    (hp : pl + pr = k - 1) : ConvOutSize W k 1 pl pr = some W := by
  unfold ConvOutSize szDiv
  rw [if_neg (by decide)]
  simp only [Option.map_some', Option.some.injEq, Nat.div_one]
  unfold szSub szAdd SIZE_MOD at *
  omega

end Convolution

/-- Claim C13: a layer constructed with padding policy "same" and stride 1 on
both axes, for input extents `W, H >= 1` and kernel extents `kW, kH >= 1`, has
`padWLeft + padWRight = kW - 1` and `padHTop + padHBottom = kH - 1`, and the
convolution output size computed from these pads equals the input extent on
each axis. -/
theorem C13_same_padding_stride_one_keeps_size {α : Type} (ToLower : String → String)
    (batchSize0 : Nat) (weights0 : List α) (inSize outSize kW kH : Nat) (padW padH : Nat × Nat)
    (W H : Nat) (paddingType : String) (hsame : ToLower paddingType = "same")
    (hW : 1 ≤ W) (hH : 1 ≤ H) (hkW : 1 ≤ kW) (hkH : 1 ≤ kH)
    (hW2 : W < SIZE_MOD) (hH2 : H < SIZE_MOD) (hkW2 : kW < SIZE_MOD) (hkH2 : kH < SIZE_MOD) :
    (Convolution.construct ToLower batchSize0 weights0 inSize outSize kW kH 1 1 padW padH W H
        paddingType).padWLeft +
      (Convolution.construct ToLower batchSize0 weights0 inSize outSize kW kH 1 1 padW padH W H
        paddingType).padWRight = kW - 1 ∧
    (Convolution.construct ToLower batchSize0 weights0 inSize outSize kW kH 1 1 padW padH W H
        paddingType).padHTop +
      (Convolution.construct ToLower batchSize0 weights0 inSize outSize kW kH 1 1 padW padH W H
        paddingType).padHBottom = kH - 1 ∧
    ConvOutSize W kW 1
      (Convolution.construct ToLower batchSize0 weights0 inSize outSize kW kH 1 1 padW padH W H
        paddingType).padWLeft
      (Convolution.construct ToLower batchSize0 weights0 inSize outSize kW kH 1 1 padW padH W H
        paddingType).padWRight = some W ∧
    ConvOutSize H kH 1
      (Convolution.construct ToLower batchSize0 weights0 inSize outSize kW kH 1 1 padW padH W H
        paddingType).padHTop
      (Convolution.construct ToLower batchSize0 weights0 inSize outSize kW kH 1 1 padW padH W H
        paddingType).padHBottom = some H := by
  obtain ⟨h1, h2, h3, h4⟩ := Convolution.construct_same ToLower batchSize0 weights0 inSize
    outSize kW kH 1 1 padW padH W H paddingType hsame
  have hw : (Convolution.construct ToLower batchSize0 weights0 inSize outSize kW kH 1 1 padW
      padH W H paddingType).padWLeft +
      (Convolution.construct ToLower batchSize0 weights0 inSize outSize kW kH 1 1 padW padH W H
        paddingType).padWRight = kW - 1 := by
    rw [h1, h2, Convolution.totalPadding_stride_one hkW hkW2,
      Convolution.szSub_half (by omega)]
    omega
  have hh : (Convolution.construct ToLower batchSize0 weights0 inSize outSize kW kH 1 1 padW
      padH W H paddingType).padHTop +
      (Convolution.construct ToLower batchSize0 weights0 inSize outSize kW kH 1 1 padW padH W H
        paddingType).padHBottom = kH - 1 := by
    rw [h3, h4, Convolution.totalPadding_stride_one hkH hkH2,
      Convolution.szSub_half (by omega)]
    omega
  exact ⟨hw, hh, Convolution.ConvOutSize_same hW hW2 hkW hw,
    Convolution.ConvOutSize_same hH hH2 hkH hh⟩

theorem C13_same_padding_stride_one_keeps_size_witness :
    exSameLayer.padWLeft + exSameLayer.padWRight = 3 - 1 ∧
    exSameLayer.padHTop + exSameLayer.padHBottom = 2 - 1 ∧
    ConvOutSize 4 3 1 exSameLayer.padWLeft exSameLayer.padWRight = some 4 ∧
    ConvOutSize 5 2 1 exSameLayer.padHTop exSameLayer.padHBottom = some 5 :=
  C13_same_padding_stride_one_keeps_size (fun s => s) 0 ([] : List Int) 1 1 3 2 (0, 0) (0, 0)
    4 5 "same" rfl (by decide) (by decide) (by decide) (by decide) (by decide) (by decide)
    (by decide) (by decide)

namespace Convolution

theorem totalPadding_int {s W k : Nat} (hs : s < SIZE_MOD)
    (h0 : 0 ≤ ((s : ℤ) - 1) * W + k - s) (h1 : ((s : ℤ) - 1) * W + k - s < SIZE_MOD) :
    (totalPadding s W k : ℤ) = ((s : ℤ) - 1) * W + k - s := by
  rcases Nat.eq_zero_or_pos s with h | h
  · subst h
    have e1 : szSub 0 1 = SIZE_MOD - 1 := by decide
    unfold totalPadding
    rw [e1]
    unfold szSub szAdd szMul SIZE_MOD at *
    push_cast at h0 h1 ⊢
    omega
  · obtain ⟨t, rfl⟩ : ∃ t, s = t + 1 := ⟨s - 1, by omega⟩
    have e1 : szSub (t + 1) 1 = t := by
      unfold szSub SIZE_MOD at *
      omega
    have e2 : (((t + 1 : ℕ) : ℤ) - 1) * W = ((t * W : ℕ) : ℤ) := by push_cast; ring
    rw [e2] at h0 h1 ⊢
    clear e2
    unfold totalPadding szMul
    rw [e1]
    clear e1
    generalize t * W = p at *
    unfold szSub szAdd SIZE_MOD at *
    omega

theorem totalPadding_wrap {s W k : Nat} (hs : s < SIZE_MOD) (hW : W < SIZE_MOD)
    (hk : k < SIZE_MOD) (h0 : ((s : ℤ) - 1) * W + k - s < 0) :
    (totalPadding s W k : ℤ) = ((s : ℤ) - 1) * W + k - s + SIZE_MOD := by
  rcases Nat.eq_zero_or_pos s with h | h
  · subst h
    have e1 : szSub 0 1 = SIZE_MOD - 1 := by decide
    unfold totalPadding
    rw [e1]
    unfold szSub szAdd szMul SIZE_MOD at *
    push_cast at h0 ⊢
    omega
  · obtain ⟨t, rfl⟩ : ∃ t, s = t + 1 := ⟨s - 1, by omega⟩
    have e1 : szSub (t + 1) 1 = t := by
      unfold szSub SIZE_MOD at *
      omega
    have e2 : (((t + 1 : ℕ) : ℤ) - 1) * W = ((t * W : ℕ) : ℤ) := by push_cast; ring
    rw [e2] at h0 ⊢
    clear e2
    unfold totalPadding szMul
    rw [e1]
    clear e1
    generalize t * W = p at *
    unfold szSub szAdd SIZE_MOD at *
    omega

end Convolution

/-- Claim C14: a layer constructed with policy "same" holds, on each axis,
`floor(T/2)` as left (top) padding and `T - floor(T/2)` as right (bottom)
padding, where `T` is the total the constructor derives for the axis; so
left + right = T, right >= left and right - left is 0 or 1.  Whenever the
integer `(stride - 1) * inputExtent + kernelExtent - stride` is non-negative
(and a `size_t` value), `T` is that integer. -/
theorem C14_same_padding_split {α : Type} (ToLower : String → String)
    (batchSize0 : Nat) (weights0 : List α) (inSize outSize kW kH sW sH : Nat)
    (padW padH : Nat × Nat) (W H : Nat) (paddingType : String) (l : Convolution α)
    (hl : l = Convolution.construct ToLower batchSize0 weights0 inSize outSize kW kH sW sH
      padW padH W H paddingType)
    (hsame : ToLower paddingType = "same") (hsW : sW < SIZE_MOD) (hsH : sH < SIZE_MOD) :
    (l.padWLeft = Convolution.totalPadding sW W kW / 2 ∧
      l.padWRight = Convolution.totalPadding sW W kW - Convolution.totalPadding sW W kW / 2 ∧
      l.padWLeft + l.padWRight = Convolution.totalPadding sW W kW ∧
      l.padWLeft ≤ l.padWRight ∧
      (l.padWRight - l.padWLeft = 0 ∨ l.padWRight - l.padWLeft = 1)) ∧
    (l.padHTop = Convolution.totalPadding sH H kH / 2 ∧
      l.padHBottom = Convolution.totalPadding sH H kH - Convolution.totalPadding sH H kH / 2 ∧
      l.padHTop + l.padHBottom = Convolution.totalPadding sH H kH ∧
      l.padHTop ≤ l.padHBottom ∧
      (l.padHBottom - l.padHTop = 0 ∨ l.padHBottom - l.padHTop = 1)) ∧
    (0 ≤ ((sW : ℤ) - 1) * W + kW - sW → ((sW : ℤ) - 1) * W + kW - sW < SIZE_MOD →
      (Convolution.totalPadding sW W kW : ℤ) = ((sW : ℤ) - 1) * W + kW - sW) ∧
    (0 ≤ ((sH : ℤ) - 1) * H + kH - sH → ((sH : ℤ) - 1) * H + kH - sH < SIZE_MOD →
      (Convolution.totalPadding sH H kH : ℤ) = ((sH : ℤ) - 1) * H + kH - sH) := by
  obtain ⟨h1, h2, h3, h4⟩ := Convolution.construct_same ToLower batchSize0 weights0 inSize
    outSize kW kH sW sH padW padH W H paddingType hsame
  rw [← hl] at h1 h2 h3 h4
  rw [Convolution.szSub_half (Convolution.totalPadding_lt _ _ _)] at h2 h4
  refine ⟨⟨h1, h2, ?_, ?_, ?_⟩, ⟨h3, h4, ?_, ?_, ?_⟩,
    fun h0 hlt => Convolution.totalPadding_int hsW h0 hlt,
    fun h0 hlt => Convolution.totalPadding_int hsH h0 hlt⟩
  all_goals omega

theorem C14_same_padding_split_witness :
    (exSameStrided.padWLeft = Convolution.totalPadding 2 6 4 / 2 ∧
      exSameStrided.padWRight
        = Convolution.totalPadding 2 6 4 - Convolution.totalPadding 2 6 4 / 2 ∧
      exSameStrided.padWLeft + exSameStrided.padWRight = Convolution.totalPadding 2 6 4 ∧
      exSameStrided.padWLeft ≤ exSameStrided.padWRight ∧
      (exSameStrided.padWRight - exSameStrided.padWLeft = 0 ∨
        exSameStrided.padWRight - exSameStrided.padWLeft = 1)) ∧
    (exSameStrided.padHTop = Convolution.totalPadding 3 5 3 / 2 ∧
      exSameStrided.padHBottom
        = Convolution.totalPadding 3 5 3 - Convolution.totalPadding 3 5 3 / 2 ∧
      exSameStrided.padHTop + exSameStrided.padHBottom = Convolution.totalPadding 3 5 3 ∧
      exSameStrided.padHTop ≤ exSameStrided.padHBottom ∧
      (exSameStrided.padHBottom - exSameStrided.padHTop = 0 ∨
        exSameStrided.padHBottom - exSameStrided.padHTop = 1)) ∧
    (0 ≤ (((2 : ℕ) : ℤ) - 1) * ((6 : ℕ) : ℤ) + ((4 : ℕ) : ℤ) - ((2 : ℕ) : ℤ) →
      (((2 : ℕ) : ℤ) - 1) * ((6 : ℕ) : ℤ) + ((4 : ℕ) : ℤ) - ((2 : ℕ) : ℤ) < SIZE_MOD →
      (Convolution.totalPadding 2 6 4 : ℤ)
        = (((2 : ℕ) : ℤ) - 1) * ((6 : ℕ) : ℤ) + ((4 : ℕ) : ℤ) - ((2 : ℕ) : ℤ)) ∧
    (0 ≤ (((3 : ℕ) : ℤ) - 1) * ((5 : ℕ) : ℤ) + ((3 : ℕ) : ℤ) - ((3 : ℕ) : ℤ) →
      (((3 : ℕ) : ℤ) - 1) * ((5 : ℕ) : ℤ) + ((3 : ℕ) : ℤ) - ((3 : ℕ) : ℤ) < SIZE_MOD →
      (Convolution.totalPadding 3 5 3 : ℤ)
        = (((3 : ℕ) : ℤ) - 1) * ((5 : ℕ) : ℤ) + ((3 : ℕ) : ℤ) - ((3 : ℕ) : ℤ)) :=
  C14_same_padding_split (fun s => s) 0 ([] : List Int) 1 1 4 3 2 3 (0, 0) (0, 0) 6 5 "same"
    exSameStrided rfl rfl (by decide) (by decide)

/-- Claim C15, refuted as stated: constructing a layer with policy "same" for
input width 0, kernel width 1 and stride 2 on the width axis (derived total
`(2 - 1) * 0 + 1 - 2 = -1`) does not fail; the layer produced holds the
wrapped-around total `2^64 - 1` split into `padWLeft = 2^63 - 1` and
`padWRight = 2^63`. -/
theorem C15_negative_same_padding_wraps_around :
    (((2 : ℕ) : ℤ) - 1) * ((0 : ℕ) : ℤ) + ((1 : ℕ) : ℤ) - ((2 : ℕ) : ℤ) < 0 ∧
    exSameNegative.padWLeft = 9223372036854775807 ∧
    exSameNegative.padWRight = 9223372036854775808 ∧
    exSameNegative.padHTop = 0 ∧ exSameNegative.padHBottom = 0 := by
  decide

/-- Claim C15, amended: constructing a layer with policy "same" always yields a
layer; when the integer `(stride - 1) * inputExtent + kernelExtent - stride` is
negative on an axis, the total derived for that axis is that integer plus
`2^64`, and the layer holds its floor half as left (top) padding and the rest
as right (bottom) padding. -/
theorem C15_same_padding_never_fails {α : Type} (ToLower : String → String)
    (batchSize0 : Nat) (weights0 : List α) (inSize outSize kW kH sW sH : Nat)
    (padW padH : Nat × Nat) (W H : Nat) (paddingType : String) (l : Convolution α)
    (hl : l = Convolution.construct ToLower batchSize0 weights0 inSize outSize kW kH sW sH
      padW padH W H paddingType)
    (hsame : ToLower paddingType = "same")
    (hsW : sW < SIZE_MOD) (hsH : sH < SIZE_MOD) (hW : W < SIZE_MOD) (hH : H < SIZE_MOD)
    (hkW : kW < SIZE_MOD) (hkH : kH < SIZE_MOD) :
    (((sW : ℤ) - 1) * W + kW - sW < 0 →
      (Convolution.totalPadding sW W kW : ℤ) = ((sW : ℤ) - 1) * W + kW - sW + SIZE_MOD ∧
      l.padWLeft = Convolution.totalPadding sW W kW / 2 ∧
      l.padWRight
        = Convolution.totalPadding sW W kW - Convolution.totalPadding sW W kW / 2) ∧
    (((sH : ℤ) - 1) * H + kH - sH < 0 →
      (Convolution.totalPadding sH H kH : ℤ) = ((sH : ℤ) - 1) * H + kH - sH + SIZE_MOD ∧
      l.padHTop = Convolution.totalPadding sH H kH / 2 ∧
      l.padHBottom
        = Convolution.totalPadding sH H kH - Convolution.totalPadding sH H kH / 2) := by
  obtain ⟨h1, h2, h3, h4⟩ := Convolution.construct_same ToLower batchSize0 weights0 inSize
    outSize kW kH sW sH padW padH W H paddingType hsame
  rw [← hl] at h1 h2 h3 h4
  rw [Convolution.szSub_half (Convolution.totalPadding_lt _ _ _)] at h2 h4
  exact ⟨fun h => ⟨Convolution.totalPadding_wrap hsW hW hkW h, h1, h2⟩,
    fun h => ⟨Convolution.totalPadding_wrap hsH hH hkH h, h3, h4⟩⟩

theorem C15_same_padding_never_fails_witness :
    ((((2 : ℕ) : ℤ) - 1) * ((0 : ℕ) : ℤ) + ((1 : ℕ) : ℤ) - ((2 : ℕ) : ℤ) < 0 →
      (Convolution.totalPadding 2 0 1 : ℤ)
        = (((2 : ℕ) : ℤ) - 1) * ((0 : ℕ) : ℤ) + ((1 : ℕ) : ℤ) - ((2 : ℕ) : ℤ) + SIZE_MOD ∧
      exSameNegative.padWLeft = Convolution.totalPadding 2 0 1 / 2 ∧
      exSameNegative.padWRight
        = Convolution.totalPadding 2 0 1 - Convolution.totalPadding 2 0 1 / 2) ∧
    ((((1 : ℕ) : ℤ) - 1) * ((1 : ℕ) : ℤ) + ((1 : ℕ) : ℤ) - ((1 : ℕ) : ℤ) < 0 →
      (Convolution.totalPadding 1 1 1 : ℤ)
        = (((1 : ℕ) : ℤ) - 1) * ((1 : ℕ) : ℤ) + ((1 : ℕ) : ℤ) - ((1 : ℕ) : ℤ) + SIZE_MOD ∧
      exSameNegative.padHTop = Convolution.totalPadding 1 1 1 / 2 ∧
      exSameNegative.padHBottom
        = Convolution.totalPadding 1 1 1 - Convolution.totalPadding 1 1 1 / 2) :=
  C15_same_padding_never_fails (fun s => s) 0 ([] : List Int) 1 1 1 1 2 1 (0, 0) (0, 0) 0 1
    "same" exSameNegative rfl rfl (by decide) (by decide) (by decide) (by decide) (by decide)
    (by decide)

/-! ## Claims on the parameter gradient of the convolution layer -/

/-- Claim C11, refuted by the code: for a one-channel layer with a 1 x 1 kernel
and a batch of two items with output gradients 5 and 7, `Gradient` leaves 7 in
the bias entry (position 1 of the parameter gradient): the statement on lines
351-352 assigns `accu` of the current batch item's slice instead of adding it,
so only the last batch item survives, while the sum over the batch is 12.  The
filter entry, accumulated with `+=`, is the sum over the batch, 2*5 + 3*7. -/
theorem C11_bias_gradient_keeps_last_batch_item :
    exBatchLayer.Forward ⟨1, 2, [2, 3]⟩ = some (exBatchLayerFwd, ⟨1, 2, [6, 9]⟩) ∧
    exBatchLayerFwd.Gradient ⟨1, 2, [2, 3]⟩ ⟨1, 2, [5, 7]⟩ (Mat.zeros 0 0)
      = some ⟨2, 1, [31, 7]⟩ ∧
    exBatchLayerFwd.weightElem + 0 = 1 ∧
    exBatchLayerFwd.specBiasGradient ⟨1, 2, [5, 7]⟩ 0 = 12 := by
  decide

/-! ## The pooling index stack -/

namespace MaxPooling

theorem liftLibrary_ok {β : Type} {o : Option β} {b : β}
    (h : liftLibrary o = Except.ok b) : o = some b := by
  cases o with
  | none => cases h
  | some x => cases h; rfl

theorem liftUndefined_ok {β : Type} {o : Option β} {b : β}
    (h : liftUndefined o = Except.ok b) : o = some b := by
  cases o with
  | none => cases h
  | some x => cases h; rfl

theorem bind_ok {ε β γ : Type} {x : Except ε β} {f : β → Except ε γ} {c : γ}
    (h : x >>= f = Except.ok c) : ∃ b, x = Except.ok b ∧ f b = Except.ok c := by
  cases x with
  | error e => cases h
  | ok b => exact ⟨b, rfl, h⟩

/-- In deterministic mode an iteration of the loop of `Forward` leaves the
vector `poolingIndices` as it is. -/
theorem poolSlice_deterministic {α : Type}
    (PO : MaxPooling α → Mat α → Mat α → Mat α → Option (Mat α × Mat α))
    (s : Nat) (l l' : MaxPooling α) (hd : l.deterministic = true)
    (h : poolSlice PO s l = some l') :
    l'.deterministic = true ∧ l'.poolingIndices = l.poolingIndices := by
  unfold poolSlice at h
  simp only [hd, if_true, Option.bind_eq_bind, Option.bind_eq_some, Option.some.injEq] at h
  obtain ⟨_, _, _, _, _, _, _, _, _, _, rfl⟩ := h
  exact ⟨rfl, rfl⟩

/-- In training mode an iteration of the loop of `Forward` replaces the last
element of `poolingIndices` and leaves the others as they are. -/
theorem poolSlice_training {α : Type}
    (PO : MaxPooling α → Mat α → Mat α → Mat α → Option (Mat α × Mat α))
    (s : Nat) (l l' : MaxPooling α) (hd : l.deterministic = false)
    (h : poolSlice PO s l = some l') :
    l'.deterministic = false ∧ ∃ t, l'.poolingIndices = l.poolingIndices.dropLast ++ [t] := by
  unfold poolSlice at h
  simp only [hd, Bool.false_eq_true, if_false, Option.bind_eq_bind, Option.bind_eq_some,
    Option.some.injEq] at h
  obtain ⟨_, _, _, _, _, _, _, _, _, _, _, _, t, _, rfl⟩ := h
  exact ⟨rfl, t, rfl⟩

theorem map_ok {ε β γ : Type} {x : Except ε β} {f : β → γ} {c : γ}
    (h : x.map f = Except.ok c) : ∃ b, x = Except.ok b ∧ f b = c := by
  cases x with
  | error e => cases h
  | ok b => cases h; exact ⟨b, rfl, rfl⟩

/-- What `Forward` does to the vector `poolingIndices`: nothing in deterministic
mode, one element appended in training mode. -/
theorem Forward_stack {α : Type} [Zero α]
    (PO : MaxPooling α → Mat α → Mat α → Mat α → Option (Mat α × Mat α))
    (l l' : MaxPooling α) (input out : Mat α)
    (h : Forward PO l input = Except.ok (l', out)) :
    l'.deterministic = l.deterministic ∧
    (l.deterministic = true → l'.poolingIndices = l.poolingIndices) ∧
    (l.deterministic = false → ∃ t, l'.poolingIndices = l.poolingIndices ++ [t]) := by
  unfold Forward at h
  obtain ⟨inSize, _, h⟩ := bind_ok h
  obtain ⟨ow, _, h⟩ := bind_ok h
  obtain ⟨oh, _, h⟩ := bind_ok h
  obtain ⟨l2, h4, h⟩ := bind_ok h
  obtain ⟨rows, _, h⟩ := bind_ok h
  have h4 := liftLibrary_ok h4
  have hinv := forLoop_pres
    (fun m : MaxPooling α => m.deterministic = l.deterministic ∧
      (l.deterministic = true → m.poolingIndices = l.poolingIndices) ∧
      (l.deterministic = false → ∃ t, m.poolingIndices = l.poolingIndices ++ [t]))
    _ _ (fun k _ m m' hm hb => by
      obtain ⟨hm1, hm2, hm3⟩ := hm
      cases hd : l.deterministic with
      | true =>
        obtain ⟨hd', hp⟩ := poolSlice_deterministic PO k m m' (hm1.trans hd) hb
        exact ⟨hd', fun _ => hp.trans (hm2 hd), fun hc => (by cases hc)⟩
      | false =>
        obtain ⟨hd', t, hp⟩ := poolSlice_training PO k m m' (hm1.trans hd) hb
        obtain ⟨t0, ht0⟩ := hm3 hd
        refine ⟨hd', fun hc => (by cases hc), fun _ => ⟨t, ?_⟩⟩
        rw [hp, ht0, List.dropLast_concat]) _ _ ?_ h4
  · cases h
    exact hinv
  · refine ⟨rfl, fun hd => ?_,
      fun hd => ⟨Cube.zeros ow oh (szMul input.n_cols inSize), ?_⟩⟩
    · simp only [hd, if_true]
    · simp only [hd, Bool.false_eq_true, if_false]

/-- What `Backward` does to the vector `poolingIndices`: a call that returns
found it non-empty and removed its last element. -/
theorem Backward_stack {α : Type} [Zero α]
    (UP : MaxPooling α → Mat α → Mat α → Mat α → Option (Mat α))
    (l l' : MaxPooling α) (input gy g : Mat α)
    (h : Backward UP l input gy = Except.ok (l', g)) :
    l'.deterministic = l.deterministic ∧ l.poolingIndices ≠ [] ∧
    l'.poolingIndices = l.poolingIndices.dropLast := by
  unfold Backward at h
  split at h
  · cases h
  · rename_i back hback
    obtain ⟨gTemp, _, h⟩ := bind_ok h
    obtain ⟨rows, _, h⟩ := bind_ok h
    cases h
    refine ⟨rfl, ?_, rfl⟩
    intro hnil
    rw [hnil] at hback
    cases hback

/-- Balance of the vector `poolingIndices` over a sequence of calls that all
return, in training mode. -/
theorem run_depth {α : Type} [Zero α]
    (PO : MaxPooling α → Mat α → Mat α → Mat α → Option (Mat α × Mat α))
    (UP : MaxPooling α → Mat α → Mat α → Mat α → Option (Mat α))
    (cs : List (Call α)) (l l' : MaxPooling α) (hd : l.deterministic = false)
    (h : run PO UP l cs = Except.ok l') :
    l'.poolingIndices.length + countBackward cs
      = l.poolingIndices.length + countForward cs := by
  induction cs generalizing l with
  | nil =>
    cases h
    rfl
  | cons c cs ih =>
    unfold run at h
    obtain ⟨l1, h1, h2⟩ := bind_ok h
    cases c with
    | forward input =>
      obtain ⟨r, hr, hfst⟩ := map_ok h1
      obtain ⟨hd1, _, hpush⟩ := Forward_stack PO l r.1 input r.2 hr
      obtain ⟨t, ht⟩ := hpush hd
      rw [hfst] at hd1 ht
      have := ih l1 (hd1.trans hd) h2
      rw [ht, List.length_append, List.length_singleton] at this
      simp only [countForward, countBackward]
      omega
    | backward input gy =>
      obtain ⟨r, hr, hfst⟩ := map_ok h1
      obtain ⟨hd1, hne, hpop⟩ := Backward_stack UP l r.1 input gy r.2 hr
      rw [hfst] at hd1 hpop
      have := ih l1 (hd1.trans hd) h2
      rw [hpop, List.length_dropLast] at this
      have hpos : 0 < l.poolingIndices.length := List.length_pos.mpr hne
      simp only [countForward, countBackward]
      omega

end MaxPooling

namespace MaxPooling

theorem run_take {α : Type} [Zero α]
    (PO : MaxPooling α → Mat α → Mat α → Mat α → Option (Mat α × Mat α))
    (UP : MaxPooling α → Mat α → Mat α → Mat α → Option (Mat α))
    (cs : List (Call α)) (l l' : MaxPooling α) (h : run PO UP l cs = Except.ok l') (n : Nat) :
    ∃ l'', run PO UP l (cs.take n) = Except.ok l'' := by
  induction cs generalizing l n with
  | nil => exact ⟨l, by rw [List.take_nil]; rfl⟩
  | cons c cs ih =>
    cases n with
    | zero => exact ⟨l, rfl⟩
    | succ n =>
      unfold run at h
      obtain ⟨l1, h1, h2⟩ := bind_ok h
      obtain ⟨l'', h3⟩ := ih l1 h2 n
      refine ⟨l'', ?_⟩
      rw [List.take_succ_cons]
      unfold run
      rw [h1]
      exact h3

end MaxPooling

/-! ## Claims on the pooling index stack -/

/-- Claim C17: in training mode, starting from a layer whose vector
`poolingIndices` is empty (as the constructor leaves it), after any sequence of
`Forward` and `Backward` calls that all return, the depth of `poolingIndices`
is (number of `Forward` calls) - (number of `Backward` calls), and every
prefix of the sequence holds at least as many `Forward` as `Backward` calls;
each training-mode `Forward` appends exactly one index tensor and each
`Backward` removes exactly the last one. -/
theorem C17_pooling_stack_depth {α : Type} [Zero α]
    (PO : MaxPooling α → Mat α → Mat α → Mat α → Option (Mat α × Mat α))
    (UP : MaxPooling α → Mat α → Mat α → Mat α → Option (Mat α))
    (cs : List (MaxPooling.Call α)) (l l' : MaxPooling α)
    (hd : l.deterministic = false) (hempty : l.poolingIndices = [])
    (hrun : MaxPooling.run PO UP l cs = Except.ok l') :
    l'.poolingIndices.length = MaxPooling.countForward cs - MaxPooling.countBackward cs ∧
    (∀ n, MaxPooling.countBackward (cs.take n) ≤ MaxPooling.countForward (cs.take n)) ∧
    (∀ (m m' : MaxPooling α) (input out : Mat α), m.deterministic = false →
      MaxPooling.Forward PO m input = Except.ok (m', out) →
      ∃ t, m'.poolingIndices = m.poolingIndices ++ [t]) ∧
    (∀ (m m' : MaxPooling α) (input gy g : Mat α),
      MaxPooling.Backward UP m input gy = Except.ok (m', g) →
      m.poolingIndices ≠ [] ∧ m'.poolingIndices = m.poolingIndices.dropLast) ∧
    (∀ kW kH sW sH fl,
      (MaxPooling.construct kW kH sW sH fl : MaxPooling α).deterministic = false ∧
      (MaxPooling.construct kW kH sW sH fl : MaxPooling α).poolingIndices = []) := by
  refine ⟨?_, fun n => ?_, fun m m' input out hm h => ?_, fun m m' input gy g h => ?_,
    fun _ _ _ _ _ => ⟨rfl, rfl⟩⟩
  · have := MaxPooling.run_depth PO UP cs l l' hd hrun
    rw [hempty, List.length_nil] at this
    omega
  · obtain ⟨l'', h⟩ := MaxPooling.run_take PO UP cs l l' hrun n
    have := MaxPooling.run_depth PO UP (cs.take n) l l'' hd h
    rw [hempty, List.length_nil] at this
    omega
  · exact (MaxPooling.Forward_stack PO m m' input out h).2.2 hm
  · exact (MaxPooling.Backward_stack UP m m' input gy g h).2

set_option maxRecDepth 8192 in
theorem C17_pooling_stack_depth_witness :
    exPoolFwdFwdBwd.poolingIndices.length
      = MaxPooling.countForward [MaxPooling.Call.forward exPoolInput,
          MaxPooling.Call.forward exPoolInput, MaxPooling.Call.backward exPoolInput exPoolError]
        - MaxPooling.countBackward [MaxPooling.Call.forward exPoolInput,
          MaxPooling.Call.forward exPoolInput, MaxPooling.Call.backward exPoolInput exPoolError] ∧
    (∀ n, MaxPooling.countBackward (([MaxPooling.Call.forward exPoolInput,
          MaxPooling.Call.forward exPoolInput,
          MaxPooling.Call.backward exPoolInput exPoolError] : List (MaxPooling.Call Int)).take n)
        ≤ MaxPooling.countForward (([MaxPooling.Call.forward exPoolInput,
          MaxPooling.Call.forward exPoolInput,
          MaxPooling.Call.backward exPoolInput exPoolError] : List (MaxPooling.Call Int)).take n)) ∧
    (∀ (m m' : MaxPooling Int) (input out : Mat Int), m.deterministic = false →
      MaxPooling.Forward idlePooling m input = Except.ok (m', out) →
      ∃ t, m'.poolingIndices = m.poolingIndices ++ [t]) ∧
    (∀ (m m' : MaxPooling Int) (input gy g : Mat Int),
      MaxPooling.Backward idleUnpooling m input gy = Except.ok (m', g) →
      m.poolingIndices ≠ [] ∧ m'.poolingIndices = m.poolingIndices.dropLast) ∧
    (∀ kW kH sW sH fl,
      (MaxPooling.construct kW kH sW sH fl : MaxPooling Int).deterministic = false ∧
      (MaxPooling.construct kW kH sW sH fl : MaxPooling Int).poolingIndices = []) :=
  C17_pooling_stack_depth idlePooling idleUnpooling
    [MaxPooling.Call.forward exPoolInput, MaxPooling.Call.forward exPoolInput,
      MaxPooling.Call.backward exPoolInput exPoolError]
    exPool exPoolFwdFwdBwd (by decide) (by decide) (by decide)

/-- Claim C18: a `Forward` call in deterministic mode that returns leaves the
vector `poolingIndices` unchanged: the same index tensors, hence the same
depth. -/
theorem C18_deterministic_forward_keeps_stack {α : Type} [Zero α]
    (PO : MaxPooling α → Mat α → Mat α → Mat α → Option (Mat α × Mat α))
    (l l' : MaxPooling α) (input out : Mat α) (hd : l.deterministic = true)
    (h : MaxPooling.Forward PO l input = Except.ok (l', out)) :
    l'.poolingIndices = l.poolingIndices ∧
    l'.poolingIndices.length = l.poolingIndices.length := by
  have := (MaxPooling.Forward_stack PO l l' input out h).2.1 hd
  exact ⟨this, by rw [this]⟩

set_option maxRecDepth 8192 in
theorem C18_deterministic_forward_keeps_stack_witness :
    exPoolDeterministicFwd.poolingIndices = exPoolDeterministic.poolingIndices ∧
    exPoolDeterministicFwd.poolingIndices.length = exPoolDeterministic.poolingIndices.length :=
  C18_deterministic_forward_keeps_stack idlePooling exPoolDeterministic exPoolDeterministicFwd
    exPoolInput2 ⟨4, 1, [0, 0, 0, 0]⟩ (by decide) (by decide)

/-- Claim C19, refuted as stated: after one training-mode `Forward` and one
`Backward` the vector `poolingIndices` is empty, and a second `Backward` does
not fail with an `EmptyPoolingStack` error: nothing checks the vector, the
call runs into `back()` / `pop_back()` on an empty vector, whose behaviour is
undefined. -/
theorem C19_second_backward_is_undefined :
    MaxPooling.run idlePooling idleUnpooling exPool
      [MaxPooling.Call.forward exPoolInput, MaxPooling.Call.backward exPoolInput exPoolError]
      = Except.ok exPoolFwdBwd ∧
    exPoolFwdBwd.poolingIndices = [] ∧
    MaxPooling.Backward idleUnpooling exPoolFwdBwd exPoolInput exPoolError
      = Except.error Fault.undefinedBehaviour := by
  set_option maxRecDepth 8192 in decide

/-- Claim C19, amended: `Backward` invoked when the vector `poolingIndices` is
empty has undefined behaviour (`back()` / `pop_back()` on an empty vector);
no error is reported and no input gradient is returned. -/
theorem C19_backward_on_empty_stack_is_undefined {α : Type} [Zero α]
    (UP : MaxPooling α → Mat α → Mat α → Mat α → Option (Mat α))
    (l : MaxPooling α) (input gy : Mat α) (hempty : l.poolingIndices = []) :
    MaxPooling.Backward UP l input gy = Except.error Fault.undefinedBehaviour := by
  unfold MaxPooling.Backward
  rw [hempty]
  rfl

theorem C19_backward_on_empty_stack_is_undefined_witness :
    MaxPooling.Backward idleUnpooling exPool exPoolInput exPoolError
      = Except.error Fault.undefinedBehaviour :=
  C19_backward_on_empty_stack_is_undefined idleUnpooling exPool exPoolInput exPoolError
    (by decide)

/-! ## Rounding to double precision -/

theorem bitLength_zero (fuel : Nat) : bitLength fuel 0 = 0 := by
  cases fuel <;> rfl

theorem bitLength_spec (fuel n : Nat) (hf : n ≤ fuel) (hn : n ≠ 0) :
    1 ≤ bitLength fuel n ∧ 2 ^ (bitLength fuel n - 1) ≤ n ∧ n < 2 ^ bitLength fuel n := by
  induction fuel generalizing n with
  | zero => omega
  | succ f ih =>
    have hb : bitLength (f + 1) n = bitLength f (n / 2) + 1 := by
      show (if n = 0 then 0 else bitLength f (n / 2) + 1) = _
      rw [if_neg hn]
    rw [hb]
    rcases Nat.eq_zero_or_pos (n / 2) with h0 | h0
    · rw [h0, bitLength_zero]
      have : n = 1 := by omega
      subst this
      decide
    · obtain ⟨h1, h2, h3⟩ := ih (n / 2) (by omega) (by omega)
      refine ⟨by omega, ?_, ?_⟩
      · have e : bitLength f (n / 2) + 1 - 1 = (bitLength f (n / 2) - 1) + 1 := by omega
        rw [e, pow_succ]
        omega
      · rw [pow_succ]
        omega

namespace Frac

theorem two_zpow_sub (a b : Nat) :
    (2 : ℚ) ^ ((a : ℤ) - (b : ℤ)) = (2 : ℚ) ^ (a - b) / (2 : ℚ) ^ (b - a) := by
  rw [zpow_sub₀ (by norm_num : (2 : ℚ) ≠ 0), zpow_natCast, zpow_natCast]
  rcases le_total a b with h | h
  · rw [Nat.sub_eq_zero_of_le h, pow_zero, div_eq_div_iff (by positivity) (by positivity),
      one_mul, ← pow_add]
    congr 1
    omega
  · rw [Nat.sub_eq_zero_of_le h, pow_zero, div_one, div_eq_iff (by positivity), ← pow_add]
    congr 1
    omega

/-- The binary exponent found for `p / q` is not too large: `2^e <= p / q`. -/
theorem binaryExponent_le (p q : Nat) (hp : 0 < p) (hq : 0 < q) :
    (2 : ℚ) ^ binaryExponent p q ≤ (p : ℚ) / (q : ℚ) := by
  have hq' : (0 : ℚ) < q := by exact_mod_cast hq
  obtain ⟨hp1, hp2, _⟩ := bitLength_spec p p le_rfl (by omega)
  obtain ⟨hq1, _, hq3⟩ := bitLength_spec q q le_rfl (by omega)
  unfold binaryExponent
  dsimp only
  split
  · rename_i hc
    rw [two_zpow_sub, div_le_div_iff₀ (by positivity) hq']
    have : ((q * 2 ^ (bitLength p p - bitLength q q) : ℕ) : ℚ)
        ≤ ((p * 2 ^ (bitLength q q - bitLength p p) : ℕ) : ℚ) := by exact_mod_cast hc
    push_cast at this
    linarith
  · have e : ((bitLength p p : ℤ) - (bitLength q q : ℤ) - 1)
        = (((bitLength p p - 1 : ℕ) : ℤ) - ((bitLength q q : ℕ) : ℤ)) := by
      push_cast [Nat.cast_sub hp1]
      ring
    rw [e, zpow_sub₀ (by norm_num : (2 : ℚ) ≠ 0), zpow_natCast, zpow_natCast,
      div_le_div_iff₀ (by positivity) hq']
    have h1 : ((2 ^ (bitLength p p - 1) : ℕ) : ℚ) ≤ (p : ℚ) := by exact_mod_cast hp2
    have h2 : ((q : ℕ) : ℚ) ≤ ((2 ^ bitLength q q : ℕ) : ℚ) := by exact_mod_cast hq3.le
    push_cast at h1 h2
    calc (2 : ℚ) ^ (bitLength p p - 1) * q ≤ p * q := by
          exact mul_le_mul_of_nonneg_right h1 hq'.le
      _ ≤ p * 2 ^ bitLength q q := by
          exact mul_le_mul_of_nonneg_left h2 (by positivity)

end Frac
namespace Frac

theorem roundNearestEven_cases (P Q : Nat) :
    (roundNearestEven P Q = P / Q ∧ 2 * (P % Q) ≤ Q) ∨
    (roundNearestEven P Q = P / Q + 1 ∧ Q ≤ 2 * (P % Q)) := by
  unfold roundNearestEven
  split
  · exact Or.inl ⟨rfl, by omega⟩
  · split
    · exact Or.inr ⟨rfl, by omega⟩
    · split
      · exact Or.inl ⟨rfl, by omega⟩
      · exact Or.inr ⟨rfl, by omega⟩

/-- The rounded quotient is within one half of the exact quotient. -/
theorem roundNearestEven_near (P Q : Nat) (hQ : 0 < Q) :
    |((roundNearestEven P Q : ℕ) : ℚ) - (P : ℚ) / (Q : ℚ)| ≤ 1 / 2 := by
  have hQ' : (0 : ℚ) < Q := by exact_mod_cast hQ
  have hP : (P : ℚ) = (Q : ℚ) * ((P / Q : ℕ) : ℚ) + ((P % Q : ℕ) : ℚ) := by
    exact_mod_cast (Nat.div_add_mod P Q).symm
  have hr : ((P % Q : ℕ) : ℚ) < Q := by exact_mod_cast Nat.mod_lt P hQ
  have hr0 : (0 : ℚ) ≤ ((P % Q : ℕ) : ℚ) := by positivity
  have hx : (P : ℚ) / (Q : ℚ) = ((P / Q : ℕ) : ℚ) + ((P % Q : ℕ) : ℚ) / (Q : ℚ) := by
    rw [hP]
    field_simp
    ring
  rw [abs_le]
  rcases roundNearestEven_cases P Q with ⟨h, hle⟩ | ⟨h, hle⟩
  · have hle' : 2 * ((P % Q : ℕ) : ℚ) ≤ Q := by exact_mod_cast hle
    have : ((P % Q : ℕ) : ℚ) / (Q : ℚ) ≤ 1 / 2 := by
      rw [div_le_iff₀ hQ']
      linarith
    have h0 : (0 : ℚ) ≤ ((P % Q : ℕ) : ℚ) / (Q : ℚ) := by positivity
    rw [h, hx]
    constructor <;> linarith
  · have hle' : (Q : ℚ) ≤ 2 * ((P % Q : ℕ) : ℚ) := by exact_mod_cast hle
    have h1 : 1 / 2 ≤ ((P % Q : ℕ) : ℚ) / (Q : ℚ) := by
      rw [le_div_iff₀ hQ']
      linarith
    have h2 : ((P % Q : ℕ) : ℚ) / (Q : ℚ) ≤ 1 := by
      rw [div_le_iff₀ hQ']
      linarith
    rw [h, hx]
    push_cast
    constructor <;> linarith

/-- Rounding does not cross an integer from below. -/
theorem roundNearestEven_ge (P Q N : Nat) (hQ : 0 < Q) (h : N * Q ≤ P) :
    N ≤ roundNearestEven P Q := by
  have : N ≤ P / Q := (Nat.le_div_iff_mul_le hQ).mpr h
  rcases roundNearestEven_cases P Q with ⟨h, _⟩ | ⟨h, _⟩ <;> omega

/-- Rounding does not cross an integer from above. -/
theorem roundNearestEven_le (P Q N : Nat) (hQ : 0 < Q) (h : P ≤ N * Q) :
    roundNearestEven P Q ≤ N := by
  have hd : P / Q ≤ N := by
    calc P / Q ≤ N * Q / Q := Nat.div_le_div_right h
      _ = N := Nat.mul_div_cancel N hQ
  rcases roundNearestEven_cases P Q with ⟨h1, _⟩ | ⟨h1, hle⟩
  · omega
  · rw [h1]
    rcases Nat.lt_or_ge (P / Q) N with h2 | h2
    · omega
    · have hN : P / Q = N := by omega
      have hP := Nat.div_add_mod P Q
      rw [hN] at hP
      have hQN : Q * N = N * Q := Nat.mul_comm Q N
      omega

end Frac
namespace Frac

theorem toRat_mk (n : Int) (d : Nat) : (Frac.mk n d).toRat = (n : ℚ) / (d : ℚ) := rfl

/-- Rounding a non-negative exact result below `2^53` to double: the relative
error is at most `2^-53`, and the result never crosses a natural number. -/
theorem roundDouble_spec (x : Frac) (hd : 0 < x.den) (h0 : 0 ≤ x.toRat)
    (h53 : x.toRat < 2 ^ 53) :
    0 < (roundDouble x).den ∧
    |(roundDouble x).toRat - x.toRat| ≤ x.toRat / 2 ^ 53 ∧
    (∀ m : ℕ, (m : ℚ) ≤ x.toRat → (m : ℚ) ≤ (roundDouble x).toRat) ∧
    (∀ m : ℕ, x.toRat ≤ (m : ℚ) → (roundDouble x).toRat ≤ (m : ℚ)) := by
  obtain ⟨num, q⟩ := x
  simp only [toRat_mk] at h0 h53 ⊢
  dsimp only at hd
  have hq' : (0 : ℚ) < q := by exact_mod_cast hd
  have hnum : 0 ≤ num := by
    by_contra hneg
    have : (num : ℚ) < 0 := by exact_mod_cast (not_le.mp hneg)
    have := div_neg_of_neg_of_pos this hq'
    linarith
  obtain ⟨p, rfl⟩ := Int.eq_ofNat_of_zero_le hnum
  rcases Nat.eq_zero_or_pos p with hp | hp
  · subst hp
    have hr : roundDouble ⟨((0 : ℕ) : ℤ), q⟩ = ⟨0, 1⟩ := by
      unfold roundDouble
      rw [if_pos (by simp)]
    rw [hr]
    simp only [toRat_mk]
    norm_num
  · have he := binaryExponent_le p q hp hd
    have hxe : ((p : ℤ) : ℚ) = (p : ℚ) := by norm_cast
    rw [hxe] at h0 h53 ⊢
    have he52 : binaryExponent p q ≤ 52 := by
      by_contra hgt
      have h1 : (53 : ℤ) ≤ binaryExponent p q := by omega
      have h2 : (2 : ℚ) ^ (53 : ℤ) ≤ (2 : ℚ) ^ binaryExponent p q :=
        zpow_le_zpow_right₀ (by norm_num) h1
      have h3 : (2 : ℚ) ^ (53 : ℤ) = 2 ^ 53 := by norm_cast
      rw [h3] at h2
      linarith
    obtain ⟨s, hs⟩ : ∃ s : ℕ, (s : ℤ) = 52 - binaryExponent p q :=
      ⟨(52 - binaryExponent p q).toNat, Int.toNat_of_nonneg (by omega)⟩
    have hs1 : (52 - binaryExponent p q).toNat = s := by omega
    have hs2 : (binaryExponent p q - 52).toNat = 0 := by omega
    have hr : roundDouble ⟨((p : ℕ) : ℤ), q⟩
        = ⟨((roundNearestEven (p * 2 ^ s) q : ℕ) : ℤ), 2 ^ s⟩ := by
      unfold roundDouble
      rw [if_neg (by show ¬ ((p : ℤ) = 0); omega)]
      simp only [Int.natAbs_ofNat, hs1, hs2, pow_zero, Nat.mul_one]
      have : Int.sign (p : ℤ) = 1 := Int.sign_eq_one_of_pos (by omega)
      rw [this, one_mul]
    rw [hr]
    simp only [toRat_mk]
    have hM : (((roundNearestEven (p * 2 ^ s) q : ℕ) : ℤ) : ℚ)
        = ((roundNearestEven (p * 2 ^ s) q : ℕ) : ℚ) := by norm_cast
    rw [hM]
    have h2s : (((2 ^ s : ℕ)) : ℚ) = (2 : ℚ) ^ s := by norm_cast
    rw [h2s]
    have h2pos : (0 : ℚ) < 2 ^ s := by positivity
    -- the scaled quotient is at least 2^52
    have hscale : (2 : ℚ) ^ 52 ≤ (p : ℚ) / q * 2 ^ s := by
      have e1 : (2 : ℚ) ^ (s : ℤ) = 2 ^ s := zpow_natCast 2 s
      have e2 : (2 : ℚ) ^ binaryExponent p q * (2 : ℚ) ^ (s : ℤ) = 2 ^ 52 := by
        rw [← zpow_add₀ (by norm_num : (2 : ℚ) ≠ 0), hs]
        have : binaryExponent p q + (52 - binaryExponent p q) = 52 := by ring
        rw [this]
        norm_cast
      rw [← e2, e1]
      exact mul_le_mul_of_nonneg_right he h2pos.le
    have hnear := roundNearestEven_near (p * 2 ^ s) q hd
    have hPQ : ((p * 2 ^ s : ℕ) : ℚ) / (q : ℚ) = (p : ℚ) / q * 2 ^ s := by
      push_cast
      ring
    rw [hPQ] at hnear
    refine ⟨by positivity, ?_, fun m hm => ?_, fun m hm => ?_⟩
    · have e3 : ((roundNearestEven (p * 2 ^ s) q : ℕ) : ℚ) / 2 ^ s - (p : ℚ) / q
          = (((roundNearestEven (p * 2 ^ s) q : ℕ) : ℚ) - (p : ℚ) / q * 2 ^ s) / 2 ^ s := by
        field_simp
        ring
      rw [e3, abs_div, abs_of_pos h2pos, div_le_div_iff₀ h2pos (by positivity)]
      calc |((roundNearestEven (p * 2 ^ s) q : ℕ) : ℚ) - (p : ℚ) / q * 2 ^ s| * 2 ^ 53
          ≤ 1 / 2 * 2 ^ 53 := mul_le_mul_of_nonneg_right hnear (by positivity)
        _ = 2 ^ 52 := by norm_num
        _ ≤ (p : ℚ) / q * 2 ^ s := hscale
    · rw [le_div_iff₀ hq'] at hm
      have hm' : m * q ≤ p := by exact_mod_cast hm
      have : m * 2 ^ s ≤ roundNearestEven (p * 2 ^ s) q :=
        roundNearestEven_ge _ _ _ hd (by
          calc m * 2 ^ s * q = m * q * 2 ^ s := by ring
            _ ≤ p * 2 ^ s := Nat.mul_le_mul_right _ hm')
      rw [le_div_iff₀ h2pos]
      exact_mod_cast this
    · rw [div_le_iff₀ hq'] at hm
      have hm' : p ≤ m * q := by exact_mod_cast hm
      have : roundNearestEven (p * 2 ^ s) q ≤ m * 2 ^ s :=
        roundNearestEven_le _ _ _ hd (by
          calc p * 2 ^ s ≤ m * q * 2 ^ s := Nat.mul_le_mul_right _ hm'
            _ = m * 2 ^ s * q := by ring)
      rw [div_le_iff₀ h2pos]
      exact_mod_cast this

end Frac
namespace Frac

/-- An exact result that is a natural number below `2^53` is not changed by
rounding. -/
theorem roundDouble_nat (x : Frac) (hd : 0 < x.den) (m : ℕ) (hx : x.toRat = (m : ℚ))
    (hm : (m : ℚ) < 2 ^ 53) :
    0 < (roundDouble x).den ∧ (roundDouble x).toRat = (m : ℚ) := by
  obtain ⟨h1, _, h3, h4⟩ := roundDouble_spec x hd (by rw [hx]; positivity) (by rw [hx]; exact hm)
  exact ⟨h1, le_antisymm (h4 m hx.le) (h3 m hx.ge)⟩

theorem toRat_sub (a b : Frac) (ha : 0 < a.den) (hb : 0 < b.den) :
    0 < (Frac.mk (a.num * b.den - b.num * a.den) (a.den * b.den)).den ∧
    (Frac.mk (a.num * b.den - b.num * a.den) (a.den * b.den)).toRat = a.toRat - b.toRat := by
  have ha' : (a.den : ℚ) ≠ 0 := by exact_mod_cast ha.ne'
  have hb' : (b.den : ℚ) ≠ 0 := by exact_mod_cast hb.ne'
  refine ⟨Nat.mul_pos ha hb, ?_⟩
  unfold toRat
  push_cast
  field_simp
  ring

theorem toRat_add (a b : Frac) (ha : 0 < a.den) (hb : 0 < b.den) :
    0 < (Frac.mk (a.num * b.den + b.num * a.den) (a.den * b.den)).den ∧
    (Frac.mk (a.num * b.den + b.num * a.den) (a.den * b.den)).toRat = a.toRat + b.toRat := by
  have ha' : (a.den : ℚ) ≠ 0 := by exact_mod_cast ha.ne'
  have hb' : (b.den : ℚ) ≠ 0 := by exact_mod_cast hb.ne'
  refine ⟨Nat.mul_pos ha hb, ?_⟩
  unfold toRat
  push_cast
  field_simp

theorem num_pos_of_toRat_pos (b : Frac) (hb : 0 < b.den) (h : 0 < b.toRat) : 0 < b.num := by
  by_contra hneg
  have h1 : (b.num : ℚ) ≤ 0 := by exact_mod_cast (not_lt.mp hneg)
  have h2 : (0 : ℚ) < b.den := by exact_mod_cast hb
  have : b.toRat ≤ 0 := div_nonpos_of_nonpos_of_nonneg h1 h2.le
  linarith

theorem toRat_div (a b : Frac) (ha : 0 < a.den) (hb : 0 < b.den) (hpos : 0 < b.num) :
    0 < (Frac.mk (a.num * b.den * Int.sign b.num) (a.den * b.num.natAbs)).den ∧
    (Frac.mk (a.num * b.den * Int.sign b.num) (a.den * b.num.natAbs)).toRat
      = a.toRat / b.toRat := by
  have ha' : (a.den : ℚ) ≠ 0 := by exact_mod_cast ha.ne'
  have hb' : (b.den : ℚ) ≠ 0 := by exact_mod_cast hb.ne'
  have hn : (b.num : ℚ) ≠ 0 := by exact_mod_cast hpos.ne'
  have hs : Int.sign b.num = 1 := Int.sign_eq_one_of_pos hpos
  have hab : ((b.num.natAbs : ℕ) : ℚ) = (b.num : ℚ) := by
    rw [Nat.cast_natAbs, abs_of_pos hpos]
  refine ⟨Nat.mul_pos ha (Int.natAbs_pos.mpr hpos.ne'), ?_⟩
  unfold toRat
  dsimp only
  rw [hs]
  push_cast
  rw [hab]
  field_simp

end Frac

namespace Double

theorem toRat_floor (v : Frac) : (floor v).den = 1 ∧ (floor v).num = ⌊v.toRat⌋ := by
  refine ⟨rfl, ?_⟩
  unfold floor Frac.toRat
  exact (Rat.floor_intCast_div_natCast _ _).symm

theorem toRat_ceil (v : Frac) : (ceil v).den = 1 ∧ (ceil v).num = ⌈v.toRat⌉ := by
  refine ⟨rfl, ?_⟩
  unfold ceil Frac.toRat
  dsimp only
  have h := Rat.floor_intCast_div_natCast (-v.num) v.den
  rw [← h, ← Int.ceil_neg]
  congr 1
  push_cast
  ring

theorem toSize_int (z : Int) (h0 : 0 ≤ z) (h1 : z < SIZE_MOD) :
    toSize ⟨z, 1⟩ = some z.toNat := by
  unfold toSize
  have : Int.tdiv z ((1 : ℕ) : ℤ) = z := by simp
  dsimp only
  rw [this, if_pos ⟨h0, h1⟩]

end Double
namespace MaxPooling

/-- The two roundings of `(a / s) + 1` in double precision do not move its floor
or its ceiling when `a` and `s` are below `2^51`: `q` is the rounded quotient,
`v` the rounded sum. -/
theorem extent_rounding (a s : ℕ) (hs : 1 ≤ s) (ha : a < 2 ^ 51) (hs' : s < 2 ^ 51) (q v : ℚ)
    (hq1 : |q - (a : ℚ) / s| ≤ (a : ℚ) / s / 2 ^ 53)
    (hq2 : ∀ m : ℕ, (m : ℚ) ≤ (a : ℚ) / s → (m : ℚ) ≤ q)
    (hq3 : ∀ m : ℕ, (a : ℚ) / s ≤ (m : ℚ) → q ≤ (m : ℚ))
    (hv1 : |v - (q + 1)| ≤ (q + 1) / 2 ^ 53)
    (hv2 : ∀ m : ℕ, (m : ℚ) ≤ q + 1 → (m : ℚ) ≤ v)
    (hv3 : ∀ m : ℕ, q + 1 ≤ (m : ℚ) → v ≤ (m : ℚ)) :
    ⌊v⌋ = ⌊(a : ℚ) / s + 1⌋ ∧ ⌈v⌉ = ⌈(a : ℚ) / s + 1⌉ := by
  have hsq : (0 : ℚ) < s := by exact_mod_cast hs
  have h51 : (2 : ℚ) ^ 51 = 2251799813685248 := by norm_num
  have h53 : (2 : ℚ) ^ 53 = 9007199254740992 := by norm_num
  have hA : (a : ℚ) < 2251799813685248 := by rw [← h51]; exact_mod_cast ha
  have hS : (s : ℚ) < 2251799813685248 := by rw [← h51]; exact_mod_cast hs'
  have hA0 : (0 : ℚ) ≤ a := by positivity
  obtain ⟨x, hx⟩ : ∃ x : ℚ, x = (a : ℚ) / s := ⟨_, rfl⟩
  rw [← hx] at hq1 hq2 hq3 ⊢
  have hxs : x * s = a := by rw [hx]; field_simp
  have hx0 : 0 ≤ x := by rw [hx]; positivity
  have hdiv : s * (a / s) + a % s = a := Nat.div_add_mod a s
  have hmod : a % s < s := Nat.mod_lt a hs
  have hdivq : (s : ℚ) * ((a / s : ℕ) : ℚ) + ((a % s : ℕ) : ℚ) = a := by exact_mod_cast hdiv
  have hmodq : ((a % s : ℕ) : ℚ) + 1 ≤ s := by exact_mod_cast hmod
  have hmod0 : (0 : ℚ) ≤ ((a % s : ℕ) : ℚ) := by positivity
  obtain ⟨n, hn⟩ : ∃ n : ℕ, n = a / s := ⟨_, rfl⟩
  obtain ⟨r, hr⟩ : ∃ r : ℕ, r = a % s := ⟨_, rfl⟩
  rw [← hn, ← hr] at hdivq
  rw [← hr] at hmodq hmod0
  have hn_le : (n : ℚ) ≤ x := by
    rw [hx, le_div_iff₀ hsq]
    linarith
  have hx_le : x ≤ ((n + 1 : ℕ) : ℚ) := by
    rw [hx, div_le_iff₀ hsq]
    push_cast
    linarith
  have hq_ge : (n : ℚ) ≤ q := hq2 n hn_le
  have hq_le : q ≤ ((n + 1 : ℕ) : ℚ) := hq3 (n + 1) hx_le
  have hv_ge : ((n + 1 : ℕ) : ℚ) ≤ v := hv2 (n + 1) (by push_cast; linarith)
  have hv_le : v ≤ ((n + 2 : ℕ) : ℚ) := hv3 (n + 2) (by push_cast at hq_le ⊢; linarith)
  push_cast at hx_le hq_le hv_ge hv_le
  rcases Nat.eq_zero_or_pos r with hr0 | hrpos
  · -- the quotient is a natural number: nothing is rounded
    have hxn : x = n := by
      rw [hr0] at hdivq
      rw [hx, div_eq_iff hsq.ne']
      push_cast at hdivq
      linarith
    have hqn : q = n := le_antisymm (hq3 n hxn.le) hq_ge
    have hvn : v = ((n + 1 : ℕ) : ℚ) := by
      apply le_antisymm
      · exact hv3 (n + 1) (by rw [hqn]; push_cast; rfl)
      · push_cast
        exact hv_ge
    have hx1 : x + 1 = ((n + 1 : ℕ) : ℚ) := by rw [hxn]; push_cast; rfl
    rw [hvn, hx1]
    exact ⟨rfl, rfl⟩
  · have hrq : (1 : ℚ) ≤ r := by exact_mod_cast hrpos
    obtain ⟨u, hu⟩ : ∃ u : ℚ, u = 1 / 2 ^ 53 := ⟨_, rfl⟩
    have hu0 : 0 < u := by rw [hu]; positivity
    have hu1 : u * 2 ^ 53 = 1 := by rw [hu]; norm_num
    have hu2 : u ≤ 1 := by rw [hu]; norm_num
    rw [abs_le] at hq1 hv1
    have hq1a : q ≤ x + x * u := by
      have : x / 2 ^ 53 = x * u := by rw [hu]; ring
      linarith [hq1.2]
    have hq1b : x - x * u ≤ q := by
      have : x / 2 ^ 53 = x * u := by rw [hu]; ring
      linarith [hq1.1]
    have hv1a : v ≤ (q + 1) * (1 + u) := by
      have : (q + 1) / 2 ^ 53 = (q + 1) * u := by rw [hu]; ring
      linarith [hv1.2]
    have hv1b : (q + 1) * (1 - u) ≤ v := by
      have : (q + 1) / 2 ^ 53 = (q + 1) * u := by rw [hu]; ring
      linarith [hv1.1]
    -- distance of the quotient to the neighbouring integers
    have hlow : (n : ℚ) * s + 1 ≤ x * s := by rw [hxs]; linarith
    have hhigh : x * s + 1 ≤ ((n : ℚ) + 1) * s := by rw [hxs]; linarith
    -- the accumulated rounding error is below 1 / s
    have hau : (a : ℚ) * u < 1 := by
      have : (a : ℚ) * u * 2 ^ 53 < 1 * 2 ^ 53 := by
        rw [mul_assoc, hu1, h53]
        linarith
      exact lt_of_mul_lt_mul_right this (by positivity)
    have herr : u * (2 * x + 1 + x * u) * s < 1 := by
      have e : u * (2 * x + 1 + x * u) * s = u * (2 * a + s + a * u) := by
        rw [← hxs]; ring
      rw [e]
      have hb : 2 * (a : ℚ) + s + a * u < 2 ^ 53 := by
        rw [h53]
        linarith
      calc u * (2 * a + s + a * u) < u * 2 ^ 53 := mul_lt_mul_of_pos_left hb hu0
        _ = 1 := hu1
    have hxu0 : 0 ≤ x * u := mul_nonneg hx0 hu0.le
    have hup : v * s < ((n : ℚ) + 2) * s := by
      have h1 : (q + 1) * (1 + u) ≤ (x + x * u + 1) * (1 + u) :=
        mul_le_mul_of_nonneg_right (by linarith) (by linarith)
      have h2 : (x + x * u + 1) * (1 + u) * s
          = x * s + s + u * (2 * x + 1 + x * u) * s := by ring
      have h3 : v * s ≤ (x + x * u + 1) * (1 + u) * s :=
        mul_le_mul_of_nonneg_right (le_trans hv1a h1) hsq.le
      have h4 : ((n : ℚ) + 2) * s = ((n : ℚ) + 1) * s + s := by ring
      linarith
    have hdown : ((n : ℚ) + 1) * s < v * s := by
      have h1 : (x - x * u + 1) * (1 - u) ≤ (q + 1) * (1 - u) :=
        mul_le_mul_of_nonneg_right (by linarith) (by linarith)
      have h2 : (x - x * u + 1) * (1 - u) * s
          = x * s + s - u * (2 * x + 1 + x * u) * s + 2 * (x * u) * u * s := by ring
      have h3 : (x - x * u + 1) * (1 - u) * s ≤ v * s :=
        mul_le_mul_of_nonneg_right (le_trans h1 hv1b) hsq.le
      have h4 : 0 ≤ 2 * (x * u) * u * s := by positivity
      have h5 : ((n : ℚ) + 1) * s = (n : ℚ) * s + s := by ring
      linarith
    have hv_lt : v < (n : ℚ) + 2 := lt_of_mul_lt_mul_right hup hsq.le
    have hv_gt : (n : ℚ) + 1 < v := lt_of_mul_lt_mul_right hdown hsq.le
    have hx_gt : (n : ℚ) < x := by
      have : (n : ℚ) * s < x * s := by linarith
      exact lt_of_mul_lt_mul_right this hsq.le
    have hx_lt : x < (n : ℚ) + 1 := by
      have : x * s < ((n : ℚ) + 1) * s := by linarith
      exact lt_of_mul_lt_mul_right this hsq.le
    constructor
    · have e1 : ⌊v⌋ = ((n + 1 : ℕ) : ℤ) := by
        rw [Int.floor_eq_iff]
        push_cast
        constructor <;> linarith
      have e2 : ⌊x + 1⌋ = ((n + 1 : ℕ) : ℤ) := by
        rw [Int.floor_eq_iff]
        push_cast
        constructor <;> linarith
      rw [e1, e2]
    · have e1 : ⌈v⌉ = ((n + 2 : ℕ) : ℤ) := by
        rw [Int.ceil_eq_iff]
        push_cast
        constructor <;> linarith
      have e2 : ⌈x + 1⌉ = ((n + 2 : ℕ) : ℤ) := by
        rw [Int.ceil_eq_iff]
        push_cast
        constructor <;> linarith
      rw [e1, e2]

end MaxPooling
namespace Double

theorem ofSize_spec (n : ℕ) (hn : n < 2 ^ 53) :
    0 < (ofSize n).den ∧ (ofSize n).toRat = (n : ℚ) :=
  Frac.roundDouble_nat ⟨n, 1⟩ Nat.one_pos n (by simp [Frac.toRat]) (by exact_mod_cast hn)

theorem ofInt_one : 0 < (ofInt 1).den ∧ (ofInt 1).toRat = 1 := by
  have := Frac.roundDouble_nat ⟨1, 1⟩ Nat.one_pos 1 (by simp [Frac.toRat]) (by norm_num)
  simpa using this

end Double

namespace MaxPooling

/-- For extents and strides below `2^51` the double-precision computation of
the output extent gives the exact floor or ceiling of
`(inputExtent - kernelExtent) / stride + 1`. -/
theorem outputExtent_spec (fl : Bool) (i k s : ℕ) (hk : k ≤ i) (hs : 1 ≤ s)
    (hi : i < 2 ^ 51) (hs' : s < 2 ^ 51) :
    outputExtent fl i k s
      = some (if fl then ⌊((i : ℚ) - (k : ℚ)) / (s : ℚ) + 1⌋
          else ⌈((i : ℚ) - (k : ℚ)) / (s : ℚ) + 1⌉).toNat := by
  have h51 : (2 : ℚ) ^ 51 = 2251799813685248 := by norm_num
  have h53 : (2 : ℚ) ^ 53 = 9007199254740992 := by norm_num
  obtain ⟨a, ha⟩ : ∃ a : ℕ, a = i - k := ⟨_, rfl⟩
  have hai : a ≤ i := by omega
  have haq : ((i : ℚ) - (k : ℚ)) = (a : ℚ) := by
    rw [ha, Nat.cast_sub hk]
  rw [haq]
  have hsq : (0 : ℚ) < s := by exact_mod_cast hs
  have hsq1 : (1 : ℚ) ≤ s := by exact_mod_cast hs
  have hA : (a : ℚ) < 2251799813685248 := by
    rw [← h51]; exact_mod_cast lt_of_le_of_lt hai hi
  have hA0 : (0 : ℚ) ≤ a := by positivity
  obtain ⟨hI1, hI2⟩ := Double.ofSize_spec i (by omega)
  obtain ⟨hK1, hK2⟩ := Double.ofSize_spec k (by omega)
  obtain ⟨hS1, hS2⟩ := Double.ofSize_spec s (by omega)
  -- the difference is exact
  obtain ⟨hE1, hE2⟩ := Frac.toRat_sub (Double.ofSize i) (Double.ofSize k) hI1 hK1
  rw [hI2, hK2, haq] at hE2
  obtain ⟨hD1, hD2⟩ := Frac.roundDouble_nat _ hE1 a hE2 (by rw [h53]; linarith)
  -- the quotient is rounded
  have hSpos : 0 < (Double.ofSize s).num :=
    Frac.num_pos_of_toRat_pos _ hS1 (by rw [hS2]; exact hsq)
  obtain ⟨hF1, hF2⟩ := Frac.toRat_div
    (Frac.roundDouble ⟨(Double.ofSize i).num * (Double.ofSize k).den
      - (Double.ofSize k).num * (Double.ofSize i).den,
      (Double.ofSize i).den * (Double.ofSize k).den⟩) (Double.ofSize s) hD1 hS1 hSpos
  rw [hD2, hS2] at hF2
  have hx0 : (0 : ℚ) ≤ (a : ℚ) / s := by positivity
  have hxa : (a : ℚ) / s ≤ a := div_le_self hA0 hsq1
  obtain ⟨hq0, hq1, hq2, hq3⟩ := Frac.roundDouble_spec _ hF1 (by rw [hF2]; exact hx0)
    (by rw [hF2, h53]; linarith)
  rw [hF2] at hq1 hq2 hq3
  obtain ⟨q, hq⟩ : ∃ q : Frac, q = Frac.roundDouble
      ⟨(Frac.roundDouble ⟨(Double.ofSize i).num * (Double.ofSize k).den
        - (Double.ofSize k).num * (Double.ofSize i).den,
        (Double.ofSize i).den * (Double.ofSize k).den⟩).num * (Double.ofSize s).den
        * Int.sign (Double.ofSize s).num,
       (Frac.roundDouble ⟨(Double.ofSize i).num * (Double.ofSize k).den
        - (Double.ofSize k).num * (Double.ofSize i).den,
        (Double.ofSize i).den * (Double.ofSize k).den⟩).den
        * (Double.ofSize s).num.natAbs⟩ := ⟨_, rfl⟩
  rw [← hq] at hq0 hq1 hq2 hq3
  have hqlo : (0 : ℚ) ≤ q.toRat := by
    have := hq2 0 (by push_cast; exact hx0)
    exact_mod_cast this
  have hqhi : q.toRat ≤ (a : ℚ) := hq3 a hxa
  -- the sum is rounded
  obtain ⟨hO1, hO2⟩ := Double.ofInt_one
  obtain ⟨hG1, hG2⟩ := Frac.toRat_add q (Double.ofInt 1) hq0 hO1
  rw [hO2] at hG2
  obtain ⟨hv0, hv1, hv2, hv3⟩ := Frac.roundDouble_spec _ hG1 (by rw [hG2]; linarith)
    (by rw [hG2, h53]; linarith)
  rw [hG2] at hv1 hv2 hv3
  obtain ⟨v, hv⟩ : ∃ v : Frac, v = Frac.roundDouble
      ⟨q.num * (Double.ofInt 1).den + (Double.ofInt 1).num * q.den,
        q.den * (Double.ofInt 1).den⟩ := ⟨_, rfl⟩
  rw [← hv] at hv0 hv1 hv2 hv3
  obtain ⟨hfloor, hceil⟩ := extent_rounding a s hs (by exact_mod_cast (h51 ▸ hA)) hs' q.toRat
    v.toRat hq1 hq2 hq3 hv1 hv2 hv3
  -- the function itself
  have hval : outputExtent fl i k s
      = Double.toSize (if fl then Double.floor v else Double.ceil v) := by
    unfold outputExtent Double.div Double.sub Double.add
    rw [if_neg hSpos.ne']
    simp only [Option.bind_eq_bind, Option.some_bind]
    rw [← hq, ← hv]
  rw [hval]
  have hx1lo : (0 : ℚ) ≤ (a : ℚ) / s + 1 := by linarith
  have hx1hi : (a : ℚ) / s + 1 < 2251799813685250 := by linarith
  cases fl with
  | true =>
    simp only [if_true]
    obtain ⟨e1, e2⟩ := Double.toRat_floor v
    have : Double.floor v = ⟨⌊(a : ℚ) / s + 1⌋, 1⟩ := by
      rw [← hfloor, ← e2]
      rfl
    rw [this]
    exact Double.toSize_int _ (Int.floor_nonneg.mpr hx1lo) (by
      have : ⌊(a : ℚ) / s + 1⌋ < 2251799813685250 := by
        rw [Int.floor_lt]
        exact_mod_cast hx1hi
      unfold SIZE_MOD
      omega)
  | false =>
    simp only [Bool.false_eq_true, if_false]
    obtain ⟨e1, e2⟩ := Double.toRat_ceil v
    have : Double.ceil v = ⟨⌈(a : ℚ) / s + 1⌉, 1⟩ := by
      rw [← hceil, ← e2]
      rfl
    rw [this]
    exact Double.toSize_int _ (Int.ceil_nonneg hx1lo) (by
      have : ⌈(a : ℚ) / s + 1⌉ ≤ 2251799813685250 := by
        rw [Int.ceil_le]
        exact_mod_cast hx1hi.le
      unfold SIZE_MOD
      omega)

end MaxPooling
namespace MaxPooling

/-- An iteration of the loop of `Forward` keeps the shape of `outputTemp`. -/
theorem poolSlice_shape {α : Type}
    (PO : MaxPooling α → Mat α → Mat α → Mat α → Option (Mat α × Mat α))
    (s : Nat) (l l' : MaxPooling α) (h : poolSlice PO s l = some l') :
    l'.outputTemp.n_rows = l.outputTemp.n_rows ∧
    l'.outputTemp.n_cols = l.outputTemp.n_cols := by
  unfold poolSlice at h
  cases hd : l.deterministic with
  | true =>
    simp only [hd, if_true, Option.bind_eq_bind, Option.bind_eq_some, Option.some.injEq] at h
    obtain ⟨_, _, _, _, _, _, c, hc, _, _, rfl⟩ := h
    obtain ⟨-, -, -, -, h1, h2, -⟩ := Cube.setSlice_inv _ _ _ _ hc
    exact ⟨h1, h2⟩
  | false =>
    simp only [hd, Bool.false_eq_true, if_false, Option.bind_eq_bind, Option.bind_eq_some,
      Option.some.injEq] at h
    obtain ⟨_, _, _, _, _, _, _, _, _, _, c, hc, _, _, rfl⟩ := h
    obtain ⟨-, -, -, -, h1, h2, -⟩ := Cube.setSlice_inv _ _ _ _ hc
    exact ⟨h1, h2⟩

/-- The extents `Forward` records are the values of `outputExtent`. -/
theorem Forward_extent {α : Type} [Zero α]
    (PO : MaxPooling α → Mat α → Mat α → Mat α → Option (Mat α × Mat α))
    (l l' : MaxPooling α) (input out : Mat α)
    (h : Forward PO l input = Except.ok (l', out)) :
    outputExtent l.floor l.inputWidth l.kernelWidth l.strideWidth = some l'.outputWidth ∧
    outputExtent l.floor l.inputHeight l.kernelHeight l.strideHeight
      = some l'.outputHeight := by
  unfold Forward at h
  obtain ⟨inSize, _, h⟩ := bind_ok h
  obtain ⟨ow, how, h⟩ := bind_ok h
  obtain ⟨oh, hoh, h⟩ := bind_ok h
  obtain ⟨l2, h4, h⟩ := bind_ok h
  obtain ⟨rows, _, h⟩ := bind_ok h
  have h4 := liftLibrary_ok h4
  have hinv := forLoop_pres
    (fun m : MaxPooling α => m.outputTemp.n_rows = ow ∧ m.outputTemp.n_cols = oh)
    _ _ (fun k _ m m' hm hb => by
      obtain ⟨h1, h2⟩ := poolSlice_shape PO k m m' hb
      exact ⟨h1.trans hm.1, h2.trans hm.2⟩) _ _ ⟨rfl, rfl⟩ h4
  cases h
  dsimp only
  rw [hinv.1, hinv.2]
  exact ⟨liftUndefined_ok how, liftUndefined_ok hoh⟩

end MaxPooling

/-! ## Claims on the output size of the pooling layer -/

/-- Claim C16, refuted as stated: in ceil mode, for input width 2, kernel width
1 and stride `2^54`, the exact value of `(2 - 1) / 2^54 + 1` has ceiling 2, but
the code computes in double precision, where `2^-54 + 1` rounds to `1.0`; the
extent `Forward` records is 1. -/
theorem C16_ceil_extent_lost_to_rounding :
    1 ≤ exCeilPool.kernelWidth ∧ exCeilPool.kernelWidth ≤ exCeilPool.inputWidth ∧
    1 ≤ exCeilPool.strideWidth ∧ exCeilPool.floor = false ∧
    ⌈((2 : ℚ) - 1) / 18014398509481984 + 1⌉ = 2 ∧
    MaxPooling.outputExtent false 2 1 18014398509481984 = some 1 ∧
    (MaxPooling.Forward idlePooling exCeilPool exCeilInput).map
      (fun r => (r.1.outputWidth, r.1.outputHeight)) = Except.ok (1, 1) := by
  refine ⟨by decide, by decide, by decide, by decide, ?_, ?_, ?_⟩
  · rw [Int.ceil_eq_iff]
    norm_num
  · set_option maxRecDepth 8192 in decide
  · set_option maxRecDepth 8192 in decide

/-- Claim C16, amended: for input extents and strides below `2^51`, with input
extent >= kernel extent and stride >= 1 on both axes, the double-precision
computation of `Forward` is exact: the extent it records on each axis is
`floor((inputExtent - kernelExtent) / stride + 1)` in floor mode and the
ceiling of the same rational in ceil mode. -/
theorem C16_pooling_output_extent {α : Type} [Zero α]
    (PO : MaxPooling α → Mat α → Mat α → Mat α → Option (Mat α × Mat α))
    (l l' : MaxPooling α) (input out : Mat α)
    (hkW' : l.kernelWidth ≤ l.inputWidth) (hkH' : l.kernelHeight ≤ l.inputHeight)
    (hsW : 1 ≤ l.strideWidth) (hsH : 1 ≤ l.strideHeight)
    (hW : l.inputWidth < 2 ^ 51) (hH : l.inputHeight < 2 ^ 51)
    (hsW' : l.strideWidth < 2 ^ 51) (hsH' : l.strideHeight < 2 ^ 51)
    (h : MaxPooling.Forward PO l input = Except.ok (l', out)) :
    l'.outputWidth
      = (if l.floor
          then ⌊((l.inputWidth : ℚ) - (l.kernelWidth : ℚ)) / (l.strideWidth : ℚ) + 1⌋
          else ⌈((l.inputWidth : ℚ) - (l.kernelWidth : ℚ)) / (l.strideWidth : ℚ) + 1⌉).toNat ∧
    l'.outputHeight
      = (if l.floor
          then ⌊((l.inputHeight : ℚ) - (l.kernelHeight : ℚ)) / (l.strideHeight : ℚ) + 1⌋
          else ⌈((l.inputHeight : ℚ) - (l.kernelHeight : ℚ)) / (l.strideHeight : ℚ) + 1⌉).toNat ∧
    MaxPooling.outputExtent l.floor l.inputWidth l.kernelWidth l.strideWidth
      = some l'.outputWidth ∧
    MaxPooling.outputExtent l.floor l.inputHeight l.kernelHeight l.strideHeight
      = some l'.outputHeight := by
  obtain ⟨h1, h2⟩ := MaxPooling.Forward_extent PO l l' input out h
  have e1 := MaxPooling.outputExtent_spec l.floor l.inputWidth l.kernelWidth l.strideWidth
    hkW' hsW hW hsW'
  have e2 := MaxPooling.outputExtent_spec l.floor l.inputHeight l.kernelHeight l.strideHeight
    hkH' hsH hH hsH'
  rw [h1] at e1
  rw [h2] at e2
  exact ⟨Option.some.inj e1, Option.some.inj e2, h1, h2⟩

set_option maxRecDepth 8192 in
theorem C16_pooling_output_extent_witness :
    exPoolFwd.outputWidth
      = (if exPool.floor
          then ⌊((exPool.inputWidth : ℚ) - (exPool.kernelWidth : ℚ))
            / (exPool.strideWidth : ℚ) + 1⌋
          else ⌈((exPool.inputWidth : ℚ) - (exPool.kernelWidth : ℚ))
            / (exPool.strideWidth : ℚ) + 1⌉).toNat ∧
    exPoolFwd.outputHeight
      = (if exPool.floor
          then ⌊((exPool.inputHeight : ℚ) - (exPool.kernelHeight : ℚ))
            / (exPool.strideHeight : ℚ) + 1⌋
          else ⌈((exPool.inputHeight : ℚ) - (exPool.kernelHeight : ℚ))
            / (exPool.strideHeight : ℚ) + 1⌉).toNat ∧
    MaxPooling.outputExtent exPool.floor exPool.inputWidth exPool.kernelWidth
      exPool.strideWidth = some exPoolFwd.outputWidth ∧
    MaxPooling.outputExtent exPool.floor exPool.inputHeight exPool.kernelHeight
      exPool.strideHeight = some exPoolFwd.outputHeight :=
  C16_pooling_output_extent idlePooling exPool exPoolFwd exPoolInput ⟨4, 1, [0, 0, 0, 0]⟩
    (by decide) (by decide) (by decide) (by decide)
    (by decide) (by decide) (by decide) (by decide) (by decide)

/-! ## Claims on the adjoint check of the convolution layer -/

/-- Claim C12, refuted as stated: for the one-channel layer with a 1 x 1 kernel
holding 3 and bias 0, input 2 and output gradient 5, `Forward` gives 6,
`Backward` gives 15 and `Gradient` gives (10, 5); so
`<gy, Forward(x)> = 30` while
`<Backward(x, gy), x> + <Gradient(x, gy), parameters> = 30 + 30 = 60`: each of
the two terms alone already equals the left side, the difference is 30. -/
theorem C12_adjoint_sum_counts_twice :
    exBatchLayer.Forward ⟨1, 1, [2]⟩ = some (exSingleLayerFwd, ⟨1, 1, [6]⟩) ∧
    exSingleLayerFwd.Backward ⟨1, 1, [2]⟩ ⟨1, 1, [5]⟩ = some ⟨1, 1, [15]⟩ ∧
    exSingleLayerFwd.Gradient ⟨1, 1, [2]⟩ ⟨1, 1, [5]⟩ (Mat.zeros 0 0) = some ⟨2, 1, [10, 5]⟩ ∧
    innerProduct [5] [6] = (30 : Int) ∧
    innerProduct [15] [2] + innerProduct [10, 5] exSingleLayerFwd.weights = (60 : Int) ∧
    (1 : ℚ) / 10000 < |((30 : Int) : ℚ) - ((60 : Int) : ℚ)| := by
  refine ⟨by decide, by decide, by decide, by decide, by decide, ?_⟩
  norm_num

namespace Convolution

/-- The call `Forward` returns; the layer it leaves, the buffer of its output and
every slice of that buffer. -/
theorem Forward_result_cached {α : Type} [CommRing α] (l : Convolution α) (input : Mat α)
    (R : Nat → Nat → Nat → Mat α)
    (hin : 1 ≤ l.inSize) (hout : 1 ≤ l.outSize) (hB : 1 ≤ input.n_cols)
    (hOK : l.SizesOk input.n_cols)
    (hR : ∀ o, o < l.outSize → ∀ b, b < input.n_cols → ∀ c, c < l.inSize →
      NaiveConvolution.ConvolutionValid (l.paddedSlice input (c + b * l.inSize))
        (l.weight.sliceMat (o * l.inSize + c)) (Mat.zeros 0 0)
        l.strideWidth l.strideHeight 1 1 false = some (R o b c)) :
    ∃ (ipt out : Cube α), l.Forward input = some ({ l with
          batchSize := input.n_cols
          inputPaddedTemp := ipt
          outputWidth := out.n_rows
          outputHeight := out.n_cols },
        ⟨szMul (szMul (R 0 0 0).n_rows (R 0 0 0).n_cols) l.outSize, input.n_cols, out.mem⟩) ∧
      out.n_rows = (R 0 0 0).n_rows ∧ out.n_cols = (R 0 0 0).n_cols ∧
      out.mem.length = (R 0 0 0).n_rows * (R 0 0 0).n_cols * (l.outSize * input.n_cols) ∧
      (∀ k, k < l.outSize * input.n_cols →
        out.sliceMat k
          = (sumSlices (R 0 0 0).n_rows (R 0 0 0).n_cols l.inSize
              (R (k % l.outSize) (k / l.outSize))).addScalar
            (l.weights.getD (l.kernelWidth * l.kernelHeight * (l.outSize * l.inSize)
              + k % l.outSize) 0)) ∧
      ∀ k, k < l.inSize * input.n_cols →
        (if l.hasPadding then ipt
          else (⟨l.inputWidth, l.inputHeight, szMul l.inSize input.n_cols, input.mem⟩ :
            Cube α)).slice k = some (l.paddedSlice input k) := by
  obtain ⟨hwc, hhc⟩ := forward_conv_dims l input _ _ _ (hR 0 hout 0 hB 0 hin)
  have hdims : ∀ o, o < l.outSize → ∀ b, b < input.n_cols → ∀ c, c < l.inSize →
      (R o b c).n_rows = (R 0 0 0).n_rows ∧ (R o b c).n_cols = (R 0 0 0).n_cols := by
    intro o ho b hb c hc
    obtain ⟨w1, w2⟩ := forward_conv_dims l input _ _ _ (hR o ho b hb c hc)
    rw [hwc] at w1
    rw [hhc] at w2
    exact ⟨(Option.some.inj w1).symm, (Option.some.inj w2).symm⟩
  obtain ⟨ipt, hipt, hslices⟩ := Forward_input l input hOK
  have hOK' := hOK
  obtain ⟨h1, h2, h3, h4, h5, h6⟩ := hOK'
  have eO : szMul l.outSize input.n_cols = l.outSize * input.n_cols := szMul_eq h2
  obtain ⟨out, hmain, o1, o2, o3, o4, o5⟩ := slices_loop (l.outSize * input.n_cols)
    (R 0 0 0).n_rows (R 0 0 0).n_cols
    (l.forwardOutMap (if l.hasPadding then ipt
      else ⟨l.inputWidth, l.inputHeight, szMul l.inSize input.n_cols, input.mem⟩))
    (fun k => (sumSlices (R 0 0 0).n_rows (R 0 0 0).n_cols l.inSize
        (R (k % l.outSize) (k / l.outSize))).addScalar
      (l.weights.getD (l.kernelWidth * l.kernelHeight * (l.outSize * l.inSize)
        + k % l.outSize) 0))
    (fun k hk => by
      have ho : k % l.outSize < l.outSize := Nat.mod_lt _ hout
      have hb : k / l.outSize < input.n_cols := by
        rw [Nat.div_lt_iff_lt_mul hout, Nat.mul_comm]; exact hk
      refine ⟨rfl, rfl, ?_⟩
      simp only [Mat.addScalar, sumSlices, List.length_map]
      exact (getD_foldl_zipWith l.inSize _ (fun ci => (R (k % l.outSize) (k / l.outSize) ci).mem)
        (fun ci hci => by
          rw [NaiveConvolution.valid_length _ _ _ _ _ _ _ _ (hR _ ho _ hb ci hci),
            (hdims _ ho _ hb ci hci).1, (hdims _ ho _ hb ci hci).2]) 0).1)
    (fun k hk t _ _ t3 t4 =>
      forwardOutMap_eq l input _ R _ _ hOK hslices hR hdims k hk t t3 t4)
  refine ⟨ipt, out, ?_, o1, o2, o4, o5, hslices⟩
  unfold Forward
  simp only [Option.bind_eq_bind]
  rw [hipt, Option.some_bind, hwc, Option.some_bind, hhc, Option.some_bind,
    Forward_cache l hin h3, Option.some_bind, eO, hmain, Option.some_bind]

/-- The result of `Forward`, without the statement on the padded input it
keeps. -/
theorem Forward_result {α : Type} [CommRing α] (l : Convolution α) (input : Mat α)
    (R : Nat → Nat → Nat → Mat α)
    (hin : 1 ≤ l.inSize) (hout : 1 ≤ l.outSize) (hB : 1 ≤ input.n_cols)
    (hOK : l.SizesOk input.n_cols)
    (hR : ∀ o, o < l.outSize → ∀ b, b < input.n_cols → ∀ c, c < l.inSize →
      NaiveConvolution.ConvolutionValid (l.paddedSlice input (c + b * l.inSize))
        (l.weight.sliceMat (o * l.inSize + c)) (Mat.zeros 0 0)
        l.strideWidth l.strideHeight 1 1 false = some (R o b c)) :
    ∃ (ipt out : Cube α), l.Forward input = some ({ l with
          batchSize := input.n_cols
          inputPaddedTemp := ipt
          outputWidth := out.n_rows
          outputHeight := out.n_cols },
        ⟨szMul (szMul (R 0 0 0).n_rows (R 0 0 0).n_cols) l.outSize, input.n_cols, out.mem⟩) ∧
      out.n_rows = (R 0 0 0).n_rows ∧ out.n_cols = (R 0 0 0).n_cols ∧
      out.mem.length = (R 0 0 0).n_rows * (R 0 0 0).n_cols * (l.outSize * input.n_cols) ∧
      ∀ k, k < l.outSize * input.n_cols →
        out.sliceMat k
          = (sumSlices (R 0 0 0).n_rows (R 0 0 0).n_cols l.inSize
              (R (k % l.outSize) (k / l.outSize))).addScalar
            (l.weights.getD (l.kernelWidth * l.kernelHeight * (l.outSize * l.inSize)
              + k % l.outSize) 0) := by
  obtain ⟨ipt, out, h1, h2, h3, h4, h5, -⟩ := Forward_result_cached l input R hin hout hB hOK hR
  exact ⟨ipt, out, h1, h2, h3, h4, h5⟩

end Convolution

/-! ## Inner products and sums over cells -/

theorem innerProduct_eq_sum {α : Type} [CommRing α] (n : Nat) (a b : List α)
    (ha : a.length = n) (hb : b.length = n) :
    innerProduct a b = ∑ i ∈ Finset.range n, a.getD i 0 * b.getD i 0 := by
  induction n generalizing a b with
  | zero =>
    have : a = [] := List.length_eq_zero.mp ha
    subst this
    rfl
  | succ m ih =>
    cases a with
    | nil => cases ha
    | cons x a =>
      cases b with
      | nil => cases hb
      | cons y b =>
        have := ih a b (by simpa using ha) (by simpa using hb)
        unfold innerProduct at this ⊢
        rw [Finset.sum_range_succ', List.zipWith_cons_cons, List.sum_cons, this]
        simp only [List.getD_cons_succ, List.getD_cons_zero]
        ring

theorem sum_range_mul {α : Type} [AddCommMonoid α] (c r : Nat) (f : Nat → α) :
    ∑ idx ∈ Finset.range (c * r), f idx
      = ∑ j ∈ Finset.range c, ∑ i ∈ Finset.range r, f (j * r + i) := by
  induction c with
  | zero => simp
  | succ m ih =>
    rw [Nat.succ_mul, Finset.sum_range_add, ih, Finset.sum_range_succ]

theorem list_sum_eq_sum {α : Type} [CommRing α] (n : Nat) (a : List α) (ha : a.length = n) :
    a.sum = ∑ i ∈ Finset.range n, a.getD i 0 := by
  induction n generalizing a with
  | zero =>
    have : a = [] := List.length_eq_zero.mp ha
    subst this
    rfl
  | succ m ih =>
    cases a with
    | nil => cases ha
    | cons x a =>
      rw [Finset.sum_range_succ', List.sum_cons, ih a (by simpa using ha)]
      simp only [List.getD_cons_succ, List.getD_cons_zero]
      ring

theorem accu_eq_sum {α : Type} [CommRing α] (m : Mat α) (n : Nat) (hm : m.mem.length = n) :
    m.accu = ∑ i ∈ Finset.range n, m.mem.getD i 0 := by
  unfold Mat.accu
  rw [← list_sum_eq_sum n m.mem hm, List.sum_eq_foldl]

theorem zipWith_zeros_add {α : Type} [AddMonoid α] (O : List α) :
    List.zipWith (fun x y => x + y) (List.replicate O.length 0) O = O := by
  apply List.ext_getElem?
  intro n
  by_cases hn : n < O.length
  · simp [List.getElem?_zipWith, List.getElem?_eq_getElem hn,
      List.getElem?_replicate_of_lt hn]
  · simp [List.getElem?_zipWith, List.getElem?_eq_none (Nat.le_of_not_lt hn)]

namespace NaiveConvolution

/-- The valid-mode convolution with stride 1 and dilation 1: the sliding-window
sums, the filter not flipped. -/
theorem valid_unit_stride {α : Type} [CommRing α] (input filter out0 : Mat α)
    (hI : input.WF) (hF : filter.WF)
    (hfr : 1 ≤ filter.n_rows) (hfR : filter.n_rows ≤ input.n_rows)
    (hfc : 1 ≤ filter.n_cols) (hfC : filter.n_cols ≤ input.n_cols) :
    ∃ out, ConvolutionValid input filter out0 1 1 1 1 false = some out ∧
      out.n_rows = input.n_rows - filter.n_rows + 1 ∧
      out.n_cols = input.n_cols - filter.n_cols + 1 ∧
      out.mem.length = out.n_rows * out.n_cols ∧
      ∀ i, i < out.n_rows → ∀ j, j < out.n_cols →
        out.elem i j = ∑ ki ∈ Finset.range filter.n_rows, ∑ kj ∈ Finset.range filter.n_cols,
          filter.elem ki kj * input.elem (i + ki) (j + kj) := by
  obtain ⟨out, h1, h2, h3, h4, h5⟩ := valid_same_stride input filter out0 1 1
    hI hF (Nat.le_refl 1) hfr hfc (by omega) (by omega)
  have e2 : out.n_rows = input.n_rows - filter.n_rows + 1 := by
    rw [h2, Nat.mul_one, Nat.div_one]; omega
  have e3 : out.n_cols = input.n_cols - filter.n_cols + 1 := by
    rw [h3, Nat.mul_one, Nat.div_one]; omega
  refine ⟨out, h1, e2, e3, h4, ?_⟩
  intro i hi j hj
  rw [h5 i hi j hj]
  simp only [specWindow, Nat.mul_one]

end NaiveConvolution

theorem sum4_comm {α : Type} [AddCommMonoid α] (a b c d : Nat) (f : Nat → Nat → Nat → Nat → α) :
    ∑ j ∈ Finset.range a, ∑ i ∈ Finset.range b, ∑ kj ∈ Finset.range c, ∑ ki ∈ Finset.range d,
        f j i kj ki
      = ∑ kj ∈ Finset.range c, ∑ ki ∈ Finset.range d, ∑ j ∈ Finset.range a,
          ∑ i ∈ Finset.range b, f j i kj ki := by
  calc ∑ j ∈ Finset.range a, ∑ i ∈ Finset.range b, ∑ kj ∈ Finset.range c,
        ∑ ki ∈ Finset.range d, f j i kj ki
      = ∑ j ∈ Finset.range a, ∑ kj ∈ Finset.range c, ∑ i ∈ Finset.range b,
          ∑ ki ∈ Finset.range d, f j i kj ki :=
        Finset.sum_congr rfl (fun j _ => Finset.sum_comm)
    _ = ∑ kj ∈ Finset.range c, ∑ j ∈ Finset.range a, ∑ i ∈ Finset.range b,
          ∑ ki ∈ Finset.range d, f j i kj ki := Finset.sum_comm
    _ = ∑ kj ∈ Finset.range c, ∑ j ∈ Finset.range a, ∑ ki ∈ Finset.range d,
          ∑ i ∈ Finset.range b, f j i kj ki :=
        Finset.sum_congr rfl (fun kj _ => Finset.sum_congr rfl (fun j _ => Finset.sum_comm))
    _ = ∑ kj ∈ Finset.range c, ∑ ki ∈ Finset.range d, ∑ j ∈ Finset.range a,
          ∑ i ∈ Finset.range b, f j i kj ki :=
        Finset.sum_congr rfl (fun kj _ => Finset.sum_comm)

/-- The adjoint identity of the correlation: pairing the output gradient with
the window sums of the input, plus a constant, is pairing the filter with the
window sums of the input against the output gradient, plus the constant times
the sum of the output gradient. -/
theorem correlation_adjoint {α : Type} [CommRing α] (oW oH kW kH : Nat)
    (g w : Nat → Nat → α) (x : Nat → Nat → α) (b : α) :
    ∑ j ∈ Finset.range oH, ∑ i ∈ Finset.range oW,
        g i j * ((∑ ki ∈ Finset.range kW, ∑ kj ∈ Finset.range kH, w ki kj * x (i + ki) (j + kj))
          + b)
      = ∑ kj ∈ Finset.range kH, ∑ ki ∈ Finset.range kW,
          (∑ i ∈ Finset.range oW, ∑ j ∈ Finset.range oH, g i j * x (ki + i) (kj + j)) * w ki kj
        + (∑ j ∈ Finset.range oH, ∑ i ∈ Finset.range oW, g i j) * b := by
  simp only [mul_add, Finset.sum_add_distrib, Finset.mul_sum, Finset.sum_mul]
  congr 1
  have h1 : ∀ j i : Nat,
      ∑ ki ∈ Finset.range kW, ∑ kj ∈ Finset.range kH, g i j * (w ki kj * x (i + ki) (j + kj))
        = ∑ kj ∈ Finset.range kH, ∑ ki ∈ Finset.range kW,
            g i j * (w ki kj * x (i + ki) (j + kj)) := fun _ _ => Finset.sum_comm
  have h2 : ∀ kj ki : Nat,
      ∑ i ∈ Finset.range oW, ∑ j ∈ Finset.range oH, g i j * x (ki + i) (kj + j) * w ki kj
        = ∑ j ∈ Finset.range oH, ∑ i ∈ Finset.range oW,
            g i j * x (ki + i) (kj + j) * w ki kj := fun _ _ => Finset.sum_comm
  simp only [h1, h2]
  rw [sum4_comm]
  refine Finset.sum_congr rfl (fun kj _ => Finset.sum_congr rfl (fun ki _ =>
    Finset.sum_congr rfl (fun j _ => Finset.sum_congr rfl (fun i _ => ?_))))
  rw [Nat.add_comm i ki, Nat.add_comm j kj]
  ring

theorem getD_take_of_lt {α : Type} [Zero α] (l : List α) (m idx : Nat) (h : idx < m) :
    (l.take m).getD idx 0 = l.getD idx 0 := by
  simp only [List.getD_eq_getElem?_getD, List.getElem?_take, if_pos h]

/-- The inner product of two `r x c` buffers as a sum over the cells. -/
theorem innerProduct_cells {α : Type} [CommRing α] (r c : Nat) (a b : List α)
    (ha : a.length = r * c) (hb : b.length = r * c) :
    innerProduct a b = ∑ j ∈ Finset.range c, ∑ i ∈ Finset.range r,
      a.getD (j * r + i) 0 * b.getD (j * r + i) 0 := by
  rw [innerProduct_eq_sum (r * c) a b ha hb, Nat.mul_comm r c, sum_range_mul]

/-! ## Claims on the "same" policy at every stride -/

namespace Convolution

/-- Without wrap-around the total derived by the "same" policy is
`(s - 1) * (W - 1) + (k - 1)`. -/
theorem totalPadding_eq {s W k : Nat} (hs : 1 ≤ s) (hW : 1 ≤ W) (hk : 1 ≤ k)
    (hov : s * W + k < SIZE_MOD) :
    totalPadding s W k = (s - 1) * (W - 1) + (k - 1) := by
  obtain ⟨t, rfl⟩ : ∃ t, s = t + 1 := ⟨s - 1, by omega⟩
  obtain ⟨V, rfl⟩ : ∃ V, W = V + 1 := ⟨W - 1, by omega⟩
  have e0 : (t + 1) * (V + 1) = t * V + t + V + 1 := by ring
  have e1 : t * (V + 1) = t * V + t := by ring
  have h1 : szSub (t + 1) 1 = t := by rw [szSub_eq (by omega) (by omega)]; omega
  have h2 : szMul t (V + 1) = t * V + t := by rw [szMul_eq (by omega), e1]
  have h3 : szAdd (t * V + t) k = t * V + t + k := szAdd_eq (by omega)
  have h4 : szSub (t * V + t + k) (t + 1) = t * V + t + k - (t + 1) :=
    szSub_eq (by omega) (by omega)
  unfold totalPadding
  rw [h1, h2, h3, h4, Nat.add_sub_cancel, Nat.add_sub_cancel]
  omega

/-- With pads that add up to `(s - 1) * (W - 1) + (k - 1)` the output size is
the input extent. -/
theorem ConvOutSize_keeps {W k s pl pr : Nat} (hs : 1 ≤ s) (hW : 1 ≤ W) (hk : 1 ≤ k)
    (hov : s * W + k < SIZE_MOD) (hp : pl + pr = (s - 1) * (W - 1) + (k - 1)) :
    ConvOutSize W k s pl pr = some W := by
  obtain ⟨t, rfl⟩ : ∃ t, s = t + 1 := ⟨s - 1, by omega⟩
  obtain ⟨V, rfl⟩ : ∃ V, W = V + 1 := ⟨W - 1, by omega⟩
  have e0 : (t + 1) * (V + 1) = t * V + t + V + 1 := by ring
  have e1 : (t + 1) * V = t * V + V := by ring
  rw [Nat.add_sub_cancel, Nat.add_sub_cancel] at hp
  have h1 : szAdd (V + 1) pl = V + 1 + pl := szAdd_eq (by omega)
  have h2 : szAdd (V + 1 + pl) pr = V + 1 + pl + pr := szAdd_eq (by omega)
  have h3 : szSub (V + 1 + pl + pr) k = (t + 1) * V := by
    rw [szSub_eq (by omega) (by omega), e1]
    omega
  have h4 : (t + 1) * V / (t + 1) = V := Nat.mul_div_cancel_left V (by omega)
  have h5 : szAdd V 1 = V + 1 := szAdd_eq (by omega)
  unfold ConvOutSize szDiv
  rw [h1, h2, h3, if_neg (by omega), h4]
  simp only [Option.map_some', h5]

end Convolution

/-- Claim C26: for input extents `W, H >= 1`, kernel extents `>= 1` and strides
`>= 1` (no `size_t` wrap-around), a layer constructed with policy "same" holds
pads whose total on each axis is
`(s - 1) * W + k - s = (s - 1) * (W - 1) + (k - 1)`, and with them the output
size `floor((W + total - k) / s) + 1`, which is also the size the valid-mode
convolution allocates for the padded input, equals the input extent. -/
theorem C26_same_padding_keeps_size_at_every_stride {α : Type} (ToLower : String → String)
    (batchSize0 : Nat) (weights0 : List α) (inSize outSize kW kH sW sH : Nat)
    (padW padH : Nat × Nat) (W H : Nat) (paddingType : String) (l : Convolution α)
    (hl : l = Convolution.construct ToLower batchSize0 weights0 inSize outSize kW kH sW sH
      padW padH W H paddingType)
    (hsame : ToLower paddingType = "same")
    (hW : 1 ≤ W) (hH : 1 ≤ H) (hkW : 1 ≤ kW) (hkH : 1 ≤ kH) (hsW : 1 ≤ sW) (hsH : 1 ≤ sH)
    (hovW : sW * W + kW < SIZE_MOD) (hovH : sH * H + kH < SIZE_MOD) :
    (l.padWLeft + l.padWRight = (sW - 1) * (W - 1) + (kW - 1) ∧
      ((l.padWLeft + l.padWRight : ℕ) : ℤ) = ((sW : ℤ) - 1) * W + kW - sW ∧
      ConvOutSize W kW sW l.padWLeft l.padWRight = some W ∧
      NaiveConvolution.validOutSize (W + l.padWLeft + l.padWRight) kW sW 1 = some W) ∧
    (l.padHTop + l.padHBottom = (sH - 1) * (H - 1) + (kH - 1) ∧
      ((l.padHTop + l.padHBottom : ℕ) : ℤ) = ((sH : ℤ) - 1) * H + kH - sH ∧
      ConvOutSize H kH sH l.padHTop l.padHBottom = some H ∧
      NaiveConvolution.validOutSize (H + l.padHTop + l.padHBottom) kH sH 1 = some H) := by
  obtain ⟨h1, h2, h3, h4⟩ := Convolution.construct_same ToLower batchSize0 weights0 inSize
    outSize kW kH sW sH padW padH W H paddingType hsame
  rw [← hl] at h1 h2 h3 h4
  rw [Convolution.szSub_half (Convolution.totalPadding_lt _ _ _)] at h2 h4
  have tW := Convolution.totalPadding_eq hsW hW hkW hovW
  have tH := Convolution.totalPadding_eq hsH hH hkH hovH
  have pW : l.padWLeft + l.padWRight = (sW - 1) * (W - 1) + (kW - 1) := by
    rw [h1, h2, tW]; omega
  have pH : l.padHTop + l.padHBottom = (sH - 1) * (H - 1) + (kH - 1) := by
    rw [h3, h4, tH]; omega
  have iW : (((sW - 1) * (W - 1) + (kW - 1) : ℕ) : ℤ) = ((sW : ℤ) - 1) * W + kW - sW := by
    push_cast [Nat.cast_sub hsW, Nat.cast_sub hW, Nat.cast_sub hkW]
    ring
  have iH : (((sH - 1) * (H - 1) + (kH - 1) : ℕ) : ℤ) = ((sH : ℤ) - 1) * H + kH - sH := by
    push_cast [Nat.cast_sub hsH, Nat.cast_sub hH, Nat.cast_sub hkH]
    ring
  have cW := Convolution.ConvOutSize_keeps hsW hW hkW hovW pW
  have cH := Convolution.ConvOutSize_keeps hsH hH hkH hovH pH
  refine ⟨⟨pW, by rw [pW]; exact iW, cW, ?_⟩, ⟨pH, by rw [pH]; exact iH, cH, ?_⟩⟩
  · rw [Convolution.validOutSize_eq_ConvOutSize W kW sW l.padWLeft l.padWRight _ rfl]
    exact cW
  · rw [Convolution.validOutSize_eq_ConvOutSize H kH sH l.padHTop l.padHBottom _ rfl]
    exact cH

theorem C26_same_padding_keeps_size_at_every_stride_witness :
    (exSameStrided.padWLeft + exSameStrided.padWRight = (2 - 1) * (6 - 1) + (4 - 1) ∧
      ((exSameStrided.padWLeft + exSameStrided.padWRight : ℕ) : ℤ)
        = (((2 : ℕ) : ℤ) - 1) * ((6 : ℕ) : ℤ) + ((4 : ℕ) : ℤ) - ((2 : ℕ) : ℤ) ∧
      ConvOutSize 6 4 2 exSameStrided.padWLeft exSameStrided.padWRight = some 6 ∧
      NaiveConvolution.validOutSize (6 + exSameStrided.padWLeft + exSameStrided.padWRight) 4 2 1
        = some 6) ∧
    (exSameStrided.padHTop + exSameStrided.padHBottom = (3 - 1) * (5 - 1) + (3 - 1) ∧
      ((exSameStrided.padHTop + exSameStrided.padHBottom : ℕ) : ℤ)
        = (((3 : ℕ) : ℤ) - 1) * ((5 : ℕ) : ℤ) + ((3 : ℕ) : ℤ) - ((3 : ℕ) : ℤ) ∧
      ConvOutSize 5 3 3 exSameStrided.padHTop exSameStrided.padHBottom = some 5 ∧
      NaiveConvolution.validOutSize (5 + exSameStrided.padHTop + exSameStrided.padHBottom) 3 3 1
        = some 5) :=
  C26_same_padding_keeps_size_at_every_stride (fun s => s) 0 ([] : List Int) 1 1 4 3 2 3
    (0, 0) (0, 0) 6 5 "same" exSameStrided rfl rfl (by decide) (by decide) (by decide)
    (by decide) (by decide) (by decide) (by decide) (by decide)

/-! ## Claims on the size correction of the full-mode convolution -/

namespace NaiveConvolution

end NaiveConvolution

theorem zipWith_add_eq_map {α : Type} [AddMonoid α] (a b : List α) (hlen : b.length = a.length) :
    List.zipWith (fun x y => x + y) a b
      = (List.range a.length).map fun idx => a.getD idx 0 + b.getD idx 0 := by
  apply List.ext_getElem?
  intro n
  by_cases hn : n < a.length
  · simp [List.getElem?_zipWith, List.getElem?_eq_getElem hn,
      List.getElem?_eq_getElem (hlen ▸ hn), List.getElem?_range hn, List.getD_eq_getElem?_getD]
  · simp [List.getElem?_zipWith, List.getElem?_eq_none (Nat.le_of_not_lt hn),
      List.getElem?_eq_none (show (List.range a.length).length ≤ n by
        rw [List.length_range]; omega)]

namespace Convolution

/-- When the correlation result is larger than the filter on one axis and
smaller on the other, the first branch of the overlap code is taken and its
`submat` request exceeds the result on the smaller axis. -/
theorem addOverlap_mixed {α : Type} [Zero α] [Add α] (cur output : Mat α) (kW kH : Nat)
    (hkW : 1 ≤ kW) (hkH : 1 ≤ kH) (hkW2 : kW < SIZE_MOD) (hkH2 : kH < SIZE_MOD)
    (hmix : (kW < output.n_rows ∧ output.n_cols < kH)
      ∨ (output.n_rows < kW ∧ kH < output.n_cols)) :
    addOverlap kW kH cur output = none := by
  have e1 : szSub kW 1 = kW - 1 := szSub_eq hkW hkW2
  have e2 : szSub kH 1 = kH - 1 := szSub_eq hkH hkH2
  have hs : output.submat 0 0 (kW - 1) (kH - 1) = none := by
    unfold Mat.submat
    rw [if_pos (by omega)]
  unfold addOverlap
  rw [if_pos (by omega), e1, e2, hs]
  rfl

/-- When the correlation result is at least as large as the filter on both axes,
or at most as large on both axes, the overlap code returns the slice the
specification describes. -/
theorem addOverlap_agrees {α : Type} [AddMonoid α] (cur output : Mat α) (kW kH : Nat)
    (hr : cur.n_rows = kW) (hc : cur.n_cols = kH) (hlen : cur.mem.length = kW * kH)
    (holen : output.mem.length = output.n_rows * output.n_cols)
    (hkW : 1 ≤ kW) (hkH : 1 ≤ kH) (hkW2 : kW < SIZE_MOD) (hkH2 : kH < SIZE_MOD)
    (hor : 1 ≤ output.n_rows) (hoc : 1 ≤ output.n_cols)
    (hor2 : output.n_rows < SIZE_MOD) (hoc2 : output.n_cols < SIZE_MOD)
    (hcase : (kW ≤ output.n_rows ∧ kH ≤ output.n_cols)
      ∨ (output.n_rows ≤ kW ∧ output.n_cols ≤ kH)) :
    addOverlap kW kH cur output = some (specAddOverlap cur output) := by
  have e1 : szSub kW 1 = kW - 1 := szSub_eq hkW hkW2
  have e2 : szSub kH 1 = kH - 1 := szSub_eq hkH hkH2
  have e3 : szSub output.n_rows 1 = output.n_rows - 1 := szSub_eq hor hor2
  have e4 : szSub output.n_cols 1 = output.n_cols - 1 := szSub_eq hoc hoc2
  have hdiv : ∀ idx, idx < kW * kH → idx / kW < kH := fun idx h =>
    Nat.div_lt_of_lt_mul h
  have hmod : ∀ idx, idx % kW < kW := fun idx => Nat.mod_lt _ (by omega)
  unfold addOverlap specAddOverlap
  by_cases h1 : kW < output.n_rows ∨ kH < output.n_cols
  · have hge : kW ≤ output.n_rows ∧ kH ≤ output.n_cols := by omega
    rw [if_pos h1, e1, e2]
    unfold Mat.submat
    rw [if_neg (by omega)]
    simp only [Option.bind_eq_bind, Option.some_bind]
    unfold Mat.addAssign
    dsimp only
    rw [if_pos ⟨by rw [hr]; omega, by rw [hc]; omega⟩]
    refine congrArg some (congrArg (Mat.mk cur.n_rows cur.n_cols) ?_)
    rw [zipWith_add_eq_map _ _ (by
      rw [List.length_map, List.length_range, hlen, show kW - 1 - 0 + 1 = kW by omega,
        show kH - 1 - 0 + 1 = kH by omega])]
    apply List.map_congr_left
    intro idx hidx
    rw [List.mem_range, hlen] at hidx
    have hd := hdiv idx hidx
    have hm := hmod idx
    rw [hr, hc, if_pos ⟨by omega, by omega⟩]
    refine congrArg (fun t => cur.mem.getD idx 0 + t) ?_
    simp only [show kW - 1 - 0 + 1 = kW by omega, show kH - 1 - 0 + 1 = kH by omega,
      Nat.zero_add]
    simp only [List.getD_eq_getElem?_getD, List.getElem?_map, List.getElem?_range hidx,
      Option.map_some', Option.getD_some]
  · rw [if_neg h1]
    by_cases h2 : kW > output.n_rows ∨ kH > output.n_cols
    · have hle : output.n_rows ≤ kW ∧ output.n_cols ≤ kH := by omega
      rw [if_pos h2, e3, e4]
      unfold Mat.submatAddAssign
      rw [if_neg (by rw [hr, hc]; omega), if_neg (by omega)]
      refine congrArg some (congrArg (Mat.mk cur.n_rows cur.n_cols) ?_)
      apply List.map_congr_left
      intro idx hidx
      rw [List.mem_range, hlen] at hidx
      have hd := hdiv idx hidx
      have hm := hmod idx
      rw [hr, hc]
      simp only [lt_min_iff, Nat.sub_zero]
      generalize idx % kW = a at hm ⊢
      generalize idx / kW = b at hd ⊢
      by_cases hin : (a < output.n_rows ∧ a < kW) ∧ b < output.n_cols ∧ b < kH
      · rw [if_pos hin, if_pos ⟨by omega, by omega, by omega, by omega⟩]
      · rw [if_neg hin, if_neg (by omega)]
    · have heq : output.n_rows = kW ∧ output.n_cols = kH := by omega
      rw [if_neg h2]
      unfold Mat.addAssign
      rw [if_pos ⟨by rw [hr]; omega, by rw [hc]; omega⟩]
      refine congrArg some (congrArg (Mat.mk cur.n_rows cur.n_cols) ?_)
      rw [zipWith_add_eq_map _ _ (by rw [holen, hlen, heq.1, heq.2])]
      apply List.map_congr_left
      intro idx hidx
      rw [List.mem_range, hlen] at hidx
      have hd := hdiv idx hidx
      have hm := hmod idx
      rw [hr, hc, if_pos ⟨by omega, by omega⟩]
      refine congrArg (fun t => cur.mem.getD idx 0 + t) ?_
      unfold Mat.elem
      rw [heq.1, Nat.mul_comm, Nat.div_add_mod]

end Convolution

/-- Claim C21, refuted by the code: on a 4 x 2 input with a 1 x 2 kernel and
stride 2, `Forward` records a 2 x 1 output, and in `Gradient` the correlation of
the input with the 2 x 1 output gradient is 2 x 1: larger than the 1 x 2 filter
on the row axis and smaller on the column axis.  The first branch of lines
335-349 (taken whenever the result is larger on some axis) requests
`output.submat(0, 0, 0, 1)`, beyond the single column of the result, so the
overlap code and `Gradient` fail, where the claimed policy adds the result on
the 1 x 1 overlap and leaves the other filter cell unchanged. -/
theorem C21_mixed_overlap_is_rejected :
    exMixedLayer.Forward exMixedInput = some (exMixedLayerFwd, ⟨2, 1, [6, 10]⟩) ∧
    NaiveConvolution.ConvolutionValid ⟨4, 2, exMixedInput.mem⟩ ⟨2, 1, exMixedError.mem⟩
        (Mat.zeros 0 0) 2 2 1 1 false = some ⟨2, 1, [3, 7]⟩ ∧
    Convolution.addOverlap 1 2 (Mat.zeros 1 2) (⟨2, 1, [3, 7]⟩ : Mat Int) = none ∧
    Convolution.specAddOverlap (Mat.zeros 1 2) (⟨2, 1, [3, 7]⟩ : Mat Int) = ⟨1, 2, [3, 0]⟩ ∧
    exMixedLayerFwd.Gradient exMixedInput exMixedError (Mat.zeros 0 0) = none := by
  decide

/-! ## Claims on the reads of the input gradient -/

namespace NaiveConvolution

/-- A loop whose last iteration fails from every state fails. -/
theorem forLoop_last_none {σ : Type} (n : Nat) (body : Nat → σ → Option σ) (s : σ)
    (h : ∀ t, body n t = none) : forLoop (n + 1) body s = none := by
  rw [forLoop_succ]
  cases forLoop n body s with
  | none => rfl
  | some t => exact h t

/-- The valid-mode loops fail when the element read in their last iteration lies
past the end of the input buffer. -/
theorem convLoops_last_read {α : Type} [Add α] [Mul α] (input filter : Mat α)
    (dW dH dilW dilH o_rows o_cols : Nat) (out : List α)
    (hr : 1 ≤ o_rows) (hc : 1 ≤ o_cols)
    (hfr : 1 ≤ filter.n_rows) (hfc : 1 ≤ filter.n_cols)
    (hread : input.mem.length ≤ inputOffset input.n_rows dW dH dilW dilH (o_cols - 1)
      (o_rows - 1) (filter.n_cols - 1) (filter.n_rows - 1)) :
    convLoops input filter dW dH dilW dilH o_rows o_cols out = none := by
  obtain ⟨c, rfl⟩ : ∃ c, o_cols = c + 1 := ⟨o_cols - 1, by omega⟩
  obtain ⟨r, rfl⟩ : ∃ r, o_rows = r + 1 := ⟨o_rows - 1, by omega⟩
  obtain ⟨fc, hfc2⟩ : ∃ fc, filter.n_cols = fc + 1 := ⟨filter.n_cols - 1, by omega⟩
  obtain ⟨fr, hfr2⟩ : ∃ fr, filter.n_rows = fr + 1 := ⟨filter.n_rows - 1, by omega⟩
  unfold convLoops
  rw [hfc2, hfr2]
  rw [hfc2, hfr2] at hread
  simp only [Nat.add_sub_cancel] at hread
  refine forLoop_last_none _ _ _ fun t => ?_
  refine forLoop_last_none _ _ _ fun t => ?_
  refine forLoop_last_none _ _ _ fun t => ?_
  refine forLoop_last_none _ _ _ fun t => ?_
  unfold convStep
  rw [List.getElem?_eq_none hread]
  cases filter.mem[fc * filter.n_rows + fr]? <;> rfl

/-- The accumulating full-mode call of `Backward` without padding: the error
slice has the extents `Forward` recorded, `(W - kW) / sW + 1` and
`(H - kH) / sH + 1`, and the call accumulates into a `W x H` slice.  When a
stride does not divide `W - kW` (or `H - kH`), the last read of the loops lies
past the end of the padded working buffer. -/
theorem full_accumulate_out_of_bounds {α : Type} [Zero α] [Add α] [Mul α]
    (err filter G : Mat α) (W H sW sH : Nat)
    (hkW : 1 ≤ filter.n_rows) (hkH : 1 ≤ filter.n_cols)
    (hW : filter.n_rows ≤ W) (hH : filter.n_cols ≤ H)
    (hsW : 1 ≤ sW) (hsH : 1 ≤ sH) (hsW2 : sW < SIZE_MOD) (hsH2 : sH < SIZE_MOD)
    (her : err.n_rows = (W - filter.n_rows) / sW + 1)
    (hec : err.n_cols = (H - filter.n_cols) / sH + 1)
    (hGr : G.n_rows = W) (hGc : G.n_cols = H)
    (hov : (H + filter.n_cols) * (W + filter.n_rows) < SIZE_MOD)
    (hdiv : ¬ (sW ∣ W - filter.n_rows ∧ sH ∣ H - filter.n_cols)) :
    fullPaddedSize err.n_rows filter.n_rows sW 1 * fullPaddedSize err.n_cols filter.n_cols sH 1
      ≤ inputOffset (fullPaddedSize err.n_rows filter.n_rows sW 1) 1 1 1 1 (H - 1) (W - 1)
          (filter.n_cols - 1) (filter.n_rows - 1) ∧
    ConvolutionFull err filter G sW sH 1 1 true = none := by
  have hqW : (W - filter.n_rows) / sW * sW ≤ W - filter.n_rows := Nat.div_mul_le_self _ _
  have hqH : (H - filter.n_cols) / sH * sH ≤ H - filter.n_cols := Nat.div_mul_le_self _ _
  have hqW2 : ¬ sW ∣ W - filter.n_rows → (W - filter.n_rows) / sW * sW < W - filter.n_rows :=
    fun h => Nat.lt_of_le_of_ne hqW fun he => h (Dvd.intro_left _ he)
  have hqH2 : ¬ sH ∣ H - filter.n_cols → (H - filter.n_cols) / sH * sH < H - filter.n_cols :=
    fun h => Nat.lt_of_le_of_ne hqH fun he => h (Dvd.intro_left _ he)
  have hb1 : W + filter.n_rows ≤ (H + filter.n_cols) * (W + filter.n_rows) :=
    Nat.le_mul_of_pos_left _ (by omega)
  have hb2 : H + filter.n_cols ≤ (H + filter.n_cols) * (W + filter.n_rows) :=
    Nat.le_mul_of_pos_right _ (by omega)
  have her1 : err.n_rows - 1 = (W - filter.n_rows) / sW := by rw [her, Nat.add_sub_cancel]
  have hec1 : err.n_cols - 1 = (H - filter.n_cols) / sH := by rw [hec, Nat.add_sub_cancel]
  have hovr : (err.n_rows - 1) * sW + 2 * (filter.n_rows - 1) * 1 + 1 < SIZE_MOD := by
    rw [her1]; omega
  have hovc : (err.n_cols - 1) * sH + 2 * (filter.n_cols - 1) * 1 + 1 < SIZE_MOD := by
    rw [hec1]; omega
  have sR := fullPaddedSize_eq (by omega : 1 ≤ err.n_rows) hkW hsW (Nat.le_refl 1) hsW2 hovr
  have sC := fullPaddedSize_eq (by omega : 1 ≤ err.n_cols) hkH hsH (Nat.le_refl 1) hsH2 hovc
  have hP := fullPadded_eq err filter sW sH 1 1 (by omega) (by omega) hkW hkH hsW hsH
    (Nat.le_refl 1) (Nat.le_refl 1) hsW2 hsH2 hovr hovc
  rw [her1] at sR
  rw [hec1] at sC
  have hPr : fullPaddedSize err.n_rows filter.n_rows sW 1 ≤ W + filter.n_rows - 1 := by
    rw [sR]; omega
  have hPc : fullPaddedSize err.n_cols filter.n_cols sH 1 ≤ H + filter.n_cols - 1 := by
    rw [sC]; omega
  have hPr2 : ¬ sW ∣ W - filter.n_rows →
      fullPaddedSize err.n_rows filter.n_rows sW 1 ≤ W + filter.n_rows - 2 := by
    intro h
    have := hqW2 h
    rw [sR]; omega
  have hPc2 : ¬ sH ∣ H - filter.n_cols →
      fullPaddedSize err.n_cols filter.n_cols sH 1 ≤ H + filter.n_cols - 2 := by
    intro h
    have := hqH2 h
    rw [sC]; omega
  have hoff : fullPaddedSize err.n_rows filter.n_rows sW 1
        * fullPaddedSize err.n_cols filter.n_cols sH 1
      ≤ inputOffset (fullPaddedSize err.n_rows filter.n_rows sW 1) 1 1 1 1 (H - 1) (W - 1)
          (filter.n_cols - 1) (filter.n_rows - 1) := by
    generalize fullPaddedSize err.n_rows filter.n_rows sW 1 = Pr at *
    generalize fullPaddedSize err.n_cols filter.n_cols sH 1 = Pc at *
    have hm : (H + filter.n_cols - 2) * Pr ≤ (H + filter.n_cols) * (W + filter.n_rows) :=
      Nat.mul_le_mul (by omega) (by omega)
    have e1 : szMul (filter.n_cols - 1) 1 = filter.n_cols - 1 := by
      rw [szMul_eq (by omega), Nat.mul_one]
    have e2 : szMul (H - 1) 1 = H - 1 := by rw [szMul_eq (by omega), Nat.mul_one]
    have e3 : szAdd (filter.n_cols - 1) (H - 1) = H + filter.n_cols - 2 := by
      rw [szAdd_eq (by omega)]; omega
    have e4 : szMul (H + filter.n_cols - 2) Pr = (H + filter.n_cols - 2) * Pr :=
      szMul_eq (by omega)
    have e5 : szMul (W - 1) 1 = W - 1 := by rw [szMul_eq (by omega), Nat.mul_one]
    unfold inputOffset
    rw [e1, e2, e3, e4, e5, Nat.mul_one]
    by_cases hd : sW ∣ W - filter.n_rows
    · have hc2 := hPc2 (fun h => hdiv ⟨hd, h⟩)
      have : Pr * Pc ≤ Pr * (H + filter.n_cols - 2) := Nat.mul_le_mul_left _ hc2
      rw [Nat.mul_comm Pr (H + filter.n_cols - 2)] at this
      omega
    · have hr2 := hPr2 hd
      have h1 : Pr * Pc ≤ Pr * (H + filter.n_cols - 1) := Nat.mul_le_mul_left _ hPc
      have h2 : Pr * (H + filter.n_cols - 1) = (H + filter.n_cols - 2) * Pr + Pr := by
        rw [show H + filter.n_cols - 1 = (H + filter.n_cols - 2) + 1 by omega, Nat.mul_succ,
          Nat.mul_comm]
      omega
  refine ⟨hoff, ?_⟩
  obtain ⟨d1, d2⟩ := fullPadded_dims err filter _ sW sH 1 1 hP
  unfold ConvolutionFull
  rw [hP, Option.bind_eq_bind, Option.some_bind]
  unfold ConvolutionValid
  simp only [if_true, Option.bind_eq_bind, Option.some_bind]
  rw [convLoops_last_read _ filter 1 1 1 1 G.n_rows G.n_cols G.mem (by omega) (by omega) hkW hkH
    (by
      rw [hGr, hGc, d1]
      refine Nat.le_trans (Nat.le_of_eq ?_) hoff
      rw [← d1, ← d2]
      simp [Mat.zeroPadded])]
  rfl

/-- The accumulating full-mode call of `Backward` without padding, when each
stride divides `W - kW` (resp. `H - kH`): the padded working buffer has
`W + kW - 1` rows and `H + kH - 1` columns, the call returns, and it adds to
every `W x H` slice the correlation of the padded buffer with the filter. -/
theorem full_accumulate_returns {α : Type} [CommRing α]
    (err filter : Mat α) (W H sW sH : Nat) (hF : filter.WF)
    (hkW : 1 ≤ filter.n_rows) (hkH : 1 ≤ filter.n_cols)
    (hW : filter.n_rows ≤ W) (hH : filter.n_cols ≤ H)
    (hsW : 1 ≤ sW) (hsH : 1 ≤ sH) (hsW2 : sW < SIZE_MOD) (hsH2 : sH < SIZE_MOD)
    (her : err.n_rows = (W - filter.n_rows) / sW + 1)
    (hec : err.n_cols = (H - filter.n_cols) / sH + 1)
    (hov : (H + filter.n_cols) * (W + filter.n_rows) < SIZE_MOD)
    (hdW : sW ∣ W - filter.n_rows) (hdH : sH ∣ H - filter.n_cols) :
    ∃ R : Mat α,
      ConvolutionFull err filter (Mat.zeros 0 0) sW sH 1 1 false = some R ∧
      R.n_rows = W ∧ R.n_cols = H ∧ R.mem.length = W * H ∧
      (∀ i, i < W → ∀ j, j < H →
        R.elem i j = ∑ ki ∈ Finset.range filter.n_rows, ∑ kj ∈ Finset.range filter.n_cols,
          filter.elem ki kj *
            (err.zeroPadded ((filter.n_rows - 1) * 1)
              ((filter.n_rows - 1) * 1 + (err.n_rows - 1) * (sW - 1))
              ((filter.n_cols - 1) * 1)
              ((filter.n_cols - 1) * 1 + (err.n_cols - 1) * (sH - 1))).elem (i + ki) (j + kj)) ∧
      ∀ G : Mat α, G.n_rows = W → G.n_cols = H → G.mem.length = W * H →
        ConvolutionFull err filter G sW sH 1 1 true
          = some ⟨W, H, List.zipWith (fun x y => x + y) G.mem R.mem⟩ := by
  have hqW : (W - filter.n_rows) / sW * sW = W - filter.n_rows := Nat.div_mul_cancel hdW
  have hqH : (H - filter.n_cols) / sH * sH = H - filter.n_cols := Nat.div_mul_cancel hdH
  have hb1 : W + filter.n_rows ≤ (H + filter.n_cols) * (W + filter.n_rows) :=
    Nat.le_mul_of_pos_left _ (by omega)
  have hb2 : H + filter.n_cols ≤ (H + filter.n_cols) * (W + filter.n_rows) :=
    Nat.le_mul_of_pos_right _ (by omega)
  have her1 : err.n_rows - 1 = (W - filter.n_rows) / sW := by rw [her, Nat.add_sub_cancel]
  have hec1 : err.n_cols - 1 = (H - filter.n_cols) / sH := by rw [hec, Nat.add_sub_cancel]
  have hovr : (err.n_rows - 1) * sW + 2 * (filter.n_rows - 1) * 1 + 1 < SIZE_MOD := by
    rw [her1]; omega
  have hovc : (err.n_cols - 1) * sH + 2 * (filter.n_cols - 1) * 1 + 1 < SIZE_MOD := by
    rw [hec1]; omega
  have snr : 1 ≤ err.n_rows := by omega
  have snc : 1 ≤ err.n_cols := by omega
  have hP := fullPadded_eq err filter sW sH 1 1 snr snc hkW hkH hsW hsH
    (Nat.le_refl 1) (Nat.le_refl 1) hsW2 hsH2 hovr hovc
  have er := pad_extent snr hsW ((filter.n_rows - 1) * 1)
  have ec := pad_extent snc hsH ((filter.n_cols - 1) * 1)
  rw [her1, hqW, ← her1] at er
  rw [hec1, hqH, ← hec1] at ec
  generalize hPdef : err.zeroPadded ((filter.n_rows - 1) * 1)
      ((filter.n_rows - 1) * 1 + (err.n_rows - 1) * (sW - 1))
      ((filter.n_cols - 1) * 1)
      ((filter.n_cols - 1) * 1 + (err.n_cols - 1) * (sH - 1)) = P at hP ⊢
  have hPr : P.n_rows = W + filter.n_rows - 1 := by
    rw [← hPdef]
    simp only [Mat.zeroPadded]
    omega
  have hPc : P.n_cols = H + filter.n_cols - 1 := by
    rw [← hPdef]
    simp only [Mat.zeroPadded]
    omega
  have hPlen : P.mem.length = P.n_rows * P.n_cols := by
    rw [← hPdef]
    simp [Mat.zeroPadded]
  have hPW : P.WF := by
    refine ⟨hPlen, ?_, by omega, by omega⟩
    have : P.n_rows * P.n_cols ≤ (W + filter.n_rows) * (H + filter.n_cols) :=
      Nat.mul_le_mul (by omega) (by omega)
    rw [Nat.mul_comm (W + filter.n_rows)] at this
    omega
  obtain ⟨R, hR, hRr, hRc, hRlen, hcells⟩ := valid_unit_stride P filter (Mat.zeros 0 0) hPW hF
    hkW (by omega) hkH (by omega)
  have hRr2 : R.n_rows = W := by omega
  have hRc2 : R.n_cols = H := by omega
  refine ⟨R, ?_, hRr2, hRc2, by rw [hRlen, hRr2, hRc2], ?_, ?_⟩
  · unfold ConvolutionFull
    rw [hP, Option.bind_eq_bind, Option.some_bind]
    exact hR
  · intro i hi j hj
    exact hcells i (by omega) j (by omega)
  · intro G hGr hGc hG
    obtain ⟨hA, -⟩ := valid_appending P filter (Mat.zeros 0 0) G R 1 1 1 1 hR
      (by omega) (by omega) (by rw [hG, hGr, hGc])
    unfold ConvolutionFull
    rw [hP, Option.bind_eq_bind, Option.some_bind, hA, hGr, hGc]

end NaiveConvolution

/-- Claim C24, refuted by the code: a layer with a 1 x 1 kernel, stride 2 and no
padding on 4 x 1 inputs records a 2 x 1 output in `Forward` (2 does not divide
4 - 1).  In `Backward` the full-mode rule pads the 2 x 1 error slice to a
3 x 1 working buffer, and the accumulating loop over the 4 x 1 gradient slice
reads, at `i = 3`, offset 3 of that 3-element buffer: past its end. -/
theorem C24_backward_reads_past_padded_buffer :
    exStrideLayer.Forward exStrideInput = some (exStrideLayerFwd, ⟨2, 1, [1, 3]⟩) ∧
    NaiveConvolution.fullPadded ⟨2, 1, exStrideError.mem⟩ (Rotate180 ⟨1, 1, [1]⟩) 2 2 1 1
      = some ⟨3, 1, [1, 1, 0]⟩ ∧
    NaiveConvolution.inputOffset 3 1 1 1 1 0 3 0 0 = 3 ∧
    (⟨3, 1, [1, 1, 0]⟩ : Mat Int).mem[3]? = none ∧
    NaiveConvolution.convStep (⟨3, 1, [1, 1, 0]⟩ : Mat Int) ⟨1, 1, [1]⟩ 1 1 1 1 4 0 3 0 0
      [1, 1, 0, 0] = none ∧
    NaiveConvolution.ConvolutionFull (⟨2, 1, [1, 1]⟩ : Mat Int) ⟨1, 1, [1]⟩
      ⟨4, 1, [0, 0, 0, 0]⟩ 2 2 1 1 true = none ∧
    exStrideLayerFwd.Backward exStrideInput exStrideError = none := by
  decide

/-! ## Claims on the stride of the full-mode convolution -/

/-- Cell `(row, col)` of a zero-padded matrix. -/
theorem Mat.zeroPadded_elem {α : Type} [Zero α] (m : Mat α) (t b l r row col : Nat)
    (hrow : row < t + m.n_rows + b) (hcol : col < l + m.n_cols + r) :
    (m.zeroPadded t b l r).elem row col
      = if t ≤ row ∧ row < t + m.n_rows ∧ l ≤ col ∧ col < l + m.n_cols
        then m.elem (row - t) (col - l) else 0 := by
  have hidx : col * (t + m.n_rows + b) + row < (t + m.n_rows + b) * (l + m.n_cols + r) :=
    flat_lt hrow hcol
  unfold Mat.zeroPadded
  simp only [Mat.elem, List.getD_eq_getElem?_getD, List.getElem?_map,
    List.getElem?_range hidx, Option.map_some', Option.getD_some, flat_mod hrow, flat_div hrow]

namespace NaiveConvolution

/-- The innermost loop (over `ki`) in any element type: the products of one
filter column are added to the output cell one after the other. -/
theorem ki_loop_acc {α : Type} [Zero α] [Add α] [Mul α] (input filter : Mat α)
    (dW dH dilW dilH o_rows j i kj : Nat) (rd : Nat → α)
    (hF : filter.mem.length = filter.n_rows * filter.n_cols) (hkj : kj < filter.n_cols)
    (hrd : ∀ ki, ki < filter.n_rows →
      input.mem[inputOffset input.n_rows dW dH dilW dilH j i kj ki]? = some (rd ki))
    (out : List α) (hp : j * o_rows + i < out.length) (a : α) :
    forLoop filter.n_rows (fun ki out =>
        convStep input filter dW dH dilW dilH o_rows j i kj ki out) (out.set (j * o_rows + i) a)
      = some (out.set (j * o_rows + i)
          ((List.range filter.n_rows).foldl (fun acc ki => acc + filter.elem ki kj * rd ki) a)) := by
  obtain ⟨t, ht, hP⟩ := forLoop_inv
    (fun n t => t = out.set (j * o_rows + i)
      ((List.range n).foldl (fun acc ki => acc + filter.elem ki kj * rd ki) a))
    filter.n_rows
    (fun ki out => convStep input filter dW dH dilW dilH o_rows j i kj ki out)
    (out.set (j * o_rows + i) a) (by simp)
    (by
      intro ki hki t ht
      subst ht
      refine ⟨_, ?_, rfl⟩
      have hk : filter.mem[kj * filter.n_rows + ki]? = some (filter.elem ki kj) :=
        getElem?_of_lt_getD _ _ (by rw [hF]; exact flat_lt hki hkj)
      simp only [convStep, hk, hrd ki hki, List.getElem?_set_self hp, Option.bind_eq_bind,
        Option.some_bind, List.set_set, List.range_succ, List.foldl_append, List.foldl_cons,
        List.foldl_nil])
  rw [ht, hP]

/-- The two inner loops (over `kj` and `ki`) in any element type. -/
theorem cell_loops_acc {α : Type} [Zero α] [Add α] [Mul α] (input filter : Mat α)
    (dW dH dilW dilH o_rows j i : Nat) (rd : Nat → Nat → α)
    (hF : filter.mem.length = filter.n_rows * filter.n_cols)
    (hrd : ∀ kj, kj < filter.n_cols → ∀ ki, ki < filter.n_rows →
      input.mem[inputOffset input.n_rows dW dH dilW dilH j i kj ki]? = some (rd kj ki))
    (out : List α) (v : α) (hv : out[j * o_rows + i]? = some v) :
    forLoop filter.n_cols (fun kj out =>
        forLoop filter.n_rows (fun ki out =>
          convStep input filter dW dH dilW dilH o_rows j i kj ki out) out) out
      = some (out.set (j * o_rows + i) (windowAcc filter rd v)) := by
  have hp : j * o_rows + i < out.length := (List.getElem?_eq_some.mp hv).1
  obtain ⟨t, ht, hP⟩ := forLoop_inv
    (fun n t => t = out.set (j * o_rows + i)
      ((List.range n).foldl (fun acc kj =>
        (List.range filter.n_rows).foldl (fun acc ki => acc + filter.elem ki kj * rd kj ki) acc)
        v))
    filter.n_cols
    (fun kj out => forLoop filter.n_rows (fun ki out =>
      convStep input filter dW dH dilW dilH o_rows j i kj ki out) out)
    out (by simp [list_set_same out _ v hv])
    (by
      intro kj hkj t ht
      subst ht
      refine ⟨_, ki_loop_acc input filter dW dH dilW dilH o_rows j i kj (rd kj) hF hkj
        (hrd kj hkj) out hp _, ?_⟩
      simp only [List.range_succ, List.foldl_append, List.foldl_cons, List.foldl_nil])
  rw [ht, hP]
  rfl

/-- The four loops in any element type: they succeed when every read is inside
the input, and every output cell receives the products of its window in the
order of the loops. -/
theorem convLoops_acc {α : Type} [Zero α] [Add α] [Mul α] (input filter : Mat α)
    (dW dH dilW dilH o_rows o_cols : Nat) (rd : Nat → Nat → Nat → Nat → α)
    (hF : filter.mem.length = filter.n_rows * filter.n_cols)
    (hrd : ∀ j, j < o_cols → ∀ i, i < o_rows → ∀ kj, kj < filter.n_cols →
      ∀ ki, ki < filter.n_rows →
      input.mem[inputOffset input.n_rows dW dH dilW dilH j i kj ki]? = some (rd j i kj ki))
    (out : List α) (hlen : out.length = o_rows * o_cols) :
    ∃ t, convLoops input filter dW dH dilW dilH o_rows o_cols out = some t ∧
      CellsAcc filter rd o_rows out (o_cols * o_rows) t := by
  unfold convLoops
  apply forLoop_inv (fun j t => CellsAcc filter rd o_rows out (j * o_rows) t)
  · refine ⟨rfl, fun idx => ?_⟩
    simp
  · intro j hj t ht
    have h := forLoop_inv (fun i t => CellsAcc filter rd o_rows out (j * o_rows + i) t)
      o_rows
      (fun i out => forLoop filter.n_cols (fun kj out =>
        forLoop filter.n_rows (fun ki out =>
          convStep input filter dW dH dilW dilH o_rows j i kj ki out) out) out)
      t ht
      (by
        intro i hi u hu
        have hp : j * o_rows + i < out.length := by rw [hlen]; exact flat_lt hi hj
        have hv : u[j * o_rows + i]? = some out[j * o_rows + i] := by
          rw [hu.2, if_neg (Nat.lt_irrefl _), List.getElem?_eq_getElem hp]
        refine ⟨_, cell_loops_acc input filter dW dH dilW dilH o_rows j i (rd j i) hF
          (hrd j hj i hi) u _ hv, ?_⟩
        refine ⟨by rw [List.length_set]; exact hu.1, fun idx => ?_⟩
        by_cases hidx : j * o_rows + i = idx
        · subst hidx
          rw [List.getElem?_set_self (by rw [hu.1]; exact hp),
            if_pos (by omega), List.getElem?_eq_getElem hp, flat_div hi, flat_mod hi]
          rfl
        · rw [List.getElem?_set_ne hidx, hu.2]
          by_cases h1 : idx < j * o_rows + i
          · rw [if_pos h1, if_pos (by omega)]
          · rw [if_neg h1, if_neg (by omega)])
    obtain ⟨u, hu, hQ⟩ := h
    refine ⟨u, hu, ?_⟩
    rw [Nat.succ_mul]
    exact hQ

/-- Non-accumulating valid-mode convolution in any element type, when all its
reads stay inside the input: it returns, and every output cell holds the
products of its window added to 0 in the order of the loops. -/
theorem valid_acc {α : Type} [Zero α] [Add α] [Mul α] (input filter out0 : Mat α)
    (dW dH dilW dilH o_rows o_cols : Nat) (hI : input.WF)
    (hF : filter.mem.length = filter.n_rows * filter.n_cols)
    (hr : validOutSize input.n_rows filter.n_rows dW dilW = some o_rows)
    (hc : validOutSize input.n_cols filter.n_cols dH dilH = some o_cols)
    (hin : ∀ j, j < o_cols → ∀ i, i < o_rows → ∀ kj, kj < filter.n_cols →
      ∀ ki, ki < filter.n_rows →
      kj * dilW + j * dW < input.n_cols ∧ i * dH + ki * dilH < input.n_rows) :
    ∃ out, ConvolutionValid input filter out0 dW dH dilW dilH false = some out ∧
      out.n_rows = o_rows ∧ out.n_cols = o_cols ∧ out.mem.length = o_rows * o_cols ∧
      ∀ i, i < o_rows → ∀ j, j < o_cols →
        out.elem i j = windowAcc filter
          (fun kj ki => input.elem (i * dH + ki * dilH) (kj * dilW + j * dW)) 0 := by
  obtain ⟨t, ht, hlen, hcells⟩ := convLoops_acc input filter dW dH dilW dilH o_rows o_cols
    (fun j i kj ki => input.elem (i * dH + ki * dilH) (kj * dilW + j * dW)) hF
    (fun j hj i hi kj hkj ki hki =>
      input_read input hI dW dH dilW dilH j i kj ki (hin j hj i hi kj hkj ki hki).1
        (hin j hj i hi kj hkj ki hki).2)
    (List.replicate (o_rows * o_cols) 0) (by simp)
  refine ⟨⟨o_rows, o_cols, t⟩, ?_, rfl, rfl, by simpa using hlen, ?_⟩
  · simp [ConvolutionValid, hr, hc, Mat.zeros, ht]
  · intro i hi j hj
    have hp := flat_lt hi hj
    have h := hcells (j * o_rows + i)
    rw [if_pos (by rw [Nat.mul_comm o_cols]; exact hp),
      List.getElem?_replicate_of_lt hp, flat_div hi, flat_mod hi] at h
    simp only [Mat.elem, List.getD_eq_getElem?_getD, h, Option.map_some', Option.getD_some]

/-- The value of a cell depends only on the values read inside the window. -/
theorem windowAcc_congr {α : Type} [Zero α] [Add α] [Mul α] (filter : Mat α)
    (rd rd' : Nat → Nat → α) (v : α)
    (h : ∀ kj, kj < filter.n_cols → ∀ ki, ki < filter.n_rows → rd kj ki = rd' kj ki) :
    windowAcc filter rd v = windowAcc filter rd' v := by
  unfold windowAcc
  refine List.foldl_ext _ _ _ fun a kj hkj => ?_
  refine List.foldl_ext _ _ _ fun b ki hki => ?_
  rw [h kj (List.mem_range.mp hkj) ki (List.mem_range.mp hki)]

theorem foldl_fixed {α β : Type} (f : α → β → α) (a : α) (l : List β)
    (h : ∀ b, b ∈ l → f a b = a) : l.foldl f a = a := by
  induction l with
  | nil => rfl
  | cons b l ih =>
    rw [List.foldl_cons, h b (List.mem_cons_self b l)]
    exact ih fun c hc => h c (List.mem_cons_of_mem b hc)

/-- A window that reads only zeros leaves a zero cell at zero, when `0 + 0 = 0`
and `x * 0 = 0` for every filter entry `x`. -/
theorem windowAcc_zero {α : Type} [Zero α] [Add α] [Mul α] (filter : Mat α)
    (rd : Nat → Nat → α) (hF : filter.mem.length = filter.n_rows * filter.n_cols)
    (h0 : (0 : α) + 0 = 0) (hz : ∀ x, x ∈ filter.mem → x * 0 = 0)
    (h : ∀ kj, kj < filter.n_cols → ∀ ki, ki < filter.n_rows → rd kj ki = 0) :
    windowAcc filter rd 0 = 0 := by
  unfold windowAcc
  refine foldl_fixed _ _ _ fun kj hkj => ?_
  refine foldl_fixed _ _ _ fun ki hki => ?_
  have hkj2 := List.mem_range.mp hkj
  have hki2 := List.mem_range.mp hki
  have hlt : kj * filter.n_rows + ki < filter.mem.length := by
    rw [hF]; exact flat_lt hki2 hkj2
  have hmem : filter.elem ki kj ∈ filter.mem := by
    unfold Mat.elem
    rw [List.getD_eq_getElem _ _ hlt]
    exact List.getElem_mem hlt
  rw [h kj hkj2 ki hki2, hz _ hmem, h0]

/-- The valid-mode convolution with the same stride `s` and the same dilation
`d` on both axes, in any element type. -/
theorem valid_same_stride_acc {α : Type} [Zero α] [Add α] [Mul α] (input filter out0 : Mat α)
    (s d : Nat) (hI : input.WF) (hF : filter.WF) (hs : 1 ≤ s)
    (hfr : 1 ≤ filter.n_rows) (hfc : 1 ≤ filter.n_cols)
    (hr : (filter.n_rows - 1) * d + 1 ≤ input.n_rows)
    (hc : (filter.n_cols - 1) * d + 1 ≤ input.n_cols) :
    ∃ out, ConvolutionValid input filter out0 s s d d false = some out ∧
      out.n_rows = (input.n_rows - (filter.n_rows - 1) * d - 1) / s + 1 ∧
      out.n_cols = (input.n_cols - (filter.n_cols - 1) * d - 1) / s + 1 ∧
      out.mem.length = out.n_rows * out.n_cols ∧
      ∀ i, i < out.n_rows → ∀ j, j < out.n_cols →
        out.elem i j = windowAcc filter
          (fun kj ki => input.elem (i * s + ki * d) (j * s + kj * d)) 0 := by
  obtain ⟨out, h1, h2, h3, h4, h5⟩ := valid_acc input filter out0 s s d d _ _ hI hF.1
    (validOutSize_eq hfr hr hF.2.2.1 hI.2.2.1 hs)
    (validOutSize_eq hfc hc hF.2.2.2 hI.2.2.2 hs)
    (fun j hj i hi kj hkj ki hki =>
      ⟨fits_bound hc hj hkj, by
        have := fits_bound hr hi hki
        omega⟩)
  refine ⟨out, h1, h2, h3, by rw [h4, h2, h3], ?_⟩
  intro i hi j hj
  rw [h5 i (h2 ▸ hi) j (h3 ▸ hj)]
  refine windowAcc_congr _ _ _ _ fun kj _ ki _ => ?_
  rw [Nat.add_comm (kj * d)]

/-- The non-accumulating full-mode call with equal dilation on both axes, in
any element type: it returns the valid-mode result on the padded buffer. -/
theorem full_same_dilation_acc {α : Type} [Zero α] [Add α] [Mul α]
    (input filter out0 : Mat α)
    (sW sH d : Nat) (hF : filter.WF)
    (hnr : 1 ≤ input.n_rows) (hnc : 1 ≤ input.n_cols)
    (hfr : 1 ≤ filter.n_rows) (hfc : 1 ≤ filter.n_cols)
    (hsW : 1 ≤ sW) (hsH : 1 ≤ sH) (hd : 1 ≤ d)
    (hsW2 : sW < SIZE_MOD) (hsH2 : sH < SIZE_MOD)
    (hov : ((input.n_rows - 1) * sW + 2 * (filter.n_rows - 1) * d + 1)
      * ((input.n_cols - 1) * sH + 2 * (filter.n_cols - 1) * d + 1) < SIZE_MOD) :
    ∃ out : Mat α, ConvolutionFull input filter out0 sW sH d d false = some out ∧
      out.n_rows = (input.n_rows - 1) * sW + (filter.n_rows - 1) * d + 1 ∧
      out.n_cols = (input.n_cols - 1) * sH + (filter.n_cols - 1) * d + 1 ∧
      out.mem.length = out.n_rows * out.n_cols ∧
      ∀ i, i < out.n_rows → ∀ j, j < out.n_cols →
        out.elem i j = windowAcc filter (fun kj ki =>
            (input.zeroPadded ((filter.n_rows - 1) * d)
              ((filter.n_rows - 1) * d + (input.n_rows - 1) * (sW - 1))
              ((filter.n_cols - 1) * d)
              ((filter.n_cols - 1) * d + (input.n_cols - 1) * (sH - 1))).elem
              (i + ki * d) (j + kj * d)) 0 := by
  have hovr : (input.n_rows - 1) * sW + 2 * (filter.n_rows - 1) * d + 1 < SIZE_MOD :=
    Nat.lt_of_le_of_lt (Nat.le_mul_of_pos_right _ (by omega)) hov
  have hovc : (input.n_cols - 1) * sH + 2 * (filter.n_cols - 1) * d + 1 < SIZE_MOD :=
    Nat.lt_of_le_of_lt (Nat.le_mul_of_pos_left _ (by omega)) hov
  have hP := fullPadded_eq input filter sW sH d d hnr hnc hfr hfc hsW hsH hd hd hsW2 hsH2
    hovr hovc
  have er := pad_extent hnr hsW ((filter.n_rows - 1) * d)
  have ec := pad_extent hnc hsH ((filter.n_cols - 1) * d)
  simp only [Nat.mul_assoc 2] at hov hovr hovc
  generalize hPdef : input.zeroPadded ((filter.n_rows - 1) * d)
      ((filter.n_rows - 1) * d + (input.n_rows - 1) * (sW - 1))
      ((filter.n_cols - 1) * d)
      ((filter.n_cols - 1) * d + (input.n_cols - 1) * (sH - 1)) = P at hP ⊢
  have hPr : P.n_rows = (input.n_rows - 1) * sW + 2 * ((filter.n_rows - 1) * d) + 1 := by
    rw [← hPdef, er]; rfl
  have hPc : P.n_cols = (input.n_cols - 1) * sH + 2 * ((filter.n_cols - 1) * d) + 1 := by
    rw [← hPdef, ec]; rfl
  have hPlen : P.mem.length = P.n_rows * P.n_cols := by
    rw [← hPdef]
    simp [Mat.zeroPadded]
  have hPW : P.WF := ⟨hPlen, by rw [hPr, hPc]; exact hov, by omega, by omega⟩
  obtain ⟨out, ho, h2, h3, h4, h5⟩ := valid_same_stride_acc P filter out0 1 d hPW hF
    (Nat.le_refl 1) hfr hfc (by omega) (by omega)
  refine ⟨out, ?_, by rw [h2, Nat.div_one]; omega, by rw [h3, Nat.div_one]; omega, h4, ?_⟩
  · unfold ConvolutionFull
    rw [hP, Option.bind_eq_bind, Option.some_bind]
    exact ho
  · intro i hi j hj
    rw [h5 i hi j hj]
    simp only [Nat.mul_one]

end NaiveConvolution

/-- In `double`, `0 + 0` is 0. -/
theorem Binary64.zero_add_zero : (0 : Binary64) + 0 = 0 := by
  decide

/-- In `double`, the product of a finite number and 0 is 0: a filter of doubles
whose entries are all finite has `x * 0 = 0` for every entry `x`. -/
theorem Binary64.finite_mul_zero (v : Frac) : Binary64.finite v * 0 = 0 := by
  show Binary64.round ⟨v.num * 0, v.den * 1⟩ = Binary64.finite ⟨0, 1⟩
  unfold Binary64.round
  rw [if_pos (Int.mul_zero _)]

/-- Claim C23, amended: in an element type with `0 + 0 = 0`, for a filter every
entry `x` of which has `x * 0 = 0` (every filter over exact arithmetic; over
`double` the filters whose entries are finite), a non-empty input and filter,
strides at least 1 and the same dilation `d >= 1` on both axes (no `size_t`
wrap-around), the non-accumulating full-mode convolution returns at the given
strides and at stride 1; the stride-1 result has `n + (f - 1) * d` rows and
columns, the result at stride `s` has `(n - 1) * (s - 1)` more, it equals the
stride-1 result on the top-left block of the size of the stride-1 result and
is zero in every other cell. -/
theorem C23_full_stride_only_appends_zeros {α : Type} [Zero α] [Add α] [Mul α]
    (input filter out0 out1 : Mat α) (sW sH d : Nat) (hF : filter.WF)
    (h0 : (0 : α) + 0 = 0) (hz : ∀ x, x ∈ filter.mem → x * 0 = 0)
    (hnr : 1 ≤ input.n_rows) (hnc : 1 ≤ input.n_cols)
    (hfr : 1 ≤ filter.n_rows) (hfc : 1 ≤ filter.n_cols)
    (hsW : 1 ≤ sW) (hsH : 1 ≤ sH) (hd : 1 ≤ d)
    (hsW2 : sW < SIZE_MOD) (hsH2 : sH < SIZE_MOD)
    (hov : ((input.n_rows - 1) * sW + 2 * (filter.n_rows - 1) * d + 1)
      * ((input.n_cols - 1) * sH + 2 * (filter.n_cols - 1) * d + 1) < SIZE_MOD) :
    ∃ Os O1 : Mat α,
      NaiveConvolution.ConvolutionFull input filter out0 sW sH d d false = some Os ∧
      NaiveConvolution.ConvolutionFull input filter out1 1 1 d d false = some O1 ∧
      O1.n_rows = input.n_rows + (filter.n_rows - 1) * d ∧
      O1.n_cols = input.n_cols + (filter.n_cols - 1) * d ∧
      Os.n_rows = O1.n_rows + (input.n_rows - 1) * (sW - 1) ∧
      Os.n_cols = O1.n_cols + (input.n_cols - 1) * (sH - 1) ∧
      ∀ i, i < Os.n_rows → ∀ j, j < Os.n_cols →
        Os.elem i j = if i < O1.n_rows ∧ j < O1.n_cols then O1.elem i j else 0 := by
  have hle : ((input.n_rows - 1) * 1 + 2 * (filter.n_rows - 1) * d + 1)
      * ((input.n_cols - 1) * 1 + 2 * (filter.n_cols - 1) * d + 1)
      ≤ ((input.n_rows - 1) * sW + 2 * (filter.n_rows - 1) * d + 1)
      * ((input.n_cols - 1) * sH + 2 * (filter.n_cols - 1) * d + 1) :=
    Nat.mul_le_mul
      (by have := Nat.mul_le_mul_left (input.n_rows - 1) hsW; omega)
      (by have := Nat.mul_le_mul_left (input.n_cols - 1) hsH; omega)
  obtain ⟨Os, hOs, sr, sc, -, scell⟩ := NaiveConvolution.full_same_dilation_acc input filter
    out0 sW sH d hF hnr hnc hfr hfc hsW hsH hd hsW2 hsH2 hov
  obtain ⟨O1, hO1, r1, c1, -, cell1⟩ := NaiveConvolution.full_same_dilation_acc input filter
    out1 1 1 d hF hnr hnc hfr hfc (Nat.le_refl 1) (Nat.le_refl 1) hd (by decide) (by decide)
    (Nat.lt_of_le_of_lt hle hov)
  have er := NaiveConvolution.pad_extent hnr hsW 0
  have ec := NaiveConvolution.pad_extent hnc hsH 0
  have r1' : O1.n_rows = input.n_rows + (filter.n_rows - 1) * d := by rw [r1]; omega
  have c1' : O1.n_cols = input.n_cols + (filter.n_cols - 1) * d := by rw [c1]; omega
  refine ⟨Os, O1, hOs, hO1, r1', c1', by rw [sr, r1']; omega, by rw [sc, c1']; omega, ?_⟩
  intro i hi j hj
  rw [scell i hi j hj]
  have hki : ∀ ki, ki < filter.n_rows → ki * d ≤ (filter.n_rows - 1) * d := fun ki h =>
    Nat.mul_le_mul_right d (by omega)
  have hkj : ∀ kj, kj < filter.n_cols → kj * d ≤ (filter.n_cols - 1) * d := fun kj h =>
    Nat.mul_le_mul_right d (by omega)
  by_cases hin : i < O1.n_rows ∧ j < O1.n_cols
  · rw [if_pos hin, cell1 i hin.1 j hin.2]
    refine NaiveConvolution.windowAcc_congr _ _ _ _ fun kj hkj2 ki hki2 => ?_
    have h1 := hki ki hki2
    have h2 := hkj kj hkj2
    rw [Mat.zeroPadded_elem _ _ _ _ _ _ _ (by omega) (by omega),
      Mat.zeroPadded_elem _ _ _ _ _ _ _ (by omega) (by omega)]
  · rw [if_neg hin]
    refine NaiveConvolution.windowAcc_zero _ _ hF.1 h0 hz fun kj hkj2 ki hki2 => ?_
    have h1 := hki ki hki2
    have h2 := hkj kj hkj2
    rw [Mat.zeroPadded_elem _ _ _ _ _ _ _ (by omega) (by omega), if_neg (by omega)]

set_option maxRecDepth 100000 in
/-- C23 at strides (2, 3) on the 2 x 2 input 1 .. 4: over the integers with the
all-ones 2 x 2 filter, and over `double` with the filter `2^53`, 1, 1, 1, where
cell (1, 1) is the rounded running sum `2^53 + 8` (the window sum is
`2^53 + 9`) at both strides. -/
theorem C23_full_stride_only_appends_zeros_witness :
    ones2x2.WF ∧
    NaiveConvolution.ConvolutionFull ex2x2 ones2x2 (Mat.zeros 0 0) 2 3 1 1 false
      = some ⟨4, 5, [1, 3, 2, 0, 4, 10, 6, 0, 3, 7, 4, 0, 0, 0, 0, 0, 0, 0, 0, 0]⟩ ∧
    (∃ Os O1 : Mat Int,
      NaiveConvolution.ConvolutionFull ex2x2 ones2x2 (Mat.zeros 0 0) 2 3 1 1 false = some Os ∧
      NaiveConvolution.ConvolutionFull ex2x2 ones2x2 (Mat.zeros 0 0) 1 1 1 1 false = some O1 ∧
      O1.n_rows = ex2x2.n_rows + (ones2x2.n_rows - 1) * 1 ∧
      O1.n_cols = ex2x2.n_cols + (ones2x2.n_cols - 1) * 1 ∧
      Os.n_rows = O1.n_rows + (ex2x2.n_rows - 1) * (2 - 1) ∧
      Os.n_cols = O1.n_cols + (ex2x2.n_cols - 1) * (3 - 1) ∧
      ∀ i, i < Os.n_rows → ∀ j, j < Os.n_cols →
        Os.elem i j = if i < O1.n_rows ∧ j < O1.n_cols then O1.elem i j else 0) ∧
    exDoubleFilter.WF ∧
    (∀ x, x ∈ exDoubleFilter.mem → x * 0 = 0) ∧
    NaiveConvolution.ConvolutionFull ex2x2.toDouble exDoubleFilter (Mat.zeros 0 0) 2 3 1 1 false
      = some (Mat.toDouble ⟨4, 5, [1, 3, 2, 0, 4, 2 ^ 53 + 8, 2 ^ 54 + 4, 0,
          3, 3 * 2 ^ 53 + 4, 2 ^ 55, 0, 0, 0, 0, 0, 0, 0, 0, 0]⟩) ∧
    ∃ Os O1 : Mat Binary64,
      NaiveConvolution.ConvolutionFull ex2x2.toDouble exDoubleFilter (Mat.zeros 0 0) 2 3 1 1
        false = some Os ∧
      NaiveConvolution.ConvolutionFull ex2x2.toDouble exDoubleFilter (Mat.zeros 0 0) 1 1 1 1
        false = some O1 ∧
      O1.n_rows = ex2x2.toDouble.n_rows + (exDoubleFilter.n_rows - 1) * 1 ∧
      O1.n_cols = ex2x2.toDouble.n_cols + (exDoubleFilter.n_cols - 1) * 1 ∧
      Os.n_rows = O1.n_rows + (ex2x2.toDouble.n_rows - 1) * (2 - 1) ∧
      Os.n_cols = O1.n_cols + (ex2x2.toDouble.n_cols - 1) * (3 - 1) ∧
      ∀ i, i < Os.n_rows → ∀ j, j < Os.n_cols →
        Os.elem i j = if i < O1.n_rows ∧ j < O1.n_cols then O1.elem i j else 0 :=
  ⟨by decide, by decide,
    C23_full_stride_only_appends_zeros ex2x2 ones2x2 (Mat.zeros 0 0) (Mat.zeros 0 0) 2 3 1
      (by decide) (by decide) (by decide) (by decide) (by decide) (by decide) (by decide)
      (by decide) (by decide) (by decide) (by decide) (by decide) (by decide),
    by decide, by decide, by decide,
    C23_full_stride_only_appends_zeros ex2x2.toDouble exDoubleFilter (Mat.zeros 0 0)
      (Mat.zeros 0 0) 2 3 1 (by decide) Binary64.zero_add_zero (by decide) (by decide)
      (by decide) (by decide) (by decide) (by decide) (by decide) (by decide) (by decide)
      (by decide) (by decide)⟩

/-! ## Claims on the adjoint of the forward pass -/

/-! ### Inner products over buffers -/

theorem innerProduct_append {α : Type} [CommRing α] (a1 a2 b1 b2 : List α)
    (h : a1.length = b1.length) :
    innerProduct (a1 ++ a2) (b1 ++ b2) = innerProduct a1 b1 + innerProduct a2 b2 := by
  unfold innerProduct
  rw [List.zipWith_append _ _ _ _ _ h, List.sum_append]

theorem innerProduct_zipWith_add {α : Type} [CommRing α] (a t b : List α)
    (h1 : t.length = a.length) (h2 : b.length = a.length) :
    innerProduct (List.zipWith (fun x y => x + y) a t) b
      = innerProduct a b + innerProduct t b := by
  rw [innerProduct_eq_sum a.length _ b (by simp [h1]) h2,
    innerProduct_eq_sum a.length a b rfl h2, innerProduct_eq_sum a.length t b h1 h2,
    ← Finset.sum_add_distrib]
  refine Finset.sum_congr rfl fun i _ => ?_
  rw [NaiveConvolution.getD_zipWith_add a t i h1, add_mul]

theorem getD_window {α : Type} [Zero α] (l : List α) (a b k : Nat) (hk : k < b) :
    ((l.drop a).take b).getD k 0 = l.getD (a + k) 0 := by
  simp only [List.getD_eq_getElem?_getD, getElem?_window, if_pos hk]

/-- The inner product of two buffers of `n` slices is the sum of the inner
products of the slices. -/
theorem innerProduct_slices {α : Type} [CommRing α] (es n : Nat) (a b : List α)
    (ha : a.length = es * n) (hb : b.length = es * n) :
    innerProduct a b = ∑ k ∈ Finset.range n,
      innerProduct ((a.drop (k * es)).take es) ((b.drop (k * es)).take es) := by
  rw [innerProduct_cells es n a b ha hb]
  refine Finset.sum_congr rfl fun k hk => ?_
  have hk' := Finset.mem_range.mp hk
  have hbound := slice_bound hk' (Nat.le_of_eq ha.symm)
  rw [innerProduct_eq_sum es _ _ (by rw [List.length_take, List.length_drop]; omega)
    (by rw [List.length_take, List.length_drop]; omega)]
  refine Finset.sum_congr rfl fun i hi => ?_
  have hi' := Finset.mem_range.mp hi
  rw [getD_window _ _ _ _ hi', getD_window _ _ _ _ hi']

/-- Replacing a window of a buffer changes the inner product by the difference
of the inner products over the window. -/
theorem innerProduct_splice {α : Type} [CommRing α] (l x mid : List α) (a : Nat)
    (hx : x.length = l.length) (ha : a + mid.length ≤ l.length) :
    innerProduct (l.take a ++ mid ++ l.drop (a + mid.length)) x
      = innerProduct l x
        - innerProduct ((l.drop a).take mid.length) ((x.drop a).take mid.length)
        + innerProduct mid ((x.drop a).take mid.length) := by
  have hl : l = l.take a ++ (l.drop a).take mid.length ++ l.drop (a + mid.length) := by
    rw [List.append_assoc, ← List.drop_drop, List.take_append_drop, List.take_append_drop]
  have hxs : x = x.take a ++ (x.drop a).take mid.length ++ x.drop (a + mid.length) := by
    rw [List.append_assoc, ← List.drop_drop, List.take_append_drop, List.take_append_drop]
  have e1 : (l.take a).length = (x.take a).length := by
    rw [List.length_take, List.length_take, hx]
  have e2 : ((l.drop a).take mid.length).length = ((x.drop a).take mid.length).length := by
    rw [List.length_take, List.length_take, List.length_drop, List.length_drop, hx]
  have e3 : mid.length = ((x.drop a).take mid.length).length := by
    rw [List.length_take, List.length_drop]; omega
  have e4 : (l.take a ++ mid).length
      = (x.take a ++ (x.drop a).take mid.length).length := by
    rw [List.length_append, List.length_append, e1, ← e3]
  have e5 : (l.take a ++ (l.drop a).take mid.length).length
      = (x.take a ++ (x.drop a).take mid.length).length := by
    rw [List.length_append, List.length_append, e1, e2]
  have h1 : innerProduct (l.take a ++ mid ++ l.drop (a + mid.length)) x
      = innerProduct (l.take a) (x.take a) + innerProduct mid ((x.drop a).take mid.length)
        + innerProduct (l.drop (a + mid.length)) (x.drop (a + mid.length)) := by
    conv_lhs => rw [hxs]
    rw [innerProduct_append _ _ _ _ e4, innerProduct_append _ _ _ _ e1]
  have h2 : innerProduct l x
      = innerProduct (l.take a) (x.take a)
        + innerProduct ((l.drop a).take mid.length) ((x.drop a).take mid.length)
        + innerProduct (l.drop (a + mid.length)) (x.drop (a + mid.length)) := by
    conv_lhs => rw [hl, hxs]
    rw [innerProduct_append _ _ _ _ e5, innerProduct_append _ _ _ _ e1]
  rw [h1, h2]
  ring

/-- The inner product with a sum of buffers accumulated from zeros. -/
theorem innerProduct_foldl_zipWith {α : Type} [CommRing α] (n len : Nat) (a : List α)
    (Rc : Nat → List α) (ha : a.length = len) (hR : ∀ ci, ci < n → (Rc ci).length = len) :
    innerProduct a ((List.range n).foldl
        (fun acc ci => List.zipWith (fun x y => x + y) acc (Rc ci)) (List.replicate len 0))
      = ∑ ci ∈ Finset.range n, innerProduct a (Rc ci) := by
  rw [innerProduct_eq_sum len a _ ha (getD_foldl_zipWith n len Rc hR 0).1]
  have h : ∀ ci ∈ Finset.range n, innerProduct a (Rc ci)
      = ∑ i ∈ Finset.range len, a.getD i 0 * (Rc ci).getD i 0 := fun ci hci =>
    innerProduct_eq_sum len a _ ha (hR ci (Finset.mem_range.mp hci))
  rw [Finset.sum_congr rfl h, Finset.sum_comm]
  refine Finset.sum_congr rfl fun i _ => ?_
  rw [(getD_foldl_zipWith n len Rc hR i).2, Finset.mul_sum]

/-! ### Sums over a window -/

theorem sum_window {α : Type} [AddCommMonoid α] (W a n : Nat) (h : a + n ≤ W)
    (f : Nat → Nat → α) :
    ∑ i ∈ Finset.range W, (if a ≤ i ∧ i < a + n then f (i - a) i else 0)
      = ∑ p ∈ Finset.range n, f p (p + a) := by
  rw [Finset.range_eq_Ico, ← Finset.sum_Ico_consecutive _ (Nat.zero_le a) (by omega : a ≤ W),
    ← Finset.sum_Ico_consecutive _ (by omega : a ≤ a + n) h]
  rw [Finset.sum_eq_zero (s := Finset.Ico 0 a) (fun i hi => by
      rw [Finset.mem_Ico] at hi
      rw [if_neg (by omega)]),
    Finset.sum_eq_zero (s := Finset.Ico (a + n) W) (fun i hi => by
      rw [Finset.mem_Ico] at hi
      rw [if_neg (by omega)]),
    zero_add, add_zero, Finset.sum_Ico_eq_sum_range, Nat.add_sub_cancel_left,
    ← Finset.range_eq_Ico]
  refine Finset.sum_congr rfl fun p hp => ?_
  have hp' := Finset.mem_range.mp hp
  rw [if_pos ⟨by omega, by omega⟩, Nat.add_sub_cancel_left, Nat.add_comm]
/-- The correlation of a zero-padded array with a flipped filter, paired with
`x`, is the array paired with the correlation of `x` with the filter. -/
theorem full_adjoint_sum {α : Type} [CommRing α] (oW oH kW kH : Nat)
    (hkW : 1 ≤ kW) (hkH : 1 ≤ kH) (e w x : Nat → Nat → α) :
    ∑ j ∈ Finset.range (oH + kH - 1), ∑ i ∈ Finset.range (oW + kW - 1),
        (∑ ki ∈ Finset.range kW, ∑ kj ∈ Finset.range kH,
          w (kW - 1 - ki) (kH - 1 - kj) *
            (if kW - 1 ≤ i + ki ∧ i + ki < kW - 1 + oW ∧ kH - 1 ≤ j + kj ∧ j + kj < kH - 1 + oH
              then e (i + ki - (kW - 1)) (j + kj - (kH - 1)) else 0)) * x i j
      = ∑ q ∈ Finset.range oH, ∑ p ∈ Finset.range oW,
          e p q * ∑ a ∈ Finset.range kW, ∑ b ∈ Finset.range kH, w a b * x (p + a) (q + b) := by
  -- both sides as sums over the filter cells first
  simp only [Finset.sum_mul, Finset.mul_sum]
  rw [sum4_comm (oH + kH - 1) (oW + kW - 1) kW kH, sum4_comm oH oW kW kH]
  -- flip the filter indices
  rw [← Finset.sum_range_reflect _ kW]
  refine Finset.sum_congr rfl fun a ha => ?_
  rw [← Finset.sum_range_reflect _ kH]
  refine Finset.sum_congr rfl fun b hb => ?_
  have ha' := Finset.mem_range.mp ha
  have hb' := Finset.mem_range.mp hb
  have ea : kW - 1 - (kW - 1 - a) = a := by omega
  have eb : kH - 1 - (kH - 1 - b) = b := by omega
  rw [ea, eb]
  -- the summand, with the window conditions separated by axis
  have hterm : ∀ j i, w a b *
        (if kW - 1 ≤ i + (kW - 1 - a) ∧ i + (kW - 1 - a) < kW - 1 + oW ∧
            kH - 1 ≤ j + (kH - 1 - b) ∧ j + (kH - 1 - b) < kH - 1 + oH
          then e (i + (kW - 1 - a) - (kW - 1)) (j + (kH - 1 - b) - (kH - 1)) else 0) * x i j
      = if a ≤ i ∧ i < a + oW then
          (if b ≤ j ∧ j < b + oH then w a b * e (i - a) (j - b) * x i j else 0)
        else 0 := by
    intro j i
    by_cases h1 : a ≤ i ∧ i < a + oW
    · by_cases h2 : b ≤ j ∧ j < b + oH
      · rw [if_pos h1, if_pos h2, if_pos ⟨by omega, by omega, by omega, by omega⟩,
          show i + (kW - 1 - a) - (kW - 1) = i - a by omega,
          show j + (kH - 1 - b) - (kH - 1) = j - b by omega]
      · rw [if_pos h1, if_neg h2, if_neg (by omega), mul_zero, zero_mul]
    · rw [if_neg h1, if_neg (by omega), mul_zero, zero_mul]
  simp only [hterm]
  -- the rows
  have hrow : ∀ j, ∑ i ∈ Finset.range (oW + kW - 1),
        (if a ≤ i ∧ i < a + oW then
          (if b ≤ j ∧ j < b + oH then w a b * e (i - a) (j - b) * x i j else 0) else 0)
      = ∑ p ∈ Finset.range oW,
          (if b ≤ j ∧ j < b + oH then w a b * e p (j - b) * x (p + a) j else 0) := fun j =>
    sum_window (oW + kW - 1) a oW (by omega)
      (fun p i => if b ≤ j ∧ j < b + oH then w a b * e p (j - b) * x i j else 0)
  simp only [hrow]
  rw [Finset.sum_comm]
  -- the columns
  have hcol : ∀ p, ∑ j ∈ Finset.range (oH + kH - 1),
        (if b ≤ j ∧ j < b + oH then w a b * e p (j - b) * x (p + a) j else 0)
      = ∑ q ∈ Finset.range oH, w a b * e p q * x (p + a) (q + b) := fun p =>
    sum_window (oH + kH - 1) b oH (by omega) (fun q j => w a b * e p q * x (p + a) j)
  simp only [hcol]
  rw [Finset.sum_comm]
  refine Finset.sum_congr rfl fun q _ => Finset.sum_congr rfl fun p _ => ?_
  ring

/-- Cell `(i, j)` of the rotated matrix. -/
theorem Rotate180_elem {α : Type} [Zero α] (m : Mat α) (i j : Nat)
    (hi : i < m.n_rows) (hj : j < m.n_cols) :
    (Rotate180 m).elem i j = m.elem (m.n_rows - 1 - i) (m.n_cols - 1 - j) := by
  have hidx : j * m.n_rows + i < m.n_rows * m.n_cols := flat_lt hi hj
  unfold Rotate180
  simp only [Mat.elem, List.getD_eq_getElem?_getD, List.getElem?_map,
    List.getElem?_range hidx, Option.map_some', Option.getD_some, flat_mod hi, flat_div hi]

theorem Rotate180_WF {α : Type} [Zero α] (m : Mat α) (h : m.WF) : (Rotate180 m).WF :=
  ⟨by simp [Rotate180], h.2.1, h.2.2.1, h.2.2.2⟩

namespace NaiveConvolution

/-- The two convolutions of `Backward` and `Forward` on one slice, at stride 1
without padding: the accumulating full-mode call with the rotated filter adds a
matrix `T` to every `W x H` slice, the valid-mode call on the input slice `xs`
returns `R`, and `<T, xs> = <e, R>`. -/
theorem backward_pairs_with_forward {α : Type} [CommRing α] (e w xs : Mat α) (W H : Nat)
    (hw : w.WF) (hkW : 1 ≤ w.n_rows) (hkH : 1 ≤ w.n_cols)
    (hW : w.n_rows ≤ W) (hH : w.n_cols ≤ H)
    (her : e.n_rows = W - w.n_rows + 1) (hec : e.n_cols = H - w.n_cols + 1)
    (he : e.mem.length = e.n_rows * e.n_cols)
    (hxr : xs.n_rows = W) (hxc : xs.n_cols = H) (hx : xs.mem.length = W * H)
    (hov : (H + w.n_cols) * (W + w.n_rows) < SIZE_MOD) :
    ∃ T R : Mat α,
      ConvolutionValid xs w (Mat.zeros 0 0) 1 1 1 1 false = some R ∧
      R.n_rows = e.n_rows ∧ R.n_cols = e.n_cols ∧ R.mem.length = e.n_rows * e.n_cols ∧
      T.mem.length = W * H ∧
      (∀ G : Mat α, G.n_rows = W → G.n_cols = H → G.mem.length = W * H →
        ConvolutionFull e (Rotate180 w) G 1 1 1 1 true
          = some ⟨W, H, List.zipWith (fun x y => x + y) G.mem T.mem⟩) ∧
      innerProduct T.mem xs.mem = innerProduct e.mem R.mem := by
  have hb1 : W + w.n_rows ≤ (H + w.n_cols) * (W + w.n_rows) :=
    Nat.le_mul_of_pos_left _ (by omega)
  have hb2 : H + w.n_cols ≤ (H + w.n_cols) * (W + w.n_rows) :=
    Nat.le_mul_of_pos_right _ (by omega)
  have hWH : W * H ≤ (H + w.n_cols) * (W + w.n_rows) := by
    rw [Nat.mul_comm W H]
    exact Nat.mul_le_mul (by omega) (by omega)
  have hxWF : xs.WF := ⟨by rw [hx, hxr, hxc], by rw [hxr, hxc]; omega, by omega, by omega⟩
  obtain ⟨R, hR, r1, r2, r3, r4⟩ := valid_unit_stride xs w (Mat.zeros 0 0) hxWF hw hkW
    (by omega) hkH (by omega)
  obtain ⟨T, -, t1, t2, t3, t4, t5⟩ := full_accumulate_returns e (Rotate180 w) W H 1 1
    (Rotate180_WF w hw) hkW hkH hW hH (Nat.le_refl 1) (Nat.le_refl 1) (by decide) (by decide)
    (by rw [Nat.div_one]; exact her) (by rw [Nat.div_one]; exact hec) hov
    (one_dvd _) (one_dvd _)
  have r1' : R.n_rows = e.n_rows := by omega
  have r2' : R.n_cols = e.n_cols := by omega
  refine ⟨T, R, hR, r1', r2', by rw [r3, r1', r2'], t3, t5, ?_⟩
  have hWe : W = e.n_rows + w.n_rows - 1 := by omega
  have hHe : H = e.n_cols + w.n_cols - 1 := by omega
  rw [innerProduct_cells W H _ _ t3 hx, innerProduct_cells e.n_rows e.n_cols _ _ he
    (by rw [r3, r1', r2'])]
  have hL : ∀ j ∈ Finset.range H, ∀ i ∈ Finset.range W,
      T.mem.getD (j * W + i) 0 * xs.mem.getD (j * W + i) 0
        = (∑ ki ∈ Finset.range w.n_rows, ∑ kj ∈ Finset.range w.n_cols,
            w.elem (w.n_rows - 1 - ki) (w.n_cols - 1 - kj) *
              (if w.n_rows - 1 ≤ i + ki ∧ i + ki < w.n_rows - 1 + e.n_rows ∧
                  w.n_cols - 1 ≤ j + kj ∧ j + kj < w.n_cols - 1 + e.n_cols
                then e.elem (i + ki - (w.n_rows - 1)) (j + kj - (w.n_cols - 1)) else 0))
          * xs.elem i j := by
    intro j hj i hi
    have hj' := Finset.mem_range.mp hj
    have hi' := Finset.mem_range.mp hi
    have hT : T.mem.getD (j * W + i) 0 = T.elem i j := by
      unfold Mat.elem
      rw [t1]
    rw [hT, t4 i hi' j hj']
    congr 1
    · refine Finset.sum_congr rfl fun ki hki => Finset.sum_congr rfl fun kj hkj => ?_
      have hki' := Finset.mem_range.mp hki
      have hkj' := Finset.mem_range.mp hkj
      have hki2 : ki < w.n_rows := hki'
      have hkj2 : kj < w.n_cols := hkj'
      rw [Rotate180_elem w ki kj hki2 hkj2,
        Mat.zeroPadded_elem _ _ _ _ _ _ _
          (by show i + ki < _; simp only [Nat.sub_self, Nat.mul_zero, Nat.mul_one,
                Nat.add_zero]
              show i + ki < w.n_rows - 1 + e.n_rows + (w.n_rows - 1); omega)
          (by show j + kj < _; simp only [Nat.sub_self, Nat.mul_zero, Nat.mul_one,
                Nat.add_zero]
              show j + kj < w.n_cols - 1 + e.n_cols + (w.n_cols - 1); omega)]
      simp only [Nat.mul_one]
      rfl
    · unfold Mat.elem
      rw [hxr]
  have hRs : ∀ q ∈ Finset.range e.n_cols, ∀ p ∈ Finset.range e.n_rows,
      e.mem.getD (q * e.n_rows + p) 0 * R.mem.getD (q * e.n_rows + p) 0
        = e.elem p q * ∑ a ∈ Finset.range w.n_rows, ∑ b ∈ Finset.range w.n_cols,
            w.elem a b * xs.elem (p + a) (q + b) := by
    intro q hq p hp
    have hq' := Finset.mem_range.mp hq
    have hp' := Finset.mem_range.mp hp
    rw [← r4 p (by omega) q (by omega)]
    unfold Mat.elem
    rw [r1']
  rw [Finset.sum_congr rfl fun j hj => Finset.sum_congr rfl fun i hi => hL j hj i hi,
    Finset.sum_congr rfl fun q hq => Finset.sum_congr rfl fun p hp => hRs q hq p hp,
    hWe, hHe]
  exact full_adjoint_sum e.n_rows e.n_cols w.n_rows w.n_cols hkW hkH e.elem w.elem xs.elem

end NaiveConvolution

/-- A loop whose iteration `k` keeps `P` and adds `contrib k` to the value
`val` of the state: it returns, and the value has grown by the sum of the
contributions. -/
theorem forLoop_sum {σ α : Type} [AddCommMonoid α] (P : σ → Prop) (val : σ → α) (n : Nat)
    (body : Nat → σ → Option σ) (contrib : Nat → α)
    (hstep : ∀ k, k < n → ∀ t, P t →
      ∃ t', body k t = some t' ∧ P t' ∧ val t' = val t + contrib k)
    (s : σ) (hs : P s) :
    ∃ t, forLoop n body s = some t ∧ P t ∧
      val t = val s + ∑ k ∈ Finset.range n, contrib k := by
  obtain ⟨t, ht, hP, hv⟩ := forLoop_inv
    (fun k t => P t ∧ val t = val s + ∑ j ∈ Finset.range k, contrib j) n body s
    ⟨hs, by rw [Finset.range_zero, Finset.sum_empty, add_zero]⟩
    (fun k hk t ht => by
      obtain ⟨t', h1, h2, h3⟩ := hstep k hk t ht.1
      exact ⟨t', h1, h2, by rw [h3, ht.2, Finset.sum_range_succ, add_assoc]⟩)
  exact ⟨t, ht, hP, hv⟩

namespace Convolution

/-- One iteration of the batch loop of `Backward` without padding: when the
accumulating full-mode call adds `T` to every `W x H` slice, the iteration
returns, keeps the shape of the gradient cube and adds `<T, X slice>` to the
inner product of the cube with any buffer `X` of its size. -/
theorem backwardBatch_step {α : Type} [CommRing α] (l : Convolution α)
    (mappedError : Cube α) (rot T : Mat α) (X : List α) (W H n o c b : Nat) (gTemp : Cube α)
    (hpad : l.hasPadding = false)
    (hg : GradShape W H n gTemp)
    (ho : o + b * l.outSize < mappedError.n_slices) (ho2 : o + b * l.outSize < SIZE_MOD)
    (hs : c + b * l.inSize < n) (hs2 : c + b * l.inSize < SIZE_MOD)
    (hX : X.length = W * H * n) (hT : T.mem.length = W * H)
    (hconv : ∀ G : Mat α, G.n_rows = W → G.n_cols = H → G.mem.length = W * H →
      NaiveConvolution.ConvolutionFull (mappedError.sliceMat (o + b * l.outSize)) rot G
          l.strideWidth l.strideHeight 1 1 true
        = some ⟨W, H, List.zipWith (fun x y => x + y) G.mem T.mem⟩) :
    ∃ g', l.backwardBatch mappedError rot o c b gTemp = some g' ∧ GradShape W H n g' ∧
      innerProduct g'.mem X = innerProduct gTemp.mem X
        + innerProduct T.mem ((X.drop ((c + b * l.inSize) * (W * H))).take (W * H)) := by
  obtain ⟨g1, g2, g3, g4⟩ := hg
  have hb1 : b * l.outSize < SIZE_MOD := by omega
  have hb2 : b * l.inSize < SIZE_MOD := by omega
  have e1 : szAdd o (szMul b l.outSize) = o + b * l.outSize := by
    rw [szMul_eq hb1, szAdd_eq ho2]
  have e2 : szAdd c (szMul b l.inSize) = c + b * l.inSize := by
    rw [szMul_eq hb2, szAdd_eq hs2]
  have hbound := slice_bound hs (Nat.le_of_eq g4.symm)
  have hsl : (gTemp.sliceMat (c + b * l.inSize)).mem.length = W * H := by
    simp only [Cube.sliceMat, List.length_take, List.length_drop, g1, g2]
    omega
  have s1 := Cube.slice_eq mappedError _ ho
  have s2 := Cube.slice_eq gTemp (c + b * l.inSize) (by rw [g3]; exact hs)
  have s3 := hconv (gTemp.sliceMat (c + b * l.inSize)) g1 g2 hsl
  have hzl : (List.zipWith (fun x y => x + y) (gTemp.sliceMat (c + b * l.inSize)).mem
      T.mem).length = W * H := by
    rw [List.length_zipWith, hsl, hT, Nat.min_self]
  have s4 : gTemp.setSlice (c + b * l.inSize)
      ⟨W, H, List.zipWith (fun x y => x + y) (gTemp.sliceMat (c + b * l.inSize)).mem T.mem⟩
      = some ⟨W, H, n, gTemp.mem.take ((c + b * l.inSize) * (W * H))
          ++ List.zipWith (fun x y => x + y) (gTemp.sliceMat (c + b * l.inSize)).mem T.mem
          ++ gTemp.mem.drop ((c + b * l.inSize) * (W * H) + W * H)⟩ := by
    unfold Cube.setSlice
    rw [if_pos ⟨by rw [g3]; exact hs, g1.symm, g2.symm, by rw [g1, g2]; exact hzl⟩, g1, g2, g3]
  refine ⟨⟨W, H, n, gTemp.mem.take ((c + b * l.inSize) * (W * H))
      ++ List.zipWith (fun x y => x + y) (gTemp.sliceMat (c + b * l.inSize)).mem T.mem
      ++ gTemp.mem.drop ((c + b * l.inSize) * (W * H) + W * H)⟩, ?_, ⟨rfl, rfl, rfl, ?_⟩, ?_⟩
  · unfold backwardBatch
    simp only [Option.bind_eq_bind]
    rw [e1, e2, s1, Option.some_bind, s2, Option.some_bind, hpad]
    simp only [Bool.false_eq_true, if_false]
    rw [s3, Option.some_bind, s4]
  · show (_ ++ _ ++ _ : List α).length = W * H * n
    rw [List.length_append, List.length_append, List.length_take, List.length_drop, hzl]
    omega
  · show innerProduct (_ ++ _ ++ _ : List α) X = _
    have hsp := innerProduct_splice gTemp.mem X
      (List.zipWith (fun x y => x + y) (gTemp.sliceMat (c + b * l.inSize)).mem T.mem)
      ((c + b * l.inSize) * (W * H)) (by rw [hX, g4]) (by rw [hzl]; omega)
    rw [hzl] at hsp
    rw [hsp, innerProduct_zipWith_add _ _ _ (by rw [hT, hsl])
      (by rw [List.length_take, List.length_drop, hsl, hX]; omega)]
    have : (gTemp.sliceMat (c + b * l.inSize)).mem
        = (gTemp.mem.drop ((c + b * l.inSize) * (W * H))).take (W * H) := by
      simp only [Cube.sliceMat, g1, g2]
    rw [this]
    ring

end Convolution

theorem innerProduct_replicate_zero {α : Type} [CommRing α] (n : Nat) (X : List α)
    (hX : X.length = n) : innerProduct (List.replicate n (0 : α)) X = 0 := by
  rw [innerProduct_eq_sum n _ X (List.length_replicate _ _) hX]
  refine Finset.sum_eq_zero fun i hi => ?_
  have hi' := Finset.mem_range.mp hi
  simp only [List.getD_eq_getElem?_getD, List.getElem?_replicate, if_pos hi',
    Option.getD_some, zero_mul]

theorem channel_index_lt {o c outSize inSize : Nat} (ho : o < outSize) (hc : c < inSize) :
    o + c < outSize * inSize := by
  obtain ⟨a, rfl⟩ : ∃ a, outSize = a + 1 := ⟨outSize - 1, by omega⟩
  obtain ⟨b, rfl⟩ : ∃ b, inSize = b + 1 := ⟨inSize - 1, by omega⟩
  have : (a + 1) * (b + 1) = a * b + a + b + 1 := by ring
  omega

namespace Convolution

/-- The method `Backward` without padding, when the accumulating full-mode call
for output channel `o`, input channel `c` and batch item `b` adds `T o c b` to
every `inputWidth x inputHeight` slice: it returns, and the inner product of
its result with any buffer `X` of the same size is the sum of the inner products
of the `T o c b` with slice `c + b * inSize` of `X`. -/
theorem Backward_pairing {α : Type} [CommRing α] (l : Convolution α) (x gy : Mat α)
    (X : List α) (T : Nat → Nat → Nat → Mat α)
    (hpad : l.hasPadding = false)
    (hIB : l.inSize * l.batchSize < SIZE_MOD) (hOB : l.outSize * l.batchSize < SIZE_MOD)
    (hOI : l.outSize * l.inSize < SIZE_MOD)
    (hX : X.length = l.inputWidth * l.inputHeight * (l.inSize * l.batchSize))
    (hT : ∀ o, o < l.outSize → ∀ c, c < l.inSize → ∀ b, b < l.batchSize →
      (T o c b).mem.length = l.inputWidth * l.inputHeight ∧
      ∀ G : Mat α, G.n_rows = l.inputWidth → G.n_cols = l.inputHeight →
        G.mem.length = l.inputWidth * l.inputHeight →
        NaiveConvolution.ConvolutionFull
            ((⟨l.outputWidth, l.outputHeight, szMul l.outSize l.batchSize, gy.mem⟩ :
              Cube α).sliceMat (o + b * l.outSize))
            (Rotate180 (l.weight.sliceMat (o + c))) G l.strideWidth l.strideHeight 1 1 true
          = some ⟨l.inputWidth, l.inputHeight,
              List.zipWith (fun x y => x + y) G.mem (T o c b).mem⟩) :
    ∃ g : List α,
      l.Backward x gy
        = some ⟨szMul (szMul l.inputWidth l.inputHeight) l.inSize, l.batchSize, g⟩ ∧
      g.length = l.inputWidth * l.inputHeight * (l.inSize * l.batchSize) ∧
      innerProduct g X = ∑ o ∈ Finset.range l.outSize, ∑ c ∈ Finset.range l.inSize,
        ∑ b ∈ Finset.range l.batchSize,
          innerProduct (T o c b).mem
            ((X.drop ((c + b * l.inSize) * (l.inputWidth * l.inputHeight))).take
              (l.inputWidth * l.inputHeight)) := by
  have hinit : GradShape l.inputWidth l.inputHeight (l.inSize * l.batchSize)
      (Cube.zeros l.inputWidth l.inputHeight (szMul l.inSize l.batchSize) : Cube α) := by
    rw [szMul_eq hIB]
    exact ⟨rfl, rfl, rfl, by simp [Cube.zeros]⟩
  have hval0 : innerProduct
      (Cube.zeros l.inputWidth l.inputHeight (szMul l.inSize l.batchSize) : Cube α).mem X
      = 0 := by
    rw [szMul_eq hIB]
    exact innerProduct_replicate_zero _ X hX
  obtain ⟨g, hg, hshape, hv⟩ := forLoop_sum
    (GradShape l.inputWidth l.inputHeight (l.inSize * l.batchSize))
    (fun g : Cube α => innerProduct g.mem X) l.outSize
    (fun outMapIdx gTemp => forLoop l.inSize
      (l.backwardChannel ⟨l.outputWidth, l.outputHeight, szMul l.outSize l.batchSize, gy.mem⟩
        outMapIdx) gTemp)
    (fun o => ∑ c ∈ Finset.range l.inSize, ∑ b ∈ Finset.range l.batchSize,
      innerProduct (T o c b).mem
        ((X.drop ((c + b * l.inSize) * (l.inputWidth * l.inputHeight))).take
          (l.inputWidth * l.inputHeight)))
    (fun o ho t ht => forLoop_sum
      (GradShape l.inputWidth l.inputHeight (l.inSize * l.batchSize))
      (fun g : Cube α => innerProduct g.mem X) l.inSize
      (l.backwardChannel ⟨l.outputWidth, l.outputHeight, szMul l.outSize l.batchSize, gy.mem⟩
        o)
      (fun c => ∑ b ∈ Finset.range l.batchSize,
        innerProduct (T o c b).mem
          ((X.drop ((c + b * l.inSize) * (l.inputWidth * l.inputHeight))).take
            (l.inputWidth * l.inputHeight)))
      (fun c hc t ht => by
        have hoc := channel_index_lt ho hc
        have hw : l.weight.slice (szAdd o c) = some (l.weight.sliceMat (o + c)) := by
          rw [szAdd_eq (by omega)]
          exact Cube.slice_eq _ _ (by
            show o + c < szMul l.outSize l.inSize
            rw [szMul_eq hOI]; exact hoc)
        have hbody : l.backwardChannel
            ⟨l.outputWidth, l.outputHeight, szMul l.outSize l.batchSize, gy.mem⟩ o c t
            = forLoop l.batchSize (l.backwardBatch
                ⟨l.outputWidth, l.outputHeight, szMul l.outSize l.batchSize, gy.mem⟩
                (Rotate180 (l.weight.sliceMat (o + c))) o c) t := by
          unfold backwardChannel
          simp only [Option.bind_eq_bind]
          rw [hw, Option.some_bind]
        rw [hbody]
        exact forLoop_sum
          (GradShape l.inputWidth l.inputHeight (l.inSize * l.batchSize))
          (fun g : Cube α => innerProduct g.mem X) l.batchSize _
          (fun b => innerProduct (T o c b).mem
            ((X.drop ((c + b * l.inSize) * (l.inputWidth * l.inputHeight))).take
              (l.inputWidth * l.inputHeight)))
          (fun b hb t ht => by
            have h1 : b * l.outSize + o < l.outSize * l.batchSize := flat_lt ho hb
            have h2 : b * l.inSize + c < l.inSize * l.batchSize := flat_lt hc hb
            exact backwardBatch_step l _ _ (T o c b) X _ _ _ o c b t hpad ht
              (by show o + b * l.outSize < szMul l.outSize l.batchSize
                  rw [szMul_eq hOB]; omega)
              (by omega) (by omega) (by omega) hX (hT o ho c hc b hb).1
              (hT o ho c hc b hb).2)
          t ht)
      t ht)
    _ hinit
  refine ⟨g.mem, ?_, hshape.2.2.2, ?_⟩
  · unfold Backward
    simp only [Option.bind_eq_bind]
    rw [hg, Option.some_bind]
  · have := hv
    simp only [hval0, zero_add] at this
    exact this

end Convolution

theorem Cube.sliceMat_length {α : Type} (c : Cube α) (k : Nat) (hk : k < c.n_slices)
    (hlen : c.n_rows * c.n_cols * c.n_slices ≤ c.mem.length) :
    (c.sliceMat k).mem.length = c.n_rows * c.n_cols := by
  have := slice_bound hk hlen
  simp only [Cube.sliceMat, List.length_take, List.length_drop]
  omega

/-- The inner product of an output-shaped buffer with the output of `Forward`,
for zero biases: the sum, over batch items, output channels and input channels,
of the inner products of the slices of the buffer with the per-channel
convolution results. -/
theorem forward_inner {α : Type} [CommRing α] (gy : List α) (out : Cube α)
    (r c outSize inSize B : Nat) (R : Nat → Nat → Nat → Mat α)
    (hgy : gy.length = r * c * (outSize * B)) (hout : out.mem.length = r * c * (outSize * B))
    (hor : out.n_rows = r) (hoc : out.n_cols = c)
    (hRlen : ∀ o, o < outSize → ∀ b, b < B → ∀ ci, ci < inSize →
      (R o b ci).mem.length = r * c)
    (hslice : ∀ k, k < outSize * B →
      out.sliceMat k = (sumSlices r c inSize (R (k % outSize) (k / outSize))).addScalar 0) :
    innerProduct gy out.mem
      = ∑ b ∈ Finset.range B, ∑ o ∈ Finset.range outSize, ∑ ci ∈ Finset.range inSize,
          innerProduct ((gy.drop ((o + b * outSize) * (r * c))).take (r * c))
            (R o b ci).mem := by
  rw [innerProduct_slices (r * c) (outSize * B) gy out.mem hgy hout, Nat.mul_comm outSize B,
    sum_range_mul]
  refine Finset.sum_congr rfl fun b hb => Finset.sum_congr rfl fun o ho => ?_
  have hb' := Finset.mem_range.mp hb
  have ho' := Finset.mem_range.mp ho
  have hk : b * outSize + o < outSize * B := flat_lt ho' hb'
  have hs := hslice _ hk
  rw [flat_mod ho', flat_div ho'] at hs
  have hmem : (out.mem.drop ((b * outSize + o) * (r * c))).take (r * c)
      = (List.range inSize).foldl
          (fun acc ci => List.zipWith (fun x y => x + y) acc (R o b ci).mem)
          (List.replicate (r * c) 0) := by
    have h1 : (out.sliceMat (b * outSize + o)).mem
        = (out.mem.drop ((b * outSize + o) * (r * c))).take (r * c) := by
      simp only [Cube.sliceMat, hor, hoc]
    rw [← h1, hs]
    simp only [Mat.addScalar, sumSlices, add_zero, List.map_id']
  have hlen : ((gy.drop ((b * outSize + o) * (r * c))).take (r * c)).length = r * c := by
    have := slice_bound hk (Nat.le_of_eq hgy.symm)
    rw [List.length_take, List.length_drop]
    omega
  rw [hmem, innerProduct_foldl_zipWith inSize (r * c) _ (fun ci => (R o b ci).mem) hlen
    (fun ci hci => hRlen o ho' b hb' ci hci), Nat.add_comm o]

/-- Claim C25: for a convolution layer with one input channel or one output
channel, any batch size at least 1, stride 1, no padding and zero biases, with
`1 <= kernel <= input` on both axes and sizes without `size_t` wrap-around,
for every input `x` and output gradient `gy` of matching sizes `Forward` and
`Backward` return, their results have the sizes of `gy` and `x`, and
`<gy, Forward(x)> = <Backward(x, gy), x>` holds exactly. -/
theorem C25_backward_is_adjoint_of_forward {α : Type} [CommRing α] (l : Convolution α)
    (x gy : Mat α)
    (hch : l.inSize = 1 ∨ l.outSize = 1)
    (hin : 1 ≤ l.inSize) (hout : 1 ≤ l.outSize) (hB : 1 ≤ x.n_cols)
    (hsW : l.strideWidth = 1) (hsH : l.strideHeight = 1) (hpad : l.hasPadding = false)
    (hkW : 1 ≤ l.kernelWidth) (hkW' : l.kernelWidth ≤ l.inputWidth)
    (hkH : 1 ≤ l.kernelHeight) (hkH' : l.kernelHeight ≤ l.inputHeight)
    (hOK : l.SizesOk x.n_cols)
    (hov : (l.inputHeight + l.kernelHeight) * (l.inputWidth + l.kernelWidth) < SIZE_MOD)
    (hbias : ∀ o, o < l.outSize →
      l.weights.getD (l.kernelWidth * l.kernelHeight * (l.outSize * l.inSize) + o) 0 = 0)
    (hx : x.mem.length = l.inputWidth * l.inputHeight * (l.inSize * x.n_cols))
    (hgy : gy.mem.length
      = (l.inputWidth - l.kernelWidth + 1) * (l.inputHeight - l.kernelHeight + 1)
        * (l.outSize * x.n_cols)) :
    ∃ (l' : Convolution α) (y g : Mat α),
      l.Forward x = some (l', y) ∧ l'.Backward x gy = some g ∧
      y.mem.length = gy.mem.length ∧ g.mem.length = x.mem.length ∧
      innerProduct gy.mem y.mem = innerProduct g.mem x.mem := by
  have hOK2 : l.SizesOk x.n_cols := hOK
  obtain ⟨hIB, hOB, hOI, -, -, hwl⟩ := hOK
  have hb1 : l.inputWidth + l.kernelWidth
      ≤ (l.inputHeight + l.kernelHeight) * (l.inputWidth + l.kernelWidth) :=
    Nat.le_mul_of_pos_left _ (by omega)
  have hb2 : l.inputHeight + l.kernelHeight
      ≤ (l.inputHeight + l.kernelHeight) * (l.inputWidth + l.kernelWidth) :=
    Nat.le_mul_of_pos_right _ (by omega)
  have hkk : l.kernelWidth * l.kernelHeight
      ≤ (l.inputHeight + l.kernelHeight) * (l.inputWidth + l.kernelWidth) := by
    rw [Nat.mul_comm l.kernelWidth]
    exact Nat.mul_le_mul (by omega) (by omega)
  have hps : ∀ k, l.paddedSlice x k = l.inputSlice x k := fun k => by
    unfold Convolution.paddedSlice
    rw [hpad]
    rfl
  -- the index of the filter slice
  have hidx : ∀ o, o < l.outSize → ∀ c, c < l.inSize → o + c = o * l.inSize + c := by
    intro o ho c hc
    rcases hch with h | h
    · rw [h, Nat.mul_one]
    · have : o = 0 := by omega
      rw [this, Nat.zero_mul]
  -- the two convolutions on every triple of indices
  have key : ∀ o b c, ∃ T R : Mat α, o < l.outSize → b < x.n_cols → c < l.inSize →
      (NaiveConvolution.ConvolutionValid (l.inputSlice x (c + b * l.inSize))
          (l.weight.sliceMat (o * l.inSize + c)) (Mat.zeros 0 0) 1 1 1 1 false = some R ∧
        R.n_rows = l.inputWidth - l.kernelWidth + 1 ∧
        R.n_cols = l.inputHeight - l.kernelHeight + 1 ∧
        R.mem.length
          = (l.inputWidth - l.kernelWidth + 1) * (l.inputHeight - l.kernelHeight + 1) ∧
        T.mem.length = l.inputWidth * l.inputHeight ∧
        (∀ G : Mat α, G.n_rows = l.inputWidth → G.n_cols = l.inputHeight →
          G.mem.length = l.inputWidth * l.inputHeight →
          NaiveConvolution.ConvolutionFull
              ((⟨l.inputWidth - l.kernelWidth + 1, l.inputHeight - l.kernelHeight + 1,
                szMul l.outSize x.n_cols, gy.mem⟩ : Cube α).sliceMat (o + b * l.outSize))
              (Rotate180 (l.weight.sliceMat (o * l.inSize + c))) G 1 1 1 1 true
            = some ⟨l.inputWidth, l.inputHeight,
                List.zipWith (fun x y => x + y) G.mem T.mem⟩) ∧
        innerProduct T.mem
            ((x.mem.drop ((c + b * l.inSize) * (l.inputWidth * l.inputHeight))).take
              (l.inputWidth * l.inputHeight))
          = innerProduct
              ((gy.mem.drop ((o + b * l.outSize)
                * ((l.inputWidth - l.kernelWidth + 1)
                  * (l.inputHeight - l.kernelHeight + 1)))).take
                ((l.inputWidth - l.kernelWidth + 1) * (l.inputHeight - l.kernelHeight + 1)))
              R.mem) := by
    intro o b c
    by_cases hb : o < l.outSize ∧ b < x.n_cols ∧ c < l.inSize
    · obtain ⟨ho, hb, hc⟩ := hb
      have hk1 : o * l.inSize + c < l.outSize * l.inSize := by
        rw [Nat.mul_comm l.outSize]
        exact flat_lt hc ho
      have hk2 : b * l.outSize + o < l.outSize * x.n_cols := flat_lt ho hb
      have hk3 : b * l.inSize + c < l.inSize * x.n_cols := flat_lt hc hb
      have hwlen : (l.weight.sliceMat (o * l.inSize + c)).mem.length
          = l.kernelWidth * l.kernelHeight :=
        Cube.sliceMat_length l.weight _
          (by show o * l.inSize + c < szMul l.outSize l.inSize; rw [szMul_eq hOI]; exact hk1)
          (by
            show l.kernelWidth * l.kernelHeight * szMul l.outSize l.inSize ≤ l.weights.length
            rw [szMul_eq hOI, hwl]
            omega)
      have helen : ((⟨l.inputWidth - l.kernelWidth + 1, l.inputHeight - l.kernelHeight + 1,
          szMul l.outSize x.n_cols, gy.mem⟩ : Cube α).sliceMat (o + b * l.outSize)).mem.length
          = (l.inputWidth - l.kernelWidth + 1) * (l.inputHeight - l.kernelHeight + 1) :=
        Cube.sliceMat_length _ _
          (by show o + b * l.outSize < szMul l.outSize x.n_cols
              rw [szMul_eq hOB]; omega)
          (by
            show (l.inputWidth - l.kernelWidth + 1) * (l.inputHeight - l.kernelHeight + 1)
              * szMul l.outSize x.n_cols ≤ gy.mem.length
            rw [szMul_eq hOB, hgy])
      have hxlen : (l.inputSlice x (c + b * l.inSize)).mem.length
          = l.inputWidth * l.inputHeight :=
        Cube.sliceMat_length
          (⟨l.inputWidth, l.inputHeight, l.inSize * x.n_cols, x.mem⟩ : Cube α) _
          (by show c + b * l.inSize < l.inSize * x.n_cols; omega)
          (by
            show l.inputWidth * l.inputHeight * (l.inSize * x.n_cols) ≤ x.mem.length
            rw [hx])
      obtain ⟨T, R, h1, h2, h3, h4, h5, h6, h7⟩ :=
        NaiveConvolution.backward_pairs_with_forward
          ((⟨l.inputWidth - l.kernelWidth + 1, l.inputHeight - l.kernelHeight + 1,
            szMul l.outSize x.n_cols, gy.mem⟩ : Cube α).sliceMat (o + b * l.outSize))
          (l.weight.sliceMat (o * l.inSize + c))
          (l.inputSlice x (c + b * l.inSize)) l.inputWidth l.inputHeight
          ⟨hwlen, by show l.kernelWidth * l.kernelHeight < SIZE_MOD; omega,
            by show l.kernelWidth < SIZE_MOD; omega,
            by show l.kernelHeight < SIZE_MOD; omega⟩
          hkW hkH hkW' hkH' rfl rfl helen rfl rfl hxlen hov
      exact ⟨T, R, fun _ _ _ => ⟨h1, h2, h3, h4, h5, h6, h7⟩⟩
    · exact ⟨Mat.zeros 0 0, Mat.zeros 0 0, fun h1 h2 h3 => absurd ⟨h1, h2, h3⟩ hb⟩
  choose T R hTR using key
  -- Forward
  obtain ⟨ipt, out, hF, o1, o2, o3, hsl⟩ := Convolution.Forward_result l x R hin hout hB hOK2
    (fun o ho b hb c hc => by
      rw [hps, hsW, hsH]
      exact (hTR o b c ho hb hc).1)
  have hR0 := hTR 0 0 0 hout hB hin
  rw [hR0.2.1] at o1
  rw [hR0.2.2.1] at o2
  rw [hR0.2.1, hR0.2.2.1] at o3 hsl
  -- Backward
  obtain ⟨g, hBk, hglen, hgv⟩ := Convolution.Backward_pairing
    ({ l with
        batchSize := x.n_cols
        inputPaddedTemp := ipt
        outputWidth := out.n_rows
        outputHeight := out.n_cols } : Convolution α) x gy x.mem (fun o c b => T o b c)
    hpad hIB hOB hOI hx
    (fun o ho c hc b hb => ⟨(hTR o b c ho hb hc).2.2.2.2.1, fun G g1 g2 g3 => by
      have h := (hTR o b c ho hb hc).2.2.2.2.2.1 G g1 g2 g3
      show NaiveConvolution.ConvolutionFull
          ((⟨out.n_rows, out.n_cols, szMul l.outSize x.n_cols, gy.mem⟩ : Cube α).sliceMat
            (o + b * l.outSize))
          (Rotate180 (l.weight.sliceMat (o + c))) G l.strideWidth l.strideHeight 1 1 true
        = some ⟨l.inputWidth, l.inputHeight,
            List.zipWith (fun x y => x + y) G.mem (T o b c).mem⟩
      rw [o1, o2, hsW, hsH, hidx o ho c hc]
      exact h⟩)
  refine ⟨_, _, _, hF, hBk, ?_, ?_, ?_⟩
  · show out.mem.length = gy.mem.length
    rw [o3, hgy]
  · show g.length = x.mem.length
    rw [hglen, hx]
  · show innerProduct gy.mem out.mem = innerProduct g x.mem
    rw [hgv, forward_inner gy.mem out _ _ l.outSize l.inSize x.n_cols R hgy o3 o1 o2
      (fun o ho b hb c hc => (hTR o b c ho hb hc).2.2.2.1)
      (fun k hk => by
        rw [hsl k hk, hbias _ (Nat.mod_lt _ (by omega))])]
    rw [Finset.sum_comm]
    refine Finset.sum_congr rfl fun o ho => ?_
    rw [Finset.sum_comm]
    refine Finset.sum_congr rfl fun c hc => Finset.sum_congr rfl fun b hb => ?_
    exact ((hTR o b c (Finset.mem_range.mp ho) (Finset.mem_range.mp hb)
      (Finset.mem_range.mp hc)).2.2.2.2.2.2).symm

set_option maxRecDepth 16384 in
theorem C25_backward_is_adjoint_of_forward_witness :
    exAdjointLayer.Forward exAdjointInput = some (exAdjointLayerFwd, ⟨2, 2, [36, 53, 16, 26]⟩) ∧
    exAdjointLayerFwd.Backward exAdjointInput exAdjointError
      = some ⟨12, 2, [1, 4, 4, 3, 10, 8, 0, 1, 2, -1, 0, 4, 3, 5, -2, 9, 9, -4, 0, 3, -1, -3,
          7, -2]⟩ ∧
    innerProduct exAdjointError.mem [36, 53, 16, 26] = 164 ∧
    innerProduct [1, 4, 4, 3, 10, 8, 0, 1, 2, -1, 0, 4, 3, 5, -2, 9, 9, -4, 0, 3, -1, -3, 7, -2]
      exAdjointInput.mem = 164 ∧
    ∃ (l' : Convolution Int) (y g : Mat Int),
      exAdjointLayer.Forward exAdjointInput = some (l', y) ∧
      l'.Backward exAdjointInput exAdjointError = some g ∧
      y.mem.length = exAdjointError.mem.length ∧ g.mem.length = exAdjointInput.mem.length ∧
      innerProduct exAdjointError.mem y.mem = innerProduct g.mem exAdjointInput.mem :=
  ⟨by decide, by decide, by decide, by decide,
    C25_backward_is_adjoint_of_forward exAdjointLayer exAdjointInput exAdjointError
      (Or.inr rfl) (by decide) (by decide) (by decide) rfl rfl rfl (by decide) (by decide)
      (by decide) (by decide) (by decide) (by decide) (by decide) (by decide) (by decide)⟩

/-! ## Claims on values, for the element type `double` -/

set_option maxRecDepth 100000 in
/-- Claim C23, refuted as stated: with elements of type `double` and a filter
tap that is an infinity, the cells appended by the stride are not zero.  For
the 2 x 1 input 1, 1, the 1 x 1 filter `inf` and stride 2, the padded buffer is
1, 1, 0 and the last output cell is `0 + inf * 0`, a NaN; the stride-1 result
is `inf`, `inf`. -/
theorem C23_double_appended_cell_is_nan :
    NaiveConvolution.ConvolutionFull ones2x1.toDouble ⟨1, 1, [Binary64.infinity false]⟩
        (Mat.zeros 0 0) 2 2 1 1 false
      = some ⟨3, 1, [Binary64.infinity false, Binary64.infinity false, Binary64.nan]⟩ ∧
    NaiveConvolution.ConvolutionFull ones2x1.toDouble ⟨1, 1, [Binary64.infinity false]⟩
        (Mat.zeros 0 0) 1 1 1 1 false
      = some ⟨2, 1, [Binary64.infinity false, Binary64.infinity false]⟩ ∧
    Binary64.infinity false * (0 : Binary64) = Binary64.nan ∧
    (0 : Binary64) + Binary64.nan = Binary64.nan ∧
    Binary64.nan ≠ (0 : Binary64) := by
  decide

/-! ## Claims on the output size with different strides -/

namespace NaiveConvolution

/-- A non-accumulating valid-mode call whose last read lies past the end of the
input buffer fails. -/
theorem valid_last_read_outside {α : Type} [Zero α] [Add α] [Mul α] (input filter out0 : Mat α)
    (dW dH dilW dilH r c : Nat)
    (hr : validOutSize input.n_rows filter.n_rows dW dilW = some r)
    (hc : validOutSize input.n_cols filter.n_cols dH dilH = some c)
    (hr1 : 1 ≤ r) (hc1 : 1 ≤ c) (hfr : 1 ≤ filter.n_rows) (hfc : 1 ≤ filter.n_cols)
    (hread : input.mem.length ≤ inputOffset input.n_rows dW dH dilW dilH (c - 1) (r - 1)
      (filter.n_cols - 1) (filter.n_rows - 1)) :
    ConvolutionValid input filter out0 dW dH dilW dilH false = none := by
  unfold ConvolutionValid
  simp only [Bool.false_eq_true, if_false, Option.bind_eq_bind]
  rw [hr, Option.some_bind, hc, Option.some_bind, Option.some_bind]
  show (convLoops input filter dW dH dilW dilH r c (List.replicate (r * c) 0)).bind _ = none
  rw [convLoops_last_read input filter dW dH dilW dilH r c _ hr1 hc1 hfr hfc hread]
  rfl

end NaiveConvolution

/-- Claim C2, refuted by the code: the 3 x 2 input with the 1 x 1 filter, strides
(2, 1) and dilations (1, 1) meets the conditions of the claim, and lines 62-63
size the output 2 x 2 with each axis' own stride.  The loops, however, step
the columns with `dW = 2` (line 77): at `j = 1` they read column 2 of the
two-column input, offset 6 of its 6-element buffer, so the call reads outside
the input and produces no output. -/
theorem C2_unequal_strides_read_outside_input :
    ex3x2.WF ∧ one1x1.WF ∧
    (one1x1.n_rows - 1) * 1 + 1 ≤ ex3x2.n_rows ∧ (one1x1.n_cols - 1) * 1 + 1 ≤ ex3x2.n_cols ∧
    NaiveConvolution.validOutSize ex3x2.n_rows one1x1.n_rows 2 1 = some 2 ∧
    NaiveConvolution.validOutSize ex3x2.n_cols one1x1.n_cols 1 1 = some 2 ∧
    NaiveConvolution.inputOffset ex3x2.n_rows 2 1 1 1 1 0 0 0 = 6 ∧
    ex3x2.mem.length = 6 ∧
    NaiveConvolution.ConvolutionValid ex3x2 one1x1 (Mat.zeros 0 0) 2 1 1 1 false = none := by
  decide

/-! ## The parameter gradient of a layer with several channels and batch items -/

namespace NaiveConvolution

/-- The two valid-mode convolutions of `Gradient` and `Forward` on one padded
input slice `xs`, at stride 1: the correlation `Gv` of `xs` with the
output-gradient slice `d` has the size of the filter `w`, the correlation `R`
of `xs` with `w` has the size of `d`, and `<Gv, w> = <d, R>`. -/
theorem gradient_pairs_with_forward {α : Type} [CommRing α] (xs w d : Mat α)
    (hx : xs.WF) (hw : w.WF)
    (hkW : 1 ≤ w.n_rows) (hkW' : w.n_rows ≤ xs.n_rows)
    (hkH : 1 ≤ w.n_cols) (hkH' : w.n_cols ≤ xs.n_cols)
    (hdr : d.n_rows = xs.n_rows - w.n_rows + 1) (hdc : d.n_cols = xs.n_cols - w.n_cols + 1)
    (hd : d.mem.length = d.n_rows * d.n_cols) :
    ∃ Gv R : Mat α,
      ConvolutionValid xs d (Mat.zeros 0 0) 1 1 1 1 false = some Gv ∧
      Gv.n_rows = w.n_rows ∧ Gv.n_cols = w.n_cols ∧ Gv.mem.length = w.n_rows * w.n_cols ∧
      ConvolutionValid xs w (Mat.zeros 0 0) 1 1 1 1 false = some R ∧
      R.n_rows = d.n_rows ∧ R.n_cols = d.n_cols ∧ R.mem.length = d.n_rows * d.n_cols ∧
      innerProduct Gv.mem w.mem = innerProduct d.mem R.mem := by
  obtain ⟨hx1, hx2, hx3, hx4⟩ := hx
  have hdd : d.n_rows * d.n_cols ≤ xs.n_rows * xs.n_cols :=
    Nat.mul_le_mul (by omega) (by omega)
  have hdWF : d.WF := ⟨hd, by omega, by omega, by omega⟩
  obtain ⟨R, hR, r1, r2, r3, r4⟩ := valid_unit_stride xs w (Mat.zeros 0 0)
    ⟨hx1, hx2, hx3, hx4⟩ hw hkW hkW' hkH hkH'
  obtain ⟨Gv, hGv, g1, g2, g3, g4⟩ := valid_unit_stride xs d (Mat.zeros 0 0)
    ⟨hx1, hx2, hx3, hx4⟩ hdWF (by omega) (by omega) (by omega) (by omega)
  have g1' : Gv.n_rows = w.n_rows := by omega
  have g2' : Gv.n_cols = w.n_cols := by omega
  have r1' : R.n_rows = d.n_rows := by omega
  have r2' : R.n_cols = d.n_cols := by omega
  refine ⟨Gv, R, hGv, g1', g2', by rw [g3, g1', g2'], hR, r1', r2', by rw [r3, r1', r2'], ?_⟩
  rw [innerProduct_cells w.n_rows w.n_cols _ _ (by rw [g3, g1', g2']) hw.1,
    innerProduct_cells d.n_rows d.n_cols _ _ hd (by rw [r3, r1', r2'])]
  have hL : ∀ kj ∈ Finset.range w.n_cols, ∀ ki ∈ Finset.range w.n_rows,
      Gv.mem.getD (kj * w.n_rows + ki) 0 * w.mem.getD (kj * w.n_rows + ki) 0
        = (∑ i ∈ Finset.range d.n_rows, ∑ j ∈ Finset.range d.n_cols,
            d.elem i j * xs.elem (ki + i) (kj + j)) * w.elem ki kj := by
    intro kj hkj ki hki
    have hkj' := Finset.mem_range.mp hkj
    have hki' := Finset.mem_range.mp hki
    rw [← g4 ki (by omega) kj (by omega)]
    unfold Mat.elem
    rw [g1']
  have hRs : ∀ j ∈ Finset.range d.n_cols, ∀ i ∈ Finset.range d.n_rows,
      d.mem.getD (j * d.n_rows + i) 0 * R.mem.getD (j * d.n_rows + i) 0
        = d.elem i j * ((∑ ki ∈ Finset.range w.n_rows, ∑ kj ∈ Finset.range w.n_cols,
            w.elem ki kj * xs.elem (i + ki) (j + kj)) + 0) := by
    intro j hj i hi
    have hj' := Finset.mem_range.mp hj
    have hi' := Finset.mem_range.mp hi
    rw [add_zero, ← r4 i (by omega) j (by omega)]
    unfold Mat.elem
    rw [r1']
  rw [Finset.sum_congr rfl fun kj hkj => Finset.sum_congr rfl fun ki hki => hL kj hkj ki hki,
    Finset.sum_congr rfl fun j hj => Finset.sum_congr rfl fun i hi => hRs j hj i hi,
    correlation_adjoint d.n_rows d.n_cols w.n_rows w.n_cols d.elem w.elem xs.elem 0,
    mul_zero, add_zero]

end NaiveConvolution

/-- An indexed invariant `P` together with a value that grows by `contrib k` in
iteration `k`. -/
theorem forLoop_sum_inv {σ α : Type} [AddCommMonoid α] (P : Nat → σ → Prop) (val : σ → α)
    (n : Nat) (body : Nat → σ → Option σ) (contrib : Nat → α)
    (hstep : ∀ k, k < n → ∀ t, P k t →
      ∃ t', body k t = some t' ∧ P (k + 1) t' ∧ val t' = val t + contrib k)
    (s : σ) (hs : P 0 s) :
    ∃ t, forLoop n body s = some t ∧ P n t ∧
      val t = val s + ∑ k ∈ Finset.range n, contrib k := by
  obtain ⟨t, ht, hP, hv⟩ := forLoop_inv
    (fun k t => P k t ∧ val t = val s + ∑ j ∈ Finset.range k, contrib j) n body s
    ⟨hs, by rw [Finset.range_zero, Finset.sum_empty, add_zero]⟩
    (fun k hk t ht => by
      obtain ⟨t', h1, h2, h3⟩ := hstep k hk t ht.1
      exact ⟨t', h1, h2, by rw [h3, ht.2, Finset.sum_range_succ, add_assoc]⟩)
  exact ⟨t, ht, hP, hv⟩

theorem getD_set {α : Type} [Zero α] (l : List α) (pos i : Nat) (v : α) (hpos : pos < l.length) :
    (l.set pos v).getD i 0 = if i = pos then v else l.getD i 0 := by
  simp only [List.getD_eq_getElem?_getD, List.getElem?_set]
  by_cases h : pos = i
  · subst h
    simp [hpos]
  · rw [if_neg h, if_neg (fun h' => h h'.symm)]

/-- Writing an entry at a position where the other buffer holds 0 keeps the
inner product. -/
theorem innerProduct_set_zero {α : Type} [CommRing α] (l X : List α) (pos : Nat) (v : α)
    (hX : X.length = l.length) (hpos : pos < l.length) (h0 : X.getD pos 0 = 0) :
    innerProduct (l.set pos v) X = innerProduct l X := by
  rw [innerProduct_eq_sum l.length _ X (List.length_set _ _ _) hX,
    innerProduct_eq_sum l.length l X rfl hX]
  refine Finset.sum_congr rfl fun i _ => ?_
  rw [getD_set l pos i v hpos]
  by_cases h : i = pos
  · rw [if_pos h, h, h0, mul_zero, mul_zero]
  · rw [if_neg h]

theorem getD_splice_after {α : Type} [Zero α] (l x : List α) (a n : Nat)
    (h : a + x.length ≤ l.length) (hn : a + x.length ≤ n) :
    (l.take a ++ x ++ l.drop (a + x.length)).getD n 0 = l.getD n 0 := by
  simp only [List.getD_eq_getElem?_getD, getElem?_splice l x a n h]
  rw [if_neg (by omega), if_neg (by omega)]

namespace Convolution

/-- One iteration of the batch loop of `Gradient` when the correlation result
`Gv` has the size of the filter: the iteration returns, keeps the shape of the
parameter-gradient cube, adds `<Gv, X slice>` to the inner product of the cube
with any buffer `X` of its size whose bias part is zero, leaves the bias
entries of the other output channels as they are, and writes `accu` of the
output-gradient slice into the bias entry of its output channel when the input
channel is the last one. -/
theorem gradientBatch_step {α : Type} [CommRing α] (l : Convolution α)
    (inputTemp mappedError : Cube α) (xs d Gv : Mat α) (X : List α) (n o c b : Nat)
    (t : Cube α)
    (hin : 1 ≤ l.inSize) (hin2 : l.inSize < SIZE_MOD)
    (ht : ParamShape l.kernelWidth l.kernelHeight n l.outSize t)
    (hwE : l.weightElem = l.kernelWidth * l.kernelHeight * n)
    (hov : l.kernelWidth * l.kernelHeight * n + l.outSize < SIZE_MOD)
    (ho : o < l.outSize) (hoc : o + c < n) (hoc2 : o + c < SIZE_MOD)
    (hob : o + b * l.outSize < SIZE_MOD) (hcb : c + b * l.inSize < SIZE_MOD)
    (hxs : inputTemp.slice (c + b * l.inSize) = some xs)
    (hd : mappedError.slice (o + b * l.outSize) = some d)
    (hconv : NaiveConvolution.ConvolutionValid xs d (Mat.zeros 0 0)
      l.strideWidth l.strideHeight 1 1 false = some Gv)
    (hGr : Gv.n_rows = l.kernelWidth) (hGc : Gv.n_cols = l.kernelHeight)
    (hGl : Gv.mem.length = l.kernelWidth * l.kernelHeight)
    (hX : X.length = l.kernelWidth * l.kernelHeight * n + l.outSize)
    (hX0 : ∀ o', o' < l.outSize → X.getD (l.kernelWidth * l.kernelHeight * n + o') 0 = 0) :
    ∃ t', l.gradientBatch inputTemp mappedError o c b t = some t' ∧
      ParamShape l.kernelWidth l.kernelHeight n l.outSize t' ∧
      innerProduct t'.mem X = innerProduct t.mem X
        + innerProduct Gv.mem
          ((X.drop ((o + c) * (l.kernelWidth * l.kernelHeight))).take
            (l.kernelWidth * l.kernelHeight)) ∧
      (∀ o', o' < l.outSize → o' ≠ o →
        t'.mem.getD (l.kernelWidth * l.kernelHeight * n + o') 0
          = t.mem.getD (l.kernelWidth * l.kernelHeight * n + o') 0) ∧
      (c = l.inSize - 1 →
        t'.mem.getD (l.kernelWidth * l.kernelHeight * n + o) 0 = d.accu) ∧
      (c ≠ l.inSize - 1 →
        t'.mem.getD (l.kernelWidth * l.kernelHeight * n + o) 0
          = t.mem.getD (l.kernelWidth * l.kernelHeight * n + o) 0) := by
  obtain ⟨t1, t2, t3, t4⟩ := ht
  have hb1 : b * l.outSize < SIZE_MOD := by omega
  have hb2 : b * l.inSize < SIZE_MOD := by omega
  have e0 : szAdd o c = o + c := szAdd_eq hoc2
  have e1 : szAdd o (szMul b l.outSize) = o + b * l.outSize := by
    rw [szMul_eq hb1, szAdd_eq hob]
  have e2 : szAdd c (szMul b l.inSize) = c + b * l.inSize := by
    rw [szMul_eq hb2, szAdd_eq hcb]
  have e3 : szSub l.inSize 1 = l.inSize - 1 := szSub_eq hin hin2
  have emod : (o + b * l.outSize) % l.outSize = o := by
    rw [Nat.add_mul_mod_self_right, Nat.mod_eq_of_lt ho]
  have e4 : szAdd l.weightElem o = l.kernelWidth * l.kernelHeight * n + o := by
    rw [hwE, szAdd_eq (by omega)]
  have hbound : (o + c) * (l.kernelWidth * l.kernelHeight) + l.kernelWidth * l.kernelHeight
      ≤ l.kernelWidth * l.kernelHeight * n := slice_bound hoc (Nat.le_refl _)
  have hsl : (t.sliceMat (o + c)).mem.length = l.kernelWidth * l.kernelHeight := by
    simp only [Cube.sliceMat, List.length_take, List.length_drop, t1, t2]
    omega
  have s1 := Cube.slice_eq t (o + c) (by rw [t3]; exact hoc)
  have hzl : (List.zipWith (fun x y => x + y) (t.sliceMat (o + c)).mem Gv.mem).length
      = l.kernelWidth * l.kernelHeight := by
    rw [List.length_zipWith, hsl, hGl, Nat.min_self]
  have s2 : addOverlap t.n_rows t.n_cols (t.sliceMat (o + c)) Gv
      = some ⟨l.kernelWidth, l.kernelHeight,
          List.zipWith (fun x y => x + y) (t.sliceMat (o + c)).mem Gv.mem⟩ := by
    unfold addOverlap
    rw [t1, t2, hGr, hGc, if_neg (by omega), if_neg (by omega)]
    unfold Mat.addAssign
    rw [if_pos ⟨by show t.n_rows = Gv.n_rows; omega, by show t.n_cols = Gv.n_cols; omega⟩]
    show some (⟨t.n_rows, t.n_cols, _⟩ : Mat α) = _
    rw [t1, t2]
  have s3 : t.setSlice (o + c)
      ⟨l.kernelWidth, l.kernelHeight,
        List.zipWith (fun x y => x + y) (t.sliceMat (o + c)).mem Gv.mem⟩
      = some ⟨l.kernelWidth, l.kernelHeight, n,
          t.mem.take ((o + c) * (l.kernelWidth * l.kernelHeight))
          ++ List.zipWith (fun x y => x + y) (t.sliceMat (o + c)).mem Gv.mem
          ++ t.mem.drop ((o + c) * (l.kernelWidth * l.kernelHeight)
            + l.kernelWidth * l.kernelHeight)⟩ := by
    unfold Cube.setSlice
    rw [if_pos ⟨by rw [t3]; exact hoc, t1.symm, t2.symm, by rw [t1, t2]; exact hzl⟩, t1, t2, t3]
  -- the buffer after the slice has been written
  generalize hM : t.mem.take ((o + c) * (l.kernelWidth * l.kernelHeight))
      ++ List.zipWith (fun x y => x + y) (t.sliceMat (o + c)).mem Gv.mem
      ++ t.mem.drop ((o + c) * (l.kernelWidth * l.kernelHeight)
        + l.kernelWidth * l.kernelHeight) = M at s3
  have hMlen : M.length = l.kernelWidth * l.kernelHeight * n + l.outSize := by
    rw [← hM, List.length_append, List.length_append, List.length_take, List.length_drop, hzl]
    omega
  have hMval : innerProduct M X = innerProduct t.mem X
      + innerProduct Gv.mem
        ((X.drop ((o + c) * (l.kernelWidth * l.kernelHeight))).take
          (l.kernelWidth * l.kernelHeight)) := by
    have hsp := innerProduct_splice t.mem X
      (List.zipWith (fun x y => x + y) (t.sliceMat (o + c)).mem Gv.mem)
      ((o + c) * (l.kernelWidth * l.kernelHeight)) (by rw [hX, t4]) (by rw [hzl]; omega)
    rw [hzl] at hsp
    rw [← hM, hsp, innerProduct_zipWith_add _ _ _ (by rw [hGl, hsl])
      (by rw [List.length_take, List.length_drop, hsl, hX]; omega)]
    have : (t.sliceMat (o + c)).mem
        = (t.mem.drop ((o + c) * (l.kernelWidth * l.kernelHeight))).take
          (l.kernelWidth * l.kernelHeight) := by
      simp only [Cube.sliceMat, t1, t2]
    rw [this]
    ring
  have hMget : ∀ o', M.getD (l.kernelWidth * l.kernelHeight * n + o') 0
      = t.mem.getD (l.kernelWidth * l.kernelHeight * n + o') 0 := by
    intro o'
    have := getD_splice_after t.mem
      (List.zipWith (fun x y => x + y) (t.sliceMat (o + c)).mem Gv.mem)
      ((o + c) * (l.kernelWidth * l.kernelHeight))
      (l.kernelWidth * l.kernelHeight * n + o') (by rw [hzl]; omega) (by rw [hzl]; omega)
    rw [hzl] at this
    rw [← hM]
    exact this
  have hrun : l.gradientBatch inputTemp mappedError o c b t
      = if c = l.inSize - 1 then
          some ⟨l.kernelWidth, l.kernelHeight, n,
            M.set (l.kernelWidth * l.kernelHeight * n + o) d.accu⟩
        else some ⟨l.kernelWidth, l.kernelHeight, n, M⟩ := by
    unfold gradientBatch
    simp only [Option.bind_eq_bind]
    rw [e0, e1, e2, e3, emod, e4, s1, Option.some_bind, hxs, Option.some_bind, hd,
      Option.some_bind, hconv, Option.some_bind, s2, Option.some_bind, s3, Option.some_bind]
    by_cases hc : c = l.inSize - 1
    · rw [if_pos hc, if_pos hc]
      show (if l.kernelWidth * l.kernelHeight * n + o < M.length then _ else _) = _
      rw [if_pos (by rw [hMlen]; omega)]
    · rw [if_neg hc, if_neg hc]
  by_cases hc : c = l.inSize - 1
  · rw [if_pos hc] at hrun
    refine ⟨_, hrun, ⟨rfl, rfl, rfl, ?_⟩, ?_, ?_, ?_, ?_⟩
    · show (M.set _ _).length = _
      rw [List.length_set, hMlen]
    · show innerProduct (M.set _ _) X = _
      rw [innerProduct_set_zero M X _ _ (by rw [hX, hMlen]) (by rw [hMlen]; omega) (hX0 o ho),
        hMval]
    · intro o' _ hne
      show (M.set _ _).getD _ 0 = _
      rw [getD_set M _ _ _ (by rw [hMlen]; omega), if_neg (by omega), hMget]
    · intro _
      show (M.set _ _).getD _ 0 = _
      rw [getD_set M _ _ _ (by rw [hMlen]; omega), if_pos rfl]
    · intro h
      exact absurd hc h
  · rw [if_neg hc] at hrun
    refine ⟨_, hrun, ⟨rfl, rfl, rfl, hMlen⟩, hMval, fun o' _ _ => hMget o', ?_,
      fun _ => hMget o⟩
    intro h
    exact absurd h hc

end Convolution

/-- The inner product of a buffer whose filter part is zero with a buffer whose
bias part is zero. -/
theorem innerProduct_parts_zero {α : Type} [CommRing α] (wE m : Nat) (rest X : List α)
    (hr : rest.length = m) (hX : X.length = wE + m)
    (hX0 : ∀ o, o < m → X.getD (wE + o) 0 = 0) :
    innerProduct (List.replicate wE (0 : α) ++ rest) X = 0 := by
  rw [innerProduct_eq_sum (wE + m) _ X (by rw [List.length_append, List.length_replicate, hr])
    hX]
  refine Finset.sum_eq_zero fun i hi => ?_
  have hi' := Finset.mem_range.mp hi
  by_cases h : i < wE
  · rw [List.getD_append _ _ _ _ (by rw [List.length_replicate]; exact h)]
    simp only [List.getD_eq_getElem?_getD, List.getElem?_replicate, if_pos h,
      Option.getD_some, zero_mul]
  · have := hX0 (i - wE) (by omega)
    rw [show wE + (i - wE) = i by omega] at this
    rw [this, mul_zero]

namespace Convolution

/-- The method `Gradient` when every correlation result `Gv o c b` has the size
of the filter: it returns; the inner product of its result with any buffer `X`
of the same size whose bias part is zero is the sum of the inner products of
the `Gv o c b` with filter slice `o + c` of `X`; and the bias entry of output
channel `o` is `accu` of the output-gradient slice of the last batch item. -/
theorem Gradient_pairing {α : Type} [CommRing α] (l : Convolution α)
    (input error gradient : Mat α) (X : List α) (S : Nat → Mat α)
    (Gv : Nat → Nat → Nat → Mat α)
    (hin : 1 ≤ l.inSize) (hB : 1 ≤ l.batchSize)
    (hIB : l.inSize * l.batchSize < SIZE_MOD) (hOB : l.outSize * l.batchSize < SIZE_MOD)
    (hOI : l.outSize * l.inSize < SIZE_MOD)
    (hov : l.kernelWidth * l.kernelHeight * (l.outSize * l.inSize) + l.outSize < SIZE_MOD)
    (hw : l.weights.length
      = l.kernelWidth * l.kernelHeight * (l.outSize * l.inSize) + l.outSize)
    (hX : X.length = l.kernelWidth * l.kernelHeight * (l.outSize * l.inSize) + l.outSize)
    (hX0 : ∀ o, o < l.outSize →
      X.getD (l.kernelWidth * l.kernelHeight * (l.outSize * l.inSize) + o) 0 = 0)
    (hS : ∀ k, k < l.inSize * l.batchSize →
      (if l.hasPadding then l.inputPaddedTemp
        else (⟨l.inputWidth, l.inputHeight, szMul l.inSize l.batchSize, input.mem⟩ :
          Cube α)).slice k = some (S k))
    (hGv : ∀ o, o < l.outSize → ∀ c, c < l.inSize → ∀ b, b < l.batchSize →
      NaiveConvolution.ConvolutionValid (S (c + b * l.inSize))
          ((⟨l.outputWidth, l.outputHeight, szMul l.outSize l.batchSize, error.mem⟩ :
            Cube α).sliceMat (o + b * l.outSize))
          (Mat.zeros 0 0) l.strideWidth l.strideHeight 1 1 false = some (Gv o c b) ∧
        (Gv o c b).n_rows = l.kernelWidth ∧ (Gv o c b).n_cols = l.kernelHeight ∧
        (Gv o c b).mem.length = l.kernelWidth * l.kernelHeight) :
    ∃ G : List α,
      l.Gradient input error gradient = some ⟨l.weights.length, 1, G⟩ ∧
      G.length = l.weights.length ∧
      innerProduct G X = ∑ o ∈ Finset.range l.outSize, ∑ c ∈ Finset.range l.inSize,
        ∑ b ∈ Finset.range l.batchSize,
          innerProduct (Gv o c b).mem
            ((X.drop ((o + c) * (l.kernelWidth * l.kernelHeight))).take
              (l.kernelWidth * l.kernelHeight)) ∧
      ∀ o, o < l.outSize →
        G.getD (l.kernelWidth * l.kernelHeight * (l.outSize * l.inSize) + o) 0
          = ((⟨l.outputWidth, l.outputHeight, szMul l.outSize l.batchSize, error.mem⟩ :
              Cube α).sliceMat (o + (l.batchSize - 1) * l.outSize)).accu := by
  have hin2 : l.inSize < SIZE_MOD :=
    Nat.lt_of_le_of_lt (Nat.le_mul_of_pos_right _ hB) hIB
  have hwE : l.weightElem = l.kernelWidth * l.kernelHeight * (l.outSize * l.inSize) := by
    unfold weightElem
    rw [szMul_eq hOI]
  -- the batch loop
  have hbatch : ∀ o, o < l.outSize → ∀ c, c < l.inSize → ∀ s1 : Cube α,
      ParamShape l.kernelWidth l.kernelHeight (l.outSize * l.inSize) l.outSize s1 →
      ∃ t, forLoop l.batchSize (l.gradientBatch
            (if l.hasPadding then l.inputPaddedTemp
              else ⟨l.inputWidth, l.inputHeight, szMul l.inSize l.batchSize, input.mem⟩)
            ⟨l.outputWidth, l.outputHeight, szMul l.outSize l.batchSize, error.mem⟩ o c) s1
          = some t ∧
        (ParamShape l.kernelWidth l.kernelHeight (l.outSize * l.inSize) l.outSize t ∧
          (∀ o', o' < l.outSize → o' ≠ o →
            t.mem.getD (l.kernelWidth * l.kernelHeight * (l.outSize * l.inSize) + o') 0
              = s1.mem.getD (l.kernelWidth * l.kernelHeight * (l.outSize * l.inSize) + o')
                0) ∧
          (c = l.inSize - 1 → 0 < l.batchSize →
            t.mem.getD (l.kernelWidth * l.kernelHeight * (l.outSize * l.inSize) + o) 0
              = ((⟨l.outputWidth, l.outputHeight, szMul l.outSize l.batchSize, error.mem⟩ :
                  Cube α).sliceMat (o + (l.batchSize - 1) * l.outSize)).accu) ∧
          (c ≠ l.inSize - 1 →
            t.mem.getD (l.kernelWidth * l.kernelHeight * (l.outSize * l.inSize) + o) 0
              = s1.mem.getD (l.kernelWidth * l.kernelHeight * (l.outSize * l.inSize) + o)
                0)) ∧
        innerProduct t.mem X = innerProduct s1.mem X
          + ∑ b ∈ Finset.range l.batchSize,
            innerProduct (Gv o c b).mem
              ((X.drop ((o + c) * (l.kernelWidth * l.kernelHeight))).take
                (l.kernelWidth * l.kernelHeight)) := by
    intro o ho c hc s1 hs1
    have hoc := channel_index_lt ho hc
    exact forLoop_sum_inv
      (fun b (t : Cube α) =>
        ParamShape l.kernelWidth l.kernelHeight (l.outSize * l.inSize) l.outSize t ∧
        (∀ o', o' < l.outSize → o' ≠ o →
          t.mem.getD (l.kernelWidth * l.kernelHeight * (l.outSize * l.inSize) + o') 0
            = s1.mem.getD (l.kernelWidth * l.kernelHeight * (l.outSize * l.inSize) + o') 0) ∧
        (c = l.inSize - 1 → 0 < b →
          t.mem.getD (l.kernelWidth * l.kernelHeight * (l.outSize * l.inSize) + o) 0
            = ((⟨l.outputWidth, l.outputHeight, szMul l.outSize l.batchSize, error.mem⟩ :
                Cube α).sliceMat (o + (b - 1) * l.outSize)).accu) ∧
        (c ≠ l.inSize - 1 →
          t.mem.getD (l.kernelWidth * l.kernelHeight * (l.outSize * l.inSize) + o) 0
            = s1.mem.getD (l.kernelWidth * l.kernelHeight * (l.outSize * l.inSize) + o) 0))
      (fun g : Cube α => innerProduct g.mem X) l.batchSize _
      (fun b => innerProduct (Gv o c b).mem
        ((X.drop ((o + c) * (l.kernelWidth * l.kernelHeight))).take
          (l.kernelWidth * l.kernelHeight)))
      (fun b hb t ht => by
        obtain ⟨hsh, hoth, -, hsame⟩ := ht
        have h1 : b * l.outSize + o < l.outSize * l.batchSize := flat_lt ho hb
        have h2 : b * l.inSize + c < l.inSize * l.batchSize := flat_lt hc hb
        obtain ⟨g1, g2, g3, g4⟩ := hGv o ho c hc b hb
        obtain ⟨t', r1, r2, r3, r4, r5, r6⟩ := gradientBatch_step l _ _ _ _ (Gv o c b) X
          (l.outSize * l.inSize) o c b t hin hin2 hsh hwE hov ho hoc (by omega) (by omega)
          (by omega) (hS (c + b * l.inSize) (by omega))
          (Cube.slice_eq _ _ (by
            show o + b * l.outSize < szMul l.outSize l.batchSize
            rw [szMul_eq hOB]; omega))
          g1 g2 g3 g4 hX hX0
        refine ⟨t', r1, ⟨r2, fun o' ho' hne => by rw [r4 o' ho' hne, hoth o' ho' hne],
          fun hcl _ => by rw [r5 hcl, Nat.add_sub_cancel],
          fun hcl => by rw [r6 hcl, hsame hcl]⟩, r3⟩)
      s1 ⟨hs1, fun _ _ _ => rfl, fun _ h => absurd h (Nat.lt_irrefl 0), fun _ => rfl⟩
  -- the loop over the input channels
  have hmid : ∀ o, o < l.outSize → ∀ s0 : Cube α,
      ParamShape l.kernelWidth l.kernelHeight (l.outSize * l.inSize) l.outSize s0 →
      ∃ t, forLoop l.inSize (fun inMap gradientTemp =>
            forLoop l.batchSize (l.gradientBatch
              (if l.hasPadding then l.inputPaddedTemp
                else ⟨l.inputWidth, l.inputHeight, szMul l.inSize l.batchSize, input.mem⟩)
              ⟨l.outputWidth, l.outputHeight, szMul l.outSize l.batchSize, error.mem⟩ o inMap)
              gradientTemp) s0
          = some t ∧
        (ParamShape l.kernelWidth l.kernelHeight (l.outSize * l.inSize) l.outSize t ∧
          (∀ o', o' < l.outSize → o' ≠ o →
            t.mem.getD (l.kernelWidth * l.kernelHeight * (l.outSize * l.inSize) + o') 0
              = s0.mem.getD (l.kernelWidth * l.kernelHeight * (l.outSize * l.inSize) + o')
                0) ∧
          (l.inSize = l.inSize →
            t.mem.getD (l.kernelWidth * l.kernelHeight * (l.outSize * l.inSize) + o) 0
              = ((⟨l.outputWidth, l.outputHeight, szMul l.outSize l.batchSize, error.mem⟩ :
                  Cube α).sliceMat (o + (l.batchSize - 1) * l.outSize)).accu)) ∧
        innerProduct t.mem X = innerProduct s0.mem X
          + ∑ c ∈ Finset.range l.inSize, ∑ b ∈ Finset.range l.batchSize,
            innerProduct (Gv o c b).mem
              ((X.drop ((o + c) * (l.kernelWidth * l.kernelHeight))).take
                (l.kernelWidth * l.kernelHeight)) := by
    intro o ho s0 hs0
    exact forLoop_sum_inv
      (fun c (t : Cube α) =>
        ParamShape l.kernelWidth l.kernelHeight (l.outSize * l.inSize) l.outSize t ∧
        (∀ o', o' < l.outSize → o' ≠ o →
          t.mem.getD (l.kernelWidth * l.kernelHeight * (l.outSize * l.inSize) + o') 0
            = s0.mem.getD (l.kernelWidth * l.kernelHeight * (l.outSize * l.inSize) + o') 0) ∧
        (c = l.inSize →
          t.mem.getD (l.kernelWidth * l.kernelHeight * (l.outSize * l.inSize) + o) 0
            = ((⟨l.outputWidth, l.outputHeight, szMul l.outSize l.batchSize, error.mem⟩ :
                Cube α).sliceMat (o + (l.batchSize - 1) * l.outSize)).accu))
      (fun g : Cube α => innerProduct g.mem X) l.inSize _
      (fun c => ∑ b ∈ Finset.range l.batchSize,
        innerProduct (Gv o c b).mem
          ((X.drop ((o + c) * (l.kernelWidth * l.kernelHeight))).take
            (l.kernelWidth * l.kernelHeight)))
      (fun c hc t ht => by
        obtain ⟨hsh, hoth, -⟩ := ht
        obtain ⟨t', r1, ⟨r2, r3, r4, -⟩, r5⟩ := hbatch o ho c hc t hsh
        exact ⟨t', r1, ⟨r2, fun o' ho' hne => by rw [r3 o' ho' hne, hoth o' ho' hne],
          fun hcl => r4 (by omega) hB⟩, r5⟩)
      s0 ⟨hs0, fun _ _ _ => rfl, fun h => absurd h (by omega)⟩
  -- the initial cube
  have hbuf : (if gradient.mem.length = l.weights.length then gradient.mem
      else List.replicate l.weights.length 0).length = l.weights.length := by
    split
    · assumption
    · exact List.length_replicate _ _
  have hinit : ParamShape l.kernelWidth l.kernelHeight (l.outSize * l.inSize) l.outSize
      (⟨l.kernelWidth, l.kernelHeight, szMul l.outSize l.inSize,
        List.replicate l.weightElem 0
          ++ (if gradient.mem.length = l.weights.length then gradient.mem
            else List.replicate l.weights.length 0).drop l.weightElem⟩ : Cube α) := by
    refine ⟨rfl, rfl, szMul_eq hOI, ?_⟩
    show (List.replicate _ _ ++ _ : List α).length = _
    rw [List.length_append, List.length_replicate, List.length_drop, hbuf, hwE, hw]
    omega
  have hval0 : innerProduct (List.replicate l.weightElem (0 : α)
      ++ (if gradient.mem.length = l.weights.length then gradient.mem
        else List.replicate l.weights.length 0).drop l.weightElem) X = 0 := by
    rw [hwE]
    exact innerProduct_parts_zero _ l.outSize _ X
      (by rw [List.length_drop, hbuf, hw]; omega) hX hX0
  -- the loop over the output channels
  obtain ⟨g, hg, ⟨hshape, hbias⟩, hv⟩ := forLoop_sum_inv
    (fun o (t : Cube α) =>
      ParamShape l.kernelWidth l.kernelHeight (l.outSize * l.inSize) l.outSize t ∧
      ∀ o', o' < o → o' < l.outSize →
        t.mem.getD (l.kernelWidth * l.kernelHeight * (l.outSize * l.inSize) + o') 0
          = ((⟨l.outputWidth, l.outputHeight, szMul l.outSize l.batchSize, error.mem⟩ :
              Cube α).sliceMat (o' + (l.batchSize - 1) * l.outSize)).accu)
    (fun g : Cube α => innerProduct g.mem X) l.outSize
    (fun outMapIdx gradientTemp => forLoop l.inSize (fun inMap gradientTemp =>
      forLoop l.batchSize (l.gradientBatch
        (if l.hasPadding then l.inputPaddedTemp
          else ⟨l.inputWidth, l.inputHeight, szMul l.inSize l.batchSize, input.mem⟩)
        ⟨l.outputWidth, l.outputHeight, szMul l.outSize l.batchSize, error.mem⟩
        outMapIdx inMap) gradientTemp) gradientTemp)
    (fun o => ∑ c ∈ Finset.range l.inSize, ∑ b ∈ Finset.range l.batchSize,
      innerProduct (Gv o c b).mem
        ((X.drop ((o + c) * (l.kernelWidth * l.kernelHeight))).take
          (l.kernelWidth * l.kernelHeight)))
    (fun o ho t ht => by
      obtain ⟨hsh, hprev⟩ := ht
      obtain ⟨t', r1, ⟨r2, r3, r4⟩, r5⟩ := hmid o ho t hsh
      refine ⟨t', r1, ⟨r2, fun o' ho' ho2 => ?_⟩, r5⟩
      by_cases he : o' = o
      · rw [he]
        exact r4 rfl
      · rw [r3 o' ho2 he]
        exact hprev o' (by omega) ho2)
    _ ⟨hinit, fun o' h _ => absurd h (Nat.not_lt_zero o')⟩
  refine ⟨g.mem, ?_, by rw [hshape.2.2.2, hw], ?_, fun o ho => hbias o ho ho⟩
  · unfold Gradient
    simp only [Option.bind_eq_bind]
    rw [hg, Option.some_bind]
  · have := hv
    simp only [hval0, zero_add] at this
    exact this

end Convolution

theorem accu_eq_list_sum {α : Type} [CommRing α] (m : Mat α) : m.accu = m.mem.sum := by
  unfold Mat.accu
  rw [List.sum_eq_foldl]

theorem innerProduct_map_add {α : Type} [CommRing α] (a b : List α) (β : α)
    (h : b.length = a.length) :
    innerProduct a (b.map fun v => v + β) = innerProduct a b + a.sum * β := by
  rw [innerProduct_eq_sum a.length a _ rfl (by rw [List.length_map, h]),
    innerProduct_eq_sum a.length a b rfl h, list_sum_eq_sum a.length a rfl, Finset.sum_mul,
    ← Finset.sum_add_distrib]
  refine Finset.sum_congr rfl fun i hi => ?_
  rw [getD_map_add b β i (by rw [h]; exact Finset.mem_range.mp hi), mul_add]

/-- The inner product with a parameter buffer: the inner product with its filter
part plus the products of the bias entries. -/
theorem innerProduct_split_bias {α : Type} [CommRing α] (wE m : Nat) (G P : List α)
    (hG : G.length = wE + m) (hP : P.length = wE + m) :
    innerProduct G P
      = innerProduct G (P.take wE ++ List.replicate m 0)
        + ∑ o ∈ Finset.range m, G.getD (wE + o) 0 * P.getD (wE + o) 0 := by
  have hl : (P.take wE ++ List.replicate m (0 : α)).length = wE + m := by
    rw [List.length_append, List.length_take, List.length_replicate, hP]
    omega
  have ht : (P.take wE).length = wE := by rw [List.length_take, hP]; omega
  rw [innerProduct_eq_sum (wE + m) G P hG hP, innerProduct_eq_sum (wE + m) G _ hG hl,
    Finset.sum_range_add, Finset.sum_range_add, add_assoc]
  congr 1
  · refine Finset.sum_congr rfl fun i hi => ?_
    have hi' := Finset.mem_range.mp hi
    rw [List.getD_append _ _ _ _ (by rw [ht]; exact hi'), getD_take_of_lt _ _ _ hi']
  · rw [← Finset.sum_add_distrib]
    refine Finset.sum_congr rfl fun o ho => ?_
    have ho' := Finset.mem_range.mp ho
    rw [List.getD_append_right _ _ _ _ (by rw [ht]; omega), ht, Nat.add_sub_cancel_left]
    simp only [List.getD_eq_getElem?_getD, List.getElem?_replicate, if_pos ho',
      Option.getD_some, mul_zero, zero_add]

theorem window_take_append {α : Type} (P r : List α) (wE a es : Nat) (hP : wE ≤ P.length)
    (h : a + es ≤ wE) :
    ((P.take wE ++ r).drop a).take es = (P.drop a).take es := by
  apply List.ext_getElem?
  intro k
  rw [getElem?_window, getElem?_window]
  by_cases hk : k < es
  · rw [if_pos hk, if_pos hk, List.getElem?_append_left (by rw [List.length_take]; omega),
      List.getElem?_take_of_lt (by omega)]
  · rw [if_neg hk, if_neg hk]

/-- The inner product of an output-shaped buffer with the output of `Forward`:
the sum, over batch items and output channels, of the inner products of the
slice of the buffer with the per-channel convolution results and of the sum of
the slice times the bias. -/
theorem forward_inner_bias {α : Type} [CommRing α] (gy : List α) (out : Cube α)
    (r c outSize inSize B : Nat) (R : Nat → Nat → Nat → Mat α) (β : Nat → α)
    (hgy : gy.length = r * c * (outSize * B)) (hout : out.mem.length = r * c * (outSize * B))
    (hor : out.n_rows = r) (hoc : out.n_cols = c)
    (hRlen : ∀ o, o < outSize → ∀ b, b < B → ∀ ci, ci < inSize →
      (R o b ci).mem.length = r * c)
    (hslice : ∀ k, k < outSize * B →
      out.sliceMat k
        = (sumSlices r c inSize (R (k % outSize) (k / outSize))).addScalar (β (k % outSize))) :
    innerProduct gy out.mem
      = ∑ b ∈ Finset.range B, ∑ o ∈ Finset.range outSize,
          ((∑ ci ∈ Finset.range inSize,
            innerProduct ((gy.drop ((o + b * outSize) * (r * c))).take (r * c))
              (R o b ci).mem)
          + ((gy.drop ((o + b * outSize) * (r * c))).take (r * c)).sum * β o) := by
  rw [innerProduct_slices (r * c) (outSize * B) gy out.mem hgy hout, Nat.mul_comm outSize B,
    sum_range_mul]
  refine Finset.sum_congr rfl fun b hb => Finset.sum_congr rfl fun o ho => ?_
  have hb' := Finset.mem_range.mp hb
  have ho' := Finset.mem_range.mp ho
  have hk : b * outSize + o < outSize * B := flat_lt ho' hb'
  have hs := hslice _ hk
  rw [flat_mod ho', flat_div ho'] at hs
  have hmem : (out.mem.drop ((b * outSize + o) * (r * c))).take (r * c)
      = ((List.range inSize).foldl
          (fun acc ci => List.zipWith (fun x y => x + y) acc (R o b ci).mem)
          (List.replicate (r * c) 0)).map fun v => v + β o := by
    have h1 : (out.sliceMat (b * outSize + o)).mem
        = (out.mem.drop ((b * outSize + o) * (r * c))).take (r * c) := by
      simp only [Cube.sliceMat, hor, hoc]
    rw [← h1, hs]
    simp only [Mat.addScalar, sumSlices]
  have hlen : ((gy.drop ((b * outSize + o) * (r * c))).take (r * c)).length = r * c := by
    have := slice_bound hk (Nat.le_of_eq hgy.symm)
    rw [List.length_take, List.length_drop]
    omega
  rw [hmem, innerProduct_map_add _ _ _ (by
      rw [(getD_foldl_zipWith inSize (r * c) (fun ci => (R o b ci).mem)
        (fun ci hci => hRlen o ho' b hb' ci hci) 0).1, hlen]),
    innerProduct_foldl_zipWith inSize (r * c) _ (fun ci => (R o b ci).mem) hlen
      (fun ci hci => hRlen o ho' b hb' ci hci), Nat.add_comm o]

namespace Convolution

theorem paddedSlice_length {α : Type} [Zero α] (l : Convolution α) (input : Mat α) (k : Nat)
    (hk : k < l.inSize * input.n_cols)
    (hx : input.mem.length = l.inputWidth * l.inputHeight * (l.inSize * input.n_cols)) :
    (l.paddedSlice input k).mem.length
      = (l.paddedSlice input k).n_rows * (l.paddedSlice input k).n_cols := by
  cases hp : l.hasPadding with
  | true =>
    simp only [paddedSlice, hp, if_true, PaddingForward, Mat.zeroPadded, List.length_map,
      List.length_range]
  | false =>
    simp only [paddedSlice, hp, Bool.false_eq_true, if_false]
    exact Cube.sliceMat_length
      (⟨l.inputWidth, l.inputHeight, l.inSize * input.n_cols, input.mem⟩ : Cube α) k hk
      (Nat.le_of_eq hx.symm)

end Convolution

/-- Claim C12, amended: over exact arithmetic, for a layer at stride 1 with one
input channel or one output channel, with or without padding, on a batch of
at least one item, the biases being zero when the batch has more than one
item, `Forward` and `Gradient` return and
`<gy, Forward(x)> = <Gradient(x, gy), parameters>` holds exactly, for every
input `x` and every output gradient `gy` of matching shape; the sum of the
claim exceeds the left side by the term `<Backward(x, gy), x>`. -/
theorem C12_gradient_pairs_with_forward {α : Type} [CommRing α] (l : Convolution α)
    (x gy g0 : Mat α)
    (hch : l.inSize = 1 ∨ l.outSize = 1)
    (hin : 1 ≤ l.inSize) (hout : 1 ≤ l.outSize) (hB : 1 ≤ x.n_cols)
    (hsW : l.strideWidth = 1) (hsH : l.strideHeight = 1)
    (hkW : 1 ≤ l.kernelWidth)
    (hkW' : l.kernelWidth ≤ l.inputWidth + l.padWLeft + l.padWRight)
    (hkH : 1 ≤ l.kernelHeight)
    (hkH' : l.kernelHeight ≤ l.inputHeight + l.padHTop + l.padHBottom)
    (hOK : l.SizesOk x.n_cols)
    (hsz : (l.inputWidth + l.padWLeft + l.padWRight)
      * (l.inputHeight + l.padHTop + l.padHBottom) < SIZE_MOD)
    (hov : l.kernelWidth * l.kernelHeight * (l.outSize * l.inSize) + l.outSize < SIZE_MOD)
    (hbias : x.n_cols = 1 ∨ ∀ o, o < l.outSize →
      l.weights.getD (l.kernelWidth * l.kernelHeight * (l.outSize * l.inSize) + o) 0 = 0)
    (hx : x.mem.length = l.inputWidth * l.inputHeight * (l.inSize * x.n_cols))
    (hgy : gy.mem.length
      = (l.inputWidth + l.padWLeft + l.padWRight - l.kernelWidth + 1)
        * (l.inputHeight + l.padHTop + l.padHBottom - l.kernelHeight + 1)
        * (l.outSize * x.n_cols)) :
    ∃ (l' : Convolution α) (out G : Mat α),
      l.Forward x = some (l', out) ∧ l'.Gradient x gy g0 = some G ∧
      out.mem.length = gy.mem.length ∧ G.mem.length = l.weights.length ∧
      innerProduct gy.mem out.mem = innerProduct G.mem l.weights ∧
      ∀ B : Mat α, l'.Backward x gy = some B →
        innerProduct B.mem x.mem + innerProduct G.mem l.weights - innerProduct gy.mem out.mem
          = innerProduct B.mem x.mem := by
  have hOK2 : l.SizesOk x.n_cols := hOK
  obtain ⟨hIB, hOB, hOI, hWp, hHp, hwl⟩ := hOK
  have hkk : l.kernelWidth * l.kernelHeight
      ≤ (l.inputWidth + l.padWLeft + l.padWRight)
        * (l.inputHeight + l.padHTop + l.padHBottom) := Nat.mul_le_mul hkW' hkH'
  -- the index of the filter slice
  have hidx : ∀ o, o < l.outSize → ∀ c, c < l.inSize → o + c = o * l.inSize + c := by
    intro o ho c hc
    rcases hch with h | h
    · rw [h, Nat.mul_one]
    · have : o = 0 := by omega
      rw [this, Nat.zero_mul]
  -- the two convolutions on every triple of indices
  have key : ∀ o b c, ∃ Gv R : Mat α, o < l.outSize → b < x.n_cols → c < l.inSize →
      (NaiveConvolution.ConvolutionValid (l.paddedSlice x (c + b * l.inSize))
          ((⟨l.inputWidth + l.padWLeft + l.padWRight - l.kernelWidth + 1,
            l.inputHeight + l.padHTop + l.padHBottom - l.kernelHeight + 1,
            szMul l.outSize x.n_cols, gy.mem⟩ : Cube α).sliceMat (o + b * l.outSize))
          (Mat.zeros 0 0) 1 1 1 1 false = some Gv ∧
        Gv.n_rows = l.kernelWidth ∧ Gv.n_cols = l.kernelHeight ∧
        Gv.mem.length = l.kernelWidth * l.kernelHeight ∧
        NaiveConvolution.ConvolutionValid (l.paddedSlice x (c + b * l.inSize))
          (l.weight.sliceMat (o * l.inSize + c)) (Mat.zeros 0 0) 1 1 1 1 false = some R ∧
        R.n_rows = l.inputWidth + l.padWLeft + l.padWRight - l.kernelWidth + 1 ∧
        R.n_cols = l.inputHeight + l.padHTop + l.padHBottom - l.kernelHeight + 1 ∧
        R.mem.length
          = (l.inputWidth + l.padWLeft + l.padWRight - l.kernelWidth + 1)
            * (l.inputHeight + l.padHTop + l.padHBottom - l.kernelHeight + 1) ∧
        innerProduct Gv.mem
            ((l.weights.drop ((o * l.inSize + c) * (l.kernelWidth * l.kernelHeight))).take
              (l.kernelWidth * l.kernelHeight))
          = innerProduct
              ((gy.mem.drop ((o + b * l.outSize)
                * ((l.inputWidth + l.padWLeft + l.padWRight - l.kernelWidth + 1)
                  * (l.inputHeight + l.padHTop + l.padHBottom - l.kernelHeight + 1)))).take
                ((l.inputWidth + l.padWLeft + l.padWRight - l.kernelWidth + 1)
                  * (l.inputHeight + l.padHTop + l.padHBottom - l.kernelHeight + 1)))
              R.mem) := by
    intro o b c
    by_cases hb : o < l.outSize ∧ b < x.n_cols ∧ c < l.inSize
    · obtain ⟨ho, hb, hc⟩ := hb
      have hk1 : o * l.inSize + c < l.outSize * l.inSize := by
        rw [Nat.mul_comm l.outSize]
        exact flat_lt hc ho
      have hk2 : b * l.outSize + o < l.outSize * x.n_cols := flat_lt ho hb
      have hk3 : b * l.inSize + c < l.inSize * x.n_cols := flat_lt hc hb
      have hwlen : (l.weight.sliceMat (o * l.inSize + c)).mem.length
          = l.kernelWidth * l.kernelHeight :=
        Cube.sliceMat_length l.weight _
          (by show o * l.inSize + c < szMul l.outSize l.inSize; rw [szMul_eq hOI]; exact hk1)
          (by
            show l.kernelWidth * l.kernelHeight * szMul l.outSize l.inSize ≤ l.weights.length
            rw [szMul_eq hOI, hwl]
            omega)
      have helen : ((⟨l.inputWidth + l.padWLeft + l.padWRight - l.kernelWidth + 1,
          l.inputHeight + l.padHTop + l.padHBottom - l.kernelHeight + 1,
          szMul l.outSize x.n_cols, gy.mem⟩ : Cube α).sliceMat (o + b * l.outSize)).mem.length
          = (l.inputWidth + l.padWLeft + l.padWRight - l.kernelWidth + 1)
            * (l.inputHeight + l.padHTop + l.padHBottom - l.kernelHeight + 1) :=
        Cube.sliceMat_length _ _
          (by show o + b * l.outSize < szMul l.outSize x.n_cols
              rw [szMul_eq hOB]; omega)
          (by
            show (l.inputWidth + l.padWLeft + l.padWRight - l.kernelWidth + 1)
              * (l.inputHeight + l.padHTop + l.padHBottom - l.kernelHeight + 1)
              * szMul l.outSize x.n_cols ≤ gy.mem.length
            rw [szMul_eq hOB, hgy])
      obtain ⟨p1, p2⟩ := Convolution.paddedSlice_dims l x (c + b * l.inSize)
      have hxlen := Convolution.paddedSlice_length l x (c + b * l.inSize) (by omega) hx
      obtain ⟨Gv, R, h1, h2, h3, h4, h5, h6, h7, h8, h9⟩ :=
        NaiveConvolution.gradient_pairs_with_forward (l.paddedSlice x (c + b * l.inSize))
          (l.weight.sliceMat (o * l.inSize + c))
          ((⟨l.inputWidth + l.padWLeft + l.padWRight - l.kernelWidth + 1,
            l.inputHeight + l.padHTop + l.padHBottom - l.kernelHeight + 1,
            szMul l.outSize x.n_cols, gy.mem⟩ : Cube α).sliceMat (o + b * l.outSize))
          ⟨hxlen, by rw [p1, p2]; exact hsz, by rw [p1]; exact hWp, by rw [p2]; exact hHp⟩
          ⟨hwlen, by show l.kernelWidth * l.kernelHeight < SIZE_MOD; omega,
            by show l.kernelWidth < SIZE_MOD; omega,
            by show l.kernelHeight < SIZE_MOD; omega⟩
          hkW (by rw [p1]; exact hkW') hkH (by rw [p2]; exact hkH')
          (by rw [p1]; rfl) (by rw [p2]; rfl) helen
      exact ⟨Gv, R, fun _ _ _ => ⟨h1, h2, h3, h4, h5, h6, h7, h8, h9⟩⟩
    · exact ⟨Mat.zeros 0 0, Mat.zeros 0 0, fun h1 h2 h3 => absurd ⟨h1, h2, h3⟩ hb⟩
  choose Gv R hGR using key
  -- Forward
  obtain ⟨ipt, out, hF, o1, o2, o3, hsl, hslices⟩ := Convolution.Forward_result_cached l x R hin hout hB
    hOK2
    (fun o ho b hb c hc => by
      rw [hsW, hsH]
      exact (hGR o b c ho hb hc).2.2.2.2.1)
  have hR0 := hGR 0 0 0 hout hB hin
  rw [hR0.2.2.2.2.2.1] at o1
  rw [hR0.2.2.2.2.2.2.1] at o2
  rw [hR0.2.2.2.2.2.1, hR0.2.2.2.2.2.2.1] at o3 hsl
  -- the parameter buffer with its bias part cleared
  have hP0len : (l.weights.take (l.kernelWidth * l.kernelHeight * (l.outSize * l.inSize))
      ++ List.replicate l.outSize (0 : α)).length
      = l.kernelWidth * l.kernelHeight * (l.outSize * l.inSize) + l.outSize := by
    rw [List.length_append, List.length_take, List.length_replicate, hwl]
    omega
  have hP00 : ∀ o, o < l.outSize →
      (l.weights.take (l.kernelWidth * l.kernelHeight * (l.outSize * l.inSize))
        ++ List.replicate l.outSize (0 : α)).getD
          (l.kernelWidth * l.kernelHeight * (l.outSize * l.inSize) + o) 0 = 0 := by
    intro o ho
    rw [List.getD_append_right _ _ _ _ (by rw [List.length_take, hwl]; omega)]
    simp only [List.getD_eq_getElem?_getD, List.getElem?_replicate]
    split <;> rfl
  -- Gradient
  obtain ⟨G, hG, hGlen, hGv, hGb⟩ := Convolution.Gradient_pairing
    ({ l with
        batchSize := x.n_cols
        inputPaddedTemp := ipt
        outputWidth := out.n_rows
        outputHeight := out.n_cols } : Convolution α) x gy g0
    (l.weights.take (l.kernelWidth * l.kernelHeight * (l.outSize * l.inSize))
      ++ List.replicate l.outSize (0 : α))
    (fun k => l.paddedSlice x k) (fun o c b => Gv o b c)
    hin hB hIB hOB hOI hov hwl hP0len hP00
    (fun k hk => hslices k hk)
    (fun o ho c hc b hb => by
      obtain ⟨h1, h2, h3, h4, -⟩ := hGR o b c ho hb hc
      refine ⟨?_, h2, h3, h4⟩
      show NaiveConvolution.ConvolutionValid (l.paddedSlice x (c + b * l.inSize))
          ((⟨out.n_rows, out.n_cols, szMul l.outSize x.n_cols, gy.mem⟩ : Cube α).sliceMat
            (o + b * l.outSize))
          (Mat.zeros 0 0) l.strideWidth l.strideHeight 1 1 false = some (Gv o b c)
      rw [o1, o2, hsW, hsH]
      exact h1)
  have hid : innerProduct gy.mem out.mem = innerProduct G l.weights := by
    rw [innerProduct_split_bias _ l.outSize G l.weights (by rw [hGlen, hwl]) hwl, hGv,
      forward_inner_bias gy.mem out _ _ l.outSize l.inSize x.n_cols R
        (fun o => l.weights.getD
          (l.kernelWidth * l.kernelHeight * (l.outSize * l.inSize) + o) 0)
        hgy o3 o1 o2
        (fun o ho b hb c hc => (hGR o b c ho hb hc).2.2.2.2.2.2.2.1)
        (fun k hk => hsl k hk)]
    simp only [Finset.sum_add_distrib]
    congr 1
    · -- the filter part
      rw [Finset.sum_comm]
      refine Finset.sum_congr rfl fun o ho => ?_
      rw [Finset.sum_comm]
      refine Finset.sum_congr rfl fun c hc => Finset.sum_congr rfl fun b hb => ?_
      have ho' := Finset.mem_range.mp ho
      have hc' := Finset.mem_range.mp hc
      have hb' := Finset.mem_range.mp hb
      have hk1 : o * l.inSize + c < l.outSize * l.inSize := by
        rw [Nat.mul_comm l.outSize]
        exact flat_lt hc' ho'
      show _ = innerProduct (Gv o b c).mem _
      rw [window_take_append l.weights _ _ _ _ (by rw [hwl]; omega)
        (slice_bound (by rw [hidx o ho' c hc']; exact hk1) (Nat.le_refl _)),
        hidx o ho' c hc']
      exact ((hGR o b c ho' hb' hc').2.2.2.2.2.2.2.2).symm
    · -- the bias part
      rcases hbias with h1 | h0
      · rw [h1, Finset.sum_range_one]
        refine Finset.sum_congr rfl fun o ho => ?_
        have ho' := Finset.mem_range.mp ho
        have hb := hGb o ho'
        rw [hb]
        show _ = ((⟨out.n_rows, out.n_cols, szMul l.outSize x.n_cols, gy.mem⟩ :
          Cube α).sliceMat (o + (x.n_cols - 1) * l.outSize)).accu * _
        rw [accu_eq_list_sum, h1, o1, o2]
        rfl
      · rw [Finset.sum_eq_zero, Finset.sum_eq_zero]
        · intro o ho
          rw [h0 o (Finset.mem_range.mp ho), mul_zero]
        · intro b _
          refine Finset.sum_eq_zero fun o ho => ?_
          rw [h0 o (Finset.mem_range.mp ho), mul_zero]
  refine ⟨_, _, _, hF, hG, ?_, hGlen, hid, ?_⟩
  · show out.mem.length = gy.mem.length
    rw [o3, hgy]
  · intro B _
    show innerProduct B.mem x.mem + innerProduct G l.weights - innerProduct gy.mem out.mem
      = innerProduct B.mem x.mem
    rw [hid]
    ring

set_option maxRecDepth 100000 in
theorem C12_gradient_pairs_with_forward_witness :
    ((exPaddedLayer.Forward exPaddedInput).map (fun r => r.2)
        = some ⟨4, 2, [18, 29, 8, 11, 19, 8, 6, 4]⟩ ∧
      innerProduct exPaddedError.mem [18, 29, 8, 11, 19, 8, 6, 4] = 128 ∧
      innerProduct [-1, 10, 5, 13, 3, 16, 0, 13, 5] exPaddedLayer.weights = 128) ∧
    (∃ (l' : Convolution Int) (out G : Mat Int),
      exPaddedLayer.Forward exPaddedInput = some (l', out) ∧
      l'.Gradient exPaddedInput exPaddedError (Mat.zeros 0 0) = some G ∧
      out.mem.length = exPaddedError.mem.length ∧
      G.mem.length = exPaddedLayer.weights.length ∧
      innerProduct exPaddedError.mem out.mem = innerProduct G.mem exPaddedLayer.weights ∧
      ∀ B : Mat Int, l'.Backward exPaddedInput exPaddedError = some B →
        innerProduct B.mem exPaddedInput.mem + innerProduct G.mem exPaddedLayer.weights
            - innerProduct exPaddedError.mem out.mem
          = innerProduct B.mem exPaddedInput.mem) ∧
    ∃ (l' : Convolution Int) (out G : Mat Int),
      exKernelLayer.Forward exKernelInput = some (l', out) ∧
      l'.Gradient exKernelInput exKernelError (Mat.zeros 0 0) = some G ∧
      out.mem.length = exKernelError.mem.length ∧
      G.mem.length = exKernelLayer.weights.length ∧
      innerProduct exKernelError.mem out.mem = innerProduct G.mem exKernelLayer.weights ∧
      ∀ B : Mat Int, l'.Backward exKernelInput exKernelError = some B →
        innerProduct B.mem exKernelInput.mem + innerProduct G.mem exKernelLayer.weights
            - innerProduct exKernelError.mem out.mem
          = innerProduct B.mem exKernelInput.mem :=
  ⟨by decide,
    C12_gradient_pairs_with_forward exPaddedLayer exPaddedInput exPaddedError (Mat.zeros 0 0)
      (Or.inr rfl) (by decide) (by decide) (by decide) rfl rfl (by decide) (by decide)
      (by decide) (by decide) (by decide) (by decide) (by decide) (Or.inr (by decide))
      (by decide) (by decide),
    C12_gradient_pairs_with_forward exKernelLayer exKernelInput exKernelError (Mat.zeros 0 0)
      (Or.inl rfl) (by decide) (by decide) (by decide) rfl rfl (by decide) (by decide)
      (by decide) (by decide) (by decide) (by decide) (by decide) (Or.inl rfl)
      (by decide) (by decide)⟩

set_option maxRecDepth 100000 in
/-- The hypotheses of the amended pairing are needed.  With two input and two
output channels `Gradient` writes filter slice `o + c`, and the two sides are
22560 and 2400; on a batch of two items with bias 1 the bias entry keeps the
last item only, and the two sides are 105 and 100; at stride 2 `Gradient`
correlates the input with the output gradient at stride 2, and the two sides
are 3 and 2. -/
theorem gradient_pairing_needs_its_hypotheses :
    (exLayer.Forward ⟨2, 1, [2, 3]⟩ = some (exLayerFwd, ⟨2, 1, [32, 3200]⟩) ∧
      exLayerFwd.Gradient ⟨2, 1, [2, 3]⟩ ⟨2, 1, [5, 7]⟩ (Mat.zeros 0 0)
        = some ⟨6, 1, [10, 29, 21, 0, 5, 7]⟩ ∧
      innerProduct [5, 7] [32, 3200] = (22560 : Int) ∧
      innerProduct [10, 29, 21, 0, 5, 7] exLayer.weights = 2400) ∧
    (exBiasLayer.Forward ⟨1, 2, [2, 3]⟩ = some (exBiasLayerFwd, ⟨1, 2, [7, 10]⟩) ∧
      exBiasLayerFwd.Gradient ⟨1, 2, [2, 3]⟩ ⟨1, 2, [5, 7]⟩ (Mat.zeros 0 0)
        = some ⟨2, 1, [31, 7]⟩ ∧
      innerProduct [5, 7] [7, 10] = (105 : Int) ∧
      innerProduct [31, 7] exBiasLayer.weights = 100) ∧
    (exStrideTwoLayer.Forward ⟨3, 1, [1, 2, 3]⟩
        = some (exStrideTwoLayerFwd, ⟨2, 1, [1, 3]⟩) ∧
      exStrideTwoLayerFwd.Gradient ⟨3, 1, [1, 2, 3]⟩ ⟨2, 1, [0, 1]⟩ (Mat.zeros 0 0)
        = some ⟨2, 1, [2, 1]⟩ ∧
      innerProduct [0, 1] [1, 3] = (3 : Int) ∧
      innerProduct [2, 1] exStrideTwoLayer.weights = 2) := by
  decide

end Mlpack
